import Mathlib

/-! GenAVL: an intrusive AVL tree engine.

A shallow embedding of `genavl.cpp` / `genavl.h`.  Nodes live in an explicit
memory (address to entry header); every pointer field holds the address the
relocatable reference resolves to, with `0` for the null pointer.  The C loops
become fuel-bounded recursions that return `none` only when the fuel runs out.
-/

namespace GenAVL


/-! ## Data model -/

/-- The intrusive node header `GenAVLEntry` of genavl.h: payload pointer,
balance factor, right and left child pointers. -/
structure GenAVLEntry where
  data : Nat
  balance : Int
  right : Nat
  left : Nat
deriving DecidableEq

/-- Memory maps an address to the entry header stored there. -/
abbrev Mem := Nat → GenAVLEntry

/-- The tree header `GenAVLTree` (its `root` field) together with the memory
its nodes live in.  The ordering callbacks are passed separately. -/
structure GenAVLTree where
  root : Nat
  mem : Mem

/-- Modelled from the spec: the caller-supplied `Key` callback.  The key of an
entry is derived from its payload: `K` maps a payload pointer to its key. -/
def Key (K : Nat → Int) (m : Mem) (e : Nat) : Int := K (m e).data

/-- Modelled from the spec: the caller-supplied `Compare` callback, negative
when the entry is less than the key, positive when greater, zero when equal. -/
def Compare (K : Nat → Int) (m : Mem) (e : Nat) (key : Int) : Int :=
  if Key K m e < key then -1 else if key < Key K m e then 1 else 0

/-- The store `e->left = v`. -/
def wrLeft (m : Mem) (e v : Nat) : Mem :=
  Function.update m e { m e with left := v }

/-- The store `e->right = v`. -/
def wrRight (m : Mem) (e v : Nat) : Mem :=
  Function.update m e { m e with right := v }

/-- The store `e->balance = v`. -/
def wrBalance (m : Mem) (e : Nat) (v : Int) : Mem :=
  Function.update m e { m e with balance := v }

/-- Source `set`: stores `gaepnext` in the left or right field of `gaep`
according to `dir`, or in the root when `gaep` is null. -/
def set (t : GenAVLTree) (gaep : Nat) (dir : Int) (gaepnext : Nat) : GenAVLTree :=
  if gaep ≠ 0 then
    if dir < 0 then { t with mem := wrLeft t.mem gaep gaepnext }
    else { t with mem := wrRight t.mem gaep gaepnext }
  else { t with root := gaepnext }

/-- Source `val`: the child of `gaep` in direction `dir`, or the root when
`gaep` is null. -/
def val (t : GenAVLTree) (gaep : Nat) (dir : Int) : Nat :=
  if gaep ≠ 0 then (if dir < 0 then (t.mem gaep).left else (t.mem gaep).right)
  else t.root

/-! ## Read-only queries -/

/-- The loop of `GenAVLTreeFind`, started at `gaep`. -/
def findLoop (K : Nat → Int) (m : Mem) (key : Int) : Nat → Nat → Option Nat
  | 0, _ => none
  | fuel + 1, gaep =>
    if gaep = 0 then some 0
    else
      let dir := Compare K m gaep key
      if dir > 0 then findLoop K m key fuel (m gaep).left
      else if dir < 0 then findLoop K m key fuel (m gaep).right
      else some gaep

/-- Source `GenAVLTreeFind`: the entry with the given key, or null. -/
def GenAVLTreeFind (K : Nat → Int) (fuel : Nat) (t : GenAVLTree) (key : Int) : Option Nat :=
  findLoop K t.mem key fuel t.root

/-- The loop of `GenAVLTreeFirst`. -/
def firstLoop (m : Mem) : Nat → Nat → Nat → Option Nat
  | 0, _, _ => none
  | fuel + 1, first, gaep =>
    if gaep = 0 then some first
    else firstLoop m fuel gaep (m gaep).left

/-- Source `GenAVLTreeFirst`: the leftmost entry, or null. -/
def GenAVLTreeFirst (fuel : Nat) (t : GenAVLTree) : Option Nat :=
  firstLoop t.mem fuel 0 t.root

/-- The loop of `GenAVLTreeNext`. -/
def nextLoop (K : Nat → Int) (m : Mem) (key : Int) : Nat → Nat → Nat → Option Nat
  | 0, _, _ => none
  | fuel + 1, next, gaep =>
    if gaep = 0 then some next
    else if Compare K m gaep key > 0 then nextLoop K m key fuel gaep (m gaep).left
    else nextLoop K m key fuel next (m gaep).right

/-- Source `GenAVLTreeNext`: the entry next after the key, or null. -/
def GenAVLTreeNext (K : Nat → Int) (fuel : Nat) (t : GenAVLTree) (key : Int) : Option Nat :=
  nextLoop K t.mem key fuel 0 t.root

/-- The loop of `GenAVLTreeEqualNext`. -/
def equalNextLoop (K : Nat → Int) (m : Mem) (key : Int) : Nat → Nat → Nat → Option Nat
  | 0, _, _ => none
  | fuel + 1, next, gaep =>
    if gaep = 0 then some next
    else
      let dir := Compare K m gaep key
      if dir > 0 then equalNextLoop K m key fuel gaep (m gaep).left
      else if dir < 0 then equalNextLoop K m key fuel next (m gaep).right
      else some gaep

/-- Source `GenAVLTreeEqualNext`: the entry equal to the key or next after it. -/
def GenAVLTreeEqualNext (K : Nat → Int) (fuel : Nat) (t : GenAVLTree) (key : Int) :
    Option Nat :=
  equalNextLoop K t.mem key fuel 0 t.root

/-- The loop of `GenAVLTreePrev`. -/
def prevLoop (K : Nat → Int) (m : Mem) (key : Int) : Nat → Nat → Nat → Option Nat
  | 0, _, _ => none
  | fuel + 1, prev, gaep =>
    if gaep = 0 then some prev
    else if Compare K m gaep key < 0 then prevLoop K m key fuel gaep (m gaep).right
    else prevLoop K m key fuel prev (m gaep).left

/-- Source `GenAVLTreePrev`: the entry previous to the key, or null. -/
def GenAVLTreePrev (K : Nat → Int) (fuel : Nat) (t : GenAVLTree) (key : Int) : Option Nat :=
  prevLoop K t.mem key fuel 0 t.root

/-- The loop of `GenAVLTreeEqualPrev`. -/
def equalPrevLoop (K : Nat → Int) (m : Mem) (key : Int) : Nat → Nat → Nat → Option Nat
  | 0, _, _ => none
  | fuel + 1, prev, gaep =>
    if gaep = 0 then some prev
    else
      let dir := Compare K m gaep key
      if dir < 0 then equalPrevLoop K m key fuel gaep (m gaep).right
      else if dir > 0 then equalPrevLoop K m key fuel prev (m gaep).left
      else some gaep

/-- Source `GenAVLTreeEqualPrev`: the entry equal to the key or previous to it. -/
def GenAVLTreeEqualPrev (K : Nat → Int) (fuel : Nat) (t : GenAVLTree) (key : Int) :
    Option Nat :=
  equalPrevLoop K t.mem key fuel 0 t.root

/-! ## Rotations -/

/-- Source `shiftdblright`: double rotation to the right of the entry held in
the slot `(gaep, dir)`. -/
def shiftdblright (t : GenAVLTree) (gaep : Nat) (dir : Int) : GenAVLTree :=
  let gaepnext := val t gaep dir
  let gaepnextl := (t.mem gaepnext).left
  let gaepnextr := (t.mem gaepnextl).right
  let m1 := wrRight t.mem gaepnextl (t.mem gaepnextr).left
  let m2 := wrLeft m1 gaepnext (m1 gaepnextr).right
  let m3 := wrLeft m2 gaepnextr gaepnextl
  let m4 := wrRight m3 gaepnextr gaepnext
  let m5 :=
    if (m4 gaepnextr).balance = -1 then wrBalance (wrBalance m4 gaepnextl 0) gaepnext 1
    else if (m4 gaepnextr).balance = 1 then wrBalance (wrBalance m4 gaepnextl (-1)) gaepnext 0
    else wrBalance (wrBalance m4 gaepnextl 0) gaepnext 0
  let m6 := wrBalance m5 gaepnextr 0
  set { t with mem := m6 } gaep dir gaepnextr

/-- Source `shiftright`: single rotation to the right of the entry held in the
slot `(gaep, dir)`. -/
def shiftright (t : GenAVLTree) (gaep : Nat) (dir : Int) : GenAVLTree :=
  let gaepnext := val t gaep dir
  let gaepnextl := (t.mem gaepnext).left
  let m1 := wrLeft t.mem gaepnext (t.mem gaepnextl).right
  let m2 := wrRight m1 gaepnextl gaepnext
  let t3 := set { t with mem := m2 } gaep dir gaepnextl
  let m4 :=
    if (t3.mem gaepnextl).balance = -1 then wrBalance (wrBalance t3.mem gaepnextl 0) gaepnext 0
    else wrBalance (wrBalance t3.mem gaepnextl 1) gaepnext (-1)
  { t3 with mem := m4 }

/-- Source `shiftdblleft`: double rotation to the left of the entry held in the
slot `(gaep, dir)`. -/
def shiftdblleft (t : GenAVLTree) (gaep : Nat) (dir : Int) : GenAVLTree :=
  let gaepnext := val t gaep dir
  let gaepnextr := (t.mem gaepnext).right
  let gaepnextl := (t.mem gaepnextr).left
  let m1 := wrRight t.mem gaepnext (t.mem gaepnextl).left
  let m2 := wrLeft m1 gaepnextr (m1 gaepnextl).right
  let m3 := wrLeft m2 gaepnextl gaepnext
  let m4 := wrRight m3 gaepnextl gaepnextr
  let m5 :=
    if (m4 gaepnextl).balance = -1 then wrBalance (wrBalance m4 gaepnext 0) gaepnextr 1
    else if (m4 gaepnextl).balance = 1 then wrBalance (wrBalance m4 gaepnext (-1)) gaepnextr 0
    else wrBalance (wrBalance m4 gaepnext 0) gaepnextr 0
  let m6 := wrBalance m5 gaepnextl 0
  set { t with mem := m6 } gaep dir gaepnextl

/-- Source `shiftleft`: single rotation to the left of the entry held in the
slot `(gaep, dir)`. -/
def shiftleft (t : GenAVLTree) (gaep : Nat) (dir : Int) : GenAVLTree :=
  let gaepnext := val t gaep dir
  let gaepnextr := (t.mem gaepnext).right
  let m1 := wrRight t.mem gaepnext (t.mem gaepnextr).left
  let m2 := wrLeft m1 gaepnextr gaepnext
  let t3 := set { t with mem := m2 } gaep dir gaepnextr
  let m4 :=
    if (t3.mem gaepnextr).balance = 1 then wrBalance (wrBalance t3.mem gaepnextr 0) gaepnext 0
    else wrBalance (wrBalance t3.mem gaepnextr (-1)) gaepnext 1
  { t3 with mem := m4 }

/-- Source `GenAVLInit`: clears the header and stores the payload pointer. -/
def GenAVLInit (m : Mem) (e d : Nat) : Mem :=
  Function.update m e { data := d, balance := 0, right := 0, left := 0 }

/-! ## Insertion -/

/-- The locals of `GenAVLTreeAdd` when its search loop ends: the insertion
parent with the direction taken from it, and the parent slot of the balance
point. -/
structure AddPoint where
  gaep : Nat
  dir : Int
  balgaep : Nat
  baldir : Int
deriving DecidableEq

/-- The first loop of `GenAVLTreeAdd`: finds the insertion and balance point.
The result is `some none` when an entry with the same key exists. -/
def addSearchLoop (K : Nat → Int) (m : Mem) (gae : Nat) :
    Nat → Nat → AddPoint → Option (Option AddPoint)
  | 0, _, _ => none
  | fuel + 1, gaepnext, s =>
    if gaepnext = 0 then some (some s)
    else
      let s1 : AddPoint :=
        if (m gaepnext).balance ≠ 0 ∧ s.gaep ≠ 0 then
          { s with balgaep := s.gaep, baldir := s.dir }
        else s
      let dir := Compare K m gae (Key K m gaepnext)
      if dir < 0 then
        addSearchLoop K m gae fuel (m gaepnext).left { s1 with gaep := gaepnext, dir := dir }
      else if dir > 0 then
        addSearchLoop K m gae fuel (m gaepnext).right { s1 with gaep := gaepnext, dir := dir }
      else some none

/-- The second loop of `GenAVLTreeAdd`: adjusts the balance fields from the
balance point down to the new entry. -/
def addBalanceLoop (K : Nat → Int) (gae : Nat) : Nat → Mem → Nat → Option Mem
  | 0, _, _ => none
  | fuel + 1, m, gaep =>
    if gaep = gae then some m
    else if Compare K m gae (Key K m gaep) < 0 then
      addBalanceLoop K gae fuel (wrBalance m gaep ((m gaep).balance - 1)) (m gaep).left
    else
      addBalanceLoop K gae fuel (wrBalance m gaep ((m gaep).balance + 1)) (m gaep).right

/-- The last step of `GenAVLTreeAdd`: shifts at the balance point when its
balance field reached 2 or -2. -/
def addShift (t : GenAVLTree) (balgaep : Nat) (baldir : Int) : GenAVLTree :=
  let gaep := val t balgaep baldir
  if (t.mem gaep).balance = 2 then
    if (t.mem (t.mem gaep).right).balance = 1 then shiftleft t balgaep baldir
    else if (t.mem (t.mem gaep).right).balance = -1 then shiftdblleft t balgaep baldir
    else t
  else if (t.mem gaep).balance = -2 then
    if (t.mem (t.mem gaep).left).balance = -1 then shiftright t balgaep baldir
    else if (t.mem (t.mem gaep).left).balance = 1 then shiftdblright t balgaep baldir
    else t
  else t

/-- Source `GenAVLTreeAdd`: balanced insertion of the entry `gae`.  The result
pairs the new state with the returned integer (0 for a duplicate key, else 1). -/
def GenAVLTreeAdd (K : Nat → Int) (fuel : Nat) (t : GenAVLTree) (gae : Nat) :
    Option (GenAVLTree × Nat) :=
  let m0 := wrBalance (wrRight (wrLeft t.mem gae 0) gae 0) gae 0
  let t0 : GenAVLTree := { t with mem := m0 }
  match addSearchLoop K m0 gae fuel t.root ⟨0, 0, 0, 0⟩ with
  | none => none
  | some none => some (t0, 0)
  | some (some s) =>
    let t1 := set t0 s.gaep s.dir gae
    match addBalanceLoop K gae fuel t1.mem (val t1 s.balgaep s.baldir) with
    | none => none
    | some m2 => some (addShift { t1 with mem := m2 } s.balgaep s.baldir, 1)

/-! ## Deletion -/

/-- Source `MAX_GENAVL_STACK`: capacity of the traversal and path stacks. -/
def MAX_GENAVL_STACK : Nat := 64

/-- Source `GenAVLStackEntry`: an entry of the deletion path, a parent and the
direction taken from it. -/
structure GenAVLStackEntry where
  e : Nat
  d : Int
deriving DecidableEq

/-- The path stack of `GenAVLTreeDelete`, indexed from the bottom.  The stack
pointer `gasep` is the index of the next free entry. -/
abbrev PathStack := Nat → GenAVLStackEntry

/-- The first loop of `GenAVLTreeDelete`: descends to the entry with the given
key, pushing each parent slot.  The result is `some none` when the key is
absent, and otherwise the stack, the stack pointer and the entry found. -/
def deleteSearchLoop (K : Nat → Int) (m : Mem) (key : Int) :
    Nat → PathStack → Nat → Nat → Nat → Int → Option (Option (PathStack × Nat × Nat))
  | 0, _, _, _, _, _ => none
  | fuel + 1, stack, gasep, gaepnext, gaep, dir =>
    if gaepnext = 0 then some none
    else
      let stack1 := Function.update stack gasep ⟨gaep, dir⟩
      let dir1 := Compare K m gaepnext key
      if dir1 > 0 then
        deleteSearchLoop K m key fuel stack1 (gasep + 1) (m gaepnext).left gaepnext (0 - dir1)
      else if dir1 < 0 then
        deleteSearchLoop K m key fuel stack1 (gasep + 1) (m gaepnext).right gaepnext (0 - dir1)
      else some (some (stack1, gasep + 1, gaepnext))

/-- The inner loop of the swap in `GenAVLTreeDelete`: walks to the rightmost
entry below `gaepnext`, pushing the entries passed. -/
def deletePredLoop (m : Mem) : Nat → PathStack → Nat → Nat → Option (PathStack × Nat × Nat)
  | 0, _, _, _ => none
  | fuel + 1, stack, gasep, gaepnext =>
    if (m gaepnext).right ≠ 0 then
      deletePredLoop m fuel (Function.update stack gasep ⟨gaepnext, 1⟩) (gasep + 1)
        (m gaepnext).right
    else some (stack, gasep, gaepnext)

/-- The swap of `GenAVLTreeDelete`: an entry with two children changes places
with the previous entry, by relinking. -/
def deleteSwap (fuel : Nat) (t : GenAVLTree) (stack : PathStack) (gasep gaep : Nat) :
    Option (GenAVLTree × PathStack × Nat) :=
  if (t.mem gaep).right ≠ 0 ∧ (t.mem gaep).left ≠ 0 then
    let savegasep := gasep
    let stack1 := Function.update stack gasep ⟨gaep, -1⟩
    match deletePredLoop t.mem fuel stack1 (gasep + 1) (t.mem gaep).left with
    | none => none
    | some (stack2, gasep2, gaepnext) =>
      let saveleft := (t.mem gaepnext).left
      let stack3 := Function.update stack2 savegasep ⟨gaepnext, -1⟩
      let tempgasep := savegasep - 1
      let t1 := set t (stack3 tempgasep).e (stack3 tempgasep).d gaepnext
      let m2 := wrRight t1.mem gaepnext (t1.mem gaep).right
      let m3 := wrLeft m2 gaepnext (m2 gaep).left
      let m4 := wrBalance m3 gaepnext (m3 gaep).balance
      let m5 := wrRight m4 gaep 0
      let m6 := wrLeft m5 gaep saveleft
      some ({ t1 with mem := m6 }, stack3, gasep2)
  else some (t, stack, gasep)

/-- The last loop of `GenAVLTreeDelete`: goes back up the path, adjusting the
balance fields and shifting where needed.  The first argument is the stack
pointer, which decreases at every pass. -/
def deleteRebalance (stack : PathStack) : Nat → GenAVLTree → GenAVLTree
  | 0, t => t
  | gasep + 1, t =>
    let gaepnext := (stack (gasep + 1)).e
    let m1 :=
      if (stack (gasep + 1)).d > 0 then wrBalance t.mem gaepnext ((t.mem gaepnext).balance - 1)
      else wrBalance t.mem gaepnext ((t.mem gaepnext).balance + 1)
    let t1 : GenAVLTree := { t with mem := m1 }
    let gaep := (stack gasep).e
    let dir := (stack gasep).d
    if (m1 gaepnext).balance = 2 then
      if (m1 (m1 gaepnext).right).balance = 1 then
        deleteRebalance stack gasep (shiftleft t1 gaep dir)
      else if (m1 (m1 gaepnext).right).balance = -1 then
        deleteRebalance stack gasep (shiftdblleft t1 gaep dir)
      else shiftleft t1 gaep dir
    else if (m1 gaepnext).balance = -2 then
      if (m1 (m1 gaepnext).left).balance = -1 then
        deleteRebalance stack gasep (shiftright t1 gaep dir)
      else if (m1 (m1 gaepnext).left).balance = 1 then
        deleteRebalance stack gasep (shiftdblright t1 gaep dir)
      else shiftright t1 gaep dir
    else if (m1 gaepnext).balance = 0 then deleteRebalance stack gasep t1
    else t1

/-- Source `GenAVLTreeDelete`: removes the entry with the given key.  The
result pairs the new state with the returned payload pointer (0 when the key
is absent). -/
def GenAVLTreeDelete (K : Nat → Int) (fuel : Nat) (t : GenAVLTree) (key : Int) :
    Option (GenAVLTree × Nat) :=
  match deleteSearchLoop K t.mem key fuel (fun _ => ⟨0, 0⟩) 0 t.root 0 0 with
  | none => none
  | some none => some (t, 0)
  | some (some (stack, gasep, gaep)) =>
    let data := (t.mem gaep).data
    match deleteSwap fuel t stack gasep gaep with
    | none => none
    | some (t1, stack1, gasep1) =>
      let gasep2 := gasep1 - 1
      let t2 := set t1 (stack1 gasep2).e (stack1 gasep2).d
        (if (t1.mem gaep).right ≠ 0 then (t1.mem gaep).right else (t1.mem gaep).left)
      some (deleteRebalance stack1 gasep2 t2, data)

/-! ## The logical tree a memory holds -/

/-- The shape of a linked tree: each node lists its left subtree, address,
payload pointer, balance field and right subtree. -/
inductive Tree where
  | nil : Tree
  | node (l : Tree) (a : Nat) (d : Nat) (b : Int) (r : Tree) : Tree
deriving DecidableEq

/-- Memory `m` holds the tree `t` at pointer `p`: the pointer is null for the
empty tree, and otherwise the fields stored at `p` are those of the top node
and its child pointers hold the two subtrees. -/
def TreeAt (m : Mem) : Nat → Tree → Prop
  | p, .nil => p = 0
  | p, .node l a d b r =>
    p = a ∧ a ≠ 0 ∧ (m a).data = d ∧ (m a).balance = b ∧
      TreeAt m (m a).left l ∧ TreeAt m (m a).right r

namespace Tree

/-- Addresses of the nodes in in-order. -/
def addrs : Tree → List Nat
  | nil => []
  | node l a _ _ r => addrs l ++ a :: addrs r

/-- In-order sequence of the nodes, each as its address with its payload. -/
def entries : Tree → List (Nat × Nat)
  | nil => []
  | node l a d _ r => entries l ++ (a, d) :: entries r

/-- In-order sequence of the keys. -/
def keys (K : Nat → Int) : Tree → List Int
  | nil => []
  | node l _ d _ r => keys K l ++ K d :: keys K r

/-- Height of a tree, counted in nodes. -/
def height : Tree → Nat
  | nil => 0
  | node l _ _ _ r => max (height l) (height r) + 1

/-- Number of nodes. -/
def size : Tree → Nat
  | nil => 0
  | node l _ _ _ r => size l + size r + 1

/-- The in-order key sequence is strictly increasing. -/
def Sorted (K : Nat → Int) (t : Tree) : Prop := (t.keys K).Pairwise (· < ·)

/-- The AVL invariant: every balance field equals the height of the right
subtree minus the height of the left subtree and lies in {-1, 0, 1}. -/
def Balanced : Tree → Prop
  | nil => True
  | node l _ _ b r =>
    b = (height r : Int) - (height l : Int) ∧ -1 ≤ b ∧ b ≤ 1 ∧ Balanced l ∧ Balanced r

end Tree

/-! ## Paths into a tree -/

/-- One step of a path from the root: the node passed, the side taken and the
subtree left aside.  `L` means the path goes on into the left child. -/
inductive Frame where
  | L (a : Nat) (d : Nat) (b : Int) (r : Tree) : Frame
  | R (l : Tree) (a : Nat) (d : Nat) (b : Int) : Frame
deriving DecidableEq

/-- A tree with a hole: the frames passed on the way to the hole, innermost
first. -/
abbrev Ctx := List Frame

namespace Frame

/-- The node of a frame with the tree `t` put into its hole. -/
def fill : Frame → Tree → Tree
  | L a d b r, t => .node t a d b r
  | R l a d b, t => .node l a d b t

/-- Address of the node of a frame. -/
def addr : Frame → Nat
  | L a _ _ _ => a
  | R _ a _ _ => a

/-- Balance field of the node of a frame. -/
def bal : Frame → Int
  | L _ _ b _ => b
  | R _ _ _ b => b

/-- Subtree a frame leaves aside. -/
def sib : Frame → Tree
  | L _ _ _ r => r
  | R l _ _ _ => l

/-- The direction value matches the side of the frame: negative for left,
positive for right. -/
def DirOK : Frame → Int → Prop
  | L _ _ _ _, dir => dir < 0
  | R _ _ _ _, dir => 0 < dir

/-- The node of a frame after its hole became one level shorter: the balance
field moves away from the side of the hole. -/
def shrink : Frame → Tree → Tree
  | L a d b r, t => .node t a d (b + 1) r
  | R l a d b, t => .node l a d (b - 1) t

end Frame

/-- The whole tree: the context `c` with `t` put into its hole. -/
def plug : Ctx → Tree → Tree
  | [], t => t
  | f :: c, t => plug c (f.fill t)

/-- Address of the parent of the hole, null when the hole is the root. -/
def slotAddr : Ctx → Nat
  | [] => 0
  | f :: _ => f.addr

/-- The pair `(slotAddr c, dir)` names the hole of `c` for `set` and `val`. -/
def SlotDir : Ctx → Int → Prop
  | [], _ => True
  | f :: _, dir => f.DirOK dir

/-- The pointer held in the hole of context `c` of the tree at `p`. -/
def holePtr (m : Mem) (p : Nat) : Ctx → Nat
  | [] => p
  | .L a _ _ _ :: _ => (m a).left
  | .R _ a _ _ :: _ => (m a).right

namespace Tree

/-- Balance field of the top node, 0 for the empty tree. -/
def rootBal : Tree → Int
  | nil => 0
  | node _ _ _ b _ => b

/-- A single node without children. -/
def leaf (a d : Nat) : Tree := node nil a d 0 nil

/-- The search path for key `k` below `t`, added to the context `c`. -/
def descend (K : Nat → Int) (k : Int) : Tree → Ctx → Ctx
  | nil, c => c
  | node l a d b r, c =>
    if k < K d then descend K k l (.L a d b r :: c) else descend K k r (.R l a d b :: c)

/-- Some node on the search path for `k` has a nonzero balance field. -/
def nz (K : Nat → Int) (k : Int) : Tree → Bool
  | nil => false
  | node l _ d b r => b ≠ 0 || (if k < K d then nz K k l else nz K k r)

/-- The balance point of an insertion of key `k`: the context and subtree of
the last node on the search path whose balance field is nonzero, or of the
top node when there is none. -/
def crit (K : Nat → Int) (k : Int) : Tree → Ctx → Ctx × Tree
  | nil, c => (c, nil)
  | node l a d b r, c =>
    if k < K d then
      if nz K k l then crit K k l (.L a d b r :: c) else (c, node l a d b r)
    else
      if nz K k r then crit K k r (.R l a d b :: c) else (c, node l a d b r)

/-- Insertion of a new leaf with address `n` and payload `dn` at its place in
key order, no balance field touched. -/
def insLeaf (K : Nat → Int) (n dn : Nat) : Tree → Tree
  | nil => leaf n dn
  | node l a d b r =>
    if K dn < K d then node (insLeaf K n dn l) a d b r else node l a d b (insLeaf K n dn r)

/-- Insertion of a new leaf, with the balance field of every node on the
search path moved towards the side of the new leaf. -/
def insLow (K : Nat → Int) (n dn : Nat) : Tree → Tree
  | nil => leaf n dn
  | node l a d b r =>
    if K dn < K d then node (insLow K n dn l) a d (b - 1) r
    else node l a d (b + 1) (insLow K n dn r)

/-- Tree-level effect of `shiftleft`. -/
def rotLeft : Tree → Tree
  | node l x dx _ (node rl z dz bz rr) =>
    if bz = 1 then node (node l x dx 0 rl) z dz 0 rr
    else node (node l x dx 1 rl) z dz (-1) rr
  | t => t

/-- Tree-level effect of `shiftright`. -/
def rotRight : Tree → Tree
  | node (node ll z dz bz lr) x dx _ r =>
    if bz = -1 then node ll z dz 0 (node lr x dx 0 r)
    else node ll z dz 1 (node lr x dx (-1) r)
  | t => t

/-- Tree-level effect of `shiftdblleft`. -/
def rotDblLeft : Tree → Tree
  | node l x dx _ (node (node yl y dy bY yr) z dz _ rr) =>
    if bY = -1 then node (node l x dx 0 yl) y dy 0 (node yr z dz 1 rr)
    else if bY = 1 then node (node l x dx (-1) yl) y dy 0 (node yr z dz 0 rr)
    else node (node l x dx 0 yl) y dy 0 (node yr z dz 0 rr)
  | t => t

/-- Tree-level effect of `shiftdblright`. -/
def rotDblRight : Tree → Tree
  | node (node ll z dz _ (node yl y dy bY yr)) x dx _ r =>
    if bY = -1 then node (node ll z dz 0 yl) y dy 0 (node yr x dx 1 r)
    else if bY = 1 then node (node ll z dz (-1) yl) y dy 0 (node yr x dx 0 r)
    else node (node ll z dz 0 yl) y dy 0 (node yr x dx 0 r)
  | t => t

/-- Tree-level effect of `addShift`: the shift chosen at the balance point. -/
def addFix : Tree → Tree
  | node l a d b r =>
    if b = 2 then
      if rootBal r = 1 then rotLeft (node l a d b r)
      else if rootBal r = -1 then rotDblLeft (node l a d b r)
      else node l a d b r
    else if b = -2 then
      if rootBal l = -1 then rotRight (node l a d b r)
      else if rootBal l = 1 then rotDblRight (node l a d b r)
      else node l a d b r
    else node l a d b r
  | nil => nil

/-- Tree-level effect of `GenAVLTreeAdd` with a new key. -/
def addTree (K : Nat → Int) (n dn : Nat) (t : Tree) : Tree :=
  plug (crit K (K dn) t []).1 (addFix (insLow K n dn (crit K (K dn) t []).2))

/-- Tree-level effect of one pass of the upward loop of `GenAVLTreeDelete` on
the node whose balance field was just adjusted: the subtree after the pass and
whether the loop goes on. -/
def rebalStep : Tree → Tree × Bool
  | node l a d b r =>
    if b = 2 then
      if rootBal r = 1 then (rotLeft (node l a d b r), true)
      else if rootBal r = -1 then (rotDblLeft (node l a d b r), true)
      else (rotLeft (node l a d b r), false)
    else if b = -2 then
      if rootBal l = -1 then (rotRight (node l a d b r), true)
      else if rootBal l = 1 then (rotDblRight (node l a d b r), true)
      else (rotRight (node l a d b r), false)
    else if b = 0 then (node l a d b r, true)
    else (node l a d b r, false)
  | nil => (nil, false)

/-- Tree-level effect of the upward loop of `GenAVLTreeDelete`: `t` fills the
hole of `c` and is one level shorter than what was there. -/
def unwind : Ctx → Tree → Tree
  | [], t => t
  | f :: c, t =>
    if (rebalStep (f.shrink t)).2 then unwind c (rebalStep (f.shrink t)).1
    else plug c (rebalStep (f.shrink t)).1

/-- The context of the rightmost node below `t`, added to `c`. -/
def rightCtx : Tree → Ctx → Ctx
  | nil, c => c
  | node _ _ _ _ nil, c => c
  | node l a d b (node rl ra rd rb rr), c =>
    rightCtx (node rl ra rd rb rr) (.R l a d b :: c)

/-- The rightmost node below `t`. -/
def rightmost : Tree → Tree
  | nil => nil
  | node l a d b nil => node l a d b nil
  | node _ _ _ _ (node rl ra rd rb rr) => rightmost (node rl ra rd rb rr)

/-- The search of `GenAVLTreeDelete` for key `k`: the context and subtree of
the node with that key, if there is one. -/
def locate (K : Nat → Int) (k : Int) : Tree → Ctx → Option (Ctx × Tree)
  | nil, _ => none
  | node l a d b r, c =>
    if k < K d then locate K k l (.L a d b r :: c)
    else if K d < k then locate K k r (.R l a d b :: c)
    else some (c, node l a d b r)

/-- Tree-level effect of the swap and unlink of `GenAVLTreeDelete` on the node
found at context `c`: the context of the place that is removed and the subtree
that takes this place. -/
def unlink : Ctx → Tree → Ctx × Tree
  | c, nil => (c, nil)
  | c, node nil _ _ _ r => (c, r)
  | c, node (node ll la ld lb lr) _ _ _ nil => (c, node ll la ld lb lr)
  | c, node (node ll la ld lb lr) _ _ b (node rl ra rd rb rr) =>
    match rightmost (node ll la ld lb lr) with
    | node yl y dy _ _ =>
      (rightCtx (node ll la ld lb lr) (.L y dy b (node rl ra rd rb rr) :: c), yl)
    | nil => (c, nil)

/-- Tree-level effect of `GenAVLTreeDelete`. -/
def deleteTree (K : Nat → Int) (k : Int) (t : Tree) : Tree :=
  match locate K k t [] with
  | none => t
  | some (c, s) => unwind (unlink c s).1 (unlink c s).2

end Tree

namespace Tree

/-- Left subtree, empty for the empty tree. -/
def left : Tree → Tree
  | nil => nil
  | node l _ _ _ _ => l

/-- Right subtree, empty for the empty tree. -/
def right : Tree → Tree
  | nil => nil
  | node _ _ _ _ r => r

/-- The nodes a shift at the top of the tree would touch are there: with
balance field 2 the right child exists, and its left child too when its own
balance field is -1; likewise on the other side. -/
def ShiftOK : Tree → Prop
  | nil => False
  | node l _ _ b r =>
    (b = 2 → r ≠ nil ∧ (rootBal r = -1 → r.left ≠ nil)) ∧
      (b = -2 → l ≠ nil ∧ (rootBal l = 1 → l.right ≠ nil))

end Tree

/-- In-order entries of a context that come before its hole. -/
def ctxBefore : Ctx → List (Nat × Nat)
  | [] => []
  | .L _ _ _ _ :: c => ctxBefore c
  | .R l a d _ :: c => ctxBefore c ++ (l.entries ++ [(a, d)])

/-- In-order entries of a context that come after its hole. -/
def ctxAfter : Ctx → List (Nat × Nat)
  | [] => []
  | .L a d _ r :: c => ((a, d) :: r.entries) ++ ctxAfter c
  | .R _ _ _ _ :: c => ctxAfter c

/-- Addresses of all nodes of a context. -/
def ctxAddrs (c : Ctx) : List Nat := (ctxBefore c ++ ctxAfter c).map Prod.fst

/-- The child pointer of the node of a frame that does not lead to the hole. -/
def Frame.sibPtr (m : Mem) : Frame → Nat
  | .L a _ _ _ => (m a).right
  | .R _ a _ _ => (m a).left

/-- The AVL invariant of a context whose hole takes a tree of height `h`. -/
def CtxBal : Ctx → Nat → Prop
  | [], _ => True
  | .L _ _ b r :: c, h =>
    b = (r.height : Int) - (h : Int) ∧ -1 ≤ b ∧ b ≤ 1 ∧ r.Balanced ∧
      CtxBal c (max h r.height + 1)
  | .R l _ _ b :: c, h =>
    b = (h : Int) - (l.height : Int) ∧ -1 ≤ b ∧ b ≤ 1 ∧ l.Balanced ∧
      CtxBal c (max l.height h + 1)

/-- Height of the whole tree when the hole of `c` takes a tree of height `h`. -/
def ctxHeight : Ctx → Nat → Nat
  | [], h => h
  | .L _ _ _ r :: c, h => ctxHeight c (max h r.height + 1)
  | .R l _ _ _ :: c, h => ctxHeight c (max l.height h + 1)

namespace Tree

/-- Address of the top node, null for the empty tree. -/
def rootAddr : Tree → Nat
  | nil => 0
  | node _ a _ _ _ => a

/-- Payload pointer of the top node, null for the empty tree. -/
def rootData : Tree → Nat
  | nil => 0
  | node _ _ d _ _ => d

/-- The search path for `k` below the top node has only balance fields 0. -/
def LowZero (K : Nat → Int) (k : Int) : Tree → Prop
  | nil => True
  | node l _ d _ r => if k < K d then nz K k l = false else nz K k r = false

end Tree

/-- The path stack holds the slots of the contexts along `c`: entry `i` names
the hole of the context made of the `i` outermost frames. -/
def StackRep (stack : PathStack) : Ctx → Prop
  | [] => (stack 0).e = 0
  | f :: c => (stack (c.length + 1)).e = f.addr ∧ f.DirOK (stack (c.length + 1)).d ∧
      StackRep stack c

/-! ## Pieces of the upward loop of deletion -/

/-- The branch taken in one pass of the upward loop of `GenAVLTreeDelete`,
after the balance field was adjusted: the new state and whether the loop goes
on. -/
def deleteShift (t1 : GenAVLTree) (gaepnext gaep : Nat) (dir : Int) : GenAVLTree × Bool :=
  if (t1.mem gaepnext).balance = 2 then
    if (t1.mem (t1.mem gaepnext).right).balance = 1 then (shiftleft t1 gaep dir, true)
    else if (t1.mem (t1.mem gaepnext).right).balance = -1 then (shiftdblleft t1 gaep dir, true)
    else (shiftleft t1 gaep dir, false)
  else if (t1.mem gaepnext).balance = -2 then
    if (t1.mem (t1.mem gaepnext).left).balance = -1 then (shiftright t1 gaep dir, true)
    else if (t1.mem (t1.mem gaepnext).left).balance = 1 then (shiftdblright t1 gaep dir, true)
    else (shiftright t1 gaep dir, false)
  else if (t1.mem gaepnext).balance = 0 then (t1, true)
  else (t1, false)

/-- The adjustment of the balance field at the start of one pass of the upward
loop of `GenAVLTreeDelete`. -/
def deleteAdjust (stack : PathStack) (g : Nat) (t : GenAVLTree) : GenAVLTree :=
  if (stack (g + 1)).d > 0 then
    { t with mem := wrBalance t.mem (stack (g + 1)).e ((t.mem (stack (g + 1)).e).balance - 1) }
  else
    { t with mem := wrBalance t.mem (stack (g + 1)).e ((t.mem (stack (g + 1)).e).balance + 1) }

/-! ## Insertion without balancing -/

/-- The search loop of `GenAVLTreeAddUnbal`: the entry under which the new one
goes and the direction taken there; `some none` when an entry with the same key
is met. -/
def addUnbalLoop (K : Nat → Int) (m : Mem) (gae : Nat) :
    Nat → Nat → Nat → Int → Option (Option (Nat × Int))
  | 0, _, _, _ => none
  | fuel + 1, gaepnext, gaep, dir =>
    if gaepnext = 0 then some (some (gaep, dir))
    else
      let dir1 := Compare K m gae (Key K m gaepnext)
      if dir1 < 0 then addUnbalLoop K m gae fuel (m gaepnext).left gaepnext dir1
      else if dir1 > 0 then addUnbalLoop K m gae fuel (m gaepnext).right gaepnext dir1
      else some none

/-- Source `GenAVLTreeAddUnbal`: links the entry `gae` as a leaf without
balancing.  The result pairs the new state with the returned flag. -/
def GenAVLTreeAddUnbal (K : Nat → Int) (fuel : Nat) (t : GenAVLTree) (gae : Nat) :
    Option (GenAVLTree × Nat) :=
  let m0 := wrBalance (wrRight (wrLeft t.mem gae 0) gae 0) gae 0
  match addUnbalLoop K m0 gae fuel t.root 0 0 with
  | none => none
  | some none => some ({ t with mem := m0 }, 0)
  | some (some (gaep, dir)) => some (set { t with mem := m0 } gaep dir gae, 1)

/-! ## Iterators -/

/-- The iterator state `GENAVLSTACK` of genavl.h: an array of entries and the
stack pointer.  The array is a total map; its bound `MAX_GENAVL_STACK` is not
enforced. -/
structure GENAVLSTACK where
  stack : Nat → Nat
  sp : Nat

/-- The store `stack[sp++] = gaep`. -/
def GENAVLSTACK.push (it : GENAVLSTACK) (gaep : Nat) : GENAVLSTACK :=
  ⟨Function.update it.stack it.sp gaep, it.sp + 1⟩

/-- The loop `while (gaep) { stack[sp++] = gaep; gaep = gaep->left; }` of the
depth-first iterator. -/
def dfPushLeft (m : Mem) : Nat → GENAVLSTACK → Nat → Option GENAVLSTACK
  | 0, _, _ => none
  | fuel + 1, it, gaep =>
    if gaep = 0 then some it
    else dfPushLeft m fuel (it.push gaep) (m gaep).left

/-- Source `GenAVLDFIterNextData`: pops the stack, pushes the left spine of the
right child and returns the payload pointer of the popped entry; null when the
stack is empty. -/
def GenAVLDFIterNextData (m : Mem) (fuel : Nat) (it : GENAVLSTACK) :
    Option (GENAVLSTACK × Nat) :=
  if it.sp = 0 then some (it, 0)
  else
    let it1 : GENAVLSTACK := ⟨it.stack, it.sp - 1⟩
    let gaep := it1.stack it1.sp
    let dp := (m gaep).data
    if (m gaep).right ≠ 0 then
      match dfPushLeft m fuel it1 (m gaep).right with
      | none => none
      | some it2 => some (it2, dp)
    else some (it1, dp)

/-- Source `GenAVLDFIterInitData`. -/
def GenAVLDFIterInitData (fuel : Nat) (it : GENAVLSTACK) (t : GenAVLTree) :
    Option (GENAVLSTACK × Nat) :=
  match dfPushLeft t.mem fuel ⟨it.stack, 0⟩ t.root with
  | none => none
  | some it1 => GenAVLDFIterNextData t.mem fuel it1

/-- The loop of `GenAVLDFIterInitNextEqualData`. -/
def dfInitNextEqualLoop (K : Nat → Int) (m : Mem) (key : Int) :
    Nat → GENAVLSTACK → Nat → Option GENAVLSTACK
  | 0, _, _ => none
  | fuel + 1, it, gaep =>
    if gaep = 0 then some it
    else if Compare K m gaep key ≥ 0 then
      dfInitNextEqualLoop K m key fuel (it.push gaep) (m gaep).left
    else dfInitNextEqualLoop K m key fuel it (m gaep).right

/-- Source `GenAVLDFIterInitNextEqualData`. -/
def GenAVLDFIterInitNextEqualData (K : Nat → Int) (fuel : Nat) (it : GENAVLSTACK)
    (t : GenAVLTree) (key : Int) : Option (GENAVLSTACK × Nat) :=
  match dfInitNextEqualLoop K t.mem key fuel ⟨it.stack, 0⟩ t.root with
  | none => none
  | some it1 => GenAVLDFIterNextData t.mem fuel it1

/-- The loop of `GenAVLDFIterInitNextData`. -/
def dfInitNextLoop (K : Nat → Int) (m : Mem) (key : Int) :
    Nat → GENAVLSTACK → Nat → Option GENAVLSTACK
  | 0, _, _ => none
  | fuel + 1, it, gaep =>
    if gaep = 0 then some it
    else if Compare K m gaep key > 0 then
      dfInitNextLoop K m key fuel (it.push gaep) (m gaep).left
    else dfInitNextLoop K m key fuel it (m gaep).right

/-- Source `GenAVLDFIterInitNextData`. -/
def GenAVLDFIterInitNextData (K : Nat → Int) (fuel : Nat) (it : GENAVLSTACK)
    (t : GenAVLTree) (key : Int) : Option (GENAVLSTACK × Nat) :=
  match dfInitNextLoop K t.mem key fuel ⟨it.stack, 0⟩ t.root with
  | none => none
  | some it1 => GenAVLDFIterNextData t.mem fuel it1

/-- The payloads a caller reads from the depth-first iterator: the first result
`d`, then the results of `GenAVLDFIterNextData`, up to the first null.  The
first argument bounds the number of calls. -/
def dfCollect (m : Mem) (fuel : Nat) : Nat → GENAVLSTACK → Nat → Option (List Nat)
  | 0, _, _ => none
  | n + 1, it, d =>
    if d = 0 then some []
    else
      match GenAVLDFIterNextData m fuel it with
      | none => none
      | some (it1, d1) => (dfCollect m fuel n it1 d1).map (fun ds => d :: ds)

/-- The sequence read with `GenAVLDFIterInitData` and then
`GenAVLDFIterNextData`. -/
def dfSequence (fuel n : Nat) (it : GENAVLSTACK) (t : GenAVLTree) : Option (List Nat) :=
  match GenAVLDFIterInitData fuel it t with
  | none => none
  | some (it1, d) => dfCollect t.mem fuel n it1 d

/-- The sequence read with `GenAVLDFIterInitNextData` and then
`GenAVLDFIterNextData`. -/
def dfSequenceNext (K : Nat → Int) (fuel n : Nat) (it : GENAVLSTACK) (t : GenAVLTree)
    (key : Int) : Option (List Nat) :=
  match GenAVLDFIterInitNextData K fuel it t key with
  | none => none
  | some (it1, d) => dfCollect t.mem fuel n it1 d

/-- The sequence read with `GenAVLDFIterInitNextEqualData` and then
`GenAVLDFIterNextData`. -/
def dfSequenceNextEqual (K : Nat → Int) (fuel n : Nat) (it : GENAVLSTACK) (t : GenAVLTree)
    (key : Int) : Option (List Nat) :=
  match GenAVLDFIterInitNextEqualData K fuel it t key with
  | none => none
  | some (it1, d) => dfCollect t.mem fuel n it1 d

/-- The descent of the leaf-first iterator: pushes entries going left where
there is a left child and right otherwise. -/
def lfPushLeaf (m : Mem) : Nat → GENAVLSTACK → Nat → Option GENAVLSTACK
  | 0, _, _ => none
  | fuel + 1, it, gaep =>
    if gaep = 0 then some it
    else
      lfPushLeaf m fuel (it.push gaep)
        (if (m gaep).left = 0 then (m gaep).right else (m gaep).left)

/-- Source `GenAVLLFIterNextData`: pops a leaf, unlinks it from its parent,
records the parent in it, and goes down to the next leaf. -/
def GenAVLLFIterNextData (K : Nat → Int) (fuel : Nat) (it : GENAVLSTACK) (t : GenAVLTree) :
    Option (GENAVLSTACK × GenAVLTree × Nat) :=
  if it.sp = 0 then some (it, t, 0)
  else
    let it1 : GENAVLSTACK := ⟨it.stack, it.sp - 1⟩
    let gaep := it1.stack it1.sp
    let dp := (t.mem gaep).data
    let m1 := wrRight (wrLeft t.mem gaep 0) gaep 0
    if it1.sp ≠ 0 then
      let pgaep := it1.stack (it1.sp - 1)
      if Compare K m1 gaep (Key K m1 pgaep) > 0 then
        some (it1, { t with mem := wrRight (wrRight m1 gaep pgaep) pgaep 0 }, dp)
      else
        let m2 := wrLeft (wrLeft m1 gaep pgaep) pgaep 0
        if (m2 pgaep).right ≠ 0 then
          match lfPushLeaf m2 fuel it1 (m2 pgaep).right with
          | none => none
          | some it2 => some (it2, { t with mem := m2 }, dp)
        else some (it1, { t with mem := m2 }, dp)
    else some (it1, { root := 0, mem := m1 }, dp)

/-- Source `GenAVLLFIterInitData`. -/
def GenAVLLFIterInitData (K : Nat → Int) (fuel : Nat) (it : GENAVLSTACK) (t : GenAVLTree) :
    Option (GENAVLSTACK × GenAVLTree × Nat) :=
  match lfPushLeaf t.mem fuel ⟨it.stack, 0⟩ t.root with
  | none => none
  | some it1 => GenAVLLFIterNextData K fuel it1 t

/-- The payloads a caller reads from the leaf-first iterator up to the first
null, with the state after the last call. -/
def lfCollect (K : Nat → Int) (fuel : Nat) :
    Nat → GENAVLSTACK → GenAVLTree → Nat → Option (List Nat × GenAVLTree)
  | 0, _, _, _ => none
  | n + 1, it, t, d =>
    if d = 0 then some ([], t)
    else
      match GenAVLLFIterNextData K fuel it t with
      | none => none
      | some (it1, t1, d1) => (lfCollect K fuel n it1 t1 d1).map (fun r => (d :: r.1, r.2))

/-- The sequence read with `GenAVLLFIterInitData` and then
`GenAVLLFIterNextData`. -/
def lfSequence (K : Nat → Int) (fuel n : Nat) (it : GENAVLSTACK) (t : GenAVLTree) :
    Option (List Nat × GenAVLTree) :=
  match GenAVLLFIterInitData K fuel it t with
  | none => none
  | some (it1, t1, d) => lfCollect K fuel n it1 t1 d

/-! ## The free-key search -/

/-- Modelled from the spec: the `KeyIncrement` callback for integer keys of
legal range `[lo, hi]`: the next key with flag 0, or one less than `lo` with
flag 1 when the key wraps. -/
def KeyIncrement (lo hi : Int) (k : Int) : Int × Nat :=
  if k < hi then (k + 1, 0) else (lo - 1, 1)

/-- Modelled from the spec: the `KeyCompare` callback for integer keys. -/
def KeyCompare (a b : Int) : Int :=
  if a < b then -1 else if b < a then 1 else 0

/-- The loop of `GenAVLTreeNextFreeKey`.  The flag tells whether the pass is
entered at the label `tryright`.  The result pairs the returned flag with the
out key. -/
def nextFreeKeyLoop (K : Nat → Int) (lo hi : Int) (t : GenAVLTree) (start : Int) :
    Nat → Bool → Nat → GENAVLSTACK → Int → Option (Nat × Int)
  | 0, _, _, _, _ => none
  | fuel + 1, tryright, gaep, st, next =>
    if tryright = false ∧ Compare K t.mem gaep next > 0 then
      if (t.mem gaep).left = 0 then
        let next1 := (KeyIncrement lo hi next).1
        if KeyCompare next1 start = 0 then some (0, next1)
        else if Compare K t.mem gaep next1 = 0 then
          nextFreeKeyLoop K lo hi t start fuel true gaep st next1
        else some (1, next1)
      else nextFreeKeyLoop K lo hi t start fuel false (t.mem gaep).left (st.push gaep) next
    else
      if (t.mem gaep).right = 0 then
        if st.sp ≠ 0 then
          let st1 : GENAVLSTACK := ⟨st.stack, st.sp - 1⟩
          let gaep1 := st1.stack st1.sp
          let next1 := (KeyIncrement lo hi next).1
          if KeyCompare next1 start = 0 then some (0, next1)
          else if Compare K t.mem gaep1 next1 = 0 then
            nextFreeKeyLoop K lo hi t start fuel true gaep1 st1 next1
          else some (1, next1)
        else
          if (KeyIncrement lo hi next).2 = 1 then
            nextFreeKeyLoop K lo hi t start fuel false t.root st (KeyIncrement lo hi next).1
          else some (1, (KeyIncrement lo hi next).1)
      else nextFreeKeyLoop K lo hi t start fuel false (t.mem gaep).right st next

/-- Source `GenAVLTreeNextFreeKey`: `next` is the value of the out key at the
call.  The result pairs the returned flag with the out key. -/
def GenAVLTreeNextFreeKey (K : Nat → Int) (lo hi : Int) (fuel : Nat) (t : GenAVLTree)
    (start next : Int) : Option (Nat × Int) :=
  if t.root = 0 then some (1, (KeyIncrement lo hi next).1)
  else nextFreeKeyLoop K lo hi t start fuel false t.root ⟨fun _ => 0, 0⟩ next

/-! ## Sequences of calls -/

/-- Calls `GenAVLTreeAdd` for each entry of a list in turn and collects the
returned flags. -/
def addAll (K : Nat → Int) (fuel : Nat) : GenAVLTree → List Nat → Option (GenAVLTree × List Nat)
  | t, [] => some (t, [])
  | t, n :: ns =>
    match GenAVLTreeAdd K fuel t n with
    | none => none
    | some (t1, r) => (addAll K fuel t1 ns).map (fun p => (p.1, r :: p.2))

/-- Calls `GenAVLTreeDelete` for each key of a list in turn and collects the
returned payload pointers. -/
def deleteAll (K : Nat → Int) (fuel : Nat) :
    GenAVLTree → List Int → Option (GenAVLTree × List Nat)
  | t, [] => some (t, [])
  | t, k :: ks =>
    match GenAVLTreeDelete K fuel t k with
    | none => none
    | some (t1, d) => (deleteAll K fuel t1 ks).map (fun p => (p.1, d :: p.2))

/-! ## Views of a tree used in the statements -/

namespace Tree

/-- Post-order sequence of the nodes, each as its address with its payload. -/
def postorder : Tree → List (Nat × Nat)
  | nil => []
  | node l a d _ r => postorder l ++ postorder r ++ [(a, d)]

end Tree

/-! ## A small concrete memory -/

/-- Keys of the examples: the payload pointer read as an integer. -/
def exKey : Nat → Int := fun d => (d : Int)

/-- A memory whose entry at address 1 has payload 10 and no children. -/
def exMem : Mem := fun a => if a = 1 then ⟨10, 0, 0, 0⟩ else ⟨20, 0, 0, 0⟩

/-- The tree header with root 1 over `exMem`. -/
def exState : GenAVLTree := ⟨1, exMem⟩

/-- The tree `exState` holds: the single entry 1. -/
def exTree : Tree := .node .nil 1 10 0 .nil

/-- A memory like `exMem` in which the entry at address 2 also has payload 10. -/
def exMemDup : Mem := fun a => if a = 1 then ⟨10, 0, 0, 0⟩ else ⟨10, 0, 0, 0⟩

/-- A memory with three entries: address 2 (payload 20) with left child 1
(payload 10) and right child 3 (payload 30). -/
def exMem3 : Mem := fun a =>
  if a = 1 then ⟨10, 0, 0, 0⟩ else if a = 2 then ⟨20, 0, 3, 1⟩ else ⟨30, 0, 0, 0⟩

/-- The tree header with root 2 over `exMem3`. -/
def exState3 : GenAVLTree := ⟨2, exMem3⟩

/-- The tree `exState3` holds. -/
def exTree3 : Tree := .node (.node .nil 1 10 0 .nil) 2 20 0 (.node .nil 3 30 0 .nil)

/-! ## What an iterator stack stands for -/

/-- The array `stack` holds the list `l`, top first, in its cells
`0 .. l.length - 1`. -/
def StackList (stack : Nat → Nat) : List Nat → Prop
  | [] => True
  | x :: l => stack l.length = x ∧ StackList stack l

namespace Tree

/-- The left spine of a tree, lowest node first: each node with its payload and
its right subtree. -/
def leftSpine : Tree → List (Nat × Nat × Tree)
  | nil => []
  | node l a d _ r => leftSpine l ++ [(a, d, r)]

/-- The nodes the loop of `GenAVLDFIterInitNextData` pushes for key `k`, lowest
first. -/
def spineGT (K : Nat → Int) (k : Int) : Tree → List (Nat × Nat × Tree)
  | nil => []
  | node l a d _ r => if k < K d then spineGT K k l ++ [(a, d, r)] else spineGT K k r

/-- The nodes the loop of `GenAVLDFIterInitNextEqualData` pushes for key `k`,
lowest first. -/
def spineGE (K : Nat → Int) (k : Int) : Tree → List (Nat × Nat × Tree)
  | nil => []
  | node l a d _ r => if k ≤ K d then spineGE K k l ++ [(a, d, r)] else spineGE K k r

end Tree

/-- The payloads still to come from a depth-first iterator whose stack holds
the nodes of `L`, top first: each node, then its right subtree in order. -/
def pendingSeq : List (Nat × Nat × Tree) → List Nat
  | [] => []
  | x :: L => x.2.1 :: (x.2.2.entries.map Prod.snd ++ pendingSeq L)

/-- The depth-first iterator `it` over memory `m` stands for the pending nodes
`L`: the stack holds their addresses, and memory holds each payload and right
subtree. -/
def DFPending (m : Mem) (fuel : Nat) (it : GENAVLSTACK) (L : List (Nat × Nat × Tree)) : Prop :=
  it.sp = L.length ∧ StackList it.stack (L.map (fun x => x.1)) ∧
    ∀ x ∈ L, (m x.1).data = x.2.1 ∧ TreeAt m (m x.1).right x.2.2 ∧ x.2.2.height < fuel

/-- One call of `GenAVLDFIterNextData`, then the reading of `dfCollect`. -/
def dfFrom (m : Mem) (fuel n : Nat) (it : GENAVLSTACK) : Option (List Nat) :=
  match GenAVLDFIterNextData m fuel it with
  | none => none
  | some (it1, d) => dfCollect m fuel n it1 d

/-- A memory whose entry at address 1 has a null payload and no children. -/
def exMemNull : Mem := fun _ => ⟨0, 0, 0, 0⟩

/-- The tree `exMemNull` holds at address 1. -/
def exTreeNull : Tree := .node .nil 1 0 0 .nil

/-! ## Examples for the free-key search -/

/-- A memory with the three entries of keys 1, 2 and 3: address 2 with left
child 1 and right child 3, each payload pointer equal to the address. -/
def exMemFull : Mem := fun a =>
  if a = 1 then ⟨1, 0, 0, 0⟩ else if a = 2 then ⟨2, 0, 3, 1⟩ else ⟨3, 0, 0, 0⟩

/-- The tree header with root 2 over `exMemFull`: it holds every key of the
range 1 .. 3. -/
def exStateFull : GenAVLTree := ⟨2, exMemFull⟩

/-- The tree `exStateFull` holds. -/
def exTreeFull : Tree := .node (.node .nil 1 1 0 .nil) 2 2 0 (.node .nil 3 3 0 .nil)

/-- A memory with the four entries of keys 1, 2, 4 and 5: address 2 with left
child 1 and right child 4, and 5 the right child of 4. -/
def exMemGap : Mem := fun a =>
  if a = 1 then ⟨1, 0, 0, 0⟩ else if a = 2 then ⟨2, 1, 4, 1⟩
  else if a = 4 then ⟨4, 1, 5, 0⟩ else ⟨5, 0, 0, 0⟩

/-- The tree header with root 2 over `exMemGap`. -/
def exStateGap : GenAVLTree := ⟨2, exMemGap⟩

/-- The tree `exStateGap` holds. -/
def exTreeGap : Tree :=
  .node (.node .nil 1 1 0 .nil) 2 2 1 (.node .nil 4 4 1 (.node .nil 5 5 0 .nil))

/-- The keys after `start` in cyclic order within the legal range `[lo, hi]`:
`start + 1, ..., hi`, then `lo, ..., start`. -/
def cyclicOrder (lo hi start : Int) : List Int :=
  (List.range (hi - start).toNat).map (fun i => start + 1 + (i : Int)) ++
    (List.range (start + 1 - lo).toNat).map (fun i => lo + (i : Int))

/-- The first key after `start` in cyclic order that is not among `keys`. -/
def firstFreeKey (lo hi start : Int) (keys : List Int) : Option Int :=
  (cyclicOrder lo hi start).find? (fun k => decide (k ∉ keys))

/-! ## What the leaf-first iterator stands for -/

/-- The left subtree of the node of a frame is gone: holds of every frame the
leaf-first iterator has on its stack with the hole on the right. -/
def Frame.LeftDone : Frame → Prop
  | .L _ _ _ _ => True
  | .R l _ _ _ => l = .nil

namespace Tree

/-- The descent of the leaf-first iterator below context `c`: left where there
is a left subtree, right otherwise, down to a leaf; the result is the context
of that leaf and the leaf. -/
def lfDescend : Tree → Ctx → Ctx × Tree
  | nil, c => (c, nil)
  | node nil a d b nil, c => (c, node nil a d b nil)
  | node nil a d b (node rl ra rd rb rr), c =>
    lfDescend (node rl ra rd rb rr) (.R nil a d b :: c)
  | node (node ll la ld lb lr) a d b r, c => lfDescend (node ll la ld lb lr) (.L a d b r :: c)

end Tree

/-- The addresses the leaf-first iterator has on its stack, top first, when it
stands at the subtree `x.2` in context `x.1`. -/
def lfStack (x : Ctx × Tree) : List Nat :=
  match x.2 with
  | .nil => x.1.map Frame.addr
  | .node _ a _ _ _ => a :: x.1.map Frame.addr

/-- The stack of the iterator `it` holds the list `l`, top first. -/
def StackHolds (it : GENAVLSTACK) (l : List Nat) : Prop :=
  it.sp = l.length ∧ StackList it.stack l

/-- The nodes the leaf-first iterator still returns after the leaf in the hole
of context `c`, in the order it returns them. -/
def lfRest : Ctx → List (Nat × Nat)
  | [] => []
  | .L p d _ r :: c => r.postorder ++ (p, d) :: lfRest c
  | .R _ p d _ :: c => (p, d) :: lfRest c

/-- The leaf-first iterator `it` over the state `t` stands at the leaf
`(a, d, b)` in context `c`. -/
def LFState (K : Nat → Int) (fuel : Nat) (it : GENAVLSTACK) (t : GenAVLTree) (c : Ctx)
    (a d : Nat) (b : Int) : Prop :=
  TreeAt t.mem t.root (plug c (.node .nil a d b .nil)) ∧
    (plug c (.node .nil a d b .nil)).Sorted K ∧
    StackHolds it (a :: c.map Frame.addr) ∧ (∀ f ∈ c, f.LeftDone) ∧
    (plug c (.node .nil a d b .nil)).entries.length < fuel

/-- One call of `GenAVLLFIterNextData`, then the reading of `lfCollect`. -/
def lfFrom (K : Nat → Int) (fuel n : Nat) (it : GENAVLSTACK) (t : GenAVLTree) :
    Option (List Nat × GenAVLTree) :=
  match GenAVLLFIterNextData K fuel it t with
  | none => none
  | some (it1, t1, d) => lfCollect K fuel n it1 t1 d

/-! ## Relocatable references (offset_ptr.h)

Addresses and offsets are `uintptr_t` values; `w` is the width of that type and
every operation is taken modulo `2 ^ w`. -/

/-- Subtraction of unsigned `w`-bit values. -/
def usub (w a b : Nat) : Nat := (a + (2 ^ w - b % 2 ^ w)) % 2 ^ w

/-- The mask of the branchless code: `uintptr_t mask = c; --mask;`, all ones
when `c` is false and zero when `c` is true. -/
def maskOf (w : Nat) (c : Bool) : Nat := usub w (if c then 1 else 0) 1

/-- Source `offset_ptr_to_raw_pointer` (the branchless variant the header
selects): the address a stored offset stands for, null for the offset 1. -/
def offset_ptr_to_raw_pointer (w this_ptr offset : Nat) : Nat :=
  let mask := maskOf w (decide (offset = 1))
  let target_offset := (this_ptr + offset) % 2 ^ w
  target_offset &&& mask

/-- Source `offset_ptr_to_offset` (the branchless variant the header selects):
the offset stored at `this_ptr` for the target `ptr`. -/
def offset_ptr_to_offset (w ptr this_ptr : Nat) : Nat :=
  let offset := usub w ptr this_ptr
  let offset1 := usub w offset 1
  let mask := maskOf w (decide (ptr = 0))
  let offset2 := offset1 &&& mask
  (offset2 + 1) % 2 ^ w

/-- Source `offset_ptr_to_offset_from_other` (the branchless variant the header
selects): the offset to store at `this_ptr` for the target of the offset
`other_offset` stored at `other_ptr`. -/
def offset_ptr_to_offset_from_other (w this_ptr other_ptr other_offset : Nat) : Nat :=
  let mask := maskOf w (decide (other_offset = 1))
  let offset := usub w other_ptr this_ptr
  let offset1 := offset &&& mask
  (offset1 + other_offset) % 2 ^ w

/-! ## The scenario with seven keys -/

/-- A memory with seven fresh entries at the addresses 1 .. 7 whose payloads
(and keys) are 10, 20, 5, 6, 15, 30, 25. -/
def exMem7 : Mem := fun a => ⟨[0, 10, 20, 5, 6, 15, 30, 25].getD a 0, 0, 0, 0⟩

/-! ## Putting back a leaf taken by the leaf-first iterator -/

/-- Source `GenAVLLLFIterReplace`: links the entry `gaep`, which the leaf-first
iterator unlinked, back under the parent recorded in its left or right field,
or makes it the root when both fields are null. -/
def GenAVLLLFIterReplace (t : GenAVLTree) (gaep : Nat) : GenAVLTree :=
  if (t.mem gaep).left ≠ 0 then
    let m1 := wrLeft t.mem (t.mem gaep).left gaep
    { t with mem := wrLeft m1 gaep 0 }
  else if (t.mem gaep).right ≠ 0 then
    let m1 := wrRight t.mem (t.mem gaep).right gaep
    { t with mem := wrRight m1 gaep 0 }
  else { t with root := gaep }

/-- The leaf-first iteration up to its call number `j`: the call 0 is
`GenAVLLFIterInitData`, every later call is `GenAVLLFIterNextData` on the state
the call before left.  The result is the state and the payload pointer after
that call. -/
def lfRun (K : Nat → Int) (fuel : Nat) :
    Nat → GENAVLSTACK → GenAVLTree → Option (GENAVLSTACK × GenAVLTree × Nat)
  | 0, it, t => GenAVLLFIterInitData K fuel it t
  | j + 1, it, t =>
    match lfRun K fuel j it t with
    | none => none
    | some (it1, t1, _) => GenAVLLFIterNextData K fuel it1 t1

/-! ## A tree whose root has one child -/

/-- A memory with the entry 2 (payload 20, balance -1) and its left child 1
(payload 10). -/
def exMemLeft : Mem := fun a =>
  if a = 1 then ⟨10, 0, 0, 0⟩ else if a = 2 then ⟨20, -1, 0, 1⟩ else ⟨0, 0, 0, 0⟩

/-- The tree header with root 2 over `exMemLeft`. -/
def exStateLeft : GenAVLTree := ⟨2, exMemLeft⟩

/-- The tree `exStateLeft` holds. -/
def exTreeLeft : Tree := .node (.node .nil 1 10 0 .nil) 2 20 (-1) .nil

/-! ## A tree whose critical node lies below the root -/

/-- A memory with the entry 3 (payload 30) as root, its left child 2 (payload
20) with the left child 1 (payload 10), and its right child 4 (payload 40). -/
def exMemPath : Mem := fun a =>
  if a = 1 then ⟨10, 0, 0, 0⟩ else if a = 2 then ⟨20, -1, 0, 1⟩
  else if a = 3 then ⟨30, -1, 4, 2⟩ else if a = 4 then ⟨40, 0, 0, 0⟩ else ⟨0, 0, 0, 0⟩

/-- The tree header with root 3 over `exMemPath`. -/
def exStatePath : GenAVLTree := ⟨3, exMemPath⟩

/-- The tree `exStatePath` holds. -/
def exTreePath : Tree :=
  .node (.node (.node .nil 1 10 0 .nil) 2 20 (-1) .nil) 3 30 (-1) (.node .nil 4 40 0 .nil)

/-! ## What the free-key search stands for -/

/-- The keys of a tree that are greater than `n`, in order. -/
def Tree.keysAbove (K : Nat → Int) (n : Int) (t : Tree) : List Int :=
  (t.keys K).filter (fun k => decide (n < k))

/-- The keys still ahead of the free-key search whose stack holds the nodes of
`L`, top first: the key of each node, then the keys of its right subtree. -/
def pendingKeys (K : Nat → Int) : List (Nat × Nat × Tree) → List Int
  | [] => []
  | x :: L => K x.2.1 :: (x.2.2.keys K ++ pendingKeys K L)

/-- The stack of the free-key search holds the nodes of `L`, top first, each
with its payload and its right subtree as memory `m` has them. -/
def NFStack (K : Nat → Int) (m : Mem) (it : GENAVLSTACK) (L : List (Nat × Nat × Tree)) : Prop :=
  it.sp = L.length ∧ StackList it.stack (L.map (fun x => x.1)) ∧
    ∀ x ∈ L, (m x.1).data = x.2.1 ∧ TreeAt m (m x.1).right x.2.2 ∧ x.2.2.Sorted K

/-- The free-key search over the tree `T` stands at the pointer `p` with the
candidate `next`: the keys of `T` above `next` are those of the subtree at `p`
above `next`, followed by what the stack stands for. -/
def NFAt (K : Nat → Int) (m : Mem) (T : Tree) (it : GENAVLSTACK) (p : Nat) (next : Int) : Prop :=
  ∃ s L, TreeAt m p s ∧ s.Sorted K ∧ NFStack K m it L ∧
    s.keysAbove K next ++ pendingKeys K L = T.keysAbove K next

/-- The keys the candidate has passed since `start`, in cyclic order, are all
among `keys`: either the candidate has not wrapped, or it has and the keys
after `start` up to `hi` and from `lo` up to the candidate are. -/
def Covered (keys : List Int) (lo hi start next : Int) : Prop :=
  (start ≤ next ∧ ∀ k, start < k → k ≤ next → k ∈ keys) ∨
    (next < start ∧ (∀ k, start < k → k ≤ hi → k ∈ keys) ∧
      ∀ k, lo ≤ k → k ≤ next → k ∈ keys)

/-- What a result of the free-key search says about the keys of the tree.  A
result 1 comes with a key of the legal range that is not in the tree, provided
no key of the tree exceeds `hi`; a result 0 says that every key of the legal
range other than `start` is in the tree. -/
def NFResult (keys : List Int) (lo hi start : Int) (res : Nat × Int) : Prop :=
  (res.1 = 1 → (∀ k ∈ keys, k ≤ hi) → lo ≤ res.2 ∧ res.2 ≤ hi ∧ res.2 ∉ keys) ∧
    (res.1 = 0 → ∀ k, lo ≤ k → k ≤ hi → k ≠ start → k ∈ keys)

/-! ## Relocatable references: the null tests and the branching variants -/

/-- Source `offset_ptr::operator bool`: the stored offset is not the sentinel. -/
def offset_ptr_operator_bool (m_offset : Nat) : Bool := decide (m_offset ≠ 1)

/-- Source `offset_ptr::operator!`. -/
def offset_ptr_operator_not (m_offset : Nat) : Bool := decide (m_offset = 1)

/-- Source `offset_ptr::get`: the address the reference stored at `this_ptr`
stands for. -/
def offset_ptr_get (w this_ptr m_offset : Nat) : Nat :=
  offset_ptr_to_raw_pointer w this_ptr m_offset

/-- Source `operator==(const offset_ptr&, pointer)`: compares `get()` with the
pointer. -/
def offset_ptr_eq (w this_ptr m_offset pt2 : Nat) : Bool :=
  decide (offset_ptr_get w this_ptr m_offset = pt2)

/-- Source `offset_ptr_to_raw_pointer`, the branching variant of the header
(the text under `#ifndef OFFSET_PTR_BRANCHLESS_TO_PTR`). -/
def offset_ptr_to_raw_pointer_branching (w this_ptr offset : Nat) : Nat :=
  if offset = 1 then 0 else (this_ptr + offset) % 2 ^ w

/-- Source `offset_ptr_to_offset`, the branching variant of the header. -/
def offset_ptr_to_offset_branching (w ptr this_ptr : Nat) : Nat :=
  if ptr = 0 then 1 else usub w ptr this_ptr

/-- Source `offset_ptr_to_offset_from_other`, the branching variant of the
header. -/
def offset_ptr_to_offset_from_other_branching (w this_ptr other_ptr other_offset : Nat) : Nat :=
  if other_offset = 1 then 1 else (usub w other_ptr this_ptr + other_offset) % 2 ^ w

/-! ## What the leaf-first iterator leaves in a returned node -/

/-- The node `n`, which stood in the hole of the path `c` in the state `t`, has
its former parent recorded in the state `t1`: the parent `p` is in the field of
`n` through which `p` referred to `n`, the other field of `n` and that field of
`p` are null; a root has both fields null and the root of `t1` is null. -/
def ParentRecorded (t t1 : GenAVLTree) (c : Ctx) (n : Nat) : Prop :=
  match c with
  | [] => t.root = n ∧ (t1.mem n).left = 0 ∧ (t1.mem n).right = 0 ∧ t1.root = 0
  | .R _ p _ _ :: _ =>
    (t.mem p).right = n ∧ (t1.mem n).right = p ∧ (t1.mem n).left = 0 ∧ (t1.mem p).right = 0
  | .L p _ _ _ :: _ =>
    (t.mem p).left = n ∧ (t1.mem n).left = p ∧ (t1.mem n).right = 0 ∧ (t1.mem p).left = 0

/-- The state of the tree before the call number `j` of the leaf-first
iteration: the state given for the call 0, and otherwise the state the call
before left. -/
def lfBefore (K : Nat → Int) (fuel : Nat) : Nat → GENAVLSTACK → GenAVLTree → Option GenAVLTree
  | 0, _, t => some t
  | j + 1, it, t => (lfRun K fuel j it t).map (fun r => r.2.1)

/-! ## The cells of the path stack a deletion writes -/

/-- The indices of the path stack the first loop of `GenAVLTreeDelete` writes,
in the order of the stores: the cell `gasep` at every entry the search visits
(the stores `gasep->e`, `gasep->d` before `gasep++`). -/
def deleteSearchWrites (K : Nat → Int) (m : Mem) (key : Int) : Nat → Nat → Nat → List Nat
  | 0, _, _ => []
  | fuel + 1, gasep, gaepnext =>
    if gaepnext = 0 then []
    else
      let dir1 := Compare K m gaepnext key
      if dir1 > 0 then gasep :: deleteSearchWrites K m key fuel (gasep + 1) (m gaepnext).left
      else if dir1 < 0 then
        gasep :: deleteSearchWrites K m key fuel (gasep + 1) (m gaepnext).right
      else [gasep]

/-- The indices of the path stack the inner loop of the swap writes: the cell
`gasep` at every entry that has a right child. -/
def deletePredWrites (m : Mem) : Nat → Nat → Nat → List Nat
  | 0, _, _ => []
  | fuel + 1, gasep, gaepnext =>
    if (m gaepnext).right ≠ 0 then
      gasep :: deletePredWrites m fuel (gasep + 1) (m gaepnext).right
    else []

/-- The indices of the path stack the swap of `GenAVLTreeDelete` writes: the
cell `gasep` for the entry itself, the cells of the walk to the previous entry,
and the cell `savegasep` once more. -/
def deleteSwapWrites (fuel : Nat) (t : GenAVLTree) (gasep gaep : Nat) : List Nat :=
  if (t.mem gaep).right ≠ 0 ∧ (t.mem gaep).left ≠ 0 then
    gasep :: (deletePredWrites t.mem fuel (gasep + 1) (t.mem gaep).left ++ [gasep])
  else []

/-- The indices of the path stack a call of `GenAVLTreeDelete` writes: those of
the search, then those of the swap when the key is found. -/
def GenAVLTreeDeleteWrites (K : Nat → Int) (fuel : Nat) (t : GenAVLTree) (key : Int) :
    List Nat :=
  deleteSearchWrites K t.mem key fuel 0 t.root ++
    match deleteSearchLoop K t.mem key fuel (fun _ => ⟨0, 0⟩) 0 t.root 0 0 with
    | some (some (_, gasep, gaep)) => deleteSwapWrites fuel t gasep gaep
    | _ => []

/-! ## Theorems -/

/-! ## Basic facts about the logical tree -/

theorem Tree.sorted_node (K : Nat → Int) (l r : Tree) (a d : Nat) (b : Int) :
    (Tree.node l a d b r).Sorted K ↔
      l.Sorted K ∧ r.Sorted K ∧ (∀ x ∈ l.keys K, x < K d) ∧ (∀ y ∈ r.keys K, K d < y) := by
  unfold Tree.Sorted
  simp only [Tree.keys, List.pairwise_append, List.pairwise_cons, List.mem_cons]
  constructor
  · rintro ⟨hl, ⟨hr1, hr2⟩, h3⟩
    exact ⟨hl, hr2, fun x hx => h3 x hx _ (Or.inl rfl), hr1⟩
  · rintro ⟨hl, hr, h1, h2⟩
    refine ⟨hl, ⟨h2, hr⟩, ?_⟩
    intro x hx y hy
    rcases hy with rfl | hy
    · exact h1 x hx
    · exact lt_trans (h1 x hx) (h2 y hy)

theorem TreeAt.ne_zero {m : Mem} {p : Nat} {t : Tree} (h : TreeAt m p t) :
    ∀ a ∈ t.addrs, a ≠ 0 := by
  induction t generalizing p with
  | nil => intro a ha; simp [Tree.addrs] at ha
  | node l a d b r ihl ihr =>
    obtain ⟨-, ha0, -, -, hl, hr⟩ := h
    intro x hx
    simp only [Tree.addrs, List.mem_append, List.mem_cons] at hx
    rcases hx with hx | rfl | hx
    · exact ihl hl x hx
    · exact ha0
    · exact ihr hr x hx

theorem TreeAt.key_mem {K : Nat → Int} {m : Mem} {p : Nat} {t : Tree} (h : TreeAt m p t) :
    ∀ a ∈ t.addrs, Key K m a ∈ t.keys K := by
  induction t generalizing p with
  | nil => intro a ha; simp [Tree.addrs] at ha
  | node l a d b r ihl ihr =>
    obtain ⟨-, -, hd, -, hl, hr⟩ := h
    intro x hx
    simp only [Tree.addrs, List.mem_append, List.mem_cons] at hx
    simp only [Tree.keys, List.mem_append, List.mem_cons]
    rcases hx with hx | rfl | hx
    · exact Or.inl (ihl hl x hx)
    · exact Or.inr (Or.inl (by simp [Key, hd]))
    · exact Or.inr (Or.inr (ihr hr x hx))

theorem findLoop_spec (K : Nat → Int) (m : Mem) (key : Int) :
    ∀ (t : Tree) (p fuel : Nat), TreeAt m p t → t.Sorted K → t.height < fuel →
      ∃ r, findLoop K m key fuel p = some r ∧
        ((r ∈ t.addrs ∧ Key K m r = key) ∨ (r = 0 ∧ ∀ a ∈ t.addrs, Key K m a ≠ key)) := by
  intro t
  induction t with
  | nil =>
    intro p fuel h _ hf
    cases fuel with
    | zero => simp at hf
    | succ fuel =>
      simp only [TreeAt] at h
      subst h
      exact ⟨0, by simp [findLoop], Or.inr ⟨rfl, by simp [Tree.addrs]⟩⟩
  | node l a d b r ihl ihr =>
    intro p fuel h hs hf
    obtain ⟨rfl, ha0, hd, -, hl, hr⟩ := h
    rw [Tree.sorted_node] at hs
    obtain ⟨hsl, hsr, hlt, hgt⟩ := hs
    cases fuel with
    | zero => simp at hf
    | succ fuel =>
      simp only [Tree.height] at hf
      have hfl : l.height < fuel := by omega
      have hfr : r.height < fuel := by omega
      have hk : Key K m p = K d := by simp [Key, hd]
      have hL : ∀ x ∈ l.addrs, Key K m x < K d := fun x hx => hlt _ (hl.key_mem x hx)
      have hR : ∀ x ∈ r.addrs, K d < Key K m x := fun x hx => hgt _ (hr.key_mem x hx)
      simp only [findLoop, ha0, if_false, Compare, hk]
      by_cases h1 : K d < key
      · obtain ⟨res, he, hres⟩ := ihr _ fuel hr hsr hfr
        refine ⟨res, by simp [h1, he], ?_⟩
        rcases hres with ⟨hm, hkey⟩ | ⟨h0, hno⟩
        · exact Or.inl ⟨by simp [Tree.addrs, hm], hkey⟩
        · refine Or.inr ⟨h0, ?_⟩
          intro x hx
          simp only [Tree.addrs, List.mem_append, List.mem_cons] at hx
          rcases hx with hx | rfl | hx
          · have := hL x hx; omega
          · omega
          · exact hno x hx
      · by_cases h2 : key < K d
        · obtain ⟨res, he, hres⟩ := ihl _ fuel hl hsl hfl
          refine ⟨res, by simp [h1, h2, he], ?_⟩
          rcases hres with ⟨hm, hkey⟩ | ⟨h0, hno⟩
          · exact Or.inl ⟨by simp [Tree.addrs, hm], hkey⟩
          · refine Or.inr ⟨h0, ?_⟩
            intro x hx
            simp only [Tree.addrs, List.mem_append, List.mem_cons] at hx
            rcases hx with hx | rfl | hx
            · exact hno x hx
            · omega
            · have := hR x hx; omega
        · refine ⟨p, by simp [h1, h2], Or.inl ⟨by simp [Tree.addrs], ?_⟩⟩
          omega

theorem TreeAt.keys_map_key {K : Nat → Int} {m : Mem} {p : Nat} {t : Tree} (h : TreeAt m p t) :
    t.keys K = t.addrs.map (Key K m) := by
  induction t generalizing p with
  | nil => rfl
  | node l a d b r ihl ihr =>
    obtain ⟨-, -, hd, -, hl, hr⟩ := h
    simp [Tree.keys, Tree.addrs, ihl hl, ihr hr, Key, hd]

theorem TreeAt.key_inj {K : Nat → Int} {m : Mem} {p : Nat} {t : Tree} (h : TreeAt m p t)
    (hs : t.Sorted K) {x y : Nat} (hx : x ∈ t.addrs) (hy : y ∈ t.addrs)
    (hxy : Key K m x = Key K m y) : x = y := by
  unfold Tree.Sorted at hs
  rw [h.keys_map_key, List.pairwise_map] at hs
  have hne : t.addrs.Pairwise (fun u v => Key K m u ≠ Key K m v) :=
    hs.imp (fun hlt => ne_of_lt hlt)
  by_contra hc
  exact hne.forall (fun u v huv => huv.symm) hx hy hc hxy

theorem TreeAt.nodup {K : Nat → Int} {m : Mem} {p : Nat} {t : Tree} (h : TreeAt m p t)
    (hs : t.Sorted K) : t.addrs.Nodup := by
  unfold Tree.Sorted at hs
  rw [h.keys_map_key, List.pairwise_map] at hs
  exact hs.imp (fun hlt heq => by simp [heq] at hlt)

theorem nextLoop_spec (K : Nat → Int) (m : Mem) (key : Int) :
    ∀ (t : Tree) (p fuel next : Nat), TreeAt m p t → t.Sorted K → t.height < fuel →
      ∃ r, nextLoop K m key fuel next p = some r ∧
        ((r ∈ t.addrs ∧ key < Key K m r ∧
            ∀ a ∈ t.addrs, key < Key K m a → Key K m r ≤ Key K m a) ∨
          (r = next ∧ ∀ a ∈ t.addrs, Key K m a ≤ key)) := by
  intro t
  induction t with
  | nil =>
    intro p fuel next h _ hf
    cases fuel with
    | zero => simp at hf
    | succ fuel =>
      simp only [TreeAt] at h
      subst h
      exact ⟨next, by simp [nextLoop], Or.inr ⟨rfl, by simp [Tree.addrs]⟩⟩
  | node l a d b r ihl ihr =>
    intro p fuel next h hs hf
    obtain ⟨rfl, ha0, hd, -, hl, hr⟩ := h
    rw [Tree.sorted_node] at hs
    obtain ⟨hsl, hsr, hlt, hgt⟩ := hs
    cases fuel with
    | zero => simp at hf
    | succ fuel =>
      simp only [Tree.height] at hf
      have hfl : l.height < fuel := by omega
      have hfr : r.height < fuel := by omega
      have hk : Key K m p = K d := by simp [Key, hd]
      have hL : ∀ x ∈ l.addrs, Key K m x < K d := fun x hx => hlt _ (hl.key_mem x hx)
      have hR : ∀ x ∈ r.addrs, K d < Key K m x := fun x hx => hgt _ (hr.key_mem x hx)
      simp only [nextLoop, ha0, if_false, Compare, hk]
      by_cases h2 : key < K d
      · have h1 : ¬ K d < key := by omega
        obtain ⟨res, he, hres⟩ := ihl _ fuel p hl hsl hfl
        refine ⟨res, by simp [h1, h2, he], Or.inl ?_⟩
        rcases hres with ⟨hm, hkey, hleast⟩ | ⟨h0, hno⟩
        · refine ⟨by simp [Tree.addrs, hm], hkey, ?_⟩
          intro x hx hxk
          simp only [Tree.addrs, List.mem_append, List.mem_cons] at hx
          rcases hx with hx | rfl | hx
          · exact hleast x hx hxk
          · have := hL res hm; omega
          · have := hL res hm; have := hR x hx; omega
        · subst h0
          refine ⟨by simp [Tree.addrs], by omega, ?_⟩
          intro x hx hxk
          simp only [Tree.addrs, List.mem_append, List.mem_cons] at hx
          rcases hx with hx | rfl | hx
          · have := hno x hx; omega
          · exact le_refl _
          · have := hR x hx; omega
      · obtain ⟨res, he, hres⟩ := ihr _ fuel next hr hsr hfr
        refine ⟨res, ?_, ?_⟩
        · by_cases h1 : K d < key <;> simp [h1, h2, he]
        rcases hres with ⟨hm, hkey, hleast⟩ | ⟨h0, hno⟩
        · refine Or.inl ⟨by simp [Tree.addrs, hm], hkey, ?_⟩
          intro x hx hxk
          simp only [Tree.addrs, List.mem_append, List.mem_cons] at hx
          rcases hx with hx | rfl | hx
          · have := hL x hx; omega
          · omega
          · exact hleast x hx hxk
        · refine Or.inr ⟨h0, ?_⟩
          intro x hx
          simp only [Tree.addrs, List.mem_append, List.mem_cons] at hx
          rcases hx with hx | rfl | hx
          · have := hL x hx; omega
          · omega
          · exact hno x hx

theorem prevLoop_spec (K : Nat → Int) (m : Mem) (key : Int) :
    ∀ (t : Tree) (p fuel prev : Nat), TreeAt m p t → t.Sorted K → t.height < fuel →
      ∃ r, prevLoop K m key fuel prev p = some r ∧
        ((r ∈ t.addrs ∧ Key K m r < key ∧
            ∀ a ∈ t.addrs, Key K m a < key → Key K m a ≤ Key K m r) ∨
          (r = prev ∧ ∀ a ∈ t.addrs, key ≤ Key K m a)) := by
  intro t
  induction t with
  | nil =>
    intro p fuel prev h _ hf
    cases fuel with
    | zero => simp at hf
    | succ fuel =>
      simp only [TreeAt] at h
      subst h
      exact ⟨prev, by simp [prevLoop], Or.inr ⟨rfl, by simp [Tree.addrs]⟩⟩
  | node l a d b r ihl ihr =>
    intro p fuel prev h hs hf
    obtain ⟨rfl, ha0, hd, -, hl, hr⟩ := h
    rw [Tree.sorted_node] at hs
    obtain ⟨hsl, hsr, hlt, hgt⟩ := hs
    cases fuel with
    | zero => simp at hf
    | succ fuel =>
      simp only [Tree.height] at hf
      have hfl : l.height < fuel := by omega
      have hfr : r.height < fuel := by omega
      have hk : Key K m p = K d := by simp [Key, hd]
      have hL : ∀ x ∈ l.addrs, Key K m x < K d := fun x hx => hlt _ (hl.key_mem x hx)
      have hR : ∀ x ∈ r.addrs, K d < Key K m x := fun x hx => hgt _ (hr.key_mem x hx)
      simp only [prevLoop, ha0, if_false, Compare, hk]
      by_cases h1 : K d < key
      · obtain ⟨res, he, hres⟩ := ihr _ fuel p hr hsr hfr
        refine ⟨res, by simp [h1, he], Or.inl ?_⟩
        rcases hres with ⟨hm, hkey, hmost⟩ | ⟨h0, hno⟩
        · refine ⟨by simp [Tree.addrs, hm], hkey, ?_⟩
          intro x hx hxk
          simp only [Tree.addrs, List.mem_append, List.mem_cons] at hx
          rcases hx with hx | rfl | hx
          · have := hR res hm; have := hL x hx; omega
          · have := hR res hm; omega
          · exact hmost x hx hxk
        · subst h0
          refine ⟨by simp [Tree.addrs], by omega, ?_⟩
          intro x hx hxk
          simp only [Tree.addrs, List.mem_append, List.mem_cons] at hx
          rcases hx with hx | rfl | hx
          · have := hL x hx; omega
          · exact le_refl _
          · have := hno x hx; omega
      · obtain ⟨res, he, hres⟩ := ihl _ fuel prev hl hsl hfl
        refine ⟨res, ?_, ?_⟩
        · by_cases h2 : key < K d <;> simp [h1, h2, he]
        rcases hres with ⟨hm, hkey, hmost⟩ | ⟨h0, hno⟩
        · refine Or.inl ⟨by simp [Tree.addrs, hm], hkey, ?_⟩
          intro x hx hxk
          simp only [Tree.addrs, List.mem_append, List.mem_cons] at hx
          rcases hx with hx | rfl | hx
          · exact hmost x hx hxk
          · omega
          · have := hR x hx; omega
        · refine Or.inr ⟨h0, ?_⟩
          intro x hx
          simp only [Tree.addrs, List.mem_append, List.mem_cons] at hx
          rcases hx with hx | rfl | hx
          · exact hno x hx
          · omega
          · have := hR x hx; omega

theorem equalNextLoop_spec (K : Nat → Int) (m : Mem) (key : Int) :
    ∀ (t : Tree) (p fuel next : Nat), TreeAt m p t → t.Sorted K → t.height < fuel →
      ∃ r, equalNextLoop K m key fuel next p = some r ∧
        ((r ∈ t.addrs ∧ Key K m r = key) ∨
          ((∀ a ∈ t.addrs, Key K m a ≠ key) ∧ nextLoop K m key fuel next p = some r)) := by
  intro t
  induction t with
  | nil =>
    intro p fuel next h _ hf
    cases fuel with
    | zero => simp at hf
    | succ fuel =>
      simp only [TreeAt] at h
      subst h
      exact ⟨next, by simp [equalNextLoop], Or.inr ⟨by simp [Tree.addrs], by simp [nextLoop]⟩⟩
  | node l a d b r ihl ihr =>
    intro p fuel next h hs hf
    obtain ⟨rfl, ha0, hd, -, hl, hr⟩ := h
    rw [Tree.sorted_node] at hs
    obtain ⟨hsl, hsr, hlt, hgt⟩ := hs
    cases fuel with
    | zero => simp at hf
    | succ fuel =>
      simp only [Tree.height] at hf
      have hfl : l.height < fuel := by omega
      have hfr : r.height < fuel := by omega
      have hk : Key K m p = K d := by simp [Key, hd]
      have hL : ∀ x ∈ l.addrs, Key K m x < K d := fun x hx => hlt _ (hl.key_mem x hx)
      have hR : ∀ x ∈ r.addrs, K d < Key K m x := fun x hx => hgt _ (hr.key_mem x hx)
      simp only [equalNextLoop, nextLoop, ha0, if_false, Compare, hk]
      by_cases h1 : K d < key
      · have h2 : ¬ key < K d := by omega
        obtain ⟨res, he, hres⟩ := ihr _ fuel next hr hsr hfr
        refine ⟨res, by simp [h1, he], ?_⟩
        rcases hres with ⟨hm, hkey⟩ | ⟨hno, hnx⟩
        · exact Or.inl ⟨by simp [Tree.addrs, hm], hkey⟩
        · refine Or.inr ⟨?_, by simp [h1, hnx]⟩
          intro x hx
          simp only [Tree.addrs, List.mem_append, List.mem_cons] at hx
          rcases hx with hx | rfl | hx
          · have := hL x hx; omega
          · omega
          · exact hno x hx
      · by_cases h2 : key < K d
        · obtain ⟨res, he, hres⟩ := ihl _ fuel p hl hsl hfl
          refine ⟨res, by simp [h1, h2, he], ?_⟩
          rcases hres with ⟨hm, hkey⟩ | ⟨hno, hnx⟩
          · exact Or.inl ⟨by simp [Tree.addrs, hm], hkey⟩
          · refine Or.inr ⟨?_, by simp [h1, h2, hnx]⟩
            intro x hx
            simp only [Tree.addrs, List.mem_append, List.mem_cons] at hx
            rcases hx with hx | rfl | hx
            · exact hno x hx
            · omega
            · have := hR x hx; omega
        · refine ⟨p, by simp [h1, h2], Or.inl ⟨by simp [Tree.addrs], ?_⟩⟩
          omega

theorem equalPrevLoop_spec (K : Nat → Int) (m : Mem) (key : Int) :
    ∀ (t : Tree) (p fuel prev : Nat), TreeAt m p t → t.Sorted K → t.height < fuel →
      ∃ r, equalPrevLoop K m key fuel prev p = some r ∧
        ((r ∈ t.addrs ∧ Key K m r = key) ∨
          ((∀ a ∈ t.addrs, Key K m a ≠ key) ∧ prevLoop K m key fuel prev p = some r)) := by
  intro t
  induction t with
  | nil =>
    intro p fuel prev h _ hf
    cases fuel with
    | zero => simp at hf
    | succ fuel =>
      simp only [TreeAt] at h
      subst h
      exact ⟨prev, by simp [equalPrevLoop], Or.inr ⟨by simp [Tree.addrs], by simp [prevLoop]⟩⟩
  | node l a d b r ihl ihr =>
    intro p fuel prev h hs hf
    obtain ⟨rfl, ha0, hd, -, hl, hr⟩ := h
    rw [Tree.sorted_node] at hs
    obtain ⟨hsl, hsr, hlt, hgt⟩ := hs
    cases fuel with
    | zero => simp at hf
    | succ fuel =>
      simp only [Tree.height] at hf
      have hfl : l.height < fuel := by omega
      have hfr : r.height < fuel := by omega
      have hk : Key K m p = K d := by simp [Key, hd]
      have hL : ∀ x ∈ l.addrs, Key K m x < K d := fun x hx => hlt _ (hl.key_mem x hx)
      have hR : ∀ x ∈ r.addrs, K d < Key K m x := fun x hx => hgt _ (hr.key_mem x hx)
      simp only [equalPrevLoop, prevLoop, ha0, if_false, Compare, hk]
      by_cases h1 : K d < key
      · obtain ⟨res, he, hres⟩ := ihr _ fuel p hr hsr hfr
        refine ⟨res, by simp [h1, he], ?_⟩
        rcases hres with ⟨hm, hkey⟩ | ⟨hno, hnx⟩
        · exact Or.inl ⟨by simp [Tree.addrs, hm], hkey⟩
        · refine Or.inr ⟨?_, by simp [h1, hnx]⟩
          intro x hx
          simp only [Tree.addrs, List.mem_append, List.mem_cons] at hx
          rcases hx with hx | rfl | hx
          · have := hL x hx; omega
          · omega
          · exact hno x hx
      · by_cases h2 : key < K d
        · obtain ⟨res, he, hres⟩ := ihl _ fuel prev hl hsl hfl
          refine ⟨res, by simp [h1, h2, he], ?_⟩
          rcases hres with ⟨hm, hkey⟩ | ⟨hno, hnx⟩
          · exact Or.inl ⟨by simp [Tree.addrs, hm], hkey⟩
          · refine Or.inr ⟨?_, by simp [h1, h2, hnx]⟩
            intro x hx
            simp only [Tree.addrs, List.mem_append, List.mem_cons] at hx
            rcases hx with hx | rfl | hx
            · exact hno x hx
            · omega
            · have := hR x hx; omega
        · refine ⟨p, by simp [h1, h2], Or.inl ⟨by simp [Tree.addrs], ?_⟩⟩
          omega

/-! ## Stores -/

@[simp] theorem wrLeft_data (m : Mem) (e v a : Nat) : (wrLeft m e v a).data = (m a).data := by
  unfold wrLeft; by_cases h : a = e <;> simp [Function.update, h]

@[simp] theorem wrLeft_balance (m : Mem) (e v a : Nat) :
    (wrLeft m e v a).balance = (m a).balance := by
  unfold wrLeft; by_cases h : a = e <;> simp [Function.update, h]

@[simp] theorem wrLeft_right (m : Mem) (e v a : Nat) : (wrLeft m e v a).right = (m a).right := by
  unfold wrLeft; by_cases h : a = e <;> simp [Function.update, h]

theorem wrLeft_left (m : Mem) (e v a : Nat) :
    (wrLeft m e v a).left = if a = e then v else (m a).left := by
  unfold wrLeft; by_cases h : a = e <;> simp [Function.update, h]

@[simp] theorem wrLeft_left_same (m : Mem) (e v : Nat) : (wrLeft m e v e).left = v := by
  simp [wrLeft_left]

@[simp] theorem wrLeft_other (m : Mem) (e v a : Nat) (h : a ≠ e) : wrLeft m e v a = m a := by
  unfold wrLeft; simp [Function.update, h]

@[simp] theorem wrRight_data (m : Mem) (e v a : Nat) : (wrRight m e v a).data = (m a).data := by
  unfold wrRight; by_cases h : a = e <;> simp [Function.update, h]

@[simp] theorem wrRight_balance (m : Mem) (e v a : Nat) :
    (wrRight m e v a).balance = (m a).balance := by
  unfold wrRight; by_cases h : a = e <;> simp [Function.update, h]

@[simp] theorem wrRight_left (m : Mem) (e v a : Nat) : (wrRight m e v a).left = (m a).left := by
  unfold wrRight; by_cases h : a = e <;> simp [Function.update, h]

theorem wrRight_right (m : Mem) (e v a : Nat) :
    (wrRight m e v a).right = if a = e then v else (m a).right := by
  unfold wrRight; by_cases h : a = e <;> simp [Function.update, h]

@[simp] theorem wrRight_right_same (m : Mem) (e v : Nat) : (wrRight m e v e).right = v := by
  simp [wrRight_right]

@[simp] theorem wrRight_other (m : Mem) (e v a : Nat) (h : a ≠ e) : wrRight m e v a = m a := by
  unfold wrRight; simp [Function.update, h]

@[simp] theorem wrBalance_data (m : Mem) (e : Nat) (v : Int) (a : Nat) :
    (wrBalance m e v a).data = (m a).data := by
  unfold wrBalance; by_cases h : a = e <;> simp [Function.update, h]

@[simp] theorem wrBalance_left (m : Mem) (e : Nat) (v : Int) (a : Nat) :
    (wrBalance m e v a).left = (m a).left := by
  unfold wrBalance; by_cases h : a = e <;> simp [Function.update, h]

@[simp] theorem wrBalance_right (m : Mem) (e : Nat) (v : Int) (a : Nat) :
    (wrBalance m e v a).right = (m a).right := by
  unfold wrBalance; by_cases h : a = e <;> simp [Function.update, h]

theorem wrBalance_balance (m : Mem) (e : Nat) (v : Int) (a : Nat) :
    (wrBalance m e v a).balance = if a = e then v else (m a).balance := by
  unfold wrBalance; by_cases h : a = e <;> simp [Function.update, h]

@[simp] theorem wrBalance_balance_same (m : Mem) (e : Nat) (v : Int) :
    (wrBalance m e v e).balance = v := by
  simp [wrBalance_balance]

@[simp] theorem wrBalance_other (m : Mem) (e : Nat) (v : Int) (a : Nat) (h : a ≠ e) :
    wrBalance m e v a = m a := by
  unfold wrBalance; simp [Function.update, h]

/-! ## `set` and `val` -/

theorem val_set (t : GenAVLTree) (g : Nat) (dir : Int) (v : Nat) :
    val (set t g dir v) g dir = v := by
  unfold val set
  by_cases hg : g = 0
  · simp [hg]
  · by_cases hd : dir < 0 <;> simp [hg, hd]

theorem set_mem_other (t : GenAVLTree) (g : Nat) (dir : Int) (v a : Nat) (h : a ≠ g) :
    (set t g dir v).mem a = t.mem a := by
  unfold set
  by_cases hg : g = 0
  · simp [hg]
  · by_cases hd : dir < 0 <;> simp [hg, hd, h]

@[simp] theorem set_mem_data (t : GenAVLTree) (g : Nat) (dir : Int) (v a : Nat) :
    ((set t g dir v).mem a).data = (t.mem a).data := by
  unfold set
  by_cases hg : g = 0
  · simp [hg]
  · by_cases hd : dir < 0 <;> simp [hg, hd]

@[simp] theorem set_mem_balance (t : GenAVLTree) (g : Nat) (dir : Int) (v a : Nat) :
    ((set t g dir v).mem a).balance = (t.mem a).balance := by
  unfold set
  by_cases hg : g = 0
  · simp [hg]
  · by_cases hd : dir < 0 <;> simp [hg, hd]

theorem set_root (t : GenAVLTree) (g : Nat) (dir : Int) (v : Nat) (hg : g ≠ 0) :
    (set t g dir v).root = t.root := by
  unfold set
  by_cases hd : dir < 0 <;> simp [hg, hd]

theorem set_mem_zero (t : GenAVLTree) (dir : Int) (v : Nat) : (set t 0 dir v).mem = t.mem := by
  simp [set]

theorem set_root_zero (t : GenAVLTree) (dir : Int) (v : Nat) : (set t 0 dir v).root = v := by
  simp [set]

theorem set_mem_left_neg (t : GenAVLTree) (g : Nat) (dir : Int) (v : Nat) (hg : g ≠ 0)
    (hd : dir < 0) : (set t g dir v).mem = wrLeft t.mem g v := by
  simp [set, hg, hd]

theorem set_mem_right_pos (t : GenAVLTree) (g : Nat) (dir : Int) (v : Nat) (hg : g ≠ 0)
    (hd : 0 < dir) : (set t g dir v).mem = wrRight t.mem g v := by
  have : ¬ dir < 0 := by omega
  simp [set, hg, this]

/-! ## Memory holding a tree -/

theorem TreeAt.congr {m m' : Mem} {p : Nat} {t : Tree} (h : TreeAt m p t)
    (hm : ∀ a ∈ t.addrs, m' a = m a) : TreeAt m' p t := by
  induction t generalizing p with
  | nil => exact h
  | node l a d b r ihl ihr =>
    obtain ⟨hp, ha0, hd, hb, hl, hr⟩ := h
    have hma : m' a = m a := hm a (by simp [Tree.addrs])
    refine ⟨hp, ha0, by rw [hma]; exact hd, by rw [hma]; exact hb, ?_, ?_⟩
    · rw [hma]
      exact ihl hl (fun x hx => hm x (by simp [Tree.addrs, hx]))
    · rw [hma]
      exact ihr hr (fun x hx => hm x (by simp [Tree.addrs, hx]))

theorem TreeAt.ptr_ne_zero {m : Mem} {p : Nat} {l r : Tree} {a d : Nat} {b : Int}
    (h : TreeAt m p (.node l a d b r)) : p = a ∧ a ≠ 0 := ⟨h.1, h.2.1⟩

theorem TreeAt.nil_iff {m : Mem} {p : Nat} {t : Tree} (h : TreeAt m p t) :
    p = 0 ↔ t = .nil := by
  cases t with
  | nil => simp [TreeAt] at h; simp [h]
  | node l a d b r =>
    obtain ⟨hp, ha0, -⟩ := h
    simp [hp, ha0]

/-- Two trees held at the same pointer of the same memory are equal. -/
theorem TreeAt.unique {m : Mem} {p : Nat} {t t' : Tree} (h : TreeAt m p t)
    (h' : TreeAt m p t') : t = t' := by
  induction t generalizing p t' with
  | nil =>
    cases t' with
    | nil => rfl
    | node l a d b r =>
      simp only [TreeAt] at h
      obtain ⟨hp, ha0, -⟩ := h'
      omega
  | node l a d b r ihl ihr =>
    cases t' with
    | nil =>
      simp only [TreeAt] at h'
      obtain ⟨hp, ha0, -⟩ := h
      omega
    | node l' a' d' b' r' =>
      obtain ⟨hp, -, hd, hb, hl, hr⟩ := h
      obtain ⟨hp', -, hd', hb', hl', hr'⟩ := h'
      have ha : a = a' := by omega
      subst ha
      rw [ihl hl hl', ihr hr hr', ← hd, ← hb, hd', hb']

/-! ## Contexts -/

theorem plug_append (c1 c2 : Ctx) (t : Tree) : plug (c1 ++ c2) t = plug c2 (plug c1 t) := by
  induction c1 generalizing t with
  | nil => rfl
  | cons f c ih => simp [plug, ih]

theorem Tree.addrs_eq_map (t : Tree) : t.addrs = t.entries.map Prod.fst := by
  induction t with
  | nil => rfl
  | node l a d b r ihl ihr => simp [Tree.addrs, Tree.entries, ihl, ihr]

theorem Tree.keys_eq_map (K : Nat → Int) (t : Tree) :
    t.keys K = t.entries.map (fun e => K e.2) := by
  induction t with
  | nil => rfl
  | node l a d b r ihl ihr => simp [Tree.keys, Tree.entries, ihl, ihr]

theorem entries_plug (c : Ctx) (t : Tree) :
    (plug c t).entries = ctxBefore c ++ t.entries ++ ctxAfter c := by
  induction c generalizing t with
  | nil => simp [plug, ctxBefore, ctxAfter]
  | cons f c ih =>
    cases f with
    | L a d b r => simp [plug, ctxBefore, ctxAfter, ih, Frame.fill, Tree.entries]
    | R l a d b => simp [plug, ctxBefore, ctxAfter, ih, Frame.fill, Tree.entries]

theorem mem_addrs_plug (c : Ctx) (t : Tree) (a : Nat) :
    a ∈ (plug c t).addrs ↔ a ∈ t.addrs ∨ a ∈ ctxAddrs c := by
  simp only [Tree.addrs_eq_map, entries_plug, ctxAddrs, List.map_append, List.mem_append]
  tauto

theorem nodup_plug (c : Ctx) (t : Tree) :
    (plug c t).addrs.Nodup ↔
      t.addrs.Nodup ∧ (ctxAddrs c).Nodup ∧ ∀ a ∈ t.addrs, a ∉ ctxAddrs c := by
  have hp : (plug c t).addrs.Perm (t.addrs ++ ctxAddrs c) := by
    simp only [Tree.addrs_eq_map, entries_plug, ctxAddrs, List.map_append]
    rw [List.append_assoc]
    exact List.perm_append_comm_assoc _ _ _
  rw [hp.nodup_iff, List.nodup_append]
  constructor
  · rintro ⟨h1, h2, h3⟩
    exact ⟨h1, h2, fun a ha hc => h3 ha hc⟩
  · rintro ⟨h1, h2, h3⟩
    exact ⟨h1, h2, fun a ha hc => h3 a ha hc⟩

theorem ctxAddrs_cons_L (a d : Nat) (b : Int) (r : Tree) (c : Ctx) (x : Nat) :
    x ∈ ctxAddrs (.L a d b r :: c) ↔ x = a ∨ x ∈ r.addrs ∨ x ∈ ctxAddrs c := by
  simp only [ctxAddrs, ctxBefore, ctxAfter, Tree.addrs_eq_map, List.map_append, List.mem_append,
    List.map_cons, List.mem_cons, List.cons_append]
  tauto

theorem ctxAddrs_cons_R (l : Tree) (a d : Nat) (b : Int) (c : Ctx) (x : Nat) :
    x ∈ ctxAddrs (.R l a d b :: c) ↔ x = a ∨ x ∈ l.addrs ∨ x ∈ ctxAddrs c := by
  simp only [ctxAddrs, ctxBefore, ctxAfter, Tree.addrs_eq_map, List.map_append, List.mem_append,
    List.map_cons, List.mem_cons, List.map_nil, List.mem_singleton]
  tauto

theorem ctxAddrs_cons (f : Frame) (c : Ctx) (x : Nat) :
    x ∈ ctxAddrs (f :: c) ↔ x = f.addr ∨ x ∈ f.sib.addrs ∨ x ∈ ctxAddrs c := by
  cases f with
  | L a d b r => exact ctxAddrs_cons_L a d b r c x
  | R l a d b => exact ctxAddrs_cons_R l a d b c x

theorem ctxAddrs_nil (x : Nat) : x ∉ ctxAddrs [] := by
  simp [ctxAddrs, ctxBefore, ctxAfter]

/-- The hole of a context holds the subtree put into it. -/
theorem TreeAt.hole {m : Mem} {p : Nat} {c : Ctx} {s : Tree} (h : TreeAt m p (plug c s)) :
    TreeAt m (holePtr m p c) s := by
  induction c generalizing s with
  | nil => exact h
  | cons f c ih =>
    have h1 := ih (s := f.fill s) h
    cases f with
    | L a d b r =>
      obtain ⟨-, -, -, -, hl, -⟩ := h1
      exact hl
    | R l a d b =>
      obtain ⟨-, -, -, -, -, hr⟩ := h1
      exact hr

/-- What memory holds for the innermost frame of a context. -/
theorem TreeAt.frame {m : Mem} {p : Nat} {f : Frame} {c : Ctx} {s : Tree}
    (h : TreeAt m p (plug (f :: c) s)) :
    holePtr m p c = f.addr ∧ f.addr ≠ 0 ∧ TreeAt m (f.sibPtr m) f.sib := by
  have h1 : TreeAt m (holePtr m p c) (f.fill s) := TreeAt.hole (c := c) h
  cases f with
  | L a d b r =>
    obtain ⟨hp, ha, -, -, -, hr⟩ := h1
    exact ⟨hp, ha, hr⟩
  | R l a d b =>
    obtain ⟨hp, ha, -, -, hl, -⟩ := h1
    exact ⟨hp, ha, hl⟩

theorem slotAddr_ne_zero {m : Mem} {p : Nat} {c : Ctx} {s : Tree} (h : TreeAt m p (plug c s))
    (hc : c ≠ []) : slotAddr c ≠ 0 := by
  cases c with
  | nil => exact absurd rfl hc
  | cons f c => exact (TreeAt.frame h).2.1

theorem val_eq_holePtr {t : GenAVLTree} {c : Ctx} {s : Tree} {dir : Int}
    (h : TreeAt t.mem t.root (plug c s)) (hd : SlotDir c dir) :
    val t (slotAddr c) dir = holePtr t.mem t.root c := by
  cases c with
  | nil => simp [val, slotAddr, holePtr]
  | cons f c =>
    have ha := (TreeAt.frame h).2.1
    cases f with
    | L a d b r =>
      simp only [SlotDir, Frame.DirOK] at hd
      simp only [Frame.addr] at ha
      simp [val, slotAddr, holePtr, Frame.addr, ha, hd]
    | R l a d b =>
      simp only [SlotDir, Frame.DirOK] at hd
      simp only [Frame.addr] at ha
      have : ¬ dir < 0 := by omega
      simp [val, slotAddr, holePtr, Frame.addr, ha, this]

/-- Replacing the content of the hole while the context stays as it is. -/
theorem TreeAt.replace {m m' : Mem} {p : Nat} {c : Ctx} {s s' : Tree}
    (h : TreeAt m p (plug c s)) (hm : ∀ a ∈ ctxAddrs c, m' a = m a)
    (hs : TreeAt m' (holePtr m p c) s') : TreeAt m' p (plug c s') := by
  induction c generalizing s s' with
  | nil => exact hs
  | cons f c ih =>
    have hfr := TreeAt.frame h
    have h1 : TreeAt m (holePtr m p c) (f.fill s) := TreeAt.hole (c := c) h
    have hmf : m' f.addr = m f.addr := hm _ ((ctxAddrs_cons f c _).2 (Or.inl rfl))
    have hsib : TreeAt m' (f.sibPtr m) f.sib :=
      hfr.2.2.congr (fun a ha => hm a ((ctxAddrs_cons f c a).2 (Or.inr (Or.inl ha))))
    refine @ih (f.fill s) (f.fill s') h
      (fun a ha => hm a ((ctxAddrs_cons f c a).2 (Or.inr (Or.inr ha)))) ?_
    cases f with
    | L a d b r =>
      obtain ⟨hp, ha, hd, hb, -, -⟩ := h1
      simp only [Frame.addr] at hmf
      simp only [Frame.sibPtr, Frame.sib] at hsib
      simp only [holePtr] at hs
      exact ⟨hp, ha, by rw [hmf]; exact hd, by rw [hmf]; exact hb, by rw [hmf]; exact hs,
        by rw [hmf]; exact hsib⟩
    | R l a d b =>
      obtain ⟨hp, ha, hd, hb, -, -⟩ := h1
      simp only [Frame.addr] at hmf
      simp only [Frame.sibPtr, Frame.sib] at hsib
      simp only [holePtr] at hs
      exact ⟨hp, ha, by rw [hmf]; exact hd, by rw [hmf]; exact hb, by rw [hmf]; exact hsib,
        by rw [hmf]; exact hs⟩

/-- Replacing the content of the hole together with the pointer held in it. -/
theorem TreeAt.replace_slot {t t' : GenAVLTree} {c : Ctx} {s s' : Tree} {dir : Int}
    (h : TreeAt t.mem t.root (plug c s)) (hnd : (ctxAddrs c).Nodup) (hd : SlotDir c dir)
    (hm : ∀ a ∈ ctxAddrs c, a ≠ slotAddr c → t'.mem a = t.mem a)
    (hroot : c ≠ [] → t'.root = t.root)
    (hf : ∀ f ∈ c.head?, (t'.mem f.addr).data = (t.mem f.addr).data ∧
      (t'.mem f.addr).balance = (t.mem f.addr).balance ∧ f.sibPtr t'.mem = f.sibPtr t.mem)
    (hs : TreeAt t'.mem (val t' (slotAddr c) dir) s') :
    TreeAt t'.mem t'.root (plug c s') := by
  cases c with
  | nil => simpa [val, slotAddr, plug] using hs
  | cons f c =>
    have hfr := TreeAt.frame h
    have h1 : TreeAt t.mem (holePtr t.mem t.root c) (f.fill s) := TreeAt.hole (c := c) h
    obtain ⟨hfd, hfb, hfs⟩ := hf f (by simp)
    have hr : t'.root = t.root := hroot (by simp)
    have hndf : f.addr ∉ f.sib.addrs ∧ f.addr ∉ ctxAddrs c := by
      cases f with
      | L a d b r =>
        simp only [ctxAddrs, ctxBefore, ctxAfter, List.map_append, List.map_cons,
          List.cons_append] at hnd
        have h2 := List.nodup_middle.1 hnd
        rw [List.nodup_cons] at h2
        simp only [Frame.addr, Frame.sib, ctxAddrs, Tree.addrs_eq_map, List.map_append] 
        have h3 := h2.1
        simp only [List.mem_append, not_or] at h3 ⊢
        tauto
      | R l a d b =>
        simp only [ctxAddrs, ctxBefore, ctxAfter, List.map_append, List.map_cons,
          List.map_nil] at hnd
        have hnd2 : (List.map Prod.fst (ctxBefore c) ++ List.map Prod.fst l.entries ++
            a :: List.map Prod.fst (ctxAfter c)).Nodup := by
          simpa [List.append_assoc] using hnd
        have h2 := List.nodup_middle.1 hnd2
        rw [List.nodup_cons] at h2
        simp only [Frame.addr, Frame.sib, ctxAddrs, Tree.addrs_eq_map, List.map_append]
        have h3 := h2.1
        simp only [List.mem_append, not_or] at h3 ⊢
        tauto
    have hsib : TreeAt t'.mem (f.sibPtr t.mem) f.sib :=
      hfr.2.2.congr (fun a ha => hm a ((ctxAddrs_cons f c a).2 (Or.inr (Or.inl ha)))
        (by rintro rfl; exact hndf.1 ha))
    have hm' : ∀ a ∈ ctxAddrs c, t'.mem a = t.mem a := fun a ha =>
      hm a ((ctxAddrs_cons f c a).2 (Or.inr (Or.inr ha))) (by rintro rfl; exact hndf.2 ha)
    rw [hr]
    refine @TreeAt.replace _ _ _ _ (f.fill s) (f.fill s') h hm' ?_
    rw [← hfs] at hsib
    cases f with
    | L a d b r =>
      obtain ⟨hp, ha, hd1, hb1, -, -⟩ := h1
      simp only [SlotDir, Frame.DirOK] at hd
      simp only [Frame.addr] at hfd hfb
      simp only [val, slotAddr, Frame.addr, ne_eq, ha, not_false_eq_true, if_true, hd] at hs
      exact ⟨hp, ha, by rw [hfd]; exact hd1, by rw [hfb]; exact hb1, hs, hsib⟩
    | R l a d b =>
      obtain ⟨hp, ha, hd1, hb1, -, -⟩ := h1
      simp only [SlotDir, Frame.DirOK] at hd
      have hd' : ¬ dir < 0 := by omega
      simp only [Frame.addr] at hfd hfb
      simp only [val, slotAddr, Frame.addr, ne_eq, ha, not_false_eq_true, if_true, hd',
        if_false] at hs
      exact ⟨hp, ha, by rw [hfd]; exact hd1, by rw [hfb]; exact hb1, hsib, hs⟩

theorem slotAddr_mem_ctxAddrs {c : Ctx} (hc : c ≠ []) : slotAddr c ∈ ctxAddrs c := by
  cases c with
  | nil => exact absurd rfl hc
  | cons f c => exact (ctxAddrs_cons f c _).2 (Or.inl rfl)

theorem set_mem_congr (t1 t2 : GenAVLTree) (g : Nat) (dir : Int) (v a : Nat)
    (h : t1.mem a = t2.mem a) : (set t1 g dir v).mem a = (set t2 g dir v).mem a := by
  unfold set
  by_cases hg : g = 0
  · simp [hg, h]
  · by_cases hd : dir < 0
    · simp only [ne_eq, hg, not_false_eq_true, if_true, hd]
      by_cases ha : a = g
      · subst ha; simp [wrLeft, h]
      · simp [ha, h]
    · simp only [ne_eq, hg, not_false_eq_true, if_true, hd, if_false]
      by_cases ha : a = g
      · subst ha; simp [wrRight, h]
      · simp [ha, h]

theorem val_congr (t1 t2 : GenAVLTree) (g : Nat) (dir : Int) (hr : t1.root = t2.root)
    (hm : t1.mem g = t2.mem g) : val t1 g dir = val t2 g dir := by
  unfold val
  simp [hr, hm]

theorem set_sibPtr (t : GenAVLTree) (f : Frame) (dir : Int) (v : Nat) (hd : f.DirOK dir)
    (ha : f.addr ≠ 0) : f.sibPtr (set t f.addr dir v).mem = f.sibPtr t.mem := by
  cases f with
  | L a d b r =>
    simp only [Frame.DirOK] at hd
    simp only [Frame.addr] at ha
    simp [Frame.sibPtr, set, Frame.addr, ha, hd]
  | R l a d b =>
    simp only [Frame.DirOK] at hd
    simp only [Frame.addr] at ha
    have : ¬ dir < 0 := by omega
    simp [Frame.sibPtr, set, Frame.addr, ha, this]

/-- A rewrite of the subtree in the hole of a context: memory changes inside
the subtree, and the hole takes the pointer `p'`. -/
theorem TreeAt.rewrite {t t' : GenAVLTree} {c : Ctx} {s s' : Tree} {dir : Int} {p' : Nat}
    (h : TreeAt t.mem t.root (plug c s)) (hnd : (plug c s).addrs.Nodup) (hd : SlotDir c dir)
    (hroot : t'.root = (set t (slotAddr c) dir p').root)
    (hout : ∀ a, a ∉ s.addrs → t'.mem a = (set t (slotAddr c) dir p').mem a)
    (hs : TreeAt t'.mem p' s') :
    TreeAt t'.mem t'.root (plug c s') ∧ ∀ a, a ∉ (plug c s).addrs → t'.mem a = t.mem a := by
  obtain ⟨-, hndc, hdisj⟩ := (nodup_plug c s).1 hnd
  have hgS : c ≠ [] → slotAddr c ∉ s.addrs := fun hc hin =>
    hdisj _ hin (slotAddr_mem_ctxAddrs hc)
  have hg0 : c ≠ [] → slotAddr c ≠ 0 := slotAddr_ne_zero h
  have hctx : ∀ a ∈ ctxAddrs c, a ∉ s.addrs := fun a ha hin => hdisj a hin ha
  constructor
  · refine TreeAt.replace_slot h hndc hd ?_ ?_ ?_ ?_
    · intro a ha hne
      rw [hout a (hctx a ha), set_mem_other _ _ _ _ _ hne]
    · intro hc
      rw [hroot, set_root _ _ _ _ (hg0 hc)]
    · intro f hf
      cases c with
      | nil => simp at hf
      | cons f' c =>
        simp only [List.head?_cons, Option.mem_def, Option.some.injEq] at hf
        subst hf
        have hne : (f' :: c) ≠ [] := by simp
        have hmg := hout _ (hgS hne)
        simp only [slotAddr] at hmg
        refine ⟨by rw [hmg]; simp, by rw [hmg]; simp, ?_⟩
        have h0 := hg0 hne
        simp only [slotAddr] at h0
        have h2 := set_sibPtr t f' dir p' hd h0
        cases f' with
        | L a d b r => simp only [Frame.sibPtr, Frame.addr] at h2 hmg ⊢; rw [hmg, h2]
        | R l a d b => simp only [Frame.sibPtr, Frame.addr] at h2 hmg ⊢; rw [hmg, h2]
    · have hv : val t' (slotAddr c) dir = p' := by
        rw [← val_set t (slotAddr c) dir p']
        by_cases hc : c = []
        · subst hc
          simp [val, slotAddr, hroot]
        · exact val_congr _ _ _ _ hroot (hout _ (hgS hc))
      rw [hv]
      exact hs
  · intro a ha
    rw [mem_addrs_plug] at ha
    have h1 : a ∉ s.addrs := fun hin => ha (Or.inl hin)
    have h2 : a ∉ ctxAddrs c := fun hin => ha (Or.inr hin)
    rw [hout a h1]
    by_cases hc : c = []
    · subst hc
      simp [slotAddr, set]
    · exact set_mem_other _ _ _ _ _ (fun he => h2 (he ▸ slotAddr_mem_ctxAddrs hc))

/-- The slot of a context is no node of the subtree in its hole. -/
theorem slot_not_mem {m : Mem} {p : Nat} {c : Ctx} {s : Tree} (h : TreeAt m p (plug c s))
    (hnd : (plug c s).addrs.Nodup) : slotAddr c ∉ s.addrs := by
  intro hin
  by_cases hc : c = []
  · subst hc
    exact (TreeAt.hole h).ne_zero _ hin rfl
  · exact ((nodup_plug c s).1 hnd).2.2 _ hin (slotAddr_mem_ctxAddrs hc)

theorem shiftleft_spec {t : GenAVLTree} {c : Ctx} {dir : Int} {l rl rr : Tree}
    {x dx z dz : Nat} {bx bz : Int}
    (h : TreeAt t.mem t.root (plug c (.node l x dx bx (.node rl z dz bz rr))))
    (hnd : (plug c (.node l x dx bx (.node rl z dz bz rr))).addrs.Nodup)
    (hd : SlotDir c dir) :
    TreeAt (shiftleft t (slotAddr c) dir).mem (shiftleft t (slotAddr c) dir).root
        (plug c (Tree.rotLeft (.node l x dx bx (.node rl z dz bz rr)))) ∧
      ∀ a, a ∉ (plug c (.node l x dx bx (.node rl z dz bz rr))).addrs →
        (shiftleft t (slotAddr c) dir).mem a = t.mem a := by
  have hv := val_eq_holePtr h hd
  have hh := TreeAt.hole h
  have hg := slot_not_mem h hnd
  obtain ⟨hndS, -, -⟩ := (nodup_plug c _).1 hnd
  obtain ⟨hp, hx0, hdx, hbx, hl, hp2, hz0, hdz, hbz, hrl, hrr⟩ := hh
  rw [← hv] at hp
  simp only [Tree.addrs, List.mem_append, List.mem_cons, not_or] at hg
  obtain ⟨hgl, hgx, hgrl, hgz, hgrr⟩ := hg
  simp only [Tree.addrs, List.nodup_append, List.nodup_cons, List.mem_append, List.mem_cons,
    not_or, List.disjoint_left] at hndS
  obtain ⟨hndl, ⟨⟨hxrl, hxz, hxrr⟩, hndrl, ⟨hzrr, hndrr⟩, hdrl⟩, hdl⟩ := hndS
  have hxl : x ∉ l.addrs := fun hin => (hdl hin).1 rfl
  have hzl : z ∉ l.addrs := fun hin => (hdl hin).2.2.1 rfl
  have hzrl : z ∉ rl.addrs := fun hin => (hdrl hin).1 rfl
  have key : ∀ a, a ≠ x → a ≠ z →
      (shiftleft t (slotAddr c) dir).mem a = (set t (slotAddr c) dir z).mem a := by
    intro a hax haz
    simp only [shiftleft, hp, hp2]
    split_ifs <;> simp [hax, haz] <;> exact set_mem_congr _ _ _ _ _ _ (by simp [hax, haz])
  have sub : ∀ (q : Nat) (s : Tree), TreeAt t.mem q s → x ∉ s.addrs → z ∉ s.addrs →
      slotAddr c ∉ s.addrs → TreeAt (shiftleft t (slotAddr c) dir).mem q s := by
    intro q s hs h1 h2 h3
    refine hs.congr (fun a ha => ?_)
    rw [key a (fun e => h1 (e ▸ ha)) (fun e => h2 (e ▸ ha))]
    exact set_mem_other _ _ _ _ _ (fun e => h3 (e ▸ ha))
  refine @TreeAt.rewrite _ _ _ _ _ _ z h hnd hd ?_ ?_ ?_
  · simp only [shiftleft, hp, hp2]
    by_cases hc : slotAddr c = 0
    · simp [set, hc]
    · simp [set_root _ _ _ _ hc]
  · intro a ha
    simp only [Tree.addrs, List.mem_append, List.mem_cons, not_or] at ha
    exact key a ha.2.1 ha.2.2.2.1
  · have hzx : z ≠ x := fun e => hxz e.symm
    have hmx : (set { root := t.root, mem := wrLeft (wrRight t.mem x (t.mem z).left) z x }
        (slotAddr c) dir z).mem x = wrLeft (wrRight t.mem x (t.mem z).left) z x x :=
      set_mem_other _ _ _ _ _ (fun e => hgx e.symm)
    have hmz : (set { root := t.root, mem := wrLeft (wrRight t.mem x (t.mem z).left) z x }
        (slotAddr c) dir z).mem z = wrLeft (wrRight t.mem x (t.mem z).left) z x z :=
      set_mem_other _ _ _ _ _ (fun e => hgz e.symm)
    have hL := sub _ _ hl hxl hzl hgl
    have hRL := sub _ _ hrl hxrl hzrl hgrl
    have hRR := sub _ _ hrr hxrr hzrr hgrr
    have e1 : ((shiftleft t (slotAddr c) dir).mem z).left = x := by
      simp only [shiftleft, hp, hp2]
      split_ifs <;> simp [hzx, hmz]
    have e2 : ((shiftleft t (slotAddr c) dir).mem z).right = (t.mem z).right := by
      simp only [shiftleft, hp, hp2]
      split_ifs <;> simp [hzx, hmz]
    have e3 : ((shiftleft t (slotAddr c) dir).mem x).left = (t.mem x).left := by
      simp only [shiftleft, hp, hp2]
      split_ifs <;> simp [hxz, hmx]
    have e4 : ((shiftleft t (slotAddr c) dir).mem x).right = (t.mem z).left := by
      simp only [shiftleft, hp, hp2]
      split_ifs <;> simp [hxz, hmx]
    have e5 : ((shiftleft t (slotAddr c) dir).mem z).data = dz := by
      simp only [shiftleft, hp, hp2]
      split_ifs <;> simp [hdz]
    have e6 : ((shiftleft t (slotAddr c) dir).mem x).data = dx := by
      simp only [shiftleft, hp, hp2]
      split_ifs <;> simp [hdx]
    have e7 : ((shiftleft t (slotAddr c) dir).mem z).balance = if bz = 1 then 0 else -1 := by
      simp only [shiftleft, hp, hp2]
      simp only [set_mem_balance, wrLeft_balance, wrRight_balance, hbz]
      split_ifs <;> simp [wrBalance_balance, hzx]
    have e8 : ((shiftleft t (slotAddr c) dir).mem x).balance = if bz = 1 then 0 else 1 := by
      simp only [shiftleft, hp, hp2]
      simp only [set_mem_balance, wrLeft_balance, wrRight_balance, hbz]
      split_ifs <;> simp [wrBalance_balance, hzx]
    simp only [Tree.rotLeft]
    split_ifs with hb
    · refine ⟨rfl, hz0, e5, by simp [e7, hb], ?_, by rw [e2]; exact hRR⟩
      rw [e1]
      exact ⟨rfl, hx0, e6, by simp [e8, hb], by rw [e3]; exact hL, by rw [e4]; exact hRL⟩
    · refine ⟨rfl, hz0, e5, by simp [e7, hb], ?_, by rw [e2]; exact hRR⟩
      rw [e1]
      exact ⟨rfl, hx0, e6, by simp [e8, hb], by rw [e3]; exact hL, by rw [e4]; exact hRL⟩

theorem Tree.nodup_node {l r : Tree} {a d : Nat} {b : Int} :
    (Tree.node l a d b r).addrs.Nodup ↔
      l.addrs.Nodup ∧ r.addrs.Nodup ∧ a ∉ l.addrs ∧ a ∉ r.addrs ∧
        ∀ x ∈ l.addrs, x ∉ r.addrs := by
  simp only [Tree.addrs, List.nodup_append, List.nodup_cons, List.disjoint_left, List.mem_cons,
    not_or]
  constructor
  · rintro ⟨h1, ⟨h2, h3⟩, h4⟩
    exact ⟨h1, h3, fun hin => (h4 hin).1 rfl, h2, fun x hx => (h4 hx).2⟩
  · rintro ⟨h1, h2, h3, h4, h5⟩
    exact ⟨h1, ⟨h4, h2⟩, fun x hx => ⟨fun e => h3 (e ▸ hx), h5 x hx⟩⟩

theorem Tree.mem_node {l r : Tree} {a d : Nat} {b : Int} {x : Nat} :
    x ∈ (Tree.node l a d b r).addrs ↔ x ∈ l.addrs ∨ x = a ∨ x ∈ r.addrs := by
  simp [Tree.addrs]

theorem shiftright_spec {t : GenAVLTree} {c : Ctx} {dir : Int} {ll lr r : Tree}
    {x dx z dz : Nat} {bx bz : Int}
    (h : TreeAt t.mem t.root (plug c (.node (.node ll z dz bz lr) x dx bx r)))
    (hnd : (plug c (.node (.node ll z dz bz lr) x dx bx r)).addrs.Nodup)
    (hd : SlotDir c dir) :
    TreeAt (shiftright t (slotAddr c) dir).mem (shiftright t (slotAddr c) dir).root
        (plug c (Tree.rotRight (.node (.node ll z dz bz lr) x dx bx r))) ∧
      ∀ a, a ∉ (plug c (.node (.node ll z dz bz lr) x dx bx r)).addrs →
        (shiftright t (slotAddr c) dir).mem a = t.mem a := by
  have hv := val_eq_holePtr h hd
  have hh := TreeAt.hole h
  have hg := slot_not_mem h hnd
  obtain ⟨hndS, -, -⟩ := (nodup_plug c _).1 hnd
  obtain ⟨hp, hx0, hdx, hbx, ⟨hp2, hz0, hdz, hbz, hll, hlr⟩, hr⟩ := hh
  rw [← hv] at hp
  simp only [Tree.mem_node, not_or] at hg
  obtain ⟨⟨hgll, hgz, hglr⟩, hgx, hgr⟩ := hg
  obtain ⟨hndL, -, hxL, hxr, hLr⟩ := Tree.nodup_node.1 hndS
  obtain ⟨-, -, hzll, hzlr, -⟩ := Tree.nodup_node.1 hndL
  simp only [Tree.mem_node, not_or] at hxL
  obtain ⟨hxll, hxz, hxlr⟩ := hxL
  have hzr : z ∉ r.addrs := hLr z (by simp [Tree.mem_node])
  have hzx : z ≠ x := fun e => hxz e.symm
  have key : ∀ a, a ≠ x → a ≠ z →
      (shiftright t (slotAddr c) dir).mem a = (set t (slotAddr c) dir z).mem a := by
    intro a hax haz
    simp only [shiftright, hp, hp2]
    split_ifs <;> simp [hax, haz] <;> exact set_mem_congr _ _ _ _ _ _ (by simp [hax, haz])
  have sub : ∀ (q : Nat) (s : Tree), TreeAt t.mem q s → x ∉ s.addrs → z ∉ s.addrs →
      slotAddr c ∉ s.addrs → TreeAt (shiftright t (slotAddr c) dir).mem q s := by
    intro q s hs h1 h2 h3
    refine hs.congr (fun a ha => ?_)
    rw [key a (fun e => h1 (e ▸ ha)) (fun e => h2 (e ▸ ha))]
    exact set_mem_other _ _ _ _ _ (fun e => h3 (e ▸ ha))
  refine @TreeAt.rewrite _ _ _ _ _ _ z h hnd hd ?_ ?_ ?_
  · simp only [shiftright, hp, hp2]
    by_cases hc : slotAddr c = 0
    · simp [set, hc]
    · simp [set_root _ _ _ _ hc]
  · intro a ha
    simp only [Tree.mem_node, not_or] at ha
    exact key a ha.2.1 ha.1.2.1
  · have hmx : (set { root := t.root, mem := wrRight (wrLeft t.mem x (t.mem z).right) z x }
        (slotAddr c) dir z).mem x = wrRight (wrLeft t.mem x (t.mem z).right) z x x :=
      set_mem_other _ _ _ _ _ (fun e => hgx e.symm)
    have hmz : (set { root := t.root, mem := wrRight (wrLeft t.mem x (t.mem z).right) z x }
        (slotAddr c) dir z).mem z = wrRight (wrLeft t.mem x (t.mem z).right) z x z :=
      set_mem_other _ _ _ _ _ (fun e => hgz e.symm)
    have hLL := sub _ _ hll hxll hzll hgll
    have hLR := sub _ _ hlr hxlr hzlr hglr
    have hR := sub _ _ hr hxr hzr hgr
    have e1 : ((shiftright t (slotAddr c) dir).mem z).right = x := by
      simp only [shiftright, hp, hp2]
      split_ifs <;> simp [hzx, hmz]
    have e2 : ((shiftright t (slotAddr c) dir).mem z).left = (t.mem z).left := by
      simp only [shiftright, hp, hp2]
      split_ifs <;> simp [hzx, hmz]
    have e3 : ((shiftright t (slotAddr c) dir).mem x).right = (t.mem x).right := by
      simp only [shiftright, hp, hp2]
      split_ifs <;> simp [hxz, hmx]
    have e4 : ((shiftright t (slotAddr c) dir).mem x).left = (t.mem z).right := by
      simp only [shiftright, hp, hp2]
      split_ifs <;> simp [hxz, hmx]
    have e5 : ((shiftright t (slotAddr c) dir).mem z).data = dz := by
      simp only [shiftright, hp, hp2]
      split_ifs <;> simp [hdz]
    have e6 : ((shiftright t (slotAddr c) dir).mem x).data = dx := by
      simp only [shiftright, hp, hp2]
      split_ifs <;> simp [hdx]
    have e7 : ((shiftright t (slotAddr c) dir).mem z).balance = if bz = -1 then 0 else 1 := by
      simp only [shiftright, hp, hp2]
      simp only [set_mem_balance, wrLeft_balance, wrRight_balance, hbz]
      split_ifs <;> simp [wrBalance_balance, hzx]
    have e8 : ((shiftright t (slotAddr c) dir).mem x).balance = if bz = -1 then 0 else -1 := by
      simp only [shiftright, hp, hp2]
      simp only [set_mem_balance, wrLeft_balance, wrRight_balance, hbz]
      split_ifs <;> simp [wrBalance_balance, hzx]
    simp only [Tree.rotRight]
    split_ifs with hb
    · refine ⟨rfl, hz0, e5, by simp [e7, hb], by rw [e2]; exact hLL, ?_⟩
      rw [e1]
      exact ⟨rfl, hx0, e6, by simp [e8, hb], by rw [e4]; exact hLR, by rw [e3]; exact hR⟩
    · refine ⟨rfl, hz0, e5, by simp [e7, hb], by rw [e2]; exact hLL, ?_⟩
      rw [e1]
      exact ⟨rfl, hx0, e6, by simp [e8, hb], by rw [e4]; exact hLR, by rw [e3]; exact hR⟩

theorem shiftdblleft_spec {t : GenAVLTree} {c : Ctx} {dir : Int} {l yl yr rr : Tree}
    {x dx y dy z dz : Nat} {bx bY bz : Int}
    (h : TreeAt t.mem t.root
      (plug c (.node l x dx bx (.node (.node yl y dy bY yr) z dz bz rr))))
    (hnd : (plug c (.node l x dx bx (.node (.node yl y dy bY yr) z dz bz rr))).addrs.Nodup)
    (hd : SlotDir c dir) :
    TreeAt (shiftdblleft t (slotAddr c) dir).mem (shiftdblleft t (slotAddr c) dir).root
        (plug c (Tree.rotDblLeft (.node l x dx bx (.node (.node yl y dy bY yr) z dz bz rr)))) ∧
      ∀ a, a ∉ (plug c (.node l x dx bx (.node (.node yl y dy bY yr) z dz bz rr))).addrs →
        (shiftdblleft t (slotAddr c) dir).mem a = t.mem a := by
  have hv := val_eq_holePtr h hd
  have hh := TreeAt.hole h
  have hg := slot_not_mem h hnd
  obtain ⟨hndS, -, -⟩ := (nodup_plug c _).1 hnd
  obtain ⟨hp, hx0, hdx, hbx, hl, hp2, hz0, hdz, hbz, ⟨hp3, hy0, hdy, hbY, hyl, hyr⟩, hrr⟩ := hh
  rw [← hv] at hp
  simp only [Tree.mem_node, not_or] at hg
  obtain ⟨hgl, hgx, ⟨hgyl, hgy, hgyr⟩, hgz, hgrr⟩ := hg
  obtain ⟨-, hndR, hxl, hxR, hlR⟩ := Tree.nodup_node.1 hndS
  obtain ⟨hndY, -, hzY, hzrr, hYrr⟩ := Tree.nodup_node.1 hndR
  obtain ⟨-, -, hyyl, hyyr, -⟩ := Tree.nodup_node.1 hndY
  simp only [Tree.mem_node, not_or] at hxR hzY
  obtain ⟨⟨hxyl, hxy, hxyr⟩, hxz, hxrr⟩ := hxR
  obtain ⟨hzyl, hzy, hzyr⟩ := hzY
  have hyl' : y ∉ l.addrs := fun hin => hlR y hin (by simp [Tree.mem_node])
  have hzl : z ∉ l.addrs := fun hin => hlR z hin (by simp [Tree.mem_node])
  have hyrr : y ∉ rr.addrs := hYrr y (by simp [Tree.mem_node])
  have hyx : y ≠ x := fun e => hxy e.symm
  have hzx : z ≠ x := fun e => hxz e.symm
  have hyz : y ≠ z := fun e => hzy e.symm
  have key : ∀ a, a ≠ x → a ≠ y → a ≠ z →
      (shiftdblleft t (slotAddr c) dir).mem a = (set t (slotAddr c) dir y).mem a := by
    intro a hax hay haz
    simp only [shiftdblleft, hp, hp2, hp3]
    refine set_mem_congr _ _ _ _ _ _ ?_
    split_ifs <;> simp [hax, hay, haz]
  have sub : ∀ (q : Nat) (s : Tree), TreeAt t.mem q s → x ∉ s.addrs → y ∉ s.addrs →
      z ∉ s.addrs → slotAddr c ∉ s.addrs → TreeAt (shiftdblleft t (slotAddr c) dir).mem q s := by
    intro q s hs h1 h2 h3 h4
    refine hs.congr (fun a ha => ?_)
    rw [key a (fun e => h1 (e ▸ ha)) (fun e => h2 (e ▸ ha)) (fun e => h3 (e ▸ ha))]
    exact set_mem_other _ _ _ _ _ (fun e => h4 (e ▸ ha))
  refine @TreeAt.rewrite _ _ _ _ _ _ y h hnd hd ?_ ?_ ?_
  · simp only [shiftdblleft, hp, hp2, hp3]
    by_cases hc : slotAddr c = 0
    · simp [set, hc]
    · simp [set_root _ _ _ _ hc]
  · intro a ha
    simp only [Tree.mem_node, not_or] at ha
    exact key a ha.2.1 ha.2.2.1.2.1 ha.2.2.2.1
  · have hL := sub _ _ hl hxl hyl' hzl hgl
    have hYL := sub _ _ hyl hxyl hyyl hzyl hgyl
    have hYR := sub _ _ hyr hxyr hyyr hzyr hgyr
    have hRR := sub _ _ hrr hxrr hyrr hzrr hgrr
    have hsx : ∀ tt : GenAVLTree, (set tt (slotAddr c) dir y).mem x = tt.mem x :=
      fun tt => set_mem_other _ _ _ _ _ (fun e => hgx e.symm)
    have hsy : ∀ tt : GenAVLTree, (set tt (slotAddr c) dir y).mem y = tt.mem y :=
      fun tt => set_mem_other _ _ _ _ _ (fun e => hgy e.symm)
    have hsz : ∀ tt : GenAVLTree, (set tt (slotAddr c) dir y).mem z = tt.mem z :=
      fun tt => set_mem_other _ _ _ _ _ (fun e => hgz e.symm)
    have e1 : ((shiftdblleft t (slotAddr c) dir).mem y).left = x := by
      simp only [shiftdblleft, hp, hp2, hp3, hsy]
      split_ifs <;> simp [wrLeft_left, wrRight_right, wrBalance_balance, hxy, hxz, hyx, hyz, hzx, hzy]
    have e2 : ((shiftdblleft t (slotAddr c) dir).mem y).right = z := by
      simp only [shiftdblleft, hp, hp2, hp3, hsy]
      split_ifs <;> simp [wrLeft_left, wrRight_right, wrBalance_balance, hxy, hxz, hyx, hyz, hzx, hzy]
    have e3 : ((shiftdblleft t (slotAddr c) dir).mem x).left = (t.mem x).left := by
      simp only [shiftdblleft, hp, hp2, hp3, hsx]
      split_ifs <;> simp [wrLeft_left, wrRight_right, wrBalance_balance, hxy, hxz, hyx, hyz, hzx, hzy]
    have e4 : ((shiftdblleft t (slotAddr c) dir).mem x).right = (t.mem y).left := by
      simp only [shiftdblleft, hp, hp2, hp3, hsx]
      split_ifs <;> simp [wrLeft_left, wrRight_right, wrBalance_balance, hxy, hxz, hyx, hyz, hzx, hzy]
    have e5 : ((shiftdblleft t (slotAddr c) dir).mem z).left = (t.mem y).right := by
      simp only [shiftdblleft, hp, hp2, hp3, hsz]
      split_ifs <;> simp [wrLeft_left, wrRight_right, wrBalance_balance, hxy, hxz, hyx, hyz, hzx, hzy]
    have e6 : ((shiftdblleft t (slotAddr c) dir).mem z).right = (t.mem z).right := by
      simp only [shiftdblleft, hp, hp2, hp3, hsz]
      split_ifs <;> simp [wrLeft_left, wrRight_right, wrBalance_balance, hxy, hxz, hyx, hyz, hzx, hzy]
    have d1 : ((shiftdblleft t (slotAddr c) dir).mem x).data = dx := by
      simp only [shiftdblleft, hp, hp2, hp3]; split_ifs <;> simp [hdx]
    have d2 : ((shiftdblleft t (slotAddr c) dir).mem y).data = dy := by
      simp only [shiftdblleft, hp, hp2, hp3]; split_ifs <;> simp [hdy]
    have d3 : ((shiftdblleft t (slotAddr c) dir).mem z).data = dz := by
      simp only [shiftdblleft, hp, hp2, hp3]; split_ifs <;> simp [hdz]
    have b2 : ((shiftdblleft t (slotAddr c) dir).mem y).balance = 0 := by
      simp only [shiftdblleft, hp, hp2, hp3]; split_ifs <;> simp
    have b1 : ((shiftdblleft t (slotAddr c) dir).mem x).balance =
        if bY = -1 then 0 else if bY = 1 then -1 else 0 := by
      simp only [shiftdblleft, hp, hp2, hp3]
      simp only [set_mem_balance, wrLeft_balance, wrRight_balance, hbY]
      split_ifs <;> simp [wrBalance_balance, hxy, hxz]
    have b3 : ((shiftdblleft t (slotAddr c) dir).mem z).balance =
        if bY = -1 then 1 else if bY = 1 then 0 else 0 := by
      simp only [shiftdblleft, hp, hp2, hp3]
      simp only [set_mem_balance, wrLeft_balance, wrRight_balance, hbY]
      split_ifs <;> simp [wrBalance_balance, hzy, hzx]
    have hX : ∀ b', b' = (if bY = -1 then (0 : Int) else if bY = 1 then -1 else 0) →
        TreeAt (shiftdblleft t (slotAddr c) dir).mem x (.node l x dx b' yl) := by
      intro b' hb'
      exact ⟨rfl, hx0, d1, by rw [b1, hb'], by rw [e3]; exact hL, by rw [e4]; exact hYL⟩
    have hZ : ∀ b', b' = (if bY = -1 then (1 : Int) else if bY = 1 then 0 else 0) →
        TreeAt (shiftdblleft t (slotAddr c) dir).mem z (.node yr z dz b' rr) := by
      intro b' hb'
      exact ⟨rfl, hz0, d3, by rw [b3, hb'], by rw [e5]; exact hYR, by rw [e6]; exact hRR⟩
    simp only [Tree.rotDblLeft]
    split_ifs with hb1 hb2
    · exact ⟨rfl, hy0, d2, b2, by rw [e1]; exact hX _ (by simp [hb1]),
        by rw [e2]; exact hZ _ (by simp [hb1])⟩
    · exact ⟨rfl, hy0, d2, b2, by rw [e1]; exact hX _ (by simp [hb1, hb2]),
        by rw [e2]; exact hZ _ (by simp [hb1, hb2])⟩
    · exact ⟨rfl, hy0, d2, b2, by rw [e1]; exact hX _ (by simp [hb1, hb2]),
        by rw [e2]; exact hZ _ (by simp [hb1, hb2])⟩

theorem shiftdblright_spec {t : GenAVLTree} {c : Ctx} {dir : Int} {ll yl yr r : Tree}
    {x dx y dy z dz : Nat} {bx bY bz : Int}
    (h : TreeAt t.mem t.root
      (plug c (.node (.node ll z dz bz (.node yl y dy bY yr)) x dx bx r)))
    (hnd : (plug c (.node (.node ll z dz bz (.node yl y dy bY yr)) x dx bx r)).addrs.Nodup)
    (hd : SlotDir c dir) :
    TreeAt (shiftdblright t (slotAddr c) dir).mem (shiftdblright t (slotAddr c) dir).root
        (plug c (Tree.rotDblRight (.node (.node ll z dz bz (.node yl y dy bY yr)) x dx bx r))) ∧
      ∀ a, a ∉ (plug c (.node (.node ll z dz bz (.node yl y dy bY yr)) x dx bx r)).addrs →
        (shiftdblright t (slotAddr c) dir).mem a = t.mem a := by
  have hv := val_eq_holePtr h hd
  have hh := TreeAt.hole h
  have hg := slot_not_mem h hnd
  obtain ⟨hndS, -, -⟩ := (nodup_plug c _).1 hnd
  obtain ⟨hp, hx0, hdx, hbx, ⟨hp2, hz0, hdz, hbz, hll, hp3, hy0, hdy, hbY, hyl, hyr⟩, hr⟩ := hh
  rw [← hv] at hp
  simp only [Tree.mem_node, not_or] at hg
  obtain ⟨⟨hgll, hgz, hgyl, hgy, hgyr⟩, hgx, hgr⟩ := hg
  obtain ⟨hndL, -, hxL, hxr, hLr⟩ := Tree.nodup_node.1 hndS
  obtain ⟨-, hndY, hzll, hzY, hllY⟩ := Tree.nodup_node.1 hndL
  obtain ⟨-, -, hyyl, hyyr, -⟩ := Tree.nodup_node.1 hndY
  simp only [Tree.mem_node, not_or] at hxL hzY
  obtain ⟨hxll, hxz, hxyl, hxy, hxyr⟩ := hxL
  obtain ⟨hzyl, hzy, hzyr⟩ := hzY
  have hyll : y ∉ ll.addrs := fun hin => hllY y hin (by simp [Tree.mem_node])
  have hzr : z ∉ r.addrs := hLr z (by simp [Tree.mem_node])
  have hyr' : y ∉ r.addrs := hLr y (by simp [Tree.mem_node])
  have hyx : y ≠ x := fun e => hxy e.symm
  have hzx : z ≠ x := fun e => hxz e.symm
  have hyz : y ≠ z := fun e => hzy e.symm
  have key : ∀ a, a ≠ x → a ≠ y → a ≠ z →
      (shiftdblright t (slotAddr c) dir).mem a = (set t (slotAddr c) dir y).mem a := by
    intro a hax hay haz
    simp only [shiftdblright, hp, hp2, hp3]
    refine set_mem_congr _ _ _ _ _ _ ?_
    split_ifs <;> simp [hax, hay, haz]
  have sub : ∀ (q : Nat) (s : Tree), TreeAt t.mem q s → x ∉ s.addrs → y ∉ s.addrs →
      z ∉ s.addrs → slotAddr c ∉ s.addrs →
      TreeAt (shiftdblright t (slotAddr c) dir).mem q s := by
    intro q s hs h1 h2 h3 h4
    refine hs.congr (fun a ha => ?_)
    rw [key a (fun e => h1 (e ▸ ha)) (fun e => h2 (e ▸ ha)) (fun e => h3 (e ▸ ha))]
    exact set_mem_other _ _ _ _ _ (fun e => h4 (e ▸ ha))
  refine @TreeAt.rewrite _ _ _ _ _ _ y h hnd hd ?_ ?_ ?_
  · simp only [shiftdblright, hp, hp2, hp3]
    by_cases hc : slotAddr c = 0
    · simp [set, hc]
    · simp [set_root _ _ _ _ hc]
  · intro a ha
    simp only [Tree.mem_node, not_or] at ha
    exact key a ha.2.1 ha.1.2.2.2.1 ha.1.2.1
  · have hLL := sub _ _ hll hxll hyll hzll hgll
    have hYL := sub _ _ hyl hxyl hyyl hzyl hgyl
    have hYR := sub _ _ hyr hxyr hyyr hzyr hgyr
    have hR := sub _ _ hr hxr hyr' hzr hgr
    have hsx : ∀ tt : GenAVLTree, (set tt (slotAddr c) dir y).mem x = tt.mem x :=
      fun tt => set_mem_other _ _ _ _ _ (fun e => hgx e.symm)
    have hsy : ∀ tt : GenAVLTree, (set tt (slotAddr c) dir y).mem y = tt.mem y :=
      fun tt => set_mem_other _ _ _ _ _ (fun e => hgy e.symm)
    have hsz : ∀ tt : GenAVLTree, (set tt (slotAddr c) dir y).mem z = tt.mem z :=
      fun tt => set_mem_other _ _ _ _ _ (fun e => hgz e.symm)
    have e1 : ((shiftdblright t (slotAddr c) dir).mem y).left = z := by
      simp only [shiftdblright, hp, hp2, hp3, hsy]
      split_ifs <;> simp [wrLeft_left, wrRight_right, wrBalance_balance, hxy, hxz, hyx, hyz, hzx, hzy]
    have e2 : ((shiftdblright t (slotAddr c) dir).mem y).right = x := by
      simp only [shiftdblright, hp, hp2, hp3, hsy]
      split_ifs <;> simp [wrLeft_left, wrRight_right, wrBalance_balance, hxy, hxz, hyx, hyz, hzx, hzy]
    have e3 : ((shiftdblright t (slotAddr c) dir).mem x).right = (t.mem x).right := by
      simp only [shiftdblright, hp, hp2, hp3, hsx]
      split_ifs <;> simp [wrLeft_left, wrRight_right, wrBalance_balance, hxy, hxz, hyx, hyz, hzx, hzy]
    have e4 : ((shiftdblright t (slotAddr c) dir).mem x).left = (t.mem y).right := by
      simp only [shiftdblright, hp, hp2, hp3, hsx]
      split_ifs <;> simp [wrLeft_left, wrRight_right, wrBalance_balance, hxy, hxz, hyx, hyz, hzx, hzy]
    have e5 : ((shiftdblright t (slotAddr c) dir).mem z).right = (t.mem y).left := by
      simp only [shiftdblright, hp, hp2, hp3, hsz]
      split_ifs <;> simp [wrLeft_left, wrRight_right, wrBalance_balance, hxy, hxz, hyx, hyz, hzx, hzy]
    have e6 : ((shiftdblright t (slotAddr c) dir).mem z).left = (t.mem z).left := by
      simp only [shiftdblright, hp, hp2, hp3, hsz]
      split_ifs <;> simp [wrLeft_left, wrRight_right, wrBalance_balance, hxy, hxz, hyx, hyz, hzx, hzy]
    have d1 : ((shiftdblright t (slotAddr c) dir).mem x).data = dx := by
      simp only [shiftdblright, hp, hp2, hp3]; split_ifs <;> simp [hdx]
    have d2 : ((shiftdblright t (slotAddr c) dir).mem y).data = dy := by
      simp only [shiftdblright, hp, hp2, hp3]; split_ifs <;> simp [hdy]
    have d3 : ((shiftdblright t (slotAddr c) dir).mem z).data = dz := by
      simp only [shiftdblright, hp, hp2, hp3]; split_ifs <;> simp [hdz]
    have b2 : ((shiftdblright t (slotAddr c) dir).mem y).balance = 0 := by
      simp only [shiftdblright, hp, hp2, hp3]; split_ifs <;> simp
    have b1 : ((shiftdblright t (slotAddr c) dir).mem x).balance =
        if bY = -1 then 1 else if bY = 1 then 0 else 0 := by
      simp only [shiftdblright, hp, hp2, hp3]
      simp only [set_mem_balance, wrLeft_balance, wrRight_balance, hbY]
      split_ifs <;> simp [wrBalance_balance, hxy, hxz]
    have b3 : ((shiftdblright t (slotAddr c) dir).mem z).balance =
        if bY = -1 then 0 else if bY = 1 then -1 else 0 := by
      simp only [shiftdblright, hp, hp2, hp3]
      simp only [set_mem_balance, wrLeft_balance, wrRight_balance, hbY]
      split_ifs <;> simp [wrBalance_balance, hzy, hzx]
    have hX : ∀ b', b' = (if bY = -1 then (1 : Int) else if bY = 1 then 0 else 0) →
        TreeAt (shiftdblright t (slotAddr c) dir).mem x (.node yr x dx b' r) := by
      intro b' hb'
      exact ⟨rfl, hx0, d1, by rw [b1, hb'], by rw [e4]; exact hYR, by rw [e3]; exact hR⟩
    have hZ : ∀ b', b' = (if bY = -1 then (0 : Int) else if bY = 1 then -1 else 0) →
        TreeAt (shiftdblright t (slotAddr c) dir).mem z (.node ll z dz b' yl) := by
      intro b' hb'
      exact ⟨rfl, hz0, d3, by rw [b3, hb'], by rw [e6]; exact hLL, by rw [e5]; exact hYL⟩
    simp only [Tree.rotDblRight]
    split_ifs with hb1 hb2
    · exact ⟨rfl, hy0, d2, b2, by rw [e1]; exact hZ _ (by simp [hb1]),
        by rw [e2]; exact hX _ (by simp [hb1])⟩
    · exact ⟨rfl, hy0, d2, b2, by rw [e1]; exact hZ _ (by simp [hb1, hb2]),
        by rw [e2]; exact hX _ (by simp [hb1, hb2])⟩
    · exact ⟨rfl, hy0, d2, b2, by rw [e1]; exact hZ _ (by simp [hb1, hb2]),
        by rw [e2]; exact hX _ (by simp [hb1, hb2])⟩

/-! ## Insertion: the search loop -/

@[simp] theorem Key_wrBalance (K : Nat → Int) (m : Mem) (e : Nat) (v : Int) (a : Nat) :
    Key K (wrBalance m e v) a = Key K m a := by simp [Key]

@[simp] theorem Key_wrLeft (K : Nat → Int) (m : Mem) (e v a : Nat) :
    Key K (wrLeft m e v) a = Key K m a := by simp [Key]

@[simp] theorem Key_wrRight (K : Nat → Int) (m : Mem) (e v a : Nat) :
    Key K (wrRight m e v) a = Key K m a := by simp [Key]

@[simp] theorem Key_set (K : Nat → Int) (t : GenAVLTree) (g : Nat) (dir : Int) (v a : Nat) :
    Key K (set t g dir v).mem a = Key K t.mem a := by simp [Key]

theorem Tree.plug_descend_nil (K : Nat → Int) (k : Int) (s : Tree) (c : Ctx) :
    plug (Tree.descend K k s c) .nil = plug c s := by
  induction s generalizing c with
  | nil => rfl
  | node l a d b r ihl ihr =>
    simp only [Tree.descend]
    split_ifs
    · rw [ihl]; rfl
    · rw [ihr]; rfl

theorem Tree.plug_descend_leaf (K : Nat → Int) (n dn : Nat) (s : Tree) (c : Ctx) :
    plug (Tree.descend K (K dn) s c) (Tree.leaf n dn) = plug c (Tree.insLeaf K n dn s) := by
  induction s generalizing c with
  | nil => rfl
  | node l a d b r ihl ihr =>
    simp only [Tree.descend, Tree.insLeaf]
    split_ifs
    · rw [ihl]; rfl
    · rw [ihr]; rfl

theorem Tree.plug_crit (K : Nat → Int) (k : Int) (s : Tree) (c : Ctx) :
    plug (Tree.crit K k s c).1 (Tree.crit K k s c).2 = plug c s := by
  induction s generalizing c with
  | nil => rfl
  | node l a d b r ihl ihr =>
    simp only [Tree.crit]
    split_ifs
    · rw [ihl]; rfl
    · rfl
    · rw [ihr]; rfl
    · rfl

theorem Tree.descend_crit (K : Nat → Int) (k : Int) (s : Tree) (c : Ctx) :
    Tree.descend K k (Tree.crit K k s c).2 (Tree.crit K k s c).1 = Tree.descend K k s c := by
  induction s generalizing c with
  | nil => rfl
  | node l a d b r ihl ihr =>
    simp only [Tree.crit]
    split_ifs with h1 h2 h3
    · rw [ihl]; simp [Tree.descend, h1]
    · rfl
    · rw [ihr]; simp [Tree.descend, h1]
    · rfl

/-- The search loop of `GenAVLTreeAdd` ends with a duplicate when the key is
in the tree. -/
theorem addSearchLoop_dup (K : Nat → Int) (m : Mem) (gae : Nat) :
    ∀ (s : Tree) (fuel p : Nat) (st : AddPoint), TreeAt m p s → s.Sorted K →
      Key K m gae ∈ s.keys K → s.height < fuel →
      addSearchLoop K m gae fuel p st = some none := by
  intro s
  induction s with
  | nil => intro fuel p st _ _ hk; simp [Tree.keys] at hk
  | node l a d b r ihl ihr =>
    intro fuel p st h hs hk hf
    obtain ⟨rfl, ha0, hd, -, hl, hr⟩ := h
    rw [Tree.sorted_node] at hs
    obtain ⟨hsl, hsr, hlt, hgt⟩ := hs
    cases fuel with
    | zero => simp at hf
    | succ fuel =>
      simp only [Tree.height] at hf
      have hfl : l.height < fuel := by omega
      have hfr : r.height < fuel := by omega
      have hkp : Key K m p = K d := by simp [Key, hd]
      simp only [Tree.keys, List.mem_append, List.mem_cons] at hk
      simp only [addSearchLoop, ha0, if_false, Compare, hkp]
      by_cases h1 : Key K m gae < K d
      · have hkl : Key K m gae ∈ l.keys K := by
          rcases hk with hk | hk | hk
          · exact hk
          · omega
          · have := hgt _ hk; omega
        simp only [h1, if_true]
        exact ihl _ _ _ hl hsl hkl hfl
      · by_cases h2 : K d < Key K m gae
        · have hkr : Key K m gae ∈ r.keys K := by
            rcases hk with hk | hk | hk
            · have := hlt _ hk; omega
            · omega
            · exact hk
          simp only [h1, h2, if_true, if_false]
          simp only [show ¬ ((1 : Int) < 0) by omega, show (1 : Int) > 0 by omega, if_true,
            if_false]
          exact ihr _ _ _ hr hsr hkr hfr
        · simp [h1, h2]

/-- The search loop of `GenAVLTreeAdd` for a new key ends at the place of the
new leaf, with the balance point recorded. -/
theorem addSearchLoop_spec (K : Nat → Int) (m : Mem) (gae : Nat) :
    ∀ (s : Tree) (c : Ctx) (fuel p : Nat) (st : AddPoint), TreeAt m p s →
      Key K m gae ∉ s.keys K → s.height < fuel →
      st.gaep = slotAddr c → SlotDir c st.dir → (st.gaep = 0 → c = [] ∧ st.balgaep = 0) →
      ∃ st', addSearchLoop K m gae fuel p st = some (some st') ∧
        st'.gaep = slotAddr (Tree.descend K (Key K m gae) s c) ∧
        SlotDir (Tree.descend K (Key K m gae) s c) st'.dir ∧
        (Tree.nz K (Key K m gae) s = true →
          st'.balgaep = slotAddr (Tree.crit K (Key K m gae) s c).1 ∧
          SlotDir (Tree.crit K (Key K m gae) s c).1 st'.baldir) ∧
        (Tree.nz K (Key K m gae) s = false →
          st'.balgaep = st.balgaep ∧ st'.baldir = st.baldir) := by
  intro s
  induction s with
  | nil =>
    intro c fuel p st h _ hf hg hd _
    cases fuel with
    | zero => simp at hf
    | succ fuel =>
      simp only [TreeAt] at h
      subst h
      exact ⟨st, by simp [addSearchLoop], by simpa [Tree.descend] using hg,
        by simpa [Tree.descend] using hd, by simp [Tree.nz], by simp⟩
  | node l a d b r ihl ihr =>
    intro c fuel p st h hk hf hg hd h0
    obtain ⟨rfl, ha0, hdat, hbal, hl, hr⟩ := h
    cases fuel with
    | zero => simp at hf
    | succ fuel =>
      simp only [Tree.height] at hf
      have hfl : l.height < fuel := by omega
      have hfr : r.height < fuel := by omega
      have hkp : Key K m p = K d := by simp [Key, hdat]
      simp only [Tree.keys, List.mem_append, List.mem_cons, not_or] at hk
      obtain ⟨hkl, hkd, hkr⟩ := hk
      -- the balance point after this node
      have hs1 : ∀ s1 : AddPoint,
          s1 = (if (m p).balance ≠ 0 ∧ st.gaep ≠ 0 then
            { st with balgaep := st.gaep, baldir := st.dir } else st) →
          (b ≠ 0 → s1.balgaep = slotAddr c ∧ SlotDir c s1.baldir) ∧
          (b = 0 → s1.balgaep = st.balgaep ∧ s1.baldir = st.baldir) := by
        intro s1 hs1
        rw [hbal] at hs1
        constructor
        · intro hb
          by_cases hg0 : st.gaep = 0
          · obtain ⟨hc, hb0⟩ := h0 hg0
            subst hc
            simp only [hg0, ne_eq, not_true_eq_false, and_false, if_false] at hs1
            subst hs1
            exact ⟨by simp [slotAddr, hb0], by simp [SlotDir]⟩
          · simp only [ne_eq, hb, not_false_eq_true, hg0, and_self, if_true] at hs1
            subst hs1
            exact ⟨hg, hd⟩
        · intro hb
          simp only [hb, ne_eq, not_true_eq_false, false_and, if_false] at hs1
          subst hs1
          exact ⟨rfl, rfl⟩
      simp only [addSearchLoop, ha0, if_false, Compare, hkp]
      by_cases h1 : Key K m gae < K d
      · simp only [h1, if_true, show ((-1 : Int) < 0) by omega]
        obtain ⟨hA, hB⟩ := hs1 _ rfl
        obtain ⟨st', he, hg', hd', hnz1, hnz0⟩ := ihl (.L p d b r :: c) fuel (m p).left
          { (if (m p).balance ≠ 0 ∧ st.gaep ≠ 0 then
              { st with balgaep := st.gaep, baldir := st.dir } else st) with
            gaep := p, dir := -1 } hl hkl hfl rfl (by simp [SlotDir, Frame.DirOK])
          (fun e => absurd e ha0)
        refine ⟨st', he, by simpa [Tree.descend, h1] using hg',
          by simpa [Tree.descend, h1] using hd', ?_, ?_⟩
        · intro hnz
          simp only [Tree.nz, h1, if_true, Bool.or_eq_true, decide_eq_true_eq] at hnz
          simp only [Tree.crit, h1, if_true]
          by_cases hl1 : Tree.nz K (Key K m gae) l = true
          · simp only [hl1, if_true]
            exact hnz1 hl1
          · simp only [hl1, if_false]
            have hb : b ≠ 0 := by
              rcases hnz with hnz | hnz
              · exact hnz
              · exact absurd hnz hl1
            obtain ⟨e1, e2⟩ := hnz0 (by simpa using hl1)
            simp only at e1 e2
            rw [e1, e2]
            exact hA hb
        · intro hnz
          simp only [Tree.nz, h1, if_true, Bool.or_eq_false_iff, decide_eq_false_iff_not,
            ne_eq, not_not] at hnz
          obtain ⟨e1, e2⟩ := hnz0 hnz.2
          simp only at e1 e2
          rw [e1, e2]
          exact hB hnz.1
      · have h2 : K d < Key K m gae := by omega
        simp only [h1, h2, if_true, if_false, show ¬ ((1 : Int) < 0) by omega,
          show ((1 : Int) > 0) by omega]
        obtain ⟨hA, hB⟩ := hs1 _ rfl
        obtain ⟨st', he, hg', hd', hnz1, hnz0⟩ := ihr (.R l p d b :: c) fuel (m p).right
          { (if (m p).balance ≠ 0 ∧ st.gaep ≠ 0 then
              { st with balgaep := st.gaep, baldir := st.dir } else st) with
            gaep := p, dir := 1 } hr hkr hfr rfl (by simp [SlotDir, Frame.DirOK])
          (fun e => absurd e ha0)
        refine ⟨st', he, by simpa [Tree.descend, h1] using hg',
          by simpa [Tree.descend, h1] using hd', ?_, ?_⟩
        · intro hnz
          simp only [Tree.nz, h1, if_false, Bool.or_eq_true, decide_eq_true_eq] at hnz
          simp only [Tree.crit, h1, if_false]
          by_cases hl1 : Tree.nz K (Key K m gae) r = true
          · simp only [hl1, if_true]
            exact hnz1 hl1
          · simp only [hl1, if_false]
            have hb : b ≠ 0 := by
              rcases hnz with hnz | hnz
              · exact hnz
              · exact absurd hnz hl1
            obtain ⟨e1, e2⟩ := hnz0 (by simpa using hl1)
            simp only at e1 e2
            rw [e1, e2]
            exact hA hb
        · intro hnz
          simp only [Tree.nz, h1, if_false, Bool.or_eq_false_iff, decide_eq_false_iff_not,
            ne_eq, not_not] at hnz
          obtain ⟨e1, e2⟩ := hnz0 hnz.2
          simp only at e1 e2
          rw [e1, e2]
          exact hB hnz.1

/-! ## Insertion: linking, balance loop and shift -/

theorem set_val_self (t : GenAVLTree) (g : Nat) (dir : Int) : set t g dir (val t g dir) = t := by
  unfold set val
  by_cases hg : g = 0
  · simp [hg]
  · by_cases hd : dir < 0
    · simp only [ne_eq, hg, not_false_eq_true, if_true, hd]
      have : wrLeft t.mem g (t.mem g).left = t.mem := by
        funext a
        unfold wrLeft
        by_cases ha : a = g
        · subst ha; simp
        · simp [Function.update, ha]
      rw [this]
    · simp only [ne_eq, hg, not_false_eq_true, if_true, hd, if_false]
      have : wrRight t.mem g (t.mem g).right = t.mem := by
        funext a
        unfold wrRight
        by_cases ha : a = g
        · subst ha; simp
        · simp [Function.update, ha]
      rw [this]

/-- A rewrite of the subtree in the hole of a context that keeps the pointer
held in the hole. -/
theorem TreeAt.rewrite_same {t t' : GenAVLTree} {c : Ctx} {s s' : Tree} {dir : Int}
    (h : TreeAt t.mem t.root (plug c s)) (hnd : (plug c s).addrs.Nodup) (hd : SlotDir c dir)
    (hroot : t'.root = t.root)
    (hout : ∀ a, a ∉ s.addrs → t'.mem a = t.mem a)
    (hs : TreeAt t'.mem (val t (slotAddr c) dir) s') :
    TreeAt t'.mem t'.root (plug c s') ∧ ∀ a, a ∉ (plug c s).addrs → t'.mem a = t.mem a := by
  refine @TreeAt.rewrite _ _ _ _ _ _ (val t (slotAddr c) dir) h hnd hd ?_ ?_ hs
  · rw [set_val_self]; exact hroot
  · rw [set_val_self]; exact hout

theorem Tree.insLeaf_addrs (K : Nat → Int) (n dn : Nat) (s : Tree) (a : Nat) :
    a ∈ (Tree.insLeaf K n dn s).addrs ↔ a = n ∨ a ∈ s.addrs := by
  induction s with
  | nil => simp [Tree.insLeaf, Tree.leaf, Tree.addrs]
  | node l x d b r ihl ihr =>
    simp only [Tree.insLeaf]
    split_ifs <;> simp only [Tree.mem_node, ihl, ihr] <;> tauto

/-- The balance loop of `GenAVLTreeAdd` moves the balance field of every node
between its start and the new leaf. -/
theorem addBalanceLoop_spec (K : Nat → Int) (n dn : Nat) :
    ∀ (s : Tree) (m : Mem) (fuel p : Nat), TreeAt m p (Tree.insLeaf K n dn s) →
      (m n).data = dn → n ∉ s.addrs → (Tree.insLeaf K n dn s).addrs.Nodup →
      s.height < fuel →
      ∃ m', addBalanceLoop K n fuel m p = some m' ∧ TreeAt m' p (Tree.insLow K n dn s) ∧
        ∀ a, a ∉ s.addrs → m' a = m a := by
  intro s
  induction s with
  | nil =>
    intro m fuel p h _ _ _ hf
    cases fuel with
    | zero => simp at hf
    | succ fuel =>
      have hp : p = n := h.1
      exact ⟨m, by simp [addBalanceLoop, hp], h, fun _ _ => rfl⟩
  | node l a d b r ihl ihr =>
    intro m fuel p h hdn hn hnd hf
    cases fuel with
    | zero => simp at hf
    | succ fuel =>
      simp only [Tree.height] at hf
      have hfl : l.height < fuel := by omega
      have hfr : r.height < fuel := by omega
      simp only [Tree.mem_node, not_or] at hn
      obtain ⟨hnl, hna, hnr⟩ := hn
      have hkn : Key K m n = K dn := by simp [Key, hdn]
      simp only [Tree.insLeaf] at h hnd
      by_cases h1 : K dn < K d
      · simp only [h1, if_true] at h hnd
        obtain ⟨rfl, ha0, hdat, hbal, hl, hr⟩ := h
        obtain ⟨hndl, -, hal, har, hlr⟩ := Tree.nodup_node.1 hnd
        have hkp : Key K m p = K d := by simp [Key, hdat]
        have hl1 : TreeAt (wrBalance m p ((m p).balance - 1)) (m p).left
            (Tree.insLeaf K n dn l) :=
          hl.congr (fun x hx => wrBalance_other _ _ _ _ (fun e => hal (e ▸ hx)))
        obtain ⟨m', he, ht, hfr'⟩ := ihl _ fuel _ hl1 (by simpa using hdn) hnl hndl hfl
        have hpl : p ∉ l.addrs := fun hin => hal ((Tree.insLeaf_addrs K n dn l p).2 (Or.inr hin))
        have hmp : m' p = wrBalance m p ((m p).balance - 1) p := hfr' p hpl
        refine ⟨m', ?_, ?_, ?_⟩
        · simp only [addBalanceLoop, fun e => hna (Eq.symm e), if_false, Compare, hkn, hkp, h1,
            if_true, show ((-1 : Int) < 0) by omega]
          have : ¬ p = n := fun e => hna e.symm
          simp only [this, if_false]
          exact he
        · simp only [Tree.insLow, h1, if_true]
          refine ⟨rfl, ha0, by rw [hmp]; simpa using hdat, by rw [hmp]; simp [hbal],
            by rw [hmp]; simpa using ht, ?_⟩
          rw [hmp]
          simp only [wrBalance_right]
          refine hr.congr (fun x hx => ?_)
          have hxl : x ∉ l.addrs := fun hin =>
            hlr x ((Tree.insLeaf_addrs K n dn l x).2 (Or.inr hin)) hx
          rw [hfr' x hxl]
          exact wrBalance_other _ _ _ _ (fun e => har (e ▸ hx))
        · intro x hx
          simp only [Tree.mem_node, not_or] at hx
          rw [hfr' x hx.1]
          exact wrBalance_other _ _ _ _ hx.2.1
      · simp only [h1, if_false] at h hnd
        obtain ⟨rfl, ha0, hdat, hbal, hl, hr⟩ := h
        obtain ⟨-, hndr, hal, har, hlr⟩ := Tree.nodup_node.1 hnd
        have hkp : Key K m p = K d := by simp [Key, hdat]
        have hr1 : TreeAt (wrBalance m p ((m p).balance + 1)) (m p).right
            (Tree.insLeaf K n dn r) :=
          hr.congr (fun x hx => wrBalance_other _ _ _ _ (fun e => har (e ▸ hx)))
        obtain ⟨m', he, ht, hfr'⟩ := ihr _ fuel _ hr1 (by simpa using hdn) hnr hndr hfr
        have hpr : p ∉ r.addrs := fun hin => har ((Tree.insLeaf_addrs K n dn r p).2 (Or.inr hin))
        have hmp : m' p = wrBalance m p ((m p).balance + 1) p := hfr' p hpr
        refine ⟨m', ?_, ?_, ?_⟩
        · have : ¬ p = n := fun e => hna e.symm
          have h3 : ¬ ((if K d < K dn then (1 : Int) else 0) < 0) := by split_ifs <;> omega
          simp only [addBalanceLoop, this, if_false, Compare, hkn, hkp, h1, h3]
          exact he
        · simp only [Tree.insLow, h1, if_false]
          refine ⟨rfl, ha0, by rw [hmp]; simpa using hdat, by rw [hmp]; simp [hbal], ?_,
            by rw [hmp]; simpa using ht⟩
          rw [hmp]
          simp only [wrBalance_left]
          refine hl.congr (fun x hx => ?_)
          have hxr : x ∉ r.addrs := fun hin =>
            hlr x hx ((Tree.insLeaf_addrs K n dn r x).2 (Or.inr hin))
          rw [hfr' x hxr]
          exact wrBalance_other _ _ _ _ (fun e => hal (e ▸ hx))
        · intro x hx
          simp only [Tree.mem_node, not_or] at hx
          rw [hfr' x hx.2.2]
          exact wrBalance_other _ _ _ _ hx.2.1

/-- The shift at the balance point, on the tree level. -/
theorem addShift_spec {t : GenAVLTree} {c : Ctx} {dir : Int} {s : Tree}
    (h : TreeAt t.mem t.root (plug c s)) (hnd : (plug c s).addrs.Nodup) (hd : SlotDir c dir)
    (hok : s.ShiftOK) :
    TreeAt (addShift t (slotAddr c) dir).mem (addShift t (slotAddr c) dir).root
        (plug c (Tree.addFix s)) ∧
      ∀ a, a ∉ (plug c s).addrs → (addShift t (slotAddr c) dir).mem a = t.mem a := by
  have hv := val_eq_holePtr h hd
  have hh := TreeAt.hole h
  cases s with
  | nil => exact absurd hok (by simp [Tree.ShiftOK])
  | node l a d b r =>
    obtain ⟨hp, ha0, hdat, hbal, hl, hr⟩ := hh
    rw [← hv] at hp
    obtain ⟨hok2, hokm2⟩ := hok
    simp only [addShift, hp, hbal, Tree.addFix]
    by_cases hb2 : b = 2
    · obtain ⟨hrn, hrl⟩ := hok2 hb2
      simp only [hb2, if_true]
      cases r with
      | nil => exact absurd rfl hrn
      | node rl z dz bz rr =>
        obtain ⟨hp2, hz0, hdz, hbz, hrl', hrr⟩ := hr
        simp only [hp2, hbz, Tree.rootBal]
        by_cases hz1 : bz = 1
        · simp only [hz1, if_true]
          subst hb2 hz1
          exact shiftleft_spec h hnd hd
        · simp only [hz1, if_false]
          by_cases hzm : bz = -1
          · simp only [hzm, if_true]
            have hrl2 := hrl (by simp [Tree.rootBal, hzm])
            cases rl with
            | nil => exact absurd rfl hrl2
            | node yl y dy bY yr =>
              subst hb2 hzm
              exact shiftdblleft_spec h hnd hd
          · simp only [hzm, if_false]
            subst hb2
            exact ⟨h, by simp⟩
    · simp only [hb2, if_false]
      by_cases hbm : b = -2
      · obtain ⟨hln, hlr⟩ := hokm2 hbm
        simp only [hbm, if_true]
        cases l with
        | nil => exact absurd rfl hln
        | node ll z dz bz lr =>
          obtain ⟨hp2, hz0, hdz, hbz, hll, hlr'⟩ := hl
          simp only [hp2, hbz, Tree.rootBal]
          by_cases hz1 : bz = -1
          · simp only [hz1, if_true]
            subst hbm hz1
            exact shiftright_spec h hnd hd
          · simp only [hz1, if_false]
            by_cases hzm : bz = 1
            · simp only [hzm, if_true]
              have hlr2 := hlr (by simp [Tree.rootBal, hzm])
              cases lr with
              | nil => exact absurd rfl hlr2
              | node yl y dy bY yr =>
                subst hbm hzm
                exact shiftdblright_spec h hnd hd
            · simp only [hzm, if_false]
              subst hbm
              exact ⟨h, by simp⟩
      · simp only [hbm, if_false]
        exact ⟨h, by simp⟩

/-! ## Entries are kept by shifts -/

theorem Tree.entries_rotLeft (t : Tree) : t.rotLeft.entries = t.entries := by
  unfold Tree.rotLeft
  split
  · split_ifs <;> simp [Tree.entries]
  · rfl

theorem Tree.entries_rotRight (t : Tree) : t.rotRight.entries = t.entries := by
  unfold Tree.rotRight
  split
  · split_ifs <;> simp [Tree.entries]
  · rfl

theorem Tree.entries_rotDblLeft (t : Tree) : t.rotDblLeft.entries = t.entries := by
  unfold Tree.rotDblLeft
  split
  · split_ifs <;> simp [Tree.entries]
  · rfl

theorem Tree.entries_rotDblRight (t : Tree) : t.rotDblRight.entries = t.entries := by
  unfold Tree.rotDblRight
  split
  · split_ifs <;> simp [Tree.entries]
  · rfl

theorem Tree.entries_addFix (t : Tree) : t.addFix.entries = t.entries := by
  unfold Tree.addFix
  split
  · split_ifs <;>
      simp only [Tree.entries_rotLeft, Tree.entries_rotRight, Tree.entries_rotDblLeft,
        Tree.entries_rotDblRight]
  · rfl

theorem Tree.entries_insLow (K : Nat → Int) (n dn : Nat) (s : Tree) :
    (Tree.insLow K n dn s).entries = (Tree.insLeaf K n dn s).entries := by
  induction s with
  | nil => rfl
  | node l a d b r ihl ihr =>
    simp only [Tree.insLow, Tree.insLeaf]
    split_ifs <;> simp [Tree.entries, ihl, ihr]

theorem entries_plug_congr (c : Ctx) {s s' : Tree} (h : s.entries = s'.entries) :
    (plug c s).entries = (plug c s').entries := by
  rw [entries_plug, entries_plug, h]

theorem addrs_plug_congr (c : Ctx) {s s' : Tree} (h : s.entries = s'.entries) :
    (plug c s).addrs = (plug c s').addrs := by
  rw [Tree.addrs_eq_map, Tree.addrs_eq_map, entries_plug_congr c h]

theorem Tree.entries_addTree (K : Nat → Int) (n dn : Nat) (t : Tree) :
    (Tree.addTree K n dn t).entries = (Tree.insLeaf K n dn t).entries := by
  unfold Tree.addTree
  rw [entries_plug_congr _ ((Tree.entries_addFix _).trans (Tree.entries_insLow K n dn _)),
    ← Tree.plug_descend_leaf, Tree.descend_crit, Tree.plug_descend_leaf]
  rfl

theorem Tree.crit_of_nz_false (K : Nat → Int) (k : Int) (s : Tree) (c : Ctx)
    (h : Tree.nz K k s = false) : Tree.crit K k s c = (c, s) := by
  cases s with
  | nil => rfl
  | node l a d b r =>
    simp only [Tree.nz, Bool.or_eq_false_iff] at h
    simp only [Tree.crit]
    split_ifs with h1 h2 h3
    · simp [h1, h2] at h
    · rfl
    · simp [h1, h3] at h
    · rfl

theorem height_le_plug (c : Ctx) (s : Tree) : s.height ≤ (plug c s).height := by
  induction c generalizing s with
  | nil => exact le_refl _
  | cons f c ih =>
    refine le_trans ?_ (ih (f.fill s))
    cases f <;> simp only [Frame.fill, Tree.height] <;> omega

theorem TreeAt.data_of_mem {m : Mem} {p : Nat} {t : Tree} (h : TreeAt m p t) :
    ∀ a d, (a, d) ∈ t.entries → (m a).data = d := by
  induction t generalizing p with
  | nil => intro a d hin; simp [Tree.entries] at hin
  | node l x dx b r ihl ihr =>
    obtain ⟨-, -, hd, -, hl, hr⟩ := h
    intro a d hin
    simp only [Tree.entries, List.mem_append, List.mem_cons, Prod.mk.injEq] at hin
    rcases hin with hin | ⟨rfl, rfl⟩ | hin
    · exact ihl hl a d hin
    · exact hd
    · exact ihr hr a d hin

theorem Tree.entries_insLeaf (K : Nat → Int) (n dn : Nat) (s : Tree) :
    ∃ l1 l2, s.entries = l1 ++ l2 ∧ (Tree.insLeaf K n dn s).entries = l1 ++ (n, dn) :: l2 := by
  induction s with
  | nil => exact ⟨[], [], rfl, rfl⟩
  | node l a d b r ihl ihr =>
    simp only [Tree.insLeaf]
    split_ifs
    · obtain ⟨l1, l2, h1, h2⟩ := ihl
      exact ⟨l1, l2 ++ (a, d) :: r.entries, by simp [Tree.entries, h1],
        by simp [Tree.entries, h2]⟩
    · obtain ⟨l1, l2, h1, h2⟩ := ihr
      exact ⟨l.entries ++ (a, d) :: l1, l2, by simp [Tree.entries, h1],
        by simp [Tree.entries, h2]⟩

theorem Tree.nodup_insLeaf (K : Nat → Int) (n dn : Nat) (s : Tree) (hnd : s.addrs.Nodup)
    (hn : n ∉ s.addrs) : (Tree.insLeaf K n dn s).addrs.Nodup := by
  obtain ⟨l1, l2, h1, h2⟩ := Tree.entries_insLeaf K n dn s
  rw [Tree.addrs_eq_map, h1] at hnd hn
  rw [Tree.addrs_eq_map, h2]
  simp only [List.map_append, List.map_cons, List.mem_append, not_or] at hnd hn ⊢
  exact List.nodup_middle.2 (List.nodup_cons.2 ⟨by simp [hn.1, hn.2], hnd⟩)

/-! ## Insertion: the whole function -/

/-- `GenAVLTreeAdd` with a new key turns the tree held by memory into
`addTree`, touching no entry outside the tree and the new one. -/
theorem GenAVLTreeAdd_new (K : Nat → Int) (fuel : Nat) (t : GenAVLTree) (gae : Nat) (T : Tree)
    (h : TreeAt t.mem t.root T) (hnd : T.addrs.Nodup) (hg : gae ∉ T.addrs)
    (hg0 : gae ≠ 0) (hk : K (t.mem gae).data ∉ T.keys K)
    (hok : (Tree.insLow K gae (t.mem gae).data
      (Tree.crit K (K (t.mem gae).data) T []).2).ShiftOK)
    (hf : T.height < fuel) :
    ∃ t', GenAVLTreeAdd K fuel t gae = some (t', 1) ∧
      TreeAt t'.mem t'.root (Tree.addTree K gae (t.mem gae).data T) ∧
      (∀ a, a ∉ T.addrs → a ≠ gae → t'.mem a = t.mem a) ∧
      (t'.mem gae).data = (t.mem gae).data := by
  set dn := (t.mem gae).data with hdn
  set m0 := wrBalance (wrRight (wrLeft t.mem gae 0) gae 0) gae 0 with hm0
  have hm0o : ∀ a, a ≠ gae → m0 a = t.mem a := by
    intro a ha; simp [hm0, ha]
  have hm0d : (m0 gae).data = dn := by simp [hm0, hdn]
  have hm0b : (m0 gae).balance = 0 := by simp [hm0]
  have hm0l : (m0 gae).left = 0 := by simp [hm0]
  have hm0r : (m0 gae).right = 0 := by simp [hm0]
  have hkey : Key K m0 gae = K dn := by simp [Key, hm0d]
  have h0 : TreeAt m0 t.root T := h.congr (fun a ha => hm0o a (fun e => hg (e ▸ ha)))
  -- search
  obtain ⟨st, hst, hsg, hsd, hnz1, hnz0⟩ := addSearchLoop_spec K m0 gae T [] fuel t.root
    ⟨0, 0, 0, 0⟩ h0 (by rw [hkey]; exact hk) hf rfl (by simp [SlotDir]) (fun _ => ⟨rfl, rfl⟩)
  rw [hkey] at hsg hsd hnz1 hnz0
  set cl := Tree.descend K (K dn) T [] with hcl
  set cc := (Tree.crit K (K dn) T []).1 with hcc
  set cs := (Tree.crit K (K dn) T []).2 with hcs
  have hbal : st.balgaep = slotAddr cc ∧ SlotDir cc st.baldir := by
    by_cases hnz : Tree.nz K (K dn) T = true
    · exact hnz1 hnz
    · have hnz' : Tree.nz K (K dn) T = false := by simpa using hnz
      obtain ⟨e1, e2⟩ := hnz0 hnz'
      have : cc = [] := by rw [hcc, Tree.crit_of_nz_false K _ T [] hnz']
      rw [this, e1]
      exact ⟨rfl, by simp [SlotDir]⟩
  have hTcl : plug cl .nil = T := Tree.plug_descend_nil K (K dn) T []
  have hTcc : plug cc cs = T := Tree.plug_crit K (K dn) T []
  have hIns : plug cl (Tree.leaf gae dn) = plug cc (Tree.insLeaf K gae dn cs) := by
    rw [hcl, ← Tree.descend_crit, Tree.plug_descend_leaf]
  have hIns' : plug cc (Tree.insLeaf K gae dn cs) = Tree.insLeaf K gae dn T := by
    rw [← hIns, hcl, Tree.plug_descend_leaf]; rfl
  -- link the new leaf
  set t0 : GenAVLTree := { t with mem := m0 } with ht0
  set t1 := set t0 st.gaep st.dir gae with ht1
  have hgs : (set t0 (slotAddr cl) st.dir gae).mem gae = m0 gae := by
    by_cases hc : cl = []
    · rw [hc]; simp [slotAddr, set, ht0]
    · refine set_mem_other _ _ _ _ _ (fun e => hg ?_)
      rw [← hTcl, mem_addrs_plug]
      exact Or.inr (e ▸ slotAddr_mem_ctxAddrs hc)
  have h1 : TreeAt t1.mem t1.root (plug cl (Tree.leaf gae dn)) ∧
      ∀ a, a ∉ (plug cl .nil).addrs → t1.mem a = t0.mem a := by
    rw [ht1, hsg]
    refine @TreeAt.rewrite t0 _ _ _ _ _ gae (by rw [hTcl]; exact h0) (by rw [hTcl]; exact hnd)
      hsd rfl (fun _ _ => rfl) ?_
    exact ⟨rfl, hg0, by rw [hgs]; exact hm0d, by rw [hgs]; exact hm0b,
      by rw [hgs, hm0l]; rfl, by rw [hgs, hm0r]; rfl⟩
  obtain ⟨h1t, h1f⟩ := h1
  rw [hTcl] at h1f
  rw [hIns] at h1t
  have hnd1 : (plug cc (Tree.insLeaf K gae dn cs)).addrs.Nodup := by
    rw [hIns']; exact Tree.nodup_insLeaf K gae dn T hnd hg
  have hcsT : ∀ a, a ∈ cs.addrs → a ∈ T.addrs := by
    intro a ha; rw [← hTcc, mem_addrs_plug]; exact Or.inl ha
  have hgcs : gae ∉ cs.addrs := fun hin => hg (hcsT _ hin)
  have hd1 : (t1.mem gae).data = dn := by
    rw [ht1]; simp [ht0, hm0d]
  -- balance loop
  have hv1 := val_eq_holePtr h1t hbal.2
  have hh1 := TreeAt.hole h1t
  rw [← hv1, ← hbal.1] at hh1
  have hcsh : cs.height < fuel := by
    have := height_le_plug cc cs
    rw [hTcc] at this
    omega
  obtain ⟨m2, hm2, ht2, hf2⟩ := addBalanceLoop_spec K gae dn cs t1.mem fuel _ hh1 hd1 hgcs
    ((nodup_plug cc _).1 hnd1).1 hcsh
  have h2 := @TreeAt.rewrite_same t1 { t1 with mem := m2 } _ _ _ _ h1t hnd1 hbal.2 rfl
    (fun a ha => hf2 a (fun hin => ha ((Tree.insLeaf_addrs K gae dn cs a).2 (Or.inr hin))))
    (by rw [← hbal.1]; exact ht2)
  obtain ⟨h2t, h2f⟩ := h2
  -- shift
  have hnd2 : (plug cc (Tree.insLow K gae dn cs)).addrs.Nodup := by
    rw [addrs_plug_congr cc (Tree.entries_insLow K gae dn cs)]; exact hnd1
  have h3 := addShift_spec h2t hnd2 hbal.2 hok
  rw [← hbal.1] at h3
  obtain ⟨h3t, h3f⟩ := h3
  refine ⟨addShift { t1 with mem := m2 } st.balgaep st.baldir, ?_, h3t, ?_, ?_⟩
  · simp only [GenAVLTreeAdd, ← hm0, hst, ← ht0, ← ht1, hm2]
  · intro a ha hag
    have ha1 : a ∉ (plug cc (Tree.insLeaf K gae dn cs)).addrs := by
      rw [hIns', Tree.insLeaf_addrs]; tauto
    have ha2 : a ∉ (plug cc (Tree.insLow K gae dn cs)).addrs := by
      rw [addrs_plug_congr cc (Tree.entries_insLow K gae dn cs)]; exact ha1
    rw [h3f a ha2]
    show m2 a = t.mem a
    have := h2f a ha1
    simp only at this
    rw [this, h1f a ha, ht0]
    exact hm0o a hag
  · refine h3t.data_of_mem gae dn ?_
    have : (Tree.addTree K gae dn T).entries = (Tree.insLeaf K gae dn T).entries :=
      Tree.entries_addTree K gae dn T
    show (gae, dn) ∈ (Tree.addTree K gae dn T).entries
    rw [this]
    obtain ⟨l1, l2, -, e2⟩ := Tree.entries_insLeaf K gae dn T
    rw [e2]; simp

/-! ## Insertion keeps the AVL invariant -/

theorem Tree.insLow_ne_nil (K : Nat → Int) (n dn : Nat) (s : Tree) :
    Tree.insLow K n dn s ≠ .nil := by
  cases s with
  | nil => simp [Tree.insLow, Tree.leaf]
  | node l a d b r => simp only [Tree.insLow]; split_ifs <;> simp

/-- Below the balance point every node on the search path has balance field 0:
the insertion makes the subtree one level higher and keeps it balanced. -/
theorem Tree.insLow_zero (K : Nat → Int) (n dn : Nat) :
    ∀ s : Tree, s.Balanced → Tree.nz K (K dn) s = false →
      (Tree.insLow K n dn s).Balanced ∧ (Tree.insLow K n dn s).height = s.height + 1 ∧
      (s ≠ .nil → (Tree.insLow K n dn s).rootBal = 1 ∨ (Tree.insLow K n dn s).rootBal = -1) ∧
      ((Tree.insLow K n dn s).rootBal = 1 → (Tree.insLow K n dn s).right ≠ .nil) ∧
      ((Tree.insLow K n dn s).rootBal = -1 → (Tree.insLow K n dn s).left ≠ .nil) := by
  intro s
  induction s with
  | nil =>
    intro _ _
    simp [Tree.insLow, Tree.leaf, Tree.Balanced, Tree.height, Tree.rootBal]
  | node l a d b r ihl ihr =>
    intro hb hnz
    simp only [Tree.nz, Bool.or_eq_false_iff, decide_eq_false_iff_not, ne_eq, not_not] at hnz
    obtain ⟨hb0, hnz⟩ := hnz
    obtain ⟨hbe, -, -, hbl, hbr⟩ := hb
    subst hb0
    simp only [Tree.insLow]
    by_cases h1 : K dn < K d
    · simp only [h1, if_true] at hnz ⊢
      obtain ⟨i1, i2, -, -, -⟩ := ihl hbl hnz
      refine ⟨⟨?_, ?_, ?_, i1, hbr⟩, ?_, ?_, ?_, ?_⟩
      · rw [i2]; push_cast; omega
      · omega
      · omega
      · simp only [Tree.height, i2]; omega
      · intro _; right; simp [Tree.rootBal]
      · simp [Tree.rootBal]
      · intro _; simpa [Tree.left] using Tree.insLow_ne_nil K n dn l
    · simp only [h1, if_false] at hnz ⊢
      obtain ⟨i1, i2, -, -, -⟩ := ihr hbr hnz
      refine ⟨⟨?_, ?_, ?_, hbl, i1⟩, ?_, ?_, ?_, ?_⟩
      · rw [i2]; push_cast; omega
      · omega
      · omega
      · simp only [Tree.height, i2]; omega
      · intro _; left; simp [Tree.rootBal]
      · intro _; simpa [Tree.right] using Tree.insLow_ne_nil K n dn r
      · simp [Tree.rootBal]

theorem Tree.crit_lowZero (K : Nat → Int) (k : Int) (s : Tree) (c : Ctx) :
    (Tree.crit K k s c).2.LowZero K k := by
  induction s generalizing c with
  | nil => simp [Tree.crit, Tree.LowZero]
  | node l a d b r ihl ihr =>
    simp only [Tree.crit]
    split_ifs with h1 h2 h3
    · exact ihl _
    · simp only [Tree.LowZero, h1, if_true]; simpa using h2
    · exact ihr _
    · simp only [Tree.LowZero, h1, if_false]; simpa using h3

theorem Tree.crit_rootBal (K : Nat → Int) (k : Int) (s : Tree) (c : Ctx)
    (hnz : Tree.nz K k s = true) :
    (Tree.crit K k s c).2.rootBal ≠ 0 ∧ (Tree.crit K k s c).2 ≠ .nil := by
  induction s generalizing c with
  | nil => simp [Tree.nz] at hnz
  | node l a d b r ihl ihr =>
    simp only [Tree.nz, Bool.or_eq_true, decide_eq_true_eq] at hnz
    simp only [Tree.crit]
    split_ifs with h1 h2 h3
    · exact ihl _ h2
    · simp only [h1, if_true] at hnz
      rcases hnz with hnz | hnz
      · exact ⟨by simpa [Tree.rootBal] using hnz, by simp⟩
      · exact absurd hnz h2
    · exact ihr _ h3
    · simp only [h1, if_false] at hnz
      rcases hnz with hnz | hnz
      · exact ⟨by simpa [Tree.rootBal] using hnz, by simp⟩
      · exact absurd hnz h3

/-! ## Shifts restore the AVL invariant -/

theorem Tree.rotRight_bal {l r : Tree} {a d : Nat} {b : Int} (hl : l.Balanced)
    (hr : r.Balanced) (hh : l.height = r.height + 2) (hlb : l.rootBal = -1 ∨ l.rootBal = 0) :
    (Tree.rotRight (.node l a d b r)).Balanced ∧
      (Tree.rotRight (.node l a d b r)).height =
        (if l.rootBal = -1 then r.height + 2 else r.height + 3) ∧
      (Tree.rotRight (.node l a d b r)).rootBal = (if l.rootBal = -1 then 0 else 1) := by
  cases l with
  | nil => simp [Tree.height] at hh
  | node ll z dz bz lr =>
    obtain ⟨hbz, -, -, hll, hlr⟩ := hl
    simp only [Tree.height] at hh
    simp only [Tree.rootBal] at hlb ⊢
    simp only [Tree.rotRight]
    rcases hlb with hb | hb
    · simp only [hb, if_true]
      refine ⟨⟨?_, by omega, by omega, hll, ?_, by omega, by omega, hlr, hr⟩, ?_, trivial⟩
      · simp only [Tree.height]; omega
      · omega
      · simp only [Tree.height]; omega
    · have hne : ¬ bz = -1 := by omega
      simp only [hne, if_false]
      refine ⟨⟨?_, by omega, by omega, hll, ?_, by omega, by omega, hlr, hr⟩, ?_, trivial⟩
      · simp only [Tree.height]; omega
      · omega
      · simp only [Tree.height]; omega

theorem Tree.rotLeft_bal {l r : Tree} {a d : Nat} {b : Int} (hl : l.Balanced)
    (hr : r.Balanced) (hh : r.height = l.height + 2) (hrb : r.rootBal = 1 ∨ r.rootBal = 0) :
    (Tree.rotLeft (.node l a d b r)).Balanced ∧
      (Tree.rotLeft (.node l a d b r)).height =
        (if r.rootBal = 1 then l.height + 2 else l.height + 3) ∧
      (Tree.rotLeft (.node l a d b r)).rootBal = (if r.rootBal = 1 then 0 else -1) := by
  cases r with
  | nil => simp [Tree.height] at hh
  | node rl z dz bz rr =>
    obtain ⟨hbz, -, -, hrl, hrr⟩ := hr
    simp only [Tree.height] at hh
    simp only [Tree.rootBal] at hrb ⊢
    simp only [Tree.rotLeft]
    rcases hrb with hb | hb
    · simp only [hb, if_true]
      refine ⟨⟨?_, by omega, by omega, ⟨?_, by omega, by omega, hl, hrl⟩, hrr⟩, ?_, trivial⟩
      · simp only [Tree.height]; omega
      · omega
      · simp only [Tree.height]; omega
    · have hne : ¬ bz = 1 := by omega
      simp only [hne, if_false]
      refine ⟨⟨?_, by omega, by omega, ⟨?_, by omega, by omega, hl, hrl⟩, hrr⟩, ?_, trivial⟩
      · simp only [Tree.height]; omega
      · omega
      · simp only [Tree.height]; omega

theorem Tree.rotDblRight_bal {l r : Tree} {a d : Nat} {b : Int} (hl : l.Balanced)
    (hr : r.Balanced) (hh : l.height = r.height + 2) (hlb : l.rootBal = 1) :
    (Tree.rotDblRight (.node l a d b r)).Balanced ∧
      (Tree.rotDblRight (.node l a d b r)).height = r.height + 2 ∧
      (Tree.rotDblRight (.node l a d b r)).rootBal = 0 := by
  cases l with
  | nil => simp [Tree.height] at hh
  | node ll z dz bz lr =>
    obtain ⟨hbz, -, -, hll, hlr⟩ := hl
    simp only [Tree.height] at hh
    simp only [Tree.rootBal] at hlb
    subst hlb
    cases lr with
    | nil => simp only [Tree.height] at hbz; omega
    | node yl y dy bY yr =>
      obtain ⟨hbY, hY1, hY2, hyl, hyr⟩ := hlr
      simp only [Tree.height] at hh hbz
      simp only [Tree.rotDblRight]
      by_cases h1 : bY = -1
      · simp only [h1, if_true]
        refine ⟨⟨?_, by omega, by omega, ⟨?_, by omega, by omega, hll, hyl⟩,
          ?_, by omega, by omega, hyr, hr⟩, ?_, rfl⟩
        · simp only [Tree.height]; omega
        · omega
        · omega
        · simp only [Tree.height]; omega
      · by_cases h2 : bY = 1
        · have h3 : ¬ ((1 : Int) = -1) := by omega
          simp only [h2, h3, if_true, if_false]
          refine ⟨⟨?_, by omega, by omega, ⟨?_, by omega, by omega, hll, hyl⟩,
            ?_, by omega, by omega, hyr, hr⟩, ?_, rfl⟩
          · simp only [Tree.height]; omega
          · omega
          · omega
          · simp only [Tree.height]; omega
        · simp only [h1, h2, if_false]
          refine ⟨⟨?_, by omega, by omega, ⟨?_, by omega, by omega, hll, hyl⟩,
            ?_, by omega, by omega, hyr, hr⟩, ?_, rfl⟩
          · simp only [Tree.height]; omega
          · omega
          · omega
          · simp only [Tree.height]; omega

theorem Tree.rotDblLeft_bal {l r : Tree} {a d : Nat} {b : Int} (hl : l.Balanced)
    (hr : r.Balanced) (hh : r.height = l.height + 2) (hrb : r.rootBal = -1) :
    (Tree.rotDblLeft (.node l a d b r)).Balanced ∧
      (Tree.rotDblLeft (.node l a d b r)).height = l.height + 2 ∧
      (Tree.rotDblLeft (.node l a d b r)).rootBal = 0 := by
  cases r with
  | nil => simp [Tree.height] at hh
  | node rl z dz bz rr =>
    obtain ⟨hbz, -, -, hrl, hrr⟩ := hr
    simp only [Tree.height] at hh
    simp only [Tree.rootBal] at hrb
    subst hrb
    cases rl with
    | nil => simp only [Tree.height] at hbz; omega
    | node yl y dy bY yr =>
      obtain ⟨hbY, hY1, hY2, hyl, hyr⟩ := hrl
      simp only [Tree.height] at hh hbz
      simp only [Tree.rotDblLeft]
      by_cases h1 : bY = -1
      · simp only [h1, if_true]
        refine ⟨⟨?_, by omega, by omega, ⟨?_, by omega, by omega, hl, hyl⟩,
          ?_, by omega, by omega, hyr, hrr⟩, ?_, rfl⟩
        · simp only [Tree.height]; omega
        · omega
        · omega
        · simp only [Tree.height]; omega
      · by_cases h2 : bY = 1
        · have h3 : ¬ ((1 : Int) = -1) := by omega
          simp only [h2, h3, if_true, if_false]
          refine ⟨⟨?_, by omega, by omega, ⟨?_, by omega, by omega, hl, hyl⟩,
            ?_, by omega, by omega, hyr, hrr⟩, ?_, rfl⟩
          · simp only [Tree.height]; omega
          · omega
          · omega
          · simp only [Tree.height]; omega
        · simp only [h1, h2, if_false]
          refine ⟨⟨?_, by omega, by omega, ⟨?_, by omega, by omega, hl, hyl⟩,
            ?_, by omega, by omega, hyr, hrr⟩, ?_, rfl⟩
          · simp only [Tree.height]; omega
          · omega
          · omega
          · simp only [Tree.height]; omega

theorem Tree.addFix_neg_right {l r : Tree} {a d : Nat} {b : Int} (hb : b = -2)
    (hl : l.rootBal = -1) : Tree.addFix (.node l a d b r) = Tree.rotRight (.node l a d b r) := by
  subst hb; simp [Tree.addFix, hl]

theorem Tree.addFix_neg_dbl {l r : Tree} {a d : Nat} {b : Int} (hb : b = -2)
    (hl : l.rootBal = 1) : Tree.addFix (.node l a d b r) = Tree.rotDblRight (.node l a d b r) := by
  subst hb; simp [Tree.addFix, hl]

theorem Tree.addFix_pos_left {l r : Tree} {a d : Nat} {b : Int} (hb : b = 2)
    (hr : r.rootBal = 1) : Tree.addFix (.node l a d b r) = Tree.rotLeft (.node l a d b r) := by
  subst hb; simp [Tree.addFix, hr]

theorem Tree.addFix_pos_dbl {l r : Tree} {a d : Nat} {b : Int} (hb : b = 2)
    (hr : r.rootBal = -1) : Tree.addFix (.node l a d b r) = Tree.rotDblLeft (.node l a d b r) := by
  subst hb; simp [Tree.addFix, hr]

theorem Tree.addFix_id {l r : Tree} {a d : Nat} {b : Int} (h1 : b ≠ 2) (h2 : b ≠ -2) :
    Tree.addFix (.node l a d b r) = .node l a d b r := by
  simp [Tree.addFix, h1, h2]

/-- At the balance point the insertion followed by the shift gives a balanced
subtree, of the same height unless the balance field there was 0. -/
theorem Tree.addFix_insLow (K : Nat → Int) (n dn : Nat) (s : Tree) (hb : s.Balanced)
    (hlz : s.LowZero K (K dn)) (hs : s ≠ .nil) :
    (Tree.insLow K n dn s).ShiftOK ∧ (Tree.addFix (Tree.insLow K n dn s)).Balanced ∧
      (Tree.addFix (Tree.insLow K n dn s)).height =
        (if s.rootBal = 0 then s.height + 1 else s.height) := by
  cases s with
  | nil => exact absurd rfl hs
  | node l a d b r =>
    obtain ⟨hbe, hb1, hb2, hbl, hbr⟩ := hb
    simp only [Tree.LowZero] at hlz
    simp only [Tree.rootBal, Tree.height]
    by_cases h1 : K dn < K d
    · simp only [h1, if_true] at hlz
      obtain ⟨i1, i2, i3, i4, i5⟩ := Tree.insLow_zero K n dn l hbl hlz
      simp only [Tree.insLow, h1, if_true]
      refine ⟨⟨fun h => by omega, fun _ => ⟨Tree.insLow_ne_nil K n dn l, i4⟩⟩, ?_⟩
      by_cases hbm : b = -1
      · have e2 : b - 1 = -2 := by omega
        have hln : l ≠ .nil := by
          rintro rfl
          simp only [Tree.height] at hbe
          omega
        have hh : (Tree.insLow K n dn l).height = r.height + 2 := by omega
        have e3 : ¬ (b = 0) := by omega
        simp only [e3, if_false]
        rcases i3 hln with hrb | hrb
        · rw [Tree.addFix_neg_dbl e2 hrb]
          obtain ⟨r1, r2, -⟩ := Tree.rotDblRight_bal (a := a) (d := d) (b := b - 1) i1 hbr hh hrb
          exact ⟨r1, by rw [r2]; omega⟩
        · rw [Tree.addFix_neg_right e2 hrb]
          obtain ⟨r1, r2, -⟩ := Tree.rotRight_bal (a := a) (d := d) (b := b - 1) i1 hbr hh
            (Or.inl hrb)
          refine ⟨r1, ?_⟩
          rw [r2]; simp only [hrb, if_true]; omega
      · rw [Tree.addFix_id (by omega) (by omega)]
        refine ⟨⟨by rw [i2]; push_cast; omega, by omega, by omega, i1, hbr⟩, ?_⟩
        simp only [Tree.height, i2]
        split_ifs <;> omega
    · simp only [h1, if_false] at hlz
      obtain ⟨i1, i2, i3, i4, i5⟩ := Tree.insLow_zero K n dn r hbr hlz
      simp only [Tree.insLow, h1, if_false]
      refine ⟨⟨fun _ => ⟨Tree.insLow_ne_nil K n dn r, i5⟩, fun h => by omega⟩, ?_⟩
      by_cases hbm : b = 1
      · have e1 : b + 1 = 2 := by omega
        have hrn : r ≠ .nil := by
          rintro rfl
          simp only [Tree.height] at hbe
          omega
        have hh : (Tree.insLow K n dn r).height = l.height + 2 := by omega
        have e3 : ¬ (b = 0) := by omega
        simp only [e3, if_false]
        rcases i3 hrn with hrb | hrb
        · rw [Tree.addFix_pos_left e1 hrb]
          obtain ⟨r1, r2, -⟩ := Tree.rotLeft_bal (a := a) (d := d) (b := b + 1) hbl i1 hh
            (Or.inl hrb)
          refine ⟨r1, ?_⟩
          rw [r2]; simp only [hrb, if_true]; omega
        · rw [Tree.addFix_pos_dbl e1 hrb]
          obtain ⟨r1, r2, -⟩ := Tree.rotDblLeft_bal (a := a) (d := d) (b := b + 1) hbl i1 hh hrb
          exact ⟨r1, by rw [r2]; omega⟩
      · rw [Tree.addFix_id (by omega) (by omega)]
        refine ⟨⟨by rw [i2]; push_cast; omega, by omega, by omega, hbl, i1⟩, ?_⟩
        simp only [Tree.height, i2]
        split_ifs <;> omega

/-! ## The AVL invariant of a tree with a hole -/

theorem balanced_plug (c : Ctx) (s : Tree) :
    (plug c s).Balanced ↔ s.Balanced ∧ CtxBal c s.height := by
  induction c generalizing s with
  | nil => simp [plug, CtxBal]
  | cons f c ih =>
    cases f with
    | L a d b r =>
      simp only [plug, Frame.fill, ih, Tree.Balanced, Tree.height, CtxBal]
      tauto
    | R l a d b =>
      simp only [plug, Frame.fill, ih, Tree.Balanced, Tree.height, CtxBal]
      tauto

/-- `addTree` keeps the AVL invariant. -/
theorem Tree.addTree_balanced (K : Nat → Int) (n dn : Nat) (t : Tree) (hb : t.Balanced) :
    (Tree.addTree K n dn t).Balanced := by
  unfold Tree.addTree
  have hp : plug (Tree.crit K (K dn) t []).1 (Tree.crit K (K dn) t []).2 = t :=
    Tree.plug_crit K (K dn) t []
  have hlz := Tree.crit_lowZero K (K dn) t []
  have hb' := hb
  rw [← hp, balanced_plug] at hb'
  obtain ⟨hbs, hbc⟩ := hb'
  rw [balanced_plug]
  by_cases hn : (Tree.crit K (K dn) t []).2 = .nil
  · rw [hn] at hbc ⊢
    simp only [Tree.insLow, Tree.leaf, Tree.addFix]
    norm_num
    refine ⟨by simp [Tree.Balanced, Tree.height], ?_⟩
    by_cases hnz : Tree.nz K (K dn) t = true
    · exact absurd hn (Tree.crit_rootBal K (K dn) t [] hnz).2
    · have hnz' : Tree.nz K (K dn) t = false := by simpa using hnz
      rw [Tree.crit_of_nz_false K _ t [] hnz']
      simp [CtxBal]
  · obtain ⟨-, f2, f3⟩ := Tree.addFix_insLow K n dn _ hbs hlz hn
    refine ⟨f2, ?_⟩
    by_cases hnz : Tree.nz K (K dn) t = true
    · have hrb := (Tree.crit_rootBal K (K dn) t [] hnz).1
      rw [f3]
      simp only [hrb, if_false]
      exact hbc
    · have hnz' : Tree.nz K (K dn) t = false := by simpa using hnz
      rw [Tree.crit_of_nz_false K _ t [] hnz']
      simp [CtxBal]

theorem Tree.addTree_shiftOK (K : Nat → Int) (n dn : Nat) (t : Tree) (hb : t.Balanced) :
    (Tree.insLow K n dn (Tree.crit K (K dn) t []).2).ShiftOK := by
  have hp : plug (Tree.crit K (K dn) t []).1 (Tree.crit K (K dn) t []).2 = t :=
    Tree.plug_crit K (K dn) t []
  have hlz := Tree.crit_lowZero K (K dn) t []
  have hb' := hb
  rw [← hp, balanced_plug] at hb'
  by_cases hn : (Tree.crit K (K dn) t []).2 = .nil
  · rw [hn]
    simp [Tree.insLow, Tree.leaf, Tree.ShiftOK]
  · exact (Tree.addFix_insLow K n dn _ hb'.1 hlz hn).1

/-! ## Insertion keeps the key order -/

theorem Tree.insLeaf_keys (K : Nat → Int) (n dn : Nat) (s : Tree) (x : Int) :
    x ∈ (Tree.insLeaf K n dn s).keys K ↔ x = K dn ∨ x ∈ s.keys K := by
  induction s with
  | nil => simp [Tree.insLeaf, Tree.leaf, Tree.keys]
  | node l a d b r ihl ihr =>
    simp only [Tree.insLeaf]
    split_ifs <;> simp only [Tree.keys, List.mem_append, List.mem_cons, ihl, ihr] <;> tauto

theorem Tree.insLeaf_sorted (K : Nat → Int) (n dn : Nat) (s : Tree) (hs : s.Sorted K)
    (hk : K dn ∉ s.keys K) : (Tree.insLeaf K n dn s).Sorted K := by
  induction s with
  | nil => simp [Tree.insLeaf, Tree.leaf, Tree.Sorted, Tree.keys]
  | node l a d b r ihl ihr =>
    rw [Tree.sorted_node] at hs
    obtain ⟨hsl, hsr, hlt, hgt⟩ := hs
    simp only [Tree.keys, List.mem_append, List.mem_cons, not_or] at hk
    obtain ⟨hkl, hkd, hkr⟩ := hk
    simp only [Tree.insLeaf]
    split_ifs with h1
    · rw [Tree.sorted_node]
      refine ⟨ihl hsl hkl, hsr, ?_, hgt⟩
      intro x hx
      rcases (Tree.insLeaf_keys K n dn l x).1 hx with rfl | hx
      · exact h1
      · exact hlt x hx
    · rw [Tree.sorted_node]
      refine ⟨hsl, ihr hsr hkr, hlt, ?_⟩
      intro x hx
      rcases (Tree.insLeaf_keys K n dn r x).1 hx with rfl | hx
      · omega
      · exact hgt x hx

theorem Tree.sorted_of_entries_eq (K : Nat → Int) {s s' : Tree} (h : s.entries = s'.entries)
    (hs : s.Sorted K) : s'.Sorted K := by
  unfold Tree.Sorted at hs ⊢
  rw [Tree.keys_eq_map] at hs ⊢
  rw [← h]; exact hs

theorem Tree.addTree_sorted (K : Nat → Int) (n dn : Nat) (t : Tree) (hs : t.Sorted K)
    (hk : K dn ∉ t.keys K) : (Tree.addTree K n dn t).Sorted K :=
  Tree.sorted_of_entries_eq K (Tree.entries_addTree K n dn t).symm
    (Tree.insLeaf_sorted K n dn t hs hk)

/-- `GenAVLTreeAdd` with a key that is in the tree only resets the header of
the entry passed in. -/
theorem GenAVLTreeAdd_dup (K : Nat → Int) (fuel : Nat) (t : GenAVLTree) (gae : Nat) (T : Tree)
    (h : TreeAt t.mem t.root T) (hs : T.Sorted K) (hg : gae ∉ T.addrs)
    (hk : K (t.mem gae).data ∈ T.keys K) (hf : T.height < fuel) :
    GenAVLTreeAdd K fuel t gae =
      some ({ t with mem := wrBalance (wrRight (wrLeft t.mem gae 0) gae 0) gae 0 }, 0) := by
  have hm0o : ∀ a, a ≠ gae → wrBalance (wrRight (wrLeft t.mem gae 0) gae 0) gae 0 a = t.mem a := by
    intro a ha; simp [ha]
  have h0 : TreeAt (wrBalance (wrRight (wrLeft t.mem gae 0) gae 0) gae 0) t.root T :=
    h.congr (fun a ha => hm0o a (fun e => hg (e ▸ ha)))
  have hkey : Key K (wrBalance (wrRight (wrLeft t.mem gae 0) gae 0) gae 0) gae =
      K (t.mem gae).data := by simp [Key]
  have := addSearchLoop_dup K _ gae T fuel t.root ⟨0, 0, 0, 0⟩ h0 hs (by rw [hkey]; exact hk) hf
  simp only [GenAVLTreeAdd, this]

/-! ## Deletion on the tree level -/

theorem height_plug (c : Ctx) (s : Tree) : (plug c s).height = ctxHeight c s.height := by
  induction c generalizing s with
  | nil => rfl
  | cons f c ih =>
    cases f <;> simp [plug, Frame.fill, ih, Tree.height, ctxHeight]

theorem ctxBal_append (c1 c2 : Ctx) (h : Nat) :
    CtxBal (c1 ++ c2) h ↔ CtxBal c1 h ∧ CtxBal c2 (ctxHeight c1 h) := by
  induction c1 generalizing h with
  | nil => simp [CtxBal, ctxHeight]
  | cons f c ih =>
    cases f <;> simp only [List.cons_append, CtxBal, ctxHeight, List.append_eq, ih] <;> tauto

theorem Tree.rightCtx_append (l : Tree) (c : Ctx) :
    Tree.rightCtx l c = Tree.rightCtx l [] ++ c := by
  induction l generalizing c with
  | nil => rfl
  | node ll a d b r _ ihr =>
    cases r with
    | nil => rfl
    | node rl ra rd rb rr =>
      simp only [Tree.rightCtx]
      rw [ihr (Frame.R ll a d b :: c), ihr [Frame.R ll a d b]]
      simp

theorem Tree.rightmost_spec (l : Tree) (hl : l ≠ .nil) :
    ∃ yl y dy bY, Tree.rightmost l = .node yl y dy bY .nil ∧
      plug (Tree.rightCtx l []) (.node yl y dy bY .nil) = l := by
  induction l with
  | nil => exact absurd rfl hl
  | node ll a d b r _ ihr =>
    cases r with
    | nil => exact ⟨ll, a, d, b, rfl, rfl⟩
    | node rl ra rd rb rr =>
      obtain ⟨yl, y, dy, bY, h1, h2⟩ := ihr (by simp)
      refine ⟨yl, y, dy, bY, by simpa [Tree.rightmost] using h1, ?_⟩
      simp only [Tree.rightCtx]
      rw [Tree.rightCtx_append, plug_append, h2]
      rfl

/-- Every frame of the path to the rightmost node goes to the right. -/
theorem Tree.rightCtx_dir (l : Tree) : ∀ f ∈ Tree.rightCtx l [], f.DirOK 1 := by
  induction l with
  | nil => simp [Tree.rightCtx]
  | node ll a d b r _ ihr =>
    cases r with
    | nil => simp [Tree.rightCtx]
    | node rl ra rd rb rr =>
      simp only [Tree.rightCtx]
      rw [Tree.rightCtx_append]
      intro f hf
      simp only [List.mem_append, List.mem_singleton] at hf
      rcases hf with hf | rfl
      · exact ihr f hf
      · simp [Frame.DirOK]

theorem Tree.locate_spec (K : Nat → Int) (k : Int) (s : Tree) (c c' : Ctx) (s' : Tree)
    (h : Tree.locate K k s c = some (c', s')) :
    plug c' s' = plug c s ∧ ∃ l x d b r, s' = .node l x d b r ∧ K d = k := by
  induction s generalizing c with
  | nil => simp [Tree.locate] at h
  | node l a d b r ihl ihr =>
    simp only [Tree.locate] at h
    split_ifs at h with h1 h2
    · obtain ⟨e1, e2⟩ := ihl _ h
      exact ⟨by rw [e1]; rfl, e2⟩
    · obtain ⟨e1, e2⟩ := ihr _ h
      exact ⟨by rw [e1]; rfl, e2⟩
    · simp only [Option.some.injEq, Prod.mk.injEq] at h
      obtain ⟨rfl, rfl⟩ := h
      exact ⟨rfl, l, a, d, b, r, rfl, by omega⟩

theorem Tree.locate_none (K : Nat → Int) (k : Int) (s : Tree) (c : Ctx)
    (hk : k ∉ s.keys K) : Tree.locate K k s c = none := by
  induction s generalizing c with
  | nil => rfl
  | node l a d b r ihl ihr =>
    simp only [Tree.keys, List.mem_append, List.mem_cons, not_or] at hk
    simp only [Tree.locate]
    split_ifs with h1 h2
    · exact ihl _ hk.1
    · exact ihr _ hk.2.2
    · exact absurd (by omega : k = K d) hk.2.1

theorem Tree.locate_some (K : Nat → Int) (k : Int) (s : Tree) (c : Ctx) (hs : s.Sorted K)
    (hk : k ∈ s.keys K) : ∃ c' s', Tree.locate K k s c = some (c', s') := by
  induction s generalizing c with
  | nil => simp [Tree.keys] at hk
  | node l a d b r ihl ihr =>
    rw [Tree.sorted_node] at hs
    obtain ⟨hsl, hsr, hlt, hgt⟩ := hs
    simp only [Tree.keys, List.mem_append, List.mem_cons] at hk
    simp only [Tree.locate]
    split_ifs with h1 h2
    · refine ihl _ hsl ?_
      rcases hk with hk | hk | hk
      · exact hk
      · omega
      · have := hgt _ hk; omega
    · refine ihr _ hsr ?_
      rcases hk with hk | hk | hk
      · have := hlt _ hk; omega
      · omega
      · exact hk
    · exact ⟨_, _, rfl⟩

theorem ctxAfter_append (c1 c2 : Ctx) : ctxAfter (c1 ++ c2) = ctxAfter c1 ++ ctxAfter c2 := by
  induction c1 with
  | nil => rfl
  | cons f c ih => cases f <;> simp [ctxAfter, ih]

theorem ctxBefore_append (c1 c2 : Ctx) :
    ctxBefore (c1 ++ c2) = ctxBefore c2 ++ ctxBefore c1 := by
  induction c1 with
  | nil => simp [ctxBefore]
  | cons f c ih => cases f <;> simp [ctxBefore, ih]

theorem Tree.rightCtx_after (l : Tree) : ctxAfter (Tree.rightCtx l []) = [] := by
  induction l with
  | nil => rfl
  | node ll a d b r _ ihr =>
    cases r with
    | nil => rfl
    | node rl ra rd rb rr =>
      simp only [Tree.rightCtx]
      rw [Tree.rightCtx_append, ctxAfter_append, ihr]
      rfl

/-- The entries after the swap and unlink are the old entries without the node
found. -/
theorem Tree.unlink_entries (c : Ctx) (l r : Tree) (x d : Nat) (b : Int) :
    ∃ l1 l2, (plug c (.node l x d b r)).entries = l1 ++ (x, d) :: l2 ∧
      (plug (Tree.unlink c (.node l x d b r)).1 (Tree.unlink c (.node l x d b r)).2).entries =
        l1 ++ l2 := by
  cases l with
  | nil =>
    refine ⟨ctxBefore c, r.entries ++ ctxAfter c, ?_, ?_⟩
    · simp [entries_plug, Tree.entries]
    · simp [Tree.unlink, entries_plug]
  | node ll la ld lb lr =>
    cases r with
    | nil =>
      refine ⟨ctxBefore c ++ (Tree.node ll la ld lb lr).entries, ctxAfter c, ?_, ?_⟩
      · simp [entries_plug, Tree.entries]
      · simp [Tree.unlink, entries_plug]
    | node rl ra rd rb rr =>
      obtain ⟨yl, y, dy, bY, h1, h2⟩ := Tree.rightmost_spec (.node ll la ld lb lr) (by simp)
      have e1 : (Tree.node ll la ld lb lr).entries =
          (plug (Tree.rightCtx (.node ll la ld lb lr) []) yl).entries ++ [(y, dy)] := by
        conv_lhs => rw [← h2]
        simp [entries_plug, Tree.entries, Tree.rightCtx_after]
      refine ⟨ctxBefore c ++ (plug (Tree.rightCtx (.node ll la ld lb lr) []) yl).entries ++
        [(y, dy)], (Tree.node rl ra rd rb rr).entries ++ ctxAfter c, ?_, ?_⟩
      · rw [entries_plug]
        simp only [Tree.entries] at e1 ⊢
        rw [e1]
        simp
      · simp only [Tree.unlink, h1]
        rw [Tree.rightCtx_append, plug_append]
        simp only [plug, Frame.fill]
        rw [entries_plug]
        simp [Tree.entries]

theorem Tree.unlink_bal (c : Ctx) (l r : Tree) (x d : Nat) (b : Int)
    (hb : (plug c (.node l x d b r)).Balanced) :
    (Tree.unlink c (.node l x d b r)).2.Balanced ∧
      CtxBal (Tree.unlink c (.node l x d b r)).1
        ((Tree.unlink c (.node l x d b r)).2.height + 1) := by
  rw [balanced_plug] at hb
  obtain ⟨⟨hbe, hb1, hb2, hbl, hbr⟩, hc⟩ := hb
  simp only [Tree.height] at hc
  cases l with
  | nil =>
    simp only [Tree.unlink]
    refine ⟨hbr, ?_⟩
    simp only [Tree.height] at hc
    have : max 0 r.height + 1 = r.height + 1 := by omega
    rw [this] at hc
    exact hc
  | node ll la ld lb lr =>
    cases r with
    | nil =>
      simp only [Tree.unlink]
      refine ⟨hbl, ?_⟩
      have : max (Tree.node ll la ld lb lr).height Tree.nil.height + 1 =
          (Tree.node ll la ld lb lr).height + 1 := by
        simp only [Tree.height]; omega
      rw [this] at hc
      exact hc
    | node rl ra rd rb rr =>
      obtain ⟨yl, y, dy, bY, h1, h2⟩ := Tree.rightmost_spec (.node ll la ld lb lr) (by simp)
      simp only [Tree.unlink, h1]
      have hbl' := hbl
      rw [← h2, balanced_plug] at hbl'
      obtain ⟨⟨hYe, hY1, hY2, hyl, -⟩, hsp⟩ := hbl'
      have hYh : (Tree.node yl y dy bY .nil).height = yl.height + 1 := by
        simp only [Tree.height] at hYe ⊢; omega
      rw [hYh] at hsp
      refine ⟨hyl, ?_⟩
      rw [Tree.rightCtx_append, ctxBal_append]
      refine ⟨hsp, ?_⟩
      have hh : ctxHeight (Tree.rightCtx (.node ll la ld lb lr) []) (yl.height + 1) =
          (Tree.node ll la ld lb lr).height := by
        rw [← hYh, ← height_plug, h2]
      rw [hh]
      exact ⟨hbe, hb1, hb2, hbr, hc⟩

theorem Tree.rebalStep_pos_left {l r : Tree} {a d : Nat} {b : Int} (hb : b = 2)
    (hr : r.rootBal = 1) :
    Tree.rebalStep (.node l a d b r) = (Tree.rotLeft (.node l a d b r), true) := by
  subst hb; simp [Tree.rebalStep, hr]

theorem Tree.rebalStep_pos_dbl {l r : Tree} {a d : Nat} {b : Int} (hb : b = 2)
    (hr : r.rootBal = -1) :
    Tree.rebalStep (.node l a d b r) = (Tree.rotDblLeft (.node l a d b r), true) := by
  subst hb; simp [Tree.rebalStep, hr]

theorem Tree.rebalStep_pos_zero {l r : Tree} {a d : Nat} {b : Int} (hb : b = 2)
    (hr1 : r.rootBal ≠ 1) (hr2 : r.rootBal ≠ -1) :
    Tree.rebalStep (.node l a d b r) = (Tree.rotLeft (.node l a d b r), false) := by
  subst hb; simp [Tree.rebalStep, hr1, hr2]

theorem Tree.rebalStep_neg_right {l r : Tree} {a d : Nat} {b : Int} (hb : b = -2)
    (hl : l.rootBal = -1) :
    Tree.rebalStep (.node l a d b r) = (Tree.rotRight (.node l a d b r), true) := by
  subst hb; simp [Tree.rebalStep, hl]

theorem Tree.rebalStep_neg_dbl {l r : Tree} {a d : Nat} {b : Int} (hb : b = -2)
    (hl : l.rootBal = 1) :
    Tree.rebalStep (.node l a d b r) = (Tree.rotDblRight (.node l a d b r), true) := by
  subst hb; simp [Tree.rebalStep, hl]

theorem Tree.rebalStep_neg_zero {l r : Tree} {a d : Nat} {b : Int} (hb : b = -2)
    (hl1 : l.rootBal ≠ -1) (hl2 : l.rootBal ≠ 1) :
    Tree.rebalStep (.node l a d b r) = (Tree.rotRight (.node l a d b r), false) := by
  subst hb; simp [Tree.rebalStep, hl1, hl2]

theorem Tree.rebalStep_zero {l r : Tree} {a d : Nat} {b : Int} (hb : b = 0) :
    Tree.rebalStep (.node l a d b r) = (.node l a d b r, true) := by
  subst hb; simp [Tree.rebalStep]

theorem Tree.rebalStep_one {l r : Tree} {a d : Nat} {b : Int} (h1 : b ≠ 2) (h2 : b ≠ -2)
    (h3 : b ≠ 0) : Tree.rebalStep (.node l a d b r) = (.node l a d b r, false) := by
  simp [Tree.rebalStep, h1, h2, h3]

theorem Tree.rootBal_range {t : Tree} (h : t.Balanced) : -1 ≤ t.rootBal ∧ t.rootBal ≤ 1 := by
  cases t with
  | nil => simp [Tree.rootBal]
  | node l a d b r => exact ⟨h.2.1, h.2.2.1⟩

theorem Tree.left_ne_nil {t : Tree} (h : t.Balanced) (hb : t.rootBal = -1) :
    t.left ≠ .nil := by
  cases t with
  | nil => simp [Tree.rootBal] at hb
  | node l a d b r =>
    simp only [Tree.rootBal] at hb
    simp only [Tree.left]
    rintro rfl
    have := h.1
    simp only [Tree.height] at this
    omega

theorem Tree.right_ne_nil {t : Tree} (h : t.Balanced) (hb : t.rootBal = 1) :
    t.right ≠ .nil := by
  cases t with
  | nil => simp [Tree.rootBal] at hb
  | node l a d b r =>
    simp only [Tree.rootBal] at hb
    simp only [Tree.right]
    rintro rfl
    have := h.1
    simp only [Tree.height] at this
    omega

/-- One pass of the upward loop of the deletion: the shift finds its nodes,
the subtree stays balanced, and the loop goes on exactly when the subtree
became one level shorter. -/
theorem Tree.rebalStep_spec (f : Frame) (c : Ctx) (s : Tree) (hs : s.Balanced)
    (hc : CtxBal (f :: c) (s.height + 1)) :
    (f.shrink s).ShiftOK ∧ (Tree.rebalStep (f.shrink s)).1.Balanced ∧
      (if (Tree.rebalStep (f.shrink s)).2 then
        CtxBal c ((Tree.rebalStep (f.shrink s)).1.height + 1)
      else CtxBal c (Tree.rebalStep (f.shrink s)).1.height) := by
  cases f with
  | L a d b r =>
    obtain ⟨hbe, hb1, hb2, hbr, hcc⟩ := hc
    simp only [Frame.shrink]
    have hrr := Tree.rootBal_range hbr
    by_cases h2 : b + 1 = 2
    · have hh : r.height = s.height + 2 := by omega
      have hrn : r ≠ .nil := by rintro rfl; simp [Tree.height] at hh
      have hH : max (s.height + 1) r.height + 1 = s.height + 3 := by omega
      rw [hH] at hcc
      refine ⟨⟨fun _ => ⟨hrn, fun h => Tree.left_ne_nil hbr h⟩, fun h => by omega⟩, ?_⟩
      by_cases hr1 : r.rootBal = 1
      · rw [Tree.rebalStep_pos_left h2 hr1]
        obtain ⟨r1, r2, -⟩ := Tree.rotLeft_bal (a := a) (d := d) (b := b + 1) hs hbr hh
          (Or.inl hr1)
        refine ⟨r1, ?_⟩
        simp only [if_true, r2, hr1]
        exact hcc
      · by_cases hr2 : r.rootBal = -1
        · rw [Tree.rebalStep_pos_dbl h2 hr2]
          obtain ⟨r1, r2, -⟩ := Tree.rotDblLeft_bal (a := a) (d := d) (b := b + 1) hs hbr hh hr2
          refine ⟨r1, ?_⟩
          simp only [if_true, r2]
          exact hcc
        · rw [Tree.rebalStep_pos_zero h2 hr1 hr2]
          obtain ⟨r1, r2, -⟩ := Tree.rotLeft_bal (a := a) (d := d) (b := b + 1) hs hbr hh
            (Or.inr (by omega))
          refine ⟨r1, ?_⟩
          simp only [Bool.false_eq_true, if_false, r2, hr1]
          exact hcc
    · refine ⟨⟨fun h => absurd h h2, fun h => by omega⟩, ?_⟩
      by_cases h0 : b + 1 = 0
      · rw [Tree.rebalStep_zero h0]
        have hH : max (s.height + 1) r.height + 1 = max s.height r.height + 1 + 1 := by omega
        rw [hH] at hcc
        refine ⟨⟨by omega, by omega, by omega, hs, hbr⟩, ?_⟩
        simp only [if_true, Tree.height]
        exact hcc
      · rw [Tree.rebalStep_one h2 (by omega) h0]
        have hH : max (s.height + 1) r.height + 1 = max s.height r.height + 1 := by omega
        rw [hH] at hcc
        refine ⟨⟨by omega, by omega, by omega, hs, hbr⟩, ?_⟩
        simp only [Bool.false_eq_true, if_false, Tree.height]
        exact hcc
  | R l a d b =>
    obtain ⟨hbe, hb1, hb2, hbl, hcc⟩ := hc
    simp only [Frame.shrink]
    have hrr := Tree.rootBal_range hbl
    by_cases h2 : b - 1 = -2
    · have hh : l.height = s.height + 2 := by omega
      have hln : l ≠ .nil := by rintro rfl; simp [Tree.height] at hh
      have hH : max l.height (s.height + 1) + 1 = s.height + 3 := by omega
      rw [hH] at hcc
      refine ⟨⟨fun h => by omega, fun _ => ⟨hln, fun h => Tree.right_ne_nil hbl h⟩⟩, ?_⟩
      by_cases hr1 : l.rootBal = -1
      · rw [Tree.rebalStep_neg_right h2 hr1]
        obtain ⟨r1, r2, -⟩ := Tree.rotRight_bal (a := a) (d := d) (b := b - 1) hbl hs hh
          (Or.inl hr1)
        refine ⟨r1, ?_⟩
        simp only [if_true, r2, hr1]
        exact hcc
      · by_cases hr2 : l.rootBal = 1
        · rw [Tree.rebalStep_neg_dbl h2 hr2]
          obtain ⟨r1, r2, -⟩ := Tree.rotDblRight_bal (a := a) (d := d) (b := b - 1) hbl hs hh hr2
          refine ⟨r1, ?_⟩
          simp only [if_true, r2]
          exact hcc
        · rw [Tree.rebalStep_neg_zero h2 hr1 hr2]
          obtain ⟨r1, r2, -⟩ := Tree.rotRight_bal (a := a) (d := d) (b := b - 1) hbl hs hh
            (Or.inr (by omega))
          refine ⟨r1, ?_⟩
          simp only [Bool.false_eq_true, if_false, r2, hr1]
          exact hcc
    · refine ⟨⟨fun h => by omega, fun h => absurd h h2⟩, ?_⟩
      by_cases h0 : b - 1 = 0
      · rw [Tree.rebalStep_zero h0]
        have hH : max l.height (s.height + 1) + 1 = max l.height s.height + 1 + 1 := by omega
        rw [hH] at hcc
        refine ⟨⟨by omega, by omega, by omega, hbl, hs⟩, ?_⟩
        simp only [if_true, Tree.height]
        exact hcc
      · rw [Tree.rebalStep_one (by omega) h2 h0]
        have hH : max l.height (s.height + 1) + 1 = max l.height s.height + 1 := by omega
        rw [hH] at hcc
        refine ⟨⟨by omega, by omega, by omega, hbl, hs⟩, ?_⟩
        simp only [Bool.false_eq_true, if_false, Tree.height]
        exact hcc

theorem Tree.unwind_balanced (c : Ctx) (s : Tree) (hs : s.Balanced)
    (hc : CtxBal c (s.height + 1)) : (Tree.unwind c s).Balanced := by
  induction c generalizing s with
  | nil => exact hs
  | cons f c ih =>
    obtain ⟨-, h1, h2⟩ := Tree.rebalStep_spec f c s hs hc
    simp only [Tree.unwind]
    split_ifs with hcont
    · simp only [hcont, if_true] at h2
      exact ih _ h1 h2
    · simp only [hcont, if_false] at h2
      exact (balanced_plug c _).2 ⟨h1, h2⟩

theorem Tree.entries_rebalStep (t : Tree) : (Tree.rebalStep t).1.entries = t.entries := by
  unfold Tree.rebalStep
  split
  · split_ifs <;>
      simp only [Tree.entries_rotLeft, Tree.entries_rotRight, Tree.entries_rotDblLeft,
        Tree.entries_rotDblRight]
  · rfl

theorem Frame.entries_shrink (f : Frame) (s : Tree) :
    (f.shrink s).entries = (f.fill s).entries := by
  cases f <;> rfl

theorem Tree.entries_unwind (c : Ctx) (s : Tree) :
    (Tree.unwind c s).entries = (plug c s).entries := by
  induction c generalizing s with
  | nil => rfl
  | cons f c ih =>
    simp only [Tree.unwind, plug]
    split_ifs
    · rw [ih]
      exact entries_plug_congr c ((Tree.entries_rebalStep _).trans (Frame.entries_shrink f s))
    · exact entries_plug_congr c ((Tree.entries_rebalStep _).trans (Frame.entries_shrink f s))

/-! ## Deletion: the search loop -/

theorem StackRep.update {stack : PathStack} {c : Ctx} (h : StackRep stack c) (i : Nat)
    (v : GenAVLStackEntry) (hi : c.length < i) : StackRep (Function.update stack i v) c := by
  induction c with
  | nil =>
    simp only [StackRep] at h ⊢
    simp only [List.length_nil] at hi
    rw [Function.update_noteq (by omega)]
    exact h
  | cons f c ih =>
    obtain ⟨h1, h2, h3⟩ := h
    simp only [List.length_cons] at hi
    refine ⟨?_, ?_, ih h3 (by omega)⟩
    · rw [Function.update_noteq (by omega)]; exact h1
    · rw [Function.update_noteq (by omega)]; exact h2

theorem StackRep.top {stack : PathStack} {c : Ctx} (h : StackRep stack c) :
    (stack c.length).e = slotAddr c ∧ SlotDir c (stack c.length).d := by
  cases c with
  | nil => exact ⟨h, trivial⟩
  | cons f c => exact ⟨h.1, h.2.1⟩

theorem StackRep.push {stack : PathStack} {c : Ctx} {gaep : Nat} {dir : Int}
    (hg : gaep = slotAddr c) (hd : SlotDir c dir)
    (hst : ∀ f c', c = f :: c' → StackRep stack c') :
    StackRep (Function.update stack c.length ⟨gaep, dir⟩) c := by
  cases c with
  | nil => simp [StackRep, hg, slotAddr]
  | cons f c =>
    refine ⟨?_, ?_, (hst f c rfl).update _ _ (by simp)⟩
    · simp [hg, slotAddr]
    · simpa [SlotDir] using hd

/-- The search loop of `GenAVLTreeDelete` follows `locate` and leaves on the
stack the slots of all contexts down to the node found. -/
theorem deleteSearchLoop_spec (K : Nat → Int) (m : Mem) (key : Int) :
    ∀ (s : Tree) (c : Ctx) (fuel : Nat) (stack : PathStack) (p gaep : Nat) (dir : Int),
      TreeAt m p s → s.height < fuel → gaep = slotAddr c → SlotDir c dir →
      (∀ f c', c = f :: c' → StackRep stack c') →
      (Tree.locate K key s c = none →
        deleteSearchLoop K m key fuel stack c.length p gaep dir = some none) ∧
      (∀ c' s', Tree.locate K key s c = some (c', s') →
        ∃ stack', deleteSearchLoop K m key fuel stack c.length p gaep dir =
            some (some (stack', c'.length + 1, s'.rootAddr)) ∧ StackRep stack' c') := by
  intro s
  induction s with
  | nil =>
    intro c fuel stack p gaep dir h hf _ _ _
    cases fuel with
    | zero => simp at hf
    | succ fuel =>
      simp only [TreeAt] at h
      subst h
      exact ⟨fun _ => by simp [deleteSearchLoop], fun c' s' hl => by simp [Tree.locate] at hl⟩
  | node l a d b r ihl ihr =>
    intro c fuel stack p gaep dir h hf hg hd hst
    obtain ⟨rfl, ha0, hdat, -, hl, hr⟩ := h
    cases fuel with
    | zero => simp at hf
    | succ fuel =>
      simp only [Tree.height] at hf
      have hfl : l.height < fuel := by omega
      have hfr : r.height < fuel := by omega
      have hkp : Key K m p = K d := by simp [Key, hdat]
      have hpush := StackRep.push hg hd hst
      simp only [deleteSearchLoop, ha0, if_false, Compare, hkp, Tree.locate]
      by_cases h1 : key < K d
      · have h2 : ¬ K d < key := by omega
        simp only [h1, h2, if_true, if_false, show ((1 : Int) > 0) by omega]
        exact ihl (.L p d b r :: c) fuel _ _ p (0 - 1) hl hfl rfl
          (by simp [SlotDir, Frame.DirOK]) (fun f c' e => by
            simp only [List.cons.injEq] at e
            obtain ⟨-, rfl⟩ := e
            exact hpush)
      · by_cases h2 : K d < key
        · simp only [h1, h2, if_true, if_false, show ¬ ((-1 : Int) > 0) by omega,
            show ((-1 : Int) < 0) by omega]
          exact ihr (.R l p d b :: c) fuel _ _ p (0 - -1) hr hfr rfl
            (by simp [SlotDir, Frame.DirOK]) (fun f c' e => by
              simp only [List.cons.injEq] at e
              obtain ⟨-, rfl⟩ := e
              exact hpush)
        · simp only [h1, h2, if_false, show ¬ ((0 : Int) > 0) by omega,
            show ¬ ((0 : Int) < 0) by omega]
          refine ⟨fun e => by simp at e, fun c' s' e => ?_⟩
          simp only [Option.some.injEq, Prod.mk.injEq] at e
          obtain ⟨rfl, rfl⟩ := e
          exact ⟨_, rfl, hpush⟩

/-! ## Deletion: the upward loop -/

theorem deleteRebalance_succ (stack : PathStack) (g : Nat) (t : GenAVLTree) :
    deleteRebalance stack (g + 1) t =
      if (deleteShift (deleteAdjust stack g t) (stack (g + 1)).e (stack g).e (stack g).d).2 then
        deleteRebalance stack g
          (deleteShift (deleteAdjust stack g t) (stack (g + 1)).e (stack g).e (stack g).d).1
      else (deleteShift (deleteAdjust stack g t) (stack (g + 1)).e (stack g).e (stack g).d).1 := by
  simp only [deleteRebalance, deleteShift, deleteAdjust]
  split_ifs <;> first | rfl | simp_all

theorem deleteShift_spec {t : GenAVLTree} {c : Ctx} {dir : Int} {s : Tree}
    (h : TreeAt t.mem t.root (plug c s)) (hnd : (plug c s).addrs.Nodup) (hd : SlotDir c dir)
    (hok : s.ShiftOK) :
    TreeAt (deleteShift t s.rootAddr (slotAddr c) dir).1.mem
        (deleteShift t s.rootAddr (slotAddr c) dir).1.root (plug c (Tree.rebalStep s).1) ∧
      (deleteShift t s.rootAddr (slotAddr c) dir).2 = (Tree.rebalStep s).2 ∧
      ∀ a, a ∉ (plug c s).addrs → (deleteShift t s.rootAddr (slotAddr c) dir).1.mem a = t.mem a := by
  have hh := TreeAt.hole h
  cases s with
  | nil => exact absurd hok (by simp [Tree.ShiftOK])
  | node l a d b r =>
    obtain ⟨hp, ha0, hdat, hbal, hl, hr⟩ := hh
    obtain ⟨hok2, hokm2⟩ := hok
    simp only [deleteShift, Tree.rootAddr, hbal]
    by_cases hb2 : b = 2
    · obtain ⟨hrn, hrl⟩ := hok2 hb2
      subst hb2
      simp only [if_true]
      cases r with
      | nil => exact absurd rfl hrn
      | node rl z dz bz rr =>
        obtain ⟨hp2, hz0, hdz, hbz, hrl', hrr⟩ := hr
        simp only [hp2, hbz]
        by_cases hz1 : bz = 1
        · rw [Tree.rebalStep_pos_left rfl (by simp [Tree.rootBal, hz1])]
          simp only [hz1, if_true]
          subst hz1
          obtain ⟨e1, e2⟩ := shiftleft_spec h hnd hd
          exact ⟨e1, by simp, e2⟩
        · simp only [hz1, if_false]
          by_cases hzm : bz = -1
          · rw [Tree.rebalStep_pos_dbl rfl (by simp [Tree.rootBal, hzm])]
            simp only [hzm, if_true]
            subst hzm
            have hrl2 := hrl (by simp [Tree.rootBal])
            cases rl with
            | nil => exact absurd rfl hrl2
            | node yl y dy bY yr =>
              obtain ⟨e1, e2⟩ := shiftdblleft_spec h hnd hd
              exact ⟨e1, by simp, e2⟩
          · rw [Tree.rebalStep_pos_zero rfl (by simp [Tree.rootBal, hz1])
              (by simp [Tree.rootBal, hzm])]
            simp only [hzm, if_false]
            obtain ⟨e1, e2⟩ := shiftleft_spec h hnd hd
            exact ⟨e1, by simp, e2⟩
    · simp only [hb2, if_false]
      by_cases hbm : b = -2
      · obtain ⟨hln, hlr⟩ := hokm2 hbm
        subst hbm
        simp only [if_true]
        cases l with
        | nil => exact absurd rfl hln
        | node ll z dz bz lr =>
          obtain ⟨hp2, hz0, hdz, hbz, hll, hlr'⟩ := hl
          simp only [hp2, hbz]
          by_cases hz1 : bz = -1
          · rw [Tree.rebalStep_neg_right rfl (by simp [Tree.rootBal, hz1])]
            simp only [hz1, if_true]
            subst hz1
            obtain ⟨e1, e2⟩ := shiftright_spec h hnd hd
            exact ⟨e1, by simp, e2⟩
          · simp only [hz1, if_false]
            by_cases hzm : bz = 1
            · rw [Tree.rebalStep_neg_dbl rfl (by simp [Tree.rootBal, hzm])]
              simp only [hzm, if_true]
              subst hzm
              have hlr2 := hlr (by simp [Tree.rootBal])
              cases lr with
              | nil => exact absurd rfl hlr2
              | node yl y dy bY yr =>
                obtain ⟨e1, e2⟩ := shiftdblright_spec h hnd hd
                exact ⟨e1, by simp, e2⟩
            · rw [Tree.rebalStep_neg_zero rfl (by simp [Tree.rootBal, hz1])
                (by simp [Tree.rootBal, hzm])]
              simp only [hzm, if_false]
              obtain ⟨e1, e2⟩ := shiftright_spec h hnd hd
              exact ⟨e1, by simp, e2⟩
      · simp only [hbm, if_false]
        by_cases hb0 : b = 0
        · subst hb0
          rw [Tree.rebalStep_zero rfl]
          simp only [if_true]
          exact ⟨h, by simp, by simp⟩
        · rw [Tree.rebalStep_one hb2 hbm hb0]
          simp only [hb0, if_false]
          exact ⟨h, by simp, by simp⟩

theorem Frame.rootAddr_shrink (f : Frame) (s : Tree) : (f.shrink s).rootAddr = f.addr := by
  cases f <;> rfl

/-- The adjustment of the balance field in one pass of the upward loop. -/
theorem deleteAdjust_spec {stack : PathStack} {t : GenAVLTree} {f : Frame} {c : Ctx} {s : Tree}
    (h : TreeAt t.mem t.root (plug (f :: c) s)) (hnd : (plug (f :: c) s).addrs.Nodup)
    (he : (stack (c.length + 1)).e = f.addr) (hd : f.DirOK (stack (c.length + 1)).d) :
    TreeAt (deleteAdjust stack c.length t).mem (deleteAdjust stack c.length t).root
        (plug c (f.shrink s)) ∧
      ∀ a, a ∉ (plug (f :: c) s).addrs → (deleteAdjust stack c.length t).mem a = t.mem a := by
  have hh : TreeAt t.mem (holePtr t.mem t.root c) (f.fill s) := TreeAt.hole (c := c) h
  have hnd' : (plug c (f.fill s)).addrs.Nodup := hnd
  have hndS := ((nodup_plug c _).1 hnd').1
  have hv := @val_eq_holePtr t c (f.fill s) 0 h
  cases f with
  | L a d b r =>
    simp only [Frame.DirOK] at hd
    simp only [Frame.addr] at he
    have hd' : ¬ (stack (c.length + 1)).d > 0 := by omega
    simp only [deleteAdjust, hd', if_false, he, Frame.shrink]
    obtain ⟨hp, ha0, hdat, hbal, hl, hr⟩ := hh
    obtain ⟨-, -, has, har, -⟩ := Tree.nodup_node.1 hndS
    have hc' : SlotDir c (stack c.length).d ∨ True := Or.inr trivial
    -- use a direction that fits the slot of `c`
    obtain ⟨dir, hdir⟩ : ∃ dir : Int, SlotDir c dir := by
      cases c with
      | nil => exact ⟨0, trivial⟩
      | cons f' c' =>
        cases f' with
        | L _ _ _ _ => exact ⟨-1, by simp [SlotDir, Frame.DirOK]⟩
        | R _ _ _ _ => exact ⟨1, by simp [SlotDir, Frame.DirOK]⟩
    have hv' := val_eq_holePtr (t := t) (c := c) (s := Frame.fill (.L a d b r) s) h hdir
    refine @TreeAt.rewrite_same t ⟨t.root, wrBalance t.mem a ((t.mem a).balance + 1)⟩ c
      (Frame.fill (.L a d b r) s) _ dir h hnd hdir rfl ?_ ?_
    · intro x hx
      simp only [Frame.fill, Tree.mem_node, not_or] at hx
      exact wrBalance_other _ _ _ _ hx.2.1
    · rw [hv', hp]
      refine ⟨rfl, ha0, by simpa using hdat, by simp [hbal], ?_, ?_⟩
      · simp only [wrBalance_left]
        exact hl.congr (fun x hx => wrBalance_other _ _ _ _ (fun e => has (e ▸ hx)))
      · simp only [wrBalance_right]
        exact hr.congr (fun x hx => wrBalance_other _ _ _ _ (fun e => har (e ▸ hx)))
  | R l a d b =>
    simp only [Frame.DirOK] at hd
    simp only [Frame.addr] at he
    have hd' : (stack (c.length + 1)).d > 0 := by omega
    simp only [deleteAdjust, hd', if_true, he, Frame.shrink]
    obtain ⟨hp, ha0, hdat, hbal, hl, hr⟩ := hh
    obtain ⟨-, -, hal, has, -⟩ := Tree.nodup_node.1 hndS
    obtain ⟨dir, hdir⟩ : ∃ dir : Int, SlotDir c dir := by
      cases c with
      | nil => exact ⟨0, trivial⟩
      | cons f' c' =>
        cases f' with
        | L _ _ _ _ => exact ⟨-1, by simp [SlotDir, Frame.DirOK]⟩
        | R _ _ _ _ => exact ⟨1, by simp [SlotDir, Frame.DirOK]⟩
    have hv' := val_eq_holePtr (t := t) (c := c) (s := Frame.fill (.R l a d b) s) h hdir
    refine @TreeAt.rewrite_same t ⟨t.root, wrBalance t.mem a ((t.mem a).balance - 1)⟩ c
      (Frame.fill (.R l a d b) s) _ dir h hnd hdir rfl ?_ ?_
    · intro x hx
      simp only [Frame.fill, Tree.mem_node, not_or] at hx
      exact wrBalance_other _ _ _ _ hx.2.1
    · rw [hv', hp]
      refine ⟨rfl, ha0, by simpa using hdat, by simp [hbal], ?_, ?_⟩
      · simp only [wrBalance_left]
        exact hl.congr (fun x hx => wrBalance_other _ _ _ _ (fun e => hal (e ▸ hx)))
      · simp only [wrBalance_right]
        exact hr.congr (fun x hx => wrBalance_other _ _ _ _ (fun e => has (e ▸ hx)))

/-- The upward loop of `GenAVLTreeDelete` turns the tree held by memory into
`unwind`. -/
theorem deleteRebalance_spec (stack : PathStack) :
    ∀ (c : Ctx) (s : Tree) (t : GenAVLTree), TreeAt t.mem t.root (plug c s) →
      (plug c s).addrs.Nodup → StackRep stack c → s.Balanced → CtxBal c (s.height + 1) →
      TreeAt (deleteRebalance stack c.length t).mem (deleteRebalance stack c.length t).root
          (Tree.unwind c s) ∧
        ∀ a, a ∉ (plug c s).addrs → (deleteRebalance stack c.length t).mem a = t.mem a := by
  intro c
  induction c with
  | nil =>
    intro s t h _ _ _ _
    exact ⟨h, fun _ _ => rfl⟩
  | cons f c ih =>
    intro s t h hnd hst hs hc
    obtain ⟨he, hd, hst'⟩ := hst
    obtain ⟨htop1, htop2⟩ := hst'.top
    obtain ⟨hok, hb1, hb2⟩ := Tree.rebalStep_spec f c s hs hc
    obtain ⟨ha1, ha2⟩ := deleteAdjust_spec h hnd he hd
    have hA1 : (plug c (f.shrink s)).addrs = (plug (f :: c) s).addrs :=
      addrs_plug_congr c (Frame.entries_shrink f s)
    have hA2 : (plug c (Tree.rebalStep (f.shrink s)).1).addrs = (plug c (f.shrink s)).addrs :=
      addrs_plug_congr c (Tree.entries_rebalStep _)
    have hnd1 : (plug c (f.shrink s)).addrs.Nodup := by rw [hA1]; exact hnd
    have hsh := deleteShift_spec ha1 hnd1 htop2 hok
    rw [Frame.rootAddr_shrink, ← he, ← htop1] at hsh
    obtain ⟨hs1, hs2, hs3⟩ := hsh
    rw [List.length_cons, deleteRebalance_succ]
    simp only [Tree.unwind, hs2]
    by_cases hcont : (Tree.rebalStep (f.shrink s)).2 = true
    · simp only [hcont, if_true] at hb2 ⊢
      obtain ⟨i1, i2⟩ := ih _ _ hs1 (by rw [hA2]; exact hnd1) hst' hb1 hb2
      refine ⟨i1, fun a ha => ?_⟩
      rw [i2 a (by rw [hA2, hA1]; exact ha), hs3 a (by rw [hA1]; exact ha), ha2 a ha]
    · have hcf : (Tree.rebalStep (f.shrink s)).2 = false := by simpa using hcont
      simp only [hcf, Bool.false_eq_true, if_false] at hb2 ⊢
      refine ⟨hs1, fun a ha => ?_⟩
      rw [hs3 a (by rw [hA1]; exact ha), ha2 a ha]

/-! ## Deletion: swap with the previous entry and unlink -/

theorem StackRep.drop {stack : PathStack} (c1 c : Ctx) (h : StackRep stack (c1 ++ c)) :
    StackRep stack c := by
  induction c1 with
  | nil => exact h
  | cons f c1 ih => exact ih h.2.2

theorem StackRep.replace_frame {stack : PathStack} (c1 c : Ctx) (f f' : Frame)
    (v : GenAVLStackEntry) (h : StackRep stack (c1 ++ f :: c)) (he : v.e = f'.addr)
    (hd : f'.DirOK v.d) :
    StackRep (Function.update stack (c.length + 1) v) (c1 ++ f' :: c) := by
  induction c1 with
  | nil =>
    obtain ⟨-, -, h3⟩ := h
    refine ⟨by simpa using he, by simpa using hd, h3.update _ _ (by simp)⟩
  | cons g c1 ih =>
    have h' : StackRep stack (g :: (c1 ++ f :: c)) := h
    obtain ⟨h1, h2, h3⟩ := h'
    have hlen : (c1 ++ f' :: c).length = (c1 ++ f :: c).length := by simp
    have hne : (c1 ++ f :: c).length + 1 ≠ c.length + 1 := by simp; omega
    show StackRep _ (g :: (c1 ++ f' :: c))
    refine ⟨?_, ?_, ih h3⟩
    · rw [hlen, Function.update_noteq hne]; exact h1
    · rw [hlen, Function.update_noteq hne]; exact h2

/-- The inner loop of the swap walks to the rightmost node and pushes the
frames passed. -/
theorem deletePredLoop_spec (m : Mem) :
    ∀ (l : Tree) (c0 : Ctx) (stack : PathStack) (p fuel : Nat), l ≠ .nil → TreeAt m p l →
      l.height ≤ fuel → StackRep stack c0 →
      ∃ stack', deletePredLoop m fuel stack (c0.length + 1) p =
          some (stack', (Tree.rightCtx l c0).length + 1, (Tree.rightmost l).rootAddr) ∧
        StackRep stack' (Tree.rightCtx l c0) := by
  intro l
  induction l with
  | nil => intro _ _ _ _ hn; exact absurd rfl hn
  | node ll a d b r _ ihr =>
    intro c0 stack p fuel _ h hf hst
    obtain ⟨rfl, ha0, -, -, -, hr⟩ := h
    cases fuel with
    | zero => simp [Tree.height] at hf
    | succ fuel =>
      cases r with
      | nil =>
        simp only [TreeAt] at hr
        exact ⟨stack, by simp [deletePredLoop, hr, Tree.rightCtx, Tree.rightmost, Tree.rootAddr],
          hst⟩
      | node rl ra rd rb rr =>
        have hr0 : (m p).right ≠ 0 := by rw [hr.1]; exact hr.2.1
        simp only [Tree.height] at hf
        have hf' : (Tree.node rl ra rd rb rr).height ≤ fuel := by
          simp only [Tree.height]; omega
        have hst' : StackRep (Function.update stack (c0.length + 1) ⟨p, 1⟩)
            (.R ll p d b :: c0) :=
          ⟨by simp [Frame.addr], by simp [Frame.DirOK], hst.update _ _ (by simp)⟩
        obtain ⟨stack', he, hs'⟩ := ihr (.R ll p d b :: c0) _ _ fuel (by simp) hr hf' hst'
        refine ⟨stack', ?_, hs'⟩
        simp only [deletePredLoop, hr0, ne_eq, not_false_eq_true, if_true]
        simpa [Tree.rightCtx, Tree.rightmost] using he

/-- Unlinking a node that has at most one child. -/
theorem deleteUnlink_simple {t : GenAVLTree} {c : Ctx} {stack : PathStack} {l r : Tree}
    {x d : Nat} {b : Int} {fuel : Nat}
    (h : TreeAt t.mem t.root (plug c (.node l x d b r)))
    (hnd : (plug c (.node l x d b r)).addrs.Nodup) (hst : StackRep stack c)
    (hlr : l = .nil ∨ r = .nil) :
    deleteSwap fuel t stack (c.length + 1) x = some (t, stack, c.length + 1) ∧
      (Tree.unlink c (.node l x d b r)).1 = c ∧
      TreeAt (set t (stack c.length).e (stack c.length).d
          (if (t.mem x).right ≠ 0 then (t.mem x).right else (t.mem x).left)).mem
        (set t (stack c.length).e (stack c.length).d
          (if (t.mem x).right ≠ 0 then (t.mem x).right else (t.mem x).left)).root
        (plug c (Tree.unlink c (.node l x d b r)).2) ∧
      ∀ a, a ∉ (plug c (.node l x d b r)).addrs →
        (set t (stack c.length).e (stack c.length).d
          (if (t.mem x).right ≠ 0 then (t.mem x).right else (t.mem x).left)).mem a = t.mem a := by
  obtain ⟨htop1, htop2⟩ := hst.top
  have hh := TreeAt.hole h
  have hg := slot_not_mem h hnd
  obtain ⟨hp, hx0, hdat, hbal, hl, hr⟩ := hh
  have hl0 : (t.mem x).left = 0 ↔ l = .nil := hl.nil_iff
  have hr0 : (t.mem x).right = 0 ↔ r = .nil := hr.nil_iff
  have hsub : ∀ (q : Nat) (s : Tree) (v : Nat), TreeAt t.mem q s →
      (∀ a ∈ s.addrs, a ∈ (Tree.node l x d b r).addrs) →
      TreeAt (set t (slotAddr c) (stack c.length).d v).mem q s := by
    intro q s v hs hin
    exact hs.congr (fun a ha => set_mem_other _ _ _ _ _ (fun e => hg (e ▸ hin a ha)))
  refine ⟨?_, ?_, ?_⟩
  · have : ¬ ((t.mem x).right ≠ 0 ∧ (t.mem x).left ≠ 0) := by
      rcases hlr with hl' | hr'
      · simp [hl0.2 hl']
      · simp [hr0.2 hr']
    simp only [deleteSwap, this, if_false]
  · rcases hlr with rfl | rfl
    · simp [Tree.unlink]
    · cases l <;> simp [Tree.unlink]
  · rw [htop1]
    by_cases hrn : r = .nil
    · subst hrn
      have hs2 : (Tree.unlink c (.node l x d b .nil)).2 = l := by
        cases l <;> simp [Tree.unlink]
      rw [hs2]
      simp only [hr0.2 rfl, ne_eq, not_true_eq_false, if_false]
      exact @TreeAt.rewrite _ _ _ _ _ _ (t.mem x).left h hnd htop2 rfl (fun _ _ => rfl)
        (hsub _ _ _ hl (fun a ha => by simp [Tree.mem_node, ha]))
    · have hln : l = .nil := by
        rcases hlr with h1 | h1
        · exact h1
        · exact absurd h1 hrn
      subst hln
      have hrp : (t.mem x).right ≠ 0 := fun e => hrn (hr0.1 e)
      simp only [Tree.unlink, hrp, ne_eq, not_false_eq_true, if_true]
      exact @TreeAt.rewrite _ _ _ _ _ _ (t.mem x).right h hnd htop2 rfl (fun _ _ => rfl)
        (hsub _ _ _ hr (fun a ha => by simp [Tree.mem_node, ha]))

theorem Tree.unlink_two (c : Ctx) {l r yl : Tree} {x d y dy : Nat} {b bY : Int}
    (hl : l ≠ .nil) (hr : r ≠ .nil) (h1 : Tree.rightmost l = .node yl y dy bY .nil) :
    Tree.unlink c (.node l x d b r) = (Tree.rightCtx l (.L y dy b r :: c), yl) := by
  cases l with
  | nil => exact absurd rfl hl
  | node ll la ld lb lr =>
    cases r with
    | nil => exact absurd rfl hr
    | node rl ra rd rb rr => simp only [Tree.unlink, h1]

theorem slotAddr_append_ne (c1 c2 : Ctx) (h : c1 ≠ []) : slotAddr (c1 ++ c2) = slotAddr c1 := by
  cases c1 with
  | nil => exact absurd rfl h
  | cons f c => rfl

theorem SlotDir_append_ne (c1 c2 : Ctx) (dir : Int) (h : c1 ≠ []) :
    SlotDir (c1 ++ c2) dir ↔ SlotDir c1 dir := by
  cases c1 with
  | nil => exact absurd rfl h
  | cons f c => rfl

/-- The stores of the swap of a node with two children and of the unlinking
that follows, seen from the trees. -/
theorem deleteSwap_mem {t : GenAVLTree} {c : Ctx} {l r yl : Tree} {x d y dy : Nat} {b bY : Int}
    {dir dir2 : Int}
    (h : TreeAt t.mem t.root (plug c (.node l x d b r)))
    (hnd : (plug c (.node l x d b r)).addrs.Nodup)
    (h2 : plug (Tree.rightCtx l []) (.node yl y dy bY .nil) = l)
    (hd : SlotDir c dir) (hd2 : SlotDir (Tree.rightCtx l [] ++ .L y dy b r :: c) dir2)
    (t1 : GenAVLTree) (m2 m3 m4 m5 m6 : Mem)
    (e1 : t1 = set t (slotAddr c) dir y)
    (e2 : m2 = wrRight t1.mem y (t1.mem x).right)
    (e3 : m3 = wrLeft m2 y (m2 x).left)
    (e4 : m4 = wrBalance m3 y (m3 x).balance)
    (e5 : m5 = wrRight m4 x 0)
    (e6 : m6 = wrLeft m5 x (t.mem y).left)
    (F : GenAVLTree)
    (eF : F = set ⟨t1.root, m6⟩ (slotAddr (Tree.rightCtx l [] ++ .L y dy b r :: c)) dir2
      (if (m6 x).right ≠ 0 then (m6 x).right else (m6 x).left)) :
    TreeAt F.mem F.root (plug (Tree.rightCtx l [] ++ .L y dy b r :: c) yl) ∧
      ∀ a, a ∉ (plug c (.node l x d b r)).addrs → F.mem a = t.mem a := by
  have hdirs := Tree.rightCtx_dir l
  generalize Tree.rightCtx l [] = sp at h2 hd2 eF hdirs ⊢
  have hh := TreeAt.hole h
  have hg := slot_not_mem h hnd
  obtain ⟨hp, hx0, hdat, hbal, hl', hr'⟩ := hh
  obtain ⟨hndS, hndc, hdisj⟩ := (nodup_plug c _).1 hnd
  obtain ⟨hndl, hndr, hxl, hxr, hlr⟩ := Tree.nodup_node.1 hndS
  simp only [Tree.mem_node, not_or] at hg
  obtain ⟨hgl, hgx, hgr⟩ := hg
  rw [← h2] at hl' hndl
  obtain ⟨hpy, hy0, hdy, hby, hyl, hyr⟩ := TreeAt.hole hl'
  have hyr0 : (t.mem y).right = 0 := hyr
  obtain ⟨hndY, hndsp, hdisjY⟩ := (nodup_plug sp _).1 hndl
  obtain ⟨hndyl, -, hyyl, -, -⟩ := Tree.nodup_node.1 hndY
  have hYl : ∀ a, a ∈ (Tree.node yl y dy bY .nil).addrs → a ∈ l.addrs := fun a ha => by
    rw [← h2]; exact (mem_addrs_plug sp _ a).2 (Or.inl ha)
  have hspl : ∀ a, a ∈ ctxAddrs sp → a ∈ l.addrs := fun a ha => by
    rw [← h2]; exact (mem_addrs_plug sp _ a).2 (Or.inr ha)
  have hyl_in : y ∈ l.addrs := hYl y (Tree.mem_node.2 (Or.inr (Or.inl rfl)))
  have hxy : x ≠ y := fun e => hxl (e ▸ hyl_in)
  have hgy : y ≠ slotAddr c := fun e => hgl (e ▸ hyl_in)
  have hgx' : x ≠ slotAddr c := fun e => hgx e.symm
  have hL : ∀ a, a ∈ l.addrs → a ≠ x ∧ a ≠ slotAddr c := fun a ha =>
    ⟨fun e => hxl (e ▸ ha), fun e => hgl (e ▸ ha)⟩
  -- the memory after the swap
  have a1 : ∀ a, a ≠ slotAddr c → t1.mem a = t.mem a := fun a ha => by
    rw [e1]; exact set_mem_other _ _ _ _ _ ha
  have a2 : m2 x = t.mem x := by rw [e2, wrRight_other _ _ _ _ hxy, a1 x hgx']
  have a3 : m3 x = t.mem x := by rw [e3, wrLeft_other _ _ _ _ hxy, a2]
  have hm6 : ∀ a, a ≠ x → a ≠ y → m6 a = t1.mem a := by
    intro a hax hay
    rw [e6, wrLeft_other _ _ _ _ hax, e5, wrRight_other _ _ _ _ hax, e4,
      wrBalance_other _ _ _ _ hay, e3, wrLeft_other _ _ _ _ hay, e2,
      wrRight_other _ _ _ _ hay]
  have hm6y : m6 y = m4 y := by
    rw [e6, wrLeft_other _ _ _ _ hxy.symm, e5, wrRight_other _ _ _ _ hxy.symm]
  have hyd : (m6 y).data = dy := by
    rw [hm6y, e4, e3, e2]
    simp only [wrBalance_data, wrLeft_data, wrRight_data]
    rw [a1 y hgy]; exact hdy
  have hyb : (m6 y).balance = b := by
    rw [hm6y, e4, wrBalance_balance_same, a3]; exact hbal
  have hyL : (m6 y).left = (t.mem x).left := by
    rw [hm6y, e4, wrBalance_left, e3, wrLeft_left_same, a2]
  have hyR : (m6 y).right = (t.mem x).right := by
    rw [hm6y, e4, wrBalance_right, e3, wrLeft_right, e2, wrRight_right_same, a1 x hgx']
  have hxR : (m6 x).right = 0 := by
    rw [e6, wrLeft_right, e5, wrRight_right_same]
  have hxL : (m6 x).left = (t.mem y).left := by
    rw [e6, wrLeft_left_same]
  rw [hxR, hxL] at eF
  simp only [ne_eq, not_true_eq_false, if_false] at eF
  have hpl : plug (sp ++ Frame.L y dy b r :: c) yl =
      plug c (.node (plug sp yl) y dy b r) := by
    rw [plug_append]; rfl
  rw [hpl]
  cases sp with
  | nil =>
    have hd3 : dir2 < 0 := hd2
    have eFm : F.mem = wrLeft m6 y (t.mem y).left := by
      rw [eF]; exact set_mem_left_neg _ _ _ _ hy0 hd3
    have hag : ∀ a, a ≠ x → a ≠ y → a ≠ slotAddr c → F.mem a = t.mem a := by
      intro a hax hay hag
      rw [eFm, wrLeft_other _ _ _ _ hay, hm6 a hax hay, a1 a hag]
    refine @TreeAt.rewrite t F c _ _ dir y h hnd hd ?_ ?_ ?_
    · rw [eF]; exact (set_root _ _ _ _ hy0).trans (by rw [e1])
    · intro a ha
      simp only [Tree.mem_node, not_or] at ha
      have hay : a ≠ y := fun e => ha.1 (e ▸ hyl_in)
      rw [eFm, wrLeft_other _ _ _ _ hay, hm6 a ha.2.1 hay, e1]
    · refine ⟨rfl, hy0, ?_, ?_, ?_, ?_⟩
      · rw [eFm, wrLeft_data]; exact hyd
      · rw [eFm, wrLeft_balance]; exact hyb
      · rw [eFm, wrLeft_left_same]
        refine hyl.congr (fun a ha => ?_)
        have hal := hYl a (Tree.mem_node.2 (Or.inl ha))
        rw [← eFm]
        exact hag a (hL a hal).1 (fun e => hyyl (e ▸ ha)) (hL a hal).2
      · rw [eFm, wrLeft_right, hyR]
        refine hr'.congr (fun a ha => ?_)
        rw [← eFm]
        exact hag a (fun e => hxr (e ▸ ha)) (fun e => hlr y hyl_in (e ▸ ha))
          (fun e => hgr (e ▸ ha))
  | cons f sp =>
    have hfd := hdirs f (List.mem_cons_self _ _)
    cases f with
    | L fa fd fb fr => simp [Frame.DirOK] at hfd
    | R fl fa fd fb =>
      have hd3 : 0 < dir2 := hd2
      have hfa0 : fa ≠ 0 := slotAddr_ne_zero hl' (by simp)
      have hfa_in : fa ∈ ctxAddrs (Frame.R fl fa fd fb :: sp) :=
        slotAddr_mem_ctxAddrs (by simp)
      have hfal : fa ∈ l.addrs := hspl fa hfa_in
      have hfay : fa ≠ y := fun e =>
        hdisjY y (Tree.mem_node.2 (Or.inr (Or.inl rfl))) (e ▸ hfa_in)
      have eFm : F.mem = wrRight m6 fa (t.mem y).left := by
        rw [eF]; exact set_mem_right_pos _ _ _ _ hfa0 hd3
      have hag : ∀ a, a ≠ x → a ≠ y → a ≠ slotAddr c → a ≠ fa → F.mem a = t.mem a := by
        intro a hax hay hag haf
        rw [eFm, wrRight_other _ _ _ _ haf, hm6 a hax hay, a1 a hag]
      have hFy : F.mem y = m6 y := by rw [eFm, wrRight_other _ _ _ _ hfay.symm]
      refine @TreeAt.rewrite t F c _ _ dir y h hnd hd ?_ ?_ ?_
      · rw [eF]; exact (set_root _ _ _ _ hfa0).trans (by rw [e1])
      · intro a ha
        simp only [Tree.mem_node, not_or] at ha
        have hay : a ≠ y := fun e => ha.1 (e ▸ hyl_in)
        have haf : a ≠ fa := fun e => ha.1 (e ▸ hfal)
        rw [eFm, wrRight_other _ _ _ _ haf, hm6 a ha.2.1 hay, e1]
      · refine ⟨rfl, hy0, ?_, ?_, ?_, ?_⟩
        · rw [hFy]; exact hyd
        · rw [hFy]; exact hyb
        · rw [hFy, hyL]
          refine @TreeAt.replace_slot ⟨(t.mem x).left, t.mem⟩ ⟨(t.mem x).left, F.mem⟩
            (Frame.R fl fa fd fb :: sp) _ yl dir2 hl' hndsp hd2 ?_ (fun _ => rfl) ?_ ?_
          · intro a ha haf
            have hal := hspl a ha
            exact hag a (hL a hal).1
              (fun e => hdisjY y (Tree.mem_node.2 (Or.inr (Or.inl rfl))) (e ▸ ha))
              (hL a hal).2 haf
          · intro f hf
            simp only [List.head?_cons, Option.mem_def, Option.some.injEq] at hf
            subst hf
            have hm6fa : m6 fa = t.mem fa :=
              (hm6 fa (hL fa hfal).1 hfay).trans (a1 fa (hL fa hfal).2)
            simp only [Frame.addr, Frame.sibPtr, eFm, wrRight_data, wrRight_balance,
              wrRight_left, hm6fa, and_self]
          · have hv : val ⟨(t.mem x).left, F.mem⟩ (slotAddr (Frame.R fl fa fd fb :: sp)) dir2 =
                (t.mem y).left := by
              have hnd3 : ¬ dir2 < 0 := by omega
              simp only [val, slotAddr, Frame.addr, ne_eq, hfa0, not_false_eq_true, if_true,
                hnd3, if_false, eFm, wrRight_right_same]
            rw [hv]
            refine hyl.congr (fun a ha => ?_)
            have haY : a ∈ (Tree.node yl y dy bY .nil).addrs := Tree.mem_node.2 (Or.inl ha)
            have hal := hYl a haY
            exact hag a (hL a hal).1 (fun e => hyyl (e ▸ ha)) (hL a hal).2
              (fun e => hdisjY a haY (e ▸ hfa_in))
        · rw [hFy, hyR]
          refine hr'.congr (fun a ha => ?_)
          exact hag a (fun e => hxr (e ▸ ha)) (fun e => hlr y hyl_in (e ▸ ha))
            (fun e => hgr (e ▸ ha)) (fun e => hlr fa hfal (e ▸ ha))

/-- Unlinking a node with two children: it changes places with the previous
entry, which is then unlinked from its old place. -/
theorem deleteUnlink_swap {t : GenAVLTree} {c : Ctx} {stack : PathStack} {l r : Tree}
    {x d : Nat} {b : Int} {fuel : Nat}
    (h : TreeAt t.mem t.root (plug c (.node l x d b r)))
    (hnd : (plug c (.node l x d b r)).addrs.Nodup) (hst : StackRep stack c)
    (hl : l ≠ .nil) (hr : r ≠ .nil) (hf : l.height ≤ fuel) :
    ∃ t1 stack1 g1, deleteSwap fuel t stack (c.length + 1) x = some (t1, stack1, g1) ∧
      g1 - 1 = (Tree.unlink c (.node l x d b r)).1.length ∧
      StackRep stack1 (Tree.unlink c (.node l x d b r)).1 ∧
      TreeAt (set t1 (stack1 (g1 - 1)).e (stack1 (g1 - 1)).d
          (if (t1.mem x).right ≠ 0 then (t1.mem x).right else (t1.mem x).left)).mem
        (set t1 (stack1 (g1 - 1)).e (stack1 (g1 - 1)).d
          (if (t1.mem x).right ≠ 0 then (t1.mem x).right else (t1.mem x).left)).root
        (plug (Tree.unlink c (.node l x d b r)).1 (Tree.unlink c (.node l x d b r)).2) ∧
      ∀ a, a ∉ (plug c (.node l x d b r)).addrs →
        (set t1 (stack1 (g1 - 1)).e (stack1 (g1 - 1)).d
          (if (t1.mem x).right ≠ 0 then (t1.mem x).right else (t1.mem x).left)).mem a =
          t.mem a := by
  obtain ⟨yl, y, dy, bY, h1, h2⟩ := Tree.rightmost_spec l hl
  rw [Tree.unlink_two c hl hr h1]
  simp only
  have hh := TreeAt.hole h
  have hg := slot_not_mem h hnd
  obtain ⟨hp, hx0, hdat, hbal, hl', hr'⟩ := hh
  obtain ⟨hndS, -, -⟩ := (nodup_plug c _).1 hnd
  obtain ⟨hndl, hndr, hxl, hxr, hlr⟩ := Tree.nodup_node.1 hndS
  simp only [Tree.mem_node, not_or] at hg
  obtain ⟨hgl, hgx, hgr⟩ := hg
  have hl0 : (t.mem x).left ≠ 0 := fun e => hl (hl'.nil_iff.1 e)
  have hr0 : (t.mem x).right ≠ 0 := fun e => hr (hr'.nil_iff.1 e)
  -- the stack
  have hst1 : StackRep (Function.update stack (c.length + 1) ⟨x, -1⟩) (.L x d b r :: c) :=
    ⟨by simp [Frame.addr], by simp [Frame.DirOK], hst.update _ _ (by simp)⟩
  obtain ⟨stack2, hpl, hst2⟩ := deletePredLoop_spec t.mem l (.L x d b r :: c) _ _ fuel hl hl' hf
    hst1
  rw [h1] at hpl
  simp only [Tree.rootAddr, List.length_cons] at hpl
  rw [Tree.rightCtx_append] at hst2
  have hst3 : StackRep (Function.update stack2 (c.length + 1) ⟨y, -1⟩)
      (Tree.rightCtx l [] ++ .L y dy b r :: c) :=
    StackRep.replace_frame _ c _ (.L y dy b r) ⟨y, -1⟩ hst2 (by simp [Frame.addr])
      (by simp [Frame.DirOK])
  have hst3c : StackRep (Function.update stack2 (c.length + 1) ⟨y, -1⟩) c := by
    have := StackRep.drop (Tree.rightCtx l [] ++ [.L y dy b r]) c (by simpa using hst3)
    exact this
  obtain ⟨htc1, htc2⟩ := hst3c.top
  obtain ⟨ht1, ht2⟩ := hst3.top
  have hlen : (Tree.rightCtx l (.L x d b r :: c)).length =
      (Tree.rightCtx l [] ++ .L y dy b r :: c).length := by
    rw [Tree.rightCtx_append]; simp
  refine ⟨_, _, _, by
    simp only [deleteSwap, hl0, hr0, ne_eq, not_false_eq_true, and_self, if_true, hpl]
    rfl, ?_, ?_, ?_⟩
  · simp only [Nat.add_sub_cancel, Tree.rightCtx_append l (Frame.L y dy b r :: c)]
    exact hlen
  · rw [Tree.rightCtx_append l (Frame.L y dy b r :: c)]
    exact hst3
  · have key := deleteSwap_mem h hnd h2 htc2 ht2 _ _ _ _ _ _ rfl rfl rfl rfl rfl rfl _ rfl
    rw [← ht1, ← htc1, ← hlen] at key
    rw [Tree.rightCtx_append l (Frame.L y dy b r :: c)]
    exact key

theorem Tree.height_node_left (l r : Tree) (a d : Nat) (b : Int) :
    l.height ≤ (Tree.node l a d b r).height := by
  simp only [Tree.height]; omega

/-- The swap and the unlinking store of `GenAVLTreeDelete`, for a node with any
number of children. -/
theorem deleteUnlink_spec {t : GenAVLTree} {c : Ctx} {stack : PathStack} {l r : Tree}
    {x d : Nat} {b : Int} {fuel : Nat}
    (h : TreeAt t.mem t.root (plug c (.node l x d b r)))
    (hnd : (plug c (.node l x d b r)).addrs.Nodup) (hst : StackRep stack c)
    (hf : l.height ≤ fuel) :
    ∃ t1 stack1 g1, deleteSwap fuel t stack (c.length + 1) x = some (t1, stack1, g1) ∧
      g1 - 1 = (Tree.unlink c (.node l x d b r)).1.length ∧
      StackRep stack1 (Tree.unlink c (.node l x d b r)).1 ∧
      TreeAt (set t1 (stack1 (g1 - 1)).e (stack1 (g1 - 1)).d
          (if (t1.mem x).right ≠ 0 then (t1.mem x).right else (t1.mem x).left)).mem
        (set t1 (stack1 (g1 - 1)).e (stack1 (g1 - 1)).d
          (if (t1.mem x).right ≠ 0 then (t1.mem x).right else (t1.mem x).left)).root
        (plug (Tree.unlink c (.node l x d b r)).1 (Tree.unlink c (.node l x d b r)).2) ∧
      ∀ a, a ∉ (plug c (.node l x d b r)).addrs →
        (set t1 (stack1 (g1 - 1)).e (stack1 (g1 - 1)).d
          (if (t1.mem x).right ≠ 0 then (t1.mem x).right else (t1.mem x).left)).mem a =
          t.mem a := by
  by_cases hlr : l = .nil ∨ r = .nil
  · obtain ⟨h1, h2, h3, h4⟩ := @deleteUnlink_simple _ _ _ _ _ _ _ _ fuel h hnd hst hlr
    refine ⟨t, stack, c.length + 1, h1, ?_, ?_, ?_, ?_⟩
    · rw [h2]; rfl
    · rw [h2]; exact hst
    · rw [h2]; exact h3
    · exact h4
  · simp only [not_or] at hlr
    exact deleteUnlink_swap h hnd hst hlr.1 hlr.2 hf

/-- `GenAVLTreeDelete` with a key that no entry has: returns null, and the
state is the one before the call. -/
theorem GenAVLTreeDelete_absent (K : Nat → Int) (fuel : Nat) (t : GenAVLTree) (key : Int)
    (T : Tree) (h : TreeAt t.mem t.root T) (hk : key ∉ T.keys K) (hf : T.height < fuel) :
    GenAVLTreeDelete K fuel t key = some (t, 0) := by
  have h1 := (deleteSearchLoop_spec K t.mem key T [] fuel (fun _ => ⟨0, 0⟩) t.root 0 0 h hf rfl
    trivial (fun f c' e => by cases e)).1 (Tree.locate_none K key T [] hk)
  simp only [List.length_nil] at h1
  simp only [GenAVLTreeDelete, h1]

/-- `GenAVLTreeDelete` with the key of an entry: returns the payload pointer of
that entry, and the memory then holds the tree given by `Tree.deleteTree`. -/
theorem GenAVLTreeDelete_present (K : Nat → Int) (fuel : Nat) (t : GenAVLTree) (key : Int)
    (T : Tree) (h : TreeAt t.mem t.root T) (hnd : T.addrs.Nodup) (hb : T.Balanced)
    (hf : T.height < fuel) (c : Ctx) (s : Tree) (hloc : Tree.locate K key T [] = some (c, s)) :
    ∃ t', GenAVLTreeDelete K fuel t key = some (t', s.rootData) ∧
      TreeAt t'.mem t'.root (Tree.deleteTree K key T) ∧
      ∀ a, a ∉ T.addrs → t'.mem a = t.mem a := by
  obtain ⟨stack, h1, hst⟩ := (deleteSearchLoop_spec K t.mem key T [] fuel (fun _ => ⟨0, 0⟩)
    t.root 0 0 h hf rfl trivial (fun f c' e => by cases e)).2 c s hloc
  simp only [List.length_nil] at h1
  obtain ⟨hpl, l, x, d, b, r, hs, hkd⟩ := Tree.locate_spec K key T [] c s hloc
  subst hs
  have hpl' : plug c (.node l x d b r) = T := hpl
  rw [← hpl'] at h hnd hb hf
  have hlf : l.height ≤ fuel := by
    have h1 := height_le_plug c (.node l x d b r)
    have h2 := Tree.height_node_left l r x d b
    omega
  obtain ⟨t1, stack1, g1, hsw, hg1, hst1, htr, hfr⟩ :=
    @deleteUnlink_spec _ _ _ _ _ _ _ _ fuel h hnd hst hlf
  obtain ⟨hbs, hbc⟩ := Tree.unlink_bal c l r x d b hb
  have hnd2 : (plug (Tree.unlink c (.node l x d b r)).1
      (Tree.unlink c (.node l x d b r)).2).addrs.Nodup := by
    obtain ⟨l1, l2, e1, e2⟩ := Tree.unlink_entries c l r x d b
    rw [Tree.addrs_eq_map, e2]
    rw [Tree.addrs_eq_map, e1] at hnd
    simp only [List.map_append, List.map_cons] at hnd ⊢
    exact (List.nodup_middle.1 hnd).of_cons
  have hreb := deleteRebalance_spec stack1 _ _ _ htr hnd2 hst1 hbs hbc
  obtain ⟨hx1, hx2⟩ := hreb
  have hdat : (t.mem x).data = d := (TreeAt.hole h).2.2.1
  rw [← hg1] at hx1 hx2
  refine ⟨deleteRebalance stack1 (g1 - 1) (set t1 (stack1 (g1 - 1)).e (stack1 (g1 - 1)).d
    (if (t1.mem x).right ≠ 0 then (t1.mem x).right else (t1.mem x).left)), ?_, ?_, ?_⟩
  · simp only [GenAVLTreeDelete, h1, Tree.rootAddr, hsw, hdat, Tree.rootData]
  · simp only [Tree.deleteTree, hloc]
    exact hx1
  · intro a ha
    have ha' : a ∉ (plug c (Tree.node l x d b r)).addrs := by rw [hpl']; exact ha
    have ha2 : a ∉ (plug (Tree.unlink c (.node l x d b r)).1
        (Tree.unlink c (.node l x d b r)).2).addrs := by
      obtain ⟨l1, l2, e1, e2⟩ := Tree.unlink_entries c l r x d b
      rw [Tree.addrs_eq_map, e2]
      rw [Tree.addrs_eq_map, e1] at ha'
      simp only [List.map_append, List.map_cons, List.mem_append, List.mem_cons, not_or] at ha' ⊢
      exact ⟨ha'.1, ha'.2.2⟩
    rw [hx2 a ha2, hfr a ha']

/-! ## The tree-level effect of deletion -/

theorem Tree.deleteTree_absent (K : Nat → Int) (k : Int) (t : Tree) (hk : k ∉ t.keys K) :
    Tree.deleteTree K k t = t := by
  simp only [Tree.deleteTree, Tree.locate_none K k t [] hk]

theorem Tree.deleteTree_entries (K : Nat → Int) (k : Int) (t : Tree) (c : Ctx) (s : Tree)
    (hloc : Tree.locate K k t [] = some (c, s)) :
    ∃ l1 l2, t.entries = l1 ++ (s.rootAddr, s.rootData) :: l2 ∧ K s.rootData = k ∧
      (Tree.deleteTree K k t).entries = l1 ++ l2 := by
  obtain ⟨hpl, l, x, d, b, r, hs, hkd⟩ := Tree.locate_spec K k t [] c s hloc
  subst hs
  obtain ⟨l1, l2, e1, e2⟩ := Tree.unlink_entries c l r x d b
  have hpl' : plug c (.node l x d b r) = t := hpl
  refine ⟨l1, l2, ?_, hkd, ?_⟩
  · rw [← hpl']; exact e1
  · simp only [Tree.deleteTree, hloc, Tree.entries_unwind]
    exact e2

theorem Tree.deleteTree_balanced (K : Nat → Int) (k : Int) (t : Tree) (hb : t.Balanced) :
    (Tree.deleteTree K k t).Balanced := by
  cases hloc : Tree.locate K k t [] with
  | none => simp only [Tree.deleteTree, hloc]; exact hb
  | some cs =>
    obtain ⟨c, s⟩ := cs
    obtain ⟨hpl, l, x, d, b, r, hs, -⟩ := Tree.locate_spec K k t [] c s hloc
    subst hs
    have hpl' : plug c (.node l x d b r) = t := hpl
    rw [← hpl'] at hb
    obtain ⟨h1, h2⟩ := Tree.unlink_bal c l r x d b hb
    simp only [Tree.deleteTree, hloc]
    exact Tree.unwind_balanced _ _ h1 h2

theorem Tree.deleteTree_sorted (K : Nat → Int) (k : Int) (t : Tree) (hs : t.Sorted K) :
    (Tree.deleteTree K k t).Sorted K := by
  cases hloc : Tree.locate K k t [] with
  | none => simp only [Tree.deleteTree, hloc]; exact hs
  | some cs =>
    obtain ⟨c, s⟩ := cs
    obtain ⟨l1, l2, e1, -, e2⟩ := Tree.deleteTree_entries K k t c s hloc
    unfold Tree.Sorted at hs ⊢
    rw [Tree.keys_eq_map, e1] at hs
    rw [Tree.keys_eq_map, e2]
    simp only [List.map_append, List.map_cons] at hs ⊢
    exact hs.sublist (List.Sublist.append_left (List.sublist_cons_self _ _) _)

/-! ## Insertion and deletion keep the invariant -/

/-- The header reset at the start of `GenAVLTreeAdd` leaves a tree alone that
does not hold the entry. -/
theorem TreeAt.reset {m : Mem} {p : Nat} {T : Tree} (h : TreeAt m p T) (gae : Nat)
    (hg : gae ∉ T.addrs) :
    TreeAt (wrBalance (wrRight (wrLeft m gae 0) gae 0) gae 0) p T := by
  refine h.congr (fun a ha => ?_)
  have hne : a ≠ gae := fun e => hg (e ▸ ha)
  rw [wrBalance_other _ _ _ _ hne, wrRight_other _ _ _ _ hne, wrLeft_other _ _ _ _ hne]

/-- Both outcomes of `GenAVLTreeAdd` on a tree that satisfies the invariant. -/
theorem GenAVLTreeAdd_cases (K : Nat → Int) (fuel : Nat) (t : GenAVLTree) (gae : Nat) (T : Tree)
    (h : TreeAt t.mem t.root T) (hb : T.Balanced) (hs : T.Sorted K) (hg : gae ∉ T.addrs)
    (hg0 : gae ≠ 0) (hf : T.height < fuel) :
    (K (t.mem gae).data ∈ T.keys K ∧
      GenAVLTreeAdd K fuel t gae =
        some ({ t with mem := wrBalance (wrRight (wrLeft t.mem gae 0) gae 0) gae 0 }, 0)) ∨
    (K (t.mem gae).data ∉ T.keys K ∧
      ∃ t', GenAVLTreeAdd K fuel t gae = some (t', 1) ∧
        TreeAt t'.mem t'.root (Tree.addTree K gae (t.mem gae).data T) ∧
        (∀ a, a ∉ T.addrs → a ≠ gae → t'.mem a = t.mem a) ∧
        (t'.mem gae).data = (t.mem gae).data) := by
  by_cases hk : K (t.mem gae).data ∈ T.keys K
  · exact Or.inl ⟨hk, GenAVLTreeAdd_dup K fuel t gae T h hs hg hk hf⟩
  · exact Or.inr ⟨hk, GenAVLTreeAdd_new K fuel t gae T h (h.nodup hs) hg hg0 hk
      (Tree.addTree_shiftOK K gae _ T hb) hf⟩

/-- C1: `GenAVLTreeAdd` preserves the invariant.  When the memory holds a tree
whose balance fields all equal height(right) - height(left) and lie in
{-1, 0, 1} and whose in-order keys strictly increase, then for a fresh entry
the call returns (with 1 or 0) and the memory afterwards again holds such a
tree. -/
theorem GenAVLTreeAdd_preserves_invariant (K : Nat → Int) (fuel : Nat) (t : GenAVLTree)
    (gae : Nat) (T : Tree) (h : TreeAt t.mem t.root T) (hb : T.Balanced) (hs : T.Sorted K)
    (hg : gae ∉ T.addrs) (hg0 : gae ≠ 0) (hf : T.height < fuel) :
    ∃ t' r T', GenAVLTreeAdd K fuel t gae = some (t', r) ∧ (r = 1 ∨ r = 0) ∧
      TreeAt t'.mem t'.root T' ∧ T'.Balanced ∧ T'.Sorted K := by
  rcases GenAVLTreeAdd_cases K fuel t gae T h hb hs hg hg0 hf with ⟨-, h1⟩ | ⟨hk, t', h1, h2, -⟩
  · exact ⟨_, 0, T, h1, Or.inr rfl, h.reset gae hg, hb, hs⟩
  · exact ⟨t', 1, _, h1, Or.inl rfl, h2, Tree.addTree_balanced K gae _ T hb,
      Tree.addTree_sorted K gae _ T hs hk⟩

/-- Both outcomes of `GenAVLTreeDelete` on a tree that satisfies the
invariant. -/
theorem GenAVLTreeDelete_cases (K : Nat → Int) (fuel : Nat) (t : GenAVLTree) (key : Int)
    (T : Tree) (h : TreeAt t.mem t.root T) (hb : T.Balanced) (hs : T.Sorted K)
    (hf : T.height < fuel) :
    (key ∉ T.keys K ∧ GenAVLTreeDelete K fuel t key = some (t, 0)) ∨
    (key ∈ T.keys K ∧ ∃ t' x d l1 l2, GenAVLTreeDelete K fuel t key = some (t', d) ∧
      K d = key ∧ T.entries = l1 ++ (x, d) :: l2 ∧
      TreeAt t'.mem t'.root (Tree.deleteTree K key T) ∧
      (Tree.deleteTree K key T).entries = l1 ++ l2 ∧
      ∀ a, a ∉ T.addrs → t'.mem a = t.mem a) := by
  by_cases hk : key ∈ T.keys K
  · obtain ⟨c, s, hloc⟩ := Tree.locate_some K key T [] hs hk
    obtain ⟨t', h1, h2, h3⟩ := GenAVLTreeDelete_present K fuel t key T h (h.nodup hs) hb hf c s hloc
    obtain ⟨l1, l2, e1, e2, e3⟩ := Tree.deleteTree_entries K key T c s hloc
    exact Or.inr ⟨hk, t', s.rootAddr, s.rootData, l1, l2, h1, e2, e1, h2, e3, h3⟩
  · exact Or.inl ⟨hk, GenAVLTreeDelete_absent K fuel t key T h hk hf⟩

/-- C2: `GenAVLTreeDelete` preserves the invariant.  When the memory holds a
tree whose balance fields all equal height(right) - height(left) and lie in
{-1, 0, 1} and whose in-order keys strictly increase, then for every key,
present or not, the call returns and the memory afterwards again holds such a
tree. -/
theorem GenAVLTreeDelete_preserves_invariant (K : Nat → Int) (fuel : Nat) (t : GenAVLTree)
    (key : Int) (T : Tree) (h : TreeAt t.mem t.root T) (hb : T.Balanced) (hs : T.Sorted K)
    (hf : T.height < fuel) :
    ∃ t' r T', GenAVLTreeDelete K fuel t key = some (t', r) ∧
      TreeAt t'.mem t'.root T' ∧ T'.Balanced ∧ T'.Sorted K := by
  rcases GenAVLTreeDelete_cases K fuel t key T h hb hs hf with
    ⟨-, h1⟩ | ⟨-, t', x, d, l1, l2, h1, -, -, h2, -, -⟩
  · exact ⟨t, 0, T, h1, h, hb, hs⟩
  · exact ⟨t', d, _, h1, h2, Tree.deleteTree_balanced K key T hb,
      Tree.deleteTree_sorted K key T hs⟩

/-! ## The concrete memory of the examples -/

theorem exState_holds : TreeAt exState.mem exState.root exTree :=
  ⟨rfl, by decide, rfl, rfl, rfl, rfl⟩

theorem exTree_balanced : exTree.Balanced := by
  simp [exTree, Tree.Balanced, Tree.height]

theorem exTree_sorted : exTree.Sorted exKey := by
  simp [exTree, Tree.Sorted, Tree.keys]

theorem exTree_addrs : exTree.addrs = [1] := rfl

theorem exTree_keys : exTree.keys exKey = [10] := rfl

theorem exTree_height : exTree.height = 1 := rfl

theorem exState3_holds : TreeAt exState3.mem exState3.root exTree3 :=
  ⟨rfl, by decide, rfl, rfl, ⟨rfl, by decide, rfl, rfl, rfl, rfl⟩,
    ⟨rfl, by decide, rfl, rfl, rfl, rfl⟩⟩

theorem exTree3_balanced : exTree3.Balanced := by
  simp [exTree3, Tree.Balanced, Tree.height]

theorem exTree3_sorted : exTree3.Sorted exKey := by
  simp [exTree3, Tree.Sorted, Tree.keys, exKey]

theorem exTree3_addrs : exTree3.addrs = [1, 2, 3] := rfl

theorem exTree3_keys : exTree3.keys exKey = [10, 20, 30] := rfl

theorem exTree3_height : exTree3.height = 2 := rfl

/-- Witness of C1: the entry at address 2 (key 20) added to the one-entry tree
of the example. -/
theorem GenAVLTreeAdd_preserves_invariant_witness :
    ∃ t' r T', GenAVLTreeAdd exKey 2 exState 2 = some (t', r) ∧ (r = 1 ∨ r = 0) ∧
      TreeAt t'.mem t'.root T' ∧ T'.Balanced ∧ T'.Sorted exKey :=
  GenAVLTreeAdd_preserves_invariant exKey 2 exState 2 exTree exState_holds exTree_balanced
    exTree_sorted (by simp [exTree_addrs]) (by decide) (by simp [exTree_height])

/-- Witness of C2: key 10 deleted from the one-entry tree of the example. -/
theorem GenAVLTreeDelete_preserves_invariant_witness :
    ∃ t' r T', GenAVLTreeDelete exKey 2 exState 10 = some (t', r) ∧
      TreeAt t'.mem t'.root T' ∧ T'.Balanced ∧ T'.Sorted exKey :=
  GenAVLTreeDelete_preserves_invariant exKey 2 exState 10 exTree exState_holds exTree_balanced
    exTree_sorted (by simp [exTree_height])

/-! ## What insertion and deletion return -/

/-- C3: for a tree that satisfies the invariant and a fresh entry `gae`,
`GenAVLTreeAdd` returns 1 exactly when no entry of the tree has the key of
`gae`; the memory then holds a tree (again balanced and strictly increasing)
whose in-order sequence is the old one with `gae` and its payload put in at
one place, every old entry keeping its place, address and payload. -/
theorem GenAVLTreeAdd_inserts (K : Nat → Int) (fuel : Nat) (t : GenAVLTree)
    (gae : Nat) (T : Tree) (h : TreeAt t.mem t.root T) (hb : T.Balanced) (hs : T.Sorted K)
    (hg : gae ∉ T.addrs) (hg0 : gae ≠ 0) (hf : T.height < fuel) :
    ∃ t' r, GenAVLTreeAdd K fuel t gae = some (t', r) ∧
      (r = 1 ↔ K (t.mem gae).data ∉ T.keys K) ∧
      (r = 1 → ∃ T' l1 l2, TreeAt t'.mem t'.root T' ∧ T'.Balanced ∧ T'.Sorted K ∧
        T.entries = l1 ++ l2 ∧ T'.entries = l1 ++ (gae, (t.mem gae).data) :: l2 ∧
        (∀ a d, (a, d) ∈ T'.entries → (t'.mem a).data = (t.mem a).data)) := by
  rcases GenAVLTreeAdd_cases K fuel t gae T h hb hs hg hg0 hf with
    ⟨hk, h1⟩ | ⟨hk, t', h1, h2, h3, h4⟩
  · exact ⟨_, 0, h1, ⟨fun e => (by cases e), fun e => absurd hk e⟩, fun e => (by cases e)⟩
  · refine ⟨t', 1, h1, ⟨fun _ => hk, fun _ => rfl⟩, fun _ => ?_⟩
    obtain ⟨l1, l2, e1, e2⟩ := Tree.entries_insLeaf K gae (t.mem gae).data T
    rw [← Tree.entries_addTree] at e2
    refine ⟨_, l1, l2, h2, Tree.addTree_balanced K gae _ T hb,
      Tree.addTree_sorted K gae _ T hs hk, e1, e2, ?_⟩
    intro a d had
    rw [h2.data_of_mem a d had]
    rw [e2] at had
    simp only [List.mem_append, List.mem_cons, Prod.mk.injEq] at had
    have hT : (a, d) ∈ T.entries → d = (t.mem a).data := fun hin =>
      (h.data_of_mem a d hin).symm
    rcases had with hin | ⟨rfl, rfl⟩ | hin
    · exact hT (by rw [e1]; exact List.mem_append_left _ hin)
    · rfl
    · exact hT (by rw [e1]; exact List.mem_append_right _ hin)

/-- Witness of C3: the entry at address 2 added to the tree of the example. -/
theorem GenAVLTreeAdd_inserts_witness :
    ∃ t' r, GenAVLTreeAdd exKey 2 exState 2 = some (t', r) ∧
      (r = 1 ↔ exKey (exState.mem 2).data ∉ exTree.keys exKey) ∧
      (r = 1 → ∃ T' l1 l2, TreeAt t'.mem t'.root T' ∧ T'.Balanced ∧ T'.Sorted exKey ∧
        exTree.entries = l1 ++ l2 ∧ T'.entries = l1 ++ (2, (exState.mem 2).data) :: l2 ∧
        (∀ a d, (a, d) ∈ T'.entries → (t'.mem a).data = (exState.mem a).data)) :=
  GenAVLTreeAdd_inserts exKey 2 exState 2 exTree exState_holds exTree_balanced
    exTree_sorted (by simp [exTree_addrs]) (by decide) (by simp [exTree_height])

/-- C4: for a tree with strictly increasing keys and an entry `gae` that is not
linked in it but whose key is the key of an entry of the tree, `GenAVLTreeAdd`
returns 0, and the root and the header (payload, balance, right, left) of
every entry of the tree are as before the call. -/
theorem GenAVLTreeAdd_duplicate (K : Nat → Int) (fuel : Nat) (t : GenAVLTree)
    (gae : Nat) (T : Tree) (h : TreeAt t.mem t.root T) (hs : T.Sorted K)
    (hg : gae ∉ T.addrs) (hk : K (t.mem gae).data ∈ T.keys K) (hf : T.height < fuel) :
    ∃ t', GenAVLTreeAdd K fuel t gae = some (t', 0) ∧ t'.root = t.root ∧
      (∀ a, a ∈ T.addrs → t'.mem a = t.mem a) ∧ TreeAt t'.mem t'.root T := by
  refine ⟨_, GenAVLTreeAdd_dup K fuel t gae T h hs hg hk hf, rfl, ?_, h.reset gae hg⟩
  intro a ha
  have hne : a ≠ gae := fun e => hg (e ▸ ha)
  show wrBalance (wrRight (wrLeft t.mem gae 0) gae 0) gae 0 a = t.mem a
  rw [wrBalance_other _ _ _ _ hne, wrRight_other _ _ _ _ hne, wrLeft_other _ _ _ _ hne]

/-- Witness of C4: the entry at address 2 has the key of the entry in the
tree. -/
theorem GenAVLTreeAdd_duplicate_witness :
    ∃ t', GenAVLTreeAdd exKey 2 ⟨1, exMemDup⟩ 2 = some (t', 0) ∧ t'.root = 1 ∧
      (∀ a, a ∈ exTree.addrs → t'.mem a = exMemDup a) ∧ TreeAt t'.mem t'.root exTree :=
  GenAVLTreeAdd_duplicate exKey 2 ⟨1, exMemDup⟩ 2 exTree ⟨rfl, by decide, rfl, rfl, rfl, rfl⟩
    exTree_sorted (by simp [exTree_addrs]) (by simp [exTree_keys, exMemDup, exKey])
    (by simp [exTree_height])

/-- C5: for a tree that satisfies the invariant and a key that is present,
`GenAVLTreeDelete` returns the payload pointer `d` of the entry `x` with that
key, and the memory then holds a tree whose in-order sequence is the old one
with exactly `(x, d)` taken out: every other entry is there at the same
address with the same payload pointer. -/
theorem GenAVLTreeDelete_removes (K : Nat → Int) (fuel : Nat) (t : GenAVLTree)
    (key : Int) (T : Tree) (h : TreeAt t.mem t.root T) (hb : T.Balanced) (hs : T.Sorted K)
    (hk : key ∈ T.keys K) (hf : T.height < fuel) :
    ∃ t' x d l1 l2 T', GenAVLTreeDelete K fuel t key = some (t', d) ∧
      K d = key ∧ (t.mem x).data = d ∧ T.entries = l1 ++ (x, d) :: l2 ∧
      TreeAt t'.mem t'.root T' ∧ T'.entries = l1 ++ l2 ∧
      (∀ a e, (a, e) ∈ T'.entries → (t'.mem a).data = (t.mem a).data) := by
  rcases GenAVLTreeDelete_cases K fuel t key T h hb hs hf with
    ⟨hk', -⟩ | ⟨-, t', x, d, l1, l2, h1, h2, h3, h4, h5, -⟩
  · exact absurd hk hk'
  · refine ⟨t', x, d, l1, l2, _, h1, h2, ?_, h3, h4, h5, ?_⟩
    · exact h.data_of_mem x d (by rw [h3]; simp)
    · intro a e hae
      rw [h4.data_of_mem a e hae]
      rw [h5] at hae
      refine (h.data_of_mem a e ?_).symm
      rw [h3]
      simp only [List.mem_append, List.mem_cons] at hae ⊢
      tauto

/-- Witness of C5: key 10 deleted from the one-entry tree of the example. -/
theorem GenAVLTreeDelete_removes_witness :
    ∃ t' x d l1 l2 T', GenAVLTreeDelete exKey 2 exState 10 = some (t', d) ∧
      exKey d = 10 ∧ (exState.mem x).data = d ∧ exTree.entries = l1 ++ (x, d) :: l2 ∧
      TreeAt t'.mem t'.root T' ∧ T'.entries = l1 ++ l2 ∧
      (∀ a e, (a, e) ∈ T'.entries → (t'.mem a).data = (exState.mem a).data) :=
  GenAVLTreeDelete_removes exKey 2 exState 10 exTree exState_holds exTree_balanced
    exTree_sorted (by simp [exTree_keys]) (by simp [exTree_height])

/-- C6: for a tree held in memory and a key that no entry has,
`GenAVLTreeDelete` returns null and the state after the call is the state
before it: the root and every header field are unchanged. -/
theorem GenAVLTreeDelete_missing (K : Nat → Int) (fuel : Nat) (t : GenAVLTree)
    (key : Int) (T : Tree) (h : TreeAt t.mem t.root T) (hk : key ∉ T.keys K)
    (hf : T.height < fuel) :
    GenAVLTreeDelete K fuel t key = some (t, 0) :=
  GenAVLTreeDelete_absent K fuel t key T h hk hf

/-- Witness of C6: key 7 is not in the tree of the example. -/
theorem GenAVLTreeDelete_missing_witness :
    GenAVLTreeDelete exKey 2 exState 7 = some (exState, 0) :=
  GenAVLTreeDelete_missing exKey 2 exState 7 exTree exState_holds (by simp [exTree_keys])
    (by simp [exTree_height])

/-! ## The read-only queries -/

theorem TreeAt.mem_keys_iff {K : Nat → Int} {m : Mem} {p : Nat} {t : Tree} (h : TreeAt m p t)
    (key : Int) : key ∈ t.keys K ↔ ∃ a ∈ t.addrs, Key K m a = key := by
  rw [h.keys_map_key, List.mem_map]

/-- C8: for a tree with strictly increasing keys (balanced or not),
`GenAVLTreeFind` returns the entry of the tree whose key is the given key when
there is one, and null otherwise.  The function only reads the memory: it has
no state among its results. -/
theorem GenAVLTreeFind_finds (K : Nat → Int) (fuel : Nat) (t : GenAVLTree) (key : Int)
    (T : Tree) (h : TreeAt t.mem t.root T) (hs : T.Sorted K) (hf : T.height < fuel) :
    ∃ r, GenAVLTreeFind K fuel t key = some r ∧
      (key ∈ T.keys K → r ∈ T.addrs ∧ Key K t.mem r = key) ∧
      (key ∉ T.keys K → r = 0) := by
  obtain ⟨r, h1, h2⟩ := findLoop_spec K t.mem key T t.root fuel h hs hf
  refine ⟨r, h1, ?_, ?_⟩
  · intro hk
    rcases h2 with h2 | ⟨-, h2⟩
    · exact h2
    · obtain ⟨a, ha, hka⟩ := (h.mem_keys_iff key).1 hk
      exact absurd hka (h2 a ha)
  · intro hk
    rcases h2 with ⟨h2, h3⟩ | ⟨h2, -⟩
    · exact absurd ((h.mem_keys_iff key).2 ⟨r, h2, h3⟩) hk
    · exact h2

/-- Witness of C8: a search in the one-entry tree of the example. -/
theorem GenAVLTreeFind_finds_witness :
    ∃ r, GenAVLTreeFind exKey 2 exState 10 = some r ∧
      ((10 : Int) ∈ exTree.keys exKey → r ∈ exTree.addrs ∧ Key exKey exState.mem r = 10) ∧
      ((10 : Int) ∉ exTree.keys exKey → r = 0) :=
  GenAVLTreeFind_finds exKey 2 exState 10 exTree exState_holds exTree_sorted
    (by simp [exTree_height])

/-- Three entries that follow one another in a strictly increasing sequence:
no entry lies between two neighbours. -/
theorem between_neighbours {α : Type} (f : α → Int) (l1 l2 : List α) (x1 x2 x3 r : α)
    (hp : (l1 ++ x1 :: x2 :: x3 :: l2).Pairwise (fun a b => f a < f b))
    (hr : r ∈ l1 ++ x1 :: x2 :: x3 :: l2) :
    f x1 < f x2 ∧ f x2 < f x3 ∧ (f x1 < f r → f r ≤ f x2 → f r = f x2) ∧
      (f r < f x3 → f x2 ≤ f r → f r = f x2) := by
  rw [List.pairwise_append] at hp
  obtain ⟨-, hp2, hp3⟩ := hp
  rw [List.pairwise_cons] at hp2
  obtain ⟨h12, hp2⟩ := hp2
  rw [List.pairwise_cons] at hp2
  obtain ⟨h23, hp2⟩ := hp2
  rw [List.pairwise_cons] at hp2
  obtain ⟨h3, -⟩ := hp2
  have e12 : f x1 < f x2 := h12 x2 (by simp)
  have e23 : f x2 < f x3 := h23 x3 (by simp)
  refine ⟨e12, e23, ?_, ?_⟩
  · intro ha hb
    simp only [List.mem_append, List.mem_cons] at hr
    rcases hr with hr | rfl | rfl | rfl | hr
    · have := hp3 r hr x1 (by simp); omega
    · omega
    · rfl
    · omega
    · have := h3 r hr; omega
  · intro ha hb
    simp only [List.mem_append, List.mem_cons] at hr
    rcases hr with hr | rfl | rfl | rfl | hr
    · have := hp3 r hr x1 (by simp); omega
    · omega
    · rfl
    · omega
    · have := h3 r hr; omega

/-- C9: for a tree with strictly increasing keys and any key (present or not),
`GenAVLTreeNext` returns the entry with the least key greater than the key, or
null when no entry has a greater key, and `GenAVLTreePrev` returns the entry
with the greatest key less than the key, or null when there is none.  So for
three entries `x1`, `x2`, `x3` that follow one another in the in-order
sequence, next of the key of `x1` is `x2` and prev of the key of `x3` is
`x2`. -/
theorem GenAVLTreeNext_Prev_spec (K : Nat → Int) (fuel : Nat) (t : GenAVLTree) (key : Int)
    (T : Tree) (h : TreeAt t.mem t.root T) (hs : T.Sorted K) (hf : T.height < fuel) :
    (∃ r, GenAVLTreeNext K fuel t key = some r ∧
      ((r ∈ T.addrs ∧ key < Key K t.mem r ∧
          ∀ a ∈ T.addrs, key < Key K t.mem a → Key K t.mem r ≤ Key K t.mem a) ∨
        (r = 0 ∧ ∀ a ∈ T.addrs, Key K t.mem a ≤ key))) ∧
    (∃ r, GenAVLTreePrev K fuel t key = some r ∧
      ((r ∈ T.addrs ∧ Key K t.mem r < key ∧
          ∀ a ∈ T.addrs, Key K t.mem a < key → Key K t.mem a ≤ Key K t.mem r) ∨
        (r = 0 ∧ ∀ a ∈ T.addrs, key ≤ Key K t.mem a))) ∧
    (∀ l1 x1 x2 x3 l2, T.addrs = l1 ++ x1 :: x2 :: x3 :: l2 →
      GenAVLTreeNext K fuel t (Key K t.mem x1) = some x2 ∧
      GenAVLTreePrev K fuel t (Key K t.mem x3) = some x2) := by
  refine ⟨nextLoop_spec K t.mem key T t.root fuel 0 h hs hf,
    prevLoop_spec K t.mem key T t.root fuel 0 h hs hf, ?_⟩
  intro l1 x1 x2 x3 l2 hl
  have hp : (l1 ++ x1 :: x2 :: x3 :: l2).Pairwise
      (fun a b => Key K t.mem a < Key K t.mem b) := by
    have hs' := hs
    unfold Tree.Sorted at hs'
    rw [h.keys_map_key, List.pairwise_map, hl] at hs'
    exact hs'
  have hx2 : x2 ∈ T.addrs := by rw [hl]; simp
  constructor
  · obtain ⟨r, h1, h2⟩ := nextLoop_spec K t.mem (Key K t.mem x1) T t.root fuel 0 h hs hf
    rcases h2 with ⟨hr, hlt, hmin⟩ | ⟨-, hall⟩
    · obtain ⟨e12, -, e3, -⟩ := between_neighbours (Key K t.mem) l1 l2 x1 x2 x3 r hp
        (by rw [← hl]; exact hr)
      have := h.key_inj hs hr hx2 (e3 hlt (hmin x2 hx2 e12))
      rw [← this]; exact h1
    · obtain ⟨e12, -⟩ := between_neighbours (Key K t.mem) l1 l2 x1 x2 x3 x2 hp (by simp)
      have := hall x2 hx2
      omega
  · obtain ⟨r, h1, h2⟩ := prevLoop_spec K t.mem (Key K t.mem x3) T t.root fuel 0 h hs hf
    rcases h2 with ⟨hr, hlt, hmax⟩ | ⟨-, hall⟩
    · obtain ⟨-, e23, -, e4⟩ := between_neighbours (Key K t.mem) l1 l2 x1 x2 x3 r hp
        (by rw [← hl]; exact hr)
      have := h.key_inj hs hr hx2 (e4 hlt (hmax x2 hx2 e23))
      rw [← this]; exact h1
    · obtain ⟨-, e23, -⟩ := between_neighbours (Key K t.mem) l1 l2 x1 x2 x3 x2 hp (by simp)
      have := hall x2 hx2
      omega

/-- Witness of C9: the queries on the three-entry tree of the example. -/
theorem GenAVLTreeNext_Prev_spec_witness :
    (∃ r, GenAVLTreeNext exKey 3 exState3 15 = some r ∧
      ((r ∈ exTree3.addrs ∧ 15 < Key exKey exState3.mem r ∧
          ∀ a ∈ exTree3.addrs, 15 < Key exKey exState3.mem a →
            Key exKey exState3.mem r ≤ Key exKey exState3.mem a) ∨
        (r = 0 ∧ ∀ a ∈ exTree3.addrs, Key exKey exState3.mem a ≤ 15))) ∧
    (∃ r, GenAVLTreePrev exKey 3 exState3 15 = some r ∧
      ((r ∈ exTree3.addrs ∧ Key exKey exState3.mem r < 15 ∧
          ∀ a ∈ exTree3.addrs, Key exKey exState3.mem a < 15 →
            Key exKey exState3.mem a ≤ Key exKey exState3.mem r) ∨
        (r = 0 ∧ ∀ a ∈ exTree3.addrs, 15 ≤ Key exKey exState3.mem a))) ∧
    (∀ l1 x1 x2 x3 l2, exTree3.addrs = l1 ++ x1 :: x2 :: x3 :: l2 →
      GenAVLTreeNext exKey 3 exState3 (Key exKey exState3.mem x1) = some x2 ∧
      GenAVLTreePrev exKey 3 exState3 (Key exKey exState3.mem x3) = some x2) :=
  GenAVLTreeNext_Prev_spec exKey 3 exState3 15 exTree3 exState3_holds exTree3_sorted
    (by simp [exTree3_height])

/-- C10: for a tree with strictly increasing keys and any key,
`GenAVLTreeEqualNext` returns the entry with that key when the key is present
and otherwise what `GenAVLTreeNext` returns; `GenAVLTreeEqualPrev` returns the
entry with that key when the key is present and otherwise what
`GenAVLTreePrev` returns. -/
theorem GenAVLTreeEqualNext_EqualPrev_spec (K : Nat → Int) (fuel : Nat) (t : GenAVLTree)
    (key : Int) (T : Tree) (h : TreeAt t.mem t.root T) (hs : T.Sorted K)
    (hf : T.height < fuel) :
    (∃ r, GenAVLTreeEqualNext K fuel t key = some r ∧
      (key ∈ T.keys K → r ∈ T.addrs ∧ Key K t.mem r = key) ∧
      (key ∉ T.keys K → GenAVLTreeNext K fuel t key = some r)) ∧
    (∃ r, GenAVLTreeEqualPrev K fuel t key = some r ∧
      (key ∈ T.keys K → r ∈ T.addrs ∧ Key K t.mem r = key) ∧
      (key ∉ T.keys K → GenAVLTreePrev K fuel t key = some r)) := by
  constructor
  · obtain ⟨r, h1, h2⟩ := equalNextLoop_spec K t.mem key T t.root fuel 0 h hs hf
    refine ⟨r, h1, ?_, ?_⟩
    · intro hk
      rcases h2 with h2 | ⟨h2, -⟩
      · exact h2
      · obtain ⟨a, ha, hka⟩ := (h.mem_keys_iff key).1 hk
        exact absurd hka (h2 a ha)
    · intro hk
      rcases h2 with ⟨h2, h3⟩ | ⟨-, h2⟩
      · exact absurd ((h.mem_keys_iff key).2 ⟨r, h2, h3⟩) hk
      · exact h2
  · obtain ⟨r, h1, h2⟩ := equalPrevLoop_spec K t.mem key T t.root fuel 0 h hs hf
    refine ⟨r, h1, ?_, ?_⟩
    · intro hk
      rcases h2 with h2 | ⟨h2, -⟩
      · exact h2
      · obtain ⟨a, ha, hka⟩ := (h.mem_keys_iff key).1 hk
        exact absurd hka (h2 a ha)
    · intro hk
      rcases h2 with ⟨h2, h3⟩ | ⟨-, h2⟩
      · exact absurd ((h.mem_keys_iff key).2 ⟨r, h2, h3⟩) hk
      · exact h2

/-- Witness of C10: the queries on the one-entry tree of the example. -/
theorem GenAVLTreeEqualNext_EqualPrev_spec_witness :
    (∃ r, GenAVLTreeEqualNext exKey 2 exState 10 = some r ∧
      ((10 : Int) ∈ exTree.keys exKey → r ∈ exTree.addrs ∧ Key exKey exState.mem r = 10) ∧
      ((10 : Int) ∉ exTree.keys exKey → GenAVLTreeNext exKey 2 exState 10 = some r)) ∧
    (∃ r, GenAVLTreeEqualPrev exKey 2 exState 10 = some r ∧
      ((10 : Int) ∈ exTree.keys exKey → r ∈ exTree.addrs ∧ Key exKey exState.mem r = 10) ∧
      ((10 : Int) ∉ exTree.keys exKey → GenAVLTreePrev exKey 2 exState 10 = some r)) :=
  GenAVLTreeEqualNext_EqualPrev_spec exKey 2 exState 10 exTree exState_holds exTree_sorted
    (by simp [exTree_height])

/-! ## Insert everything, then delete everything -/

theorem Tree.height_le_length (t : Tree) : t.height ≤ t.entries.length := by
  induction t with
  | nil => simp [Tree.height, Tree.entries]
  | node l a d b r ihl ihr =>
    simp only [Tree.height, Tree.entries, List.length_append, List.length_cons]
    omega

theorem firstLoop_null (m : Mem) (fuel first : Nat) :
    firstLoop m (fuel + 1) first 0 = some first := by
  simp [firstLoop]

theorem addAll_spec (K : Nat → Int) (fuel : Nat) :
    ∀ (ns : List Nat) (t : GenAVLTree) (T : Tree), TreeAt t.mem t.root T → T.Balanced →
      T.Sorted K → (∀ n ∈ ns, n ≠ 0 ∧ n ∉ T.addrs ∧ K (t.mem n).data ∉ T.keys K) →
      (ns.map (fun n => K (t.mem n).data)).Nodup → T.entries.length + ns.length < fuel →
      ∃ t' T', addAll K fuel t ns = some (t', ns.map (fun _ => 1)) ∧
        TreeAt t'.mem t'.root T' ∧ T'.Balanced ∧ T'.Sorted K ∧
        T'.entries.Perm (T.entries ++ ns.map (fun n => (n, (t.mem n).data))) := by
  intro ns
  induction ns with
  | nil =>
    intro t T h hb hs _ _ _
    exact ⟨t, T, rfl, h, hb, hs, by simp⟩
  | cons n ns ih =>
    intro t T h hb hs hn hnd hf
    obtain ⟨hn0, hnT, hnk⟩ := hn n (List.mem_cons_self _ _)
    simp only [List.map_cons, List.nodup_cons, List.mem_map, not_exists, not_and] at hnd
    obtain ⟨hnd1, hnd2⟩ := hnd
    simp only [List.length_cons] at hf
    have hT := Tree.height_le_length T
    rcases GenAVLTreeAdd_cases K fuel t n T h hb hs hnT hn0 (by omega) with
      ⟨hk, -⟩ | ⟨-, t1, h1, h2, h3, h4⟩
    · exact absurd hk hnk
    · obtain ⟨l1, l2, e1, e2⟩ := Tree.entries_insLeaf K n (t.mem n).data T
      rw [← Tree.entries_addTree] at e2
      have hne : ∀ x ∈ ns, x ≠ n := by
        intro x hx e
        exact hnd1 x hx (by rw [e])
      have hmem : ∀ x ∈ ns, t1.mem x = t.mem x := fun x hx =>
        h3 x (hn x (List.mem_cons_of_mem _ hx)).2.1 (hne x hx)
      have hlen : (Tree.addTree K n (t.mem n).data T).entries.length =
          T.entries.length + 1 := by
        rw [e2, e1]
        simp only [List.length_append, List.length_cons]
        omega
      have hmap1 : ns.map (fun x => K (t1.mem x).data) = ns.map (fun x => K (t.mem x).data) :=
        List.map_congr_left (fun x hx => by rw [hmem x hx])
      have hmap2 : ns.map (fun x => (x, (t1.mem x).data)) =
          ns.map (fun x => (x, (t.mem x).data)) :=
        List.map_congr_left (fun x hx => by rw [hmem x hx])
      obtain ⟨t2, T2, g1, g2, g3, g4, g5⟩ := ih t1 _ h2 (Tree.addTree_balanced K n _ T hb)
        (Tree.addTree_sorted K n _ T hs hnk)
        (by
          intro x hx
          obtain ⟨hx0, hxT, hxk⟩ := hn x (List.mem_cons_of_mem _ hx)
          refine ⟨hx0, ?_, ?_⟩
          · rw [Tree.addrs_eq_map, e2]
            rw [Tree.addrs_eq_map, e1] at hxT
            simp only [List.map_append, List.map_cons, List.mem_append, List.mem_cons,
              not_or] at hxT ⊢
            exact ⟨hxT.1, hne x hx, hxT.2⟩
          · rw [hmem x hx, Tree.keys_eq_map, e2]
            rw [Tree.keys_eq_map, e1] at hxk
            simp only [List.map_append, List.map_cons, List.mem_append, List.mem_cons,
              not_or] at hxk ⊢
            exact ⟨hxk.1, fun e => hnd1 x hx e, hxk.2⟩)
        (by rw [hmap1]; exact hnd2) (by rw [hlen]; omega)
      refine ⟨t2, T2, ?_, g2, g3, g4, ?_⟩
      · simp only [addAll, h1, g1, Option.map_some', List.map_cons]
      · refine g5.trans ?_
        rw [hmap2, e2, e1]
        simp only [List.map_cons, List.append_assoc, List.cons_append]
        exact List.Perm.append_left l1 List.perm_middle.symm

theorem deleteAll_spec (K : Nat → Int) (fuel : Nat) :
    ∀ (ps : List (Nat × Nat)) (t : GenAVLTree) (T : Tree), TreeAt t.mem t.root T →
      T.Balanced → T.Sorted K → T.entries.Perm ps → T.entries.length < fuel →
      ∃ t', deleteAll K fuel t (ps.map (fun p => K p.2)) = some (t', ps.map Prod.snd) ∧
        t'.root = 0 := by
  intro ps
  induction ps with
  | nil =>
    intro t T h _ _ hp _
    have : T = .nil := by
      cases T with
      | nil => rfl
      | node l a d b r =>
        have := hp.length_eq
        simp [Tree.entries] at this
    subst this
    exact ⟨t, rfl, h⟩
  | cons p ps ih =>
    intro t T h hb hs hp hf
    obtain ⟨x, d⟩ := p
    have hT := Tree.height_le_length T
    have hin : (x, d) ∈ T.entries := hp.symm.subset (List.mem_cons_self _ _)
    have hk : K d ∈ T.keys K := by
      rw [Tree.keys_eq_map]
      exact List.mem_map.2 ⟨(x, d), hin, rfl⟩
    rcases GenAVLTreeDelete_cases K fuel t (K d) T h hb hs (by omega) with
      ⟨hk', -⟩ | ⟨-, t1, x1, d1, l1, l2, h1, h2, h3, h4, h5, -⟩
    · exact absurd hk hk'
    · have hnd : (T.entries.map (fun e => K e.2)).Nodup := by
        have hs' := hs
        unfold Tree.Sorted at hs'
        rw [Tree.keys_eq_map] at hs'
        exact hs'.imp (fun hlt heq => by omega)
      have hin1 : (x1, d1) ∈ T.entries := by rw [h3]; simp
      have heq : (x1, d1) = (x, d) :=
        List.inj_on_of_nodup_map hnd hin1 hin h2
      obtain ⟨rfl, rfl⟩ := Prod.mk.inj heq
      have hp2 : (Tree.deleteTree K (K d1) T).entries.Perm ps := by
        rw [h5]
        have : ((x1, d1) :: (l1 ++ l2)).Perm ((x1, d1) :: ps) := by
          refine List.Perm.trans ?_ hp
          rw [h3]
          exact List.perm_middle.symm
        exact this.cons_inv
      have hlen : (Tree.deleteTree K (K d1) T).entries.length < fuel := by
        rw [h5]
        rw [h3] at hf
        simp only [List.length_append, List.length_cons] at hf ⊢
        omega
      obtain ⟨t2, g1, g2⟩ := ih t1 _ h4 (Tree.deleteTree_balanced K _ T hb)
        (Tree.deleteTree_sorted K _ T hs) hp2 hlen
      exact ⟨t2, by simp only [List.map_cons, deleteAll, h1, g1, Option.map_some'], g2⟩

/-- C7: the round trip.  Entries `ns` (not null, with pairwise distinct keys)
are added with `GenAVLTreeAdd` to an empty tree, then `GenAVLTreeDelete` is
called once for the key of each entry in the order of any permutation `ps` of
`ns`.  Every insertion returns 1, every deletion returns the payload pointer
of the entry inserted under its key, and at the end the root is null and
`GenAVLTreeFirst` returns null. -/
theorem insert_delete_round_trip (K : Nat → Int) (fuel : Nat) (m : Mem) (ns ps : List Nat)
    (h0 : ∀ n ∈ ns, n ≠ 0) (hnd : (ns.map (fun n => K (m n).data)).Nodup)
    (hp : ps.Perm ns) (hf : ns.length < fuel) :
    ∃ t1 t2, addAll K fuel ⟨0, m⟩ ns = some (t1, ns.map (fun _ => 1)) ∧
      deleteAll K fuel t1 (ps.map (fun n => K (m n).data)) =
        some (t2, ps.map (fun n => (m n).data)) ∧
      t2.root = 0 ∧ GenAVLTreeFirst fuel t2 = some 0 := by
  obtain ⟨t1, T1, a1, a2, a3, a4, a5⟩ := addAll_spec K fuel ns ⟨0, m⟩ .nil rfl trivial
    (by simp [Tree.Sorted, Tree.keys])
    (fun n hn => ⟨h0 n hn, by simp [Tree.addrs], by simp [Tree.keys]⟩) hnd
    (by simpa [Tree.entries] using hf)
  simp only [Tree.entries, List.nil_append] at a5
  have hp2 : T1.entries.Perm (ps.map (fun n => (n, (m n).data))) :=
    a5.trans (hp.symm.map _)
  have hlen : T1.entries.length < fuel := by
    rw [a5.length_eq]; simpa using hf
  obtain ⟨t2, d1, d2⟩ := deleteAll_spec K fuel _ t1 T1 a2 a3 a4 hp2 hlen
  simp only [List.map_map] at d1
  refine ⟨t1, t2, a1, d1, d2, ?_⟩
  obtain ⟨f, rfl⟩ : ∃ f, fuel = f + 1 := ⟨fuel - 1, by omega⟩
  simp only [GenAVLTreeFirst, d2]
  exact firstLoop_null _ _ _

/-- Witness of C7: three entries with keys 10, 20, 30 inserted in this order
and deleted in the order 30, 10, 20. -/
theorem insert_delete_round_trip_witness :
    ∃ t1 t2, addAll exKey 4 ⟨0, exMem3⟩ [1, 2, 3] = some (t1, [1, 1, 1]) ∧
      deleteAll exKey 4 t1 [30, 10, 20] = some (t2, [30, 10, 20]) ∧
      t2.root = 0 ∧ GenAVLTreeFirst 4 t2 = some 0 :=
  insert_delete_round_trip exKey 4 exMem3 [1, 2, 3] [3, 1, 2] (by decide) (by decide)
    (by decide) (by decide)

/-! ## `GenAVLTreeFirst` -/

theorem firstLoop_spec (m : Mem) :
    ∀ (T : Tree) (p fuel first : Nat), TreeAt m p T → T.height < fuel →
      firstLoop m fuel first p = some (T.addrs.headD first) := by
  intro T
  induction T with
  | nil =>
    intro p fuel first h hf
    cases fuel with
    | zero => simp at hf
    | succ fuel =>
      have hp : p = 0 := h
      subst hp
      simp [firstLoop, Tree.addrs]
  | node l a d b r ihl _ =>
    intro p fuel first h hf
    obtain ⟨rfl, ha0, -, -, hl, -⟩ := h
    cases fuel with
    | zero => simp at hf
    | succ fuel =>
      simp only [Tree.height] at hf
      simp only [firstLoop, ha0, if_false]
      rw [ihl _ fuel p hl (by omega)]
      cases hla : l.addrs with
      | nil => simp [Tree.addrs, hla]
      | cons x xs => simp [Tree.addrs, hla]

/-- C11: `GenAVLTreeFirst` returns null exactly when the tree is empty;
otherwise it returns the first entry of the in-order sequence (the leftmost
one), whose key, when the keys strictly increase, is the least key of the
tree. -/
theorem GenAVLTreeFirst_spec (K : Nat → Int) (fuel : Nat) (t : GenAVLTree) (T : Tree)
    (h : TreeAt t.mem t.root T) (hf : T.height < fuel) :
    ∃ r, GenAVLTreeFirst fuel t = some r ∧ (r = 0 ↔ T = .nil) ∧
      (T ≠ .nil → T.addrs.head? = some r ∧
        (T.Sorted K → ∀ a ∈ T.addrs, Key K t.mem r ≤ Key K t.mem a)) := by
  refine ⟨T.addrs.headD 0, firstLoop_spec t.mem T t.root fuel 0 h hf, ?_, ?_⟩
  · constructor
    · intro h0
      cases T with
      | nil => rfl
      | node l a d b r =>
        exfalso
        cases hA : (Tree.node l a d b r).addrs with
        | nil => simp [Tree.addrs] at hA
        | cons x xs =>
          rw [hA] at h0
          have hx : x ∈ (Tree.node l a d b r).addrs := by rw [hA]; simp
          exact h.ne_zero x hx h0
    · rintro rfl; rfl
  · intro hne
    cases hA : T.addrs with
    | nil =>
      cases T with
      | nil => exact absurd rfl hne
      | node l a d b r => simp [Tree.addrs] at hA
    | cons x xs =>
      refine ⟨rfl, fun hs a ha => ?_⟩
      unfold Tree.Sorted at hs
      rw [h.keys_map_key, List.pairwise_map, hA, List.pairwise_cons] at hs
      simp only [List.headD_cons]
      rw [List.mem_cons] at ha
      rcases ha with rfl | ha
      · exact le_refl _
      · exact le_of_lt (hs.1 a ha)

/-- Witness of C11: the first entry of the three-entry tree of the example. -/
theorem GenAVLTreeFirst_spec_witness :
    ∃ r, GenAVLTreeFirst 3 exState3 = some r ∧ (r = 0 ↔ exTree3 = .nil) ∧
      (exTree3 ≠ .nil → exTree3.addrs.head? = some r ∧
        (exTree3.Sorted exKey → ∀ a ∈ exTree3.addrs,
          Key exKey exState3.mem r ≤ Key exKey exState3.mem a)) :=
  GenAVLTreeFirst_spec exKey 3 exState3 exTree3 exState3_holds (by simp [exTree3_height])

/-! ## Insertion without balancing -/

theorem addUnbalLoop_dup (K : Nat → Int) (m : Mem) (gae : Nat) :
    ∀ (s : Tree) (fuel p gaep : Nat) (dir : Int), TreeAt m p s → s.Sorted K →
      Key K m gae ∈ s.keys K → s.height < fuel →
      addUnbalLoop K m gae fuel p gaep dir = some none := by
  intro s
  induction s with
  | nil => intro fuel p gaep dir _ _ hk; simp [Tree.keys] at hk
  | node l a d b r ihl ihr =>
    intro fuel p gaep dir h hs hk hf
    obtain ⟨rfl, ha0, hd, -, hl, hr⟩ := h
    rw [Tree.sorted_node] at hs
    obtain ⟨hsl, hsr, hlt, hgt⟩ := hs
    cases fuel with
    | zero => simp at hf
    | succ fuel =>
      simp only [Tree.height] at hf
      have hfl : l.height < fuel := by omega
      have hfr : r.height < fuel := by omega
      have hkp : Key K m p = K d := by simp [Key, hd]
      simp only [Tree.keys, List.mem_append, List.mem_cons] at hk
      simp only [addUnbalLoop, ha0, if_false, Compare, hkp]
      by_cases h1 : Key K m gae < K d
      · have hkl : Key K m gae ∈ l.keys K := by
          rcases hk with hk | hk | hk
          · exact hk
          · omega
          · have := hgt _ hk; omega
        simp only [h1, if_true]
        exact ihl _ _ _ _ hl hsl hkl hfl
      · by_cases h2 : K d < Key K m gae
        · have hkr : Key K m gae ∈ r.keys K := by
            rcases hk with hk | hk | hk
            · have := hlt _ hk; omega
            · omega
            · exact hk
          simp only [h1, h2, if_true, if_false]
          simp only [show ¬ ((1 : Int) < 0) by omega, show (1 : Int) > 0 by omega, if_true,
            if_false]
          exact ihr _ _ _ _ hr hsr hkr hfr
        · simp [h1, h2]

theorem addUnbalLoop_spec (K : Nat → Int) (m : Mem) (gae : Nat) :
    ∀ (s : Tree) (c : Ctx) (fuel p gaep : Nat) (dir : Int), TreeAt m p s →
      Key K m gae ∉ s.keys K → s.height < fuel → gaep = slotAddr c → SlotDir c dir →
      ∃ dir1, addUnbalLoop K m gae fuel p gaep dir =
          some (some (slotAddr (Tree.descend K (Key K m gae) s c), dir1)) ∧
        SlotDir (Tree.descend K (Key K m gae) s c) dir1 := by
  intro s
  induction s with
  | nil =>
    intro c fuel p gaep dir h _ hf hg hd
    cases fuel with
    | zero => simp at hf
    | succ fuel =>
      have hp : p = 0 := h
      subst hp
      exact ⟨dir, by simp [addUnbalLoop, Tree.descend, hg], by simpa [Tree.descend] using hd⟩
  | node l a d b r ihl ihr =>
    intro c fuel p gaep dir h hk hf hg hd
    obtain ⟨rfl, ha0, hdat, -, hl, hr⟩ := h
    cases fuel with
    | zero => simp at hf
    | succ fuel =>
      simp only [Tree.height] at hf
      have hfl : l.height < fuel := by omega
      have hfr : r.height < fuel := by omega
      have hkp : Key K m p = K d := by simp [Key, hdat]
      simp only [Tree.keys, List.mem_append, List.mem_cons, not_or] at hk
      obtain ⟨hkl, hkd, hkr⟩ := hk
      simp only [addUnbalLoop, ha0, if_false, Compare, hkp, Tree.descend]
      by_cases h1 : Key K m gae < K d
      · simp only [h1, if_true]
        exact ihl (.L p d b r :: c) fuel _ p (-1) hl hkl hfl rfl (by simp [SlotDir, Frame.DirOK])
      · have h2 : K d < Key K m gae := by omega
        simp only [h1, h2, if_true, if_false]
        simp only [show ¬ ((1 : Int) < 0) by omega, show (1 : Int) > 0 by omega, if_true,
          if_false]
        exact ihr (.R l p d b :: c) fuel _ p 1 hr hkr hfr rfl (by simp [SlotDir, Frame.DirOK])

/-- `GenAVLTreeAddUnbal` with a key that is in the tree only resets the header
of the entry passed in. -/
theorem GenAVLTreeAddUnbal_dup (K : Nat → Int) (fuel : Nat) (t : GenAVLTree) (gae : Nat)
    (T : Tree) (h : TreeAt t.mem t.root T) (hs : T.Sorted K) (hg : gae ∉ T.addrs)
    (hk : K (t.mem gae).data ∈ T.keys K) (hf : T.height < fuel) :
    GenAVLTreeAddUnbal K fuel t gae =
      some ({ t with mem := wrBalance (wrRight (wrLeft t.mem gae 0) gae 0) gae 0 }, 0) := by
  have hkey : Key K (wrBalance (wrRight (wrLeft t.mem gae 0) gae 0) gae 0) gae =
      K (t.mem gae).data := by simp [Key]
  have h1 := addUnbalLoop_dup K _ gae T fuel t.root 0 0 (h.reset gae hg) hs
    (by rw [hkey]; exact hk) hf
  simp only [GenAVLTreeAddUnbal, h1]

/-- `GenAVLTreeAddUnbal` with a new key stores the entry in the one empty place
its key leads to. -/
theorem GenAVLTreeAddUnbal_new (K : Nat → Int) (fuel : Nat) (t : GenAVLTree) (gae : Nat)
    (T : Tree) (h : TreeAt t.mem t.root T) (hnd : T.addrs.Nodup) (hg : gae ∉ T.addrs)
    (hg0 : gae ≠ 0) (hk : K (t.mem gae).data ∉ T.keys K) (hf : T.height < fuel) :
    ∃ dir, GenAVLTreeAddUnbal K fuel t gae =
        some (set { t with mem := wrBalance (wrRight (wrLeft t.mem gae 0) gae 0) gae 0 }
          (slotAddr (Tree.descend K (K (t.mem gae).data) T [])) dir gae, 1) ∧
      SlotDir (Tree.descend K (K (t.mem gae).data) T []) dir ∧
      val t (slotAddr (Tree.descend K (K (t.mem gae).data) T [])) dir = 0 ∧
      TreeAt (set { t with mem := wrBalance (wrRight (wrLeft t.mem gae 0) gae 0) gae 0 }
          (slotAddr (Tree.descend K (K (t.mem gae).data) T [])) dir gae).mem
        (set { t with mem := wrBalance (wrRight (wrLeft t.mem gae 0) gae 0) gae 0 }
          (slotAddr (Tree.descend K (K (t.mem gae).data) T [])) dir gae).root
        (Tree.insLeaf K gae (t.mem gae).data T) := by
  set dn := (t.mem gae).data with hdn
  set m0 := wrBalance (wrRight (wrLeft t.mem gae 0) gae 0) gae 0 with hm0
  have hm0d : (m0 gae).data = dn := by simp [hm0, hdn]
  have hm0b : (m0 gae).balance = 0 := by simp [hm0]
  have hm0l : (m0 gae).left = 0 := by simp [hm0]
  have hm0r : (m0 gae).right = 0 := by simp [hm0]
  have hkey : Key K m0 gae = K dn := by simp [Key, hm0d]
  have h0 : TreeAt m0 t.root T := h.reset gae hg
  obtain ⟨dir, hl1, hl2⟩ := addUnbalLoop_spec K m0 gae T [] fuel t.root 0 0 h0
    (by rw [hkey]; exact hk) hf rfl (by simp [SlotDir])
  rw [hkey] at hl1 hl2
  set cl := Tree.descend K (K dn) T [] with hcl
  have hTcl : plug cl .nil = T := Tree.plug_descend_nil K (K dn) T []
  have hIns : plug cl (Tree.leaf gae dn) = Tree.insLeaf K gae dn T := by
    rw [hcl, Tree.plug_descend_leaf]; rfl
  set t0 : GenAVLTree := { t with mem := m0 } with ht0
  have hgs : (set t0 (slotAddr cl) dir gae).mem gae = m0 gae := by
    by_cases hc : cl = []
    · rw [hc]; simp [slotAddr, set, ht0]
    · refine set_mem_other _ _ _ _ _ (fun e => hg ?_)
      rw [← hTcl, mem_addrs_plug]
      exact Or.inr (e ▸ slotAddr_mem_ctxAddrs hc)
  have h1 : TreeAt (set t0 (slotAddr cl) dir gae).mem (set t0 (slotAddr cl) dir gae).root
      (plug cl (Tree.leaf gae dn)) ∧
      ∀ a, a ∉ (plug cl .nil).addrs → (set t0 (slotAddr cl) dir gae).mem a = t0.mem a := by
    refine @TreeAt.rewrite t0 _ _ _ _ _ gae (by rw [hTcl]; exact h0) (by rw [hTcl]; exact hnd)
      hl2 rfl (fun _ _ => rfl) ?_
    exact ⟨rfl, hg0, by rw [hgs]; exact hm0d, by rw [hgs]; exact hm0b,
      by rw [hgs, hm0l]; rfl, by rw [hgs, hm0r]; rfl⟩
  refine ⟨dir, ?_, hl2, ?_, ?_⟩
  · simp only [GenAVLTreeAddUnbal, hl1]
  · have hT : TreeAt t.mem t.root (plug cl .nil) := by rw [hTcl]; exact h
    rw [val_eq_holePtr hT hl2]
    exact TreeAt.hole hT
  · rw [← hIns]; exact h1.1

theorem set_mem_right_of_neg (t : GenAVLTree) (g : Nat) (dir : Int) (v a : Nat)
    (hd : dir < 0) : ((set t g dir v).mem a).right = (t.mem a).right := by
  by_cases hg : g = 0
  · rw [hg, set_mem_zero]
  · rw [set_mem_left_neg _ _ _ _ hg hd, wrLeft_right]

theorem set_mem_left_of_not_neg (t : GenAVLTree) (g : Nat) (dir : Int) (v a : Nat)
    (hd : ¬ dir < 0) : ((set t g dir v).mem a).left = (t.mem a).left := by
  by_cases hg : g = 0
  · rw [hg, set_mem_zero]
  · simp [set, hg, hd]

/-- C14: for a tree with strictly increasing keys (balanced or not) and a fresh
entry `gae`: when an entry with the same key exists `GenAVLTreeAddUnbal`
returns 0 and the root and the header of every entry of the tree are as
before; otherwise it returns 1 and the tree is the old one with one empty
place (a null child pointer, or the null root) now holding `gae` as a leaf,
every entry of the old tree keeping its payload, its balance field and its
other child pointer. -/
theorem GenAVLTreeAddUnbal_links (K : Nat → Int) (fuel : Nat) (t : GenAVLTree) (gae : Nat)
    (T : Tree) (h : TreeAt t.mem t.root T) (hs : T.Sorted K) (hg : gae ∉ T.addrs)
    (hg0 : gae ≠ 0) (hf : T.height < fuel) :
    (K (t.mem gae).data ∈ T.keys K →
      ∃ t', GenAVLTreeAddUnbal K fuel t gae = some (t', 0) ∧ t'.root = t.root ∧
        ∀ a ∈ T.addrs, t'.mem a = t.mem a) ∧
    (K (t.mem gae).data ∉ T.keys K →
      ∃ t' c dir, GenAVLTreeAddUnbal K fuel t gae = some (t', 1) ∧
        T = plug c .nil ∧ SlotDir c dir ∧ val t (slotAddr c) dir = 0 ∧
        val t' (slotAddr c) dir = gae ∧
        TreeAt t'.mem t'.root (plug c (Tree.leaf gae (t.mem gae).data)) ∧
        (c ≠ [] → t'.root = t.root) ∧
        ∀ a ∈ T.addrs, (t'.mem a).data = (t.mem a).data ∧
          (t'.mem a).balance = (t.mem a).balance ∧
          (a ≠ slotAddr c → t'.mem a = t.mem a) ∧
          (dir < 0 → (t'.mem a).right = (t.mem a).right) ∧
          (¬ dir < 0 → (t'.mem a).left = (t.mem a).left)) := by
  have hm0 : ∀ a ∈ T.addrs,
      wrBalance (wrRight (wrLeft t.mem gae 0) gae 0) gae 0 a = t.mem a := by
    intro a ha
    have hne : a ≠ gae := fun e => hg (e ▸ ha)
    rw [wrBalance_other _ _ _ _ hne, wrRight_other _ _ _ _ hne, wrLeft_other _ _ _ _ hne]
  constructor
  · intro hk
    exact ⟨_, GenAVLTreeAddUnbal_dup K fuel t gae T h hs hg hk hf, rfl, hm0⟩
  · intro hk
    obtain ⟨dir, h1, h2, h3, h4⟩ := GenAVLTreeAddUnbal_new K fuel t gae T h (h.nodup hs) hg hg0
      hk hf
    have hTcl : plug (Tree.descend K (K (t.mem gae).data) T []) .nil = T :=
      Tree.plug_descend_nil K _ T []
    have hIns : plug (Tree.descend K (K (t.mem gae).data) T []) (Tree.leaf gae (t.mem gae).data) =
        Tree.insLeaf K gae (t.mem gae).data T := by
      rw [Tree.plug_descend_leaf]; rfl
    refine ⟨_, Tree.descend K (K (t.mem gae).data) T [], dir, h1, hTcl.symm, h2, h3,
      val_set _ _ _ _, by rw [hIns]; exact h4, ?_, ?_⟩
    · intro hc
      have hT : TreeAt t.mem t.root (plug (Tree.descend K (K (t.mem gae).data) T []) .nil) := by
        rw [hTcl]; exact h
      exact set_root _ _ _ _ (slotAddr_ne_zero hT hc)
    · intro a ha
      refine ⟨?_, ?_, ?_, ?_, ?_⟩
      · rw [set_mem_data]; exact congrArg GenAVLEntry.data (hm0 a ha)
      · rw [set_mem_balance]; exact congrArg GenAVLEntry.balance (hm0 a ha)
      · intro hne
        rw [set_mem_other _ _ _ _ _ hne]; exact hm0 a ha
      · intro hd
        rw [set_mem_right_of_neg _ _ _ _ _ hd]; exact congrArg GenAVLEntry.right (hm0 a ha)
      · intro hd
        rw [set_mem_left_of_not_neg _ _ _ _ _ hd]; exact congrArg GenAVLEntry.left (hm0 a ha)

/-- Witness of C14: the entry at address 2 (key 20) linked below the one entry
of the example. -/
theorem GenAVLTreeAddUnbal_links_witness :
    (exKey (exState.mem 2).data ∈ exTree.keys exKey →
      ∃ t', GenAVLTreeAddUnbal exKey 2 exState 2 = some (t', 0) ∧ t'.root = exState.root ∧
        ∀ a ∈ exTree.addrs, t'.mem a = exState.mem a) ∧
    (exKey (exState.mem 2).data ∉ exTree.keys exKey →
      ∃ t' c dir, GenAVLTreeAddUnbal exKey 2 exState 2 = some (t', 1) ∧
        exTree = plug c .nil ∧ SlotDir c dir ∧ val exState (slotAddr c) dir = 0 ∧
        val t' (slotAddr c) dir = 2 ∧
        TreeAt t'.mem t'.root (plug c (Tree.leaf 2 (exState.mem 2).data)) ∧
        (c ≠ [] → t'.root = exState.root) ∧
        ∀ a ∈ exTree.addrs, (t'.mem a).data = (exState.mem a).data ∧
          (t'.mem a).balance = (exState.mem a).balance ∧
          (a ≠ slotAddr c → t'.mem a = exState.mem a) ∧
          (dir < 0 → (t'.mem a).right = (exState.mem a).right) ∧
          (¬ dir < 0 → (t'.mem a).left = (exState.mem a).left)) :=
  GenAVLTreeAddUnbal_links exKey 2 exState 2 exTree exState_holds exTree_sorted
    (by simp [exTree_addrs]) (by decide) (by simp [exTree_height])

/-- C15: `GenAVLTreeAddUnbal` keeps the search-tree order on any tree, balanced
or not: when the in-order keys strictly increase and the entry is fresh, the
call returns, the memory afterwards holds a tree whose in-order keys strictly
increase, and when the call returns 1 the key of the new entry is among
them. -/
theorem GenAVLTreeAddUnbal_sorted (K : Nat → Int) (fuel : Nat) (t : GenAVLTree) (gae : Nat)
    (T : Tree) (h : TreeAt t.mem t.root T) (hs : T.Sorted K) (hg : gae ∉ T.addrs)
    (hg0 : gae ≠ 0) (hf : T.height < fuel) :
    ∃ t' r T', GenAVLTreeAddUnbal K fuel t gae = some (t', r) ∧ (r = 1 ∨ r = 0) ∧
      TreeAt t'.mem t'.root T' ∧ T'.Sorted K ∧ (r = 1 → K (t.mem gae).data ∈ T'.keys K) := by
  by_cases hk : K (t.mem gae).data ∈ T.keys K
  · exact ⟨_, 0, T, GenAVLTreeAddUnbal_dup K fuel t gae T h hs hg hk hf, Or.inr rfl,
      h.reset gae hg, hs, fun e => (by cases e)⟩
  · obtain ⟨dir, h1, -, -, h4⟩ := GenAVLTreeAddUnbal_new K fuel t gae T h (h.nodup hs) hg hg0
      hk hf
    exact ⟨_, 1, _, h1, Or.inl rfl, h4, Tree.insLeaf_sorted K gae _ T hs hk,
      fun _ => (Tree.insLeaf_keys K gae _ T _).2 (Or.inl rfl)⟩

/-- Witness of C15: the entry at address 2 (key 20) added to the tree of the
example. -/
theorem GenAVLTreeAddUnbal_sorted_witness :
    ∃ t' r T', GenAVLTreeAddUnbal exKey 2 exState 2 = some (t', r) ∧ (r = 1 ∨ r = 0) ∧
      TreeAt t'.mem t'.root T' ∧ T'.Sorted exKey ∧
      (r = 1 → exKey (exState.mem 2).data ∈ T'.keys exKey) :=
  GenAVLTreeAddUnbal_sorted exKey 2 exState 2 exTree exState_holds exTree_sorted
    (by simp [exTree_addrs]) (by decide) (by simp [exTree_height])

/-! ## The depth-first iterator -/

theorem StackList.update_above {stack : Nat → Nat} :
    ∀ {l : List Nat}, StackList stack l → ∀ (n v : Nat), l.length ≤ n →
      StackList (Function.update stack n v) l := by
  intro l
  induction l with
  | nil => intro _ _ _ _; trivial
  | cons x l ih =>
    intro h n v hn
    simp only [List.length_cons] at hn
    refine ⟨?_, ih h.2 n v (by omega)⟩
    rw [Function.update_noteq (by omega)]
    exact h.1

theorem DFPending.push_node {m : Mem} {fuel : Nat} {it : GENAVLSTACK} {L : List (Nat × Nat × Tree)}
    (h : DFPending m fuel it L) (a d : Nat) (r : Tree) (hd : (m a).data = d)
    (hr : TreeAt m (m a).right r) (hf : r.height < fuel) :
    DFPending m fuel (it.push a) ((a, d, r) :: L) := by
  obtain ⟨h1, h2, h3⟩ := h
  refine ⟨by simp [GENAVLSTACK.push, h1], ⟨?_, ?_⟩, ?_⟩
  · simp [GENAVLSTACK.push, h1]
  · exact h2.update_above _ _ (by simp [h1])
  · intro x hx
    rw [List.mem_cons] at hx
    rcases hx with rfl | hx
    · exact ⟨hd, hr, hf⟩
    · exact h3 x hx

theorem pendingSeq_append (L1 L2 : List (Nat × Nat × Tree)) :
    pendingSeq (L1 ++ L2) = pendingSeq L1 ++ pendingSeq L2 := by
  induction L1 with
  | nil => rfl
  | cons x L ih => simp [pendingSeq, ih]

theorem Tree.pendingSeq_leftSpine (s : Tree) :
    pendingSeq s.leftSpine = s.entries.map Prod.snd := by
  induction s with
  | nil => rfl
  | node l a d b r ihl _ =>
    simp [Tree.leftSpine, pendingSeq_append, ihl, pendingSeq, Tree.entries]

theorem dfPushLeft_spec (m : Mem) (fuel0 : Nat) :
    ∀ (s : Tree) (p fuel : Nat) (it : GENAVLSTACK) (L : List (Nat × Nat × Tree)),
      TreeAt m p s → s.height < fuel → s.height < fuel0 → DFPending m fuel0 it L →
      ∃ it1, dfPushLeft m fuel it p = some it1 ∧ DFPending m fuel0 it1 (s.leftSpine ++ L) := by
  intro s
  induction s with
  | nil =>
    intro p fuel it L h hf _ hL
    cases fuel with
    | zero => simp at hf
    | succ fuel =>
      have hp : p = 0 := h
      subst hp
      exact ⟨it, by simp [dfPushLeft], hL⟩
  | node l a d b r ihl _ =>
    intro p fuel it L h hf hf0 hL
    obtain ⟨rfl, ha0, hdat, -, hl, hr⟩ := h
    cases fuel with
    | zero => simp at hf
    | succ fuel =>
      simp only [Tree.height] at hf hf0
      obtain ⟨it1, h1, h2⟩ := ihl (m p).left fuel (it.push p) ((p, d, r) :: L) hl (by omega)
        (by omega) (hL.push_node p d r hdat hr (by omega))
      refine ⟨it1, by simp only [dfPushLeft, ha0, if_false]; exact h1, ?_⟩
      simpa [Tree.leftSpine] using h2

theorem GenAVLDFIterNextData_nil (m : Mem) (fuel : Nat) (it : GENAVLSTACK)
    (h : DFPending m fuel it []) : GenAVLDFIterNextData m fuel it = some (it, 0) := by
  have : it.sp = 0 := h.1
  simp [GenAVLDFIterNextData, this]

theorem GenAVLDFIterNextData_cons (m : Mem) (fuel : Nat) (it : GENAVLSTACK) (a d : Nat)
    (r : Tree) (L : List (Nat × Nat × Tree)) (h : DFPending m fuel it ((a, d, r) :: L)) :
    ∃ it1, GenAVLDFIterNextData m fuel it = some (it1, d) ∧
      DFPending m fuel it1 (r.leftSpine ++ L) := by
  obtain ⟨h1, h2, h3⟩ := h
  simp only [List.length_cons] at h1
  simp only [List.map_cons] at h2
  obtain ⟨h2a, h2b⟩ := h2
  simp only [List.length_map] at h2a
  obtain ⟨hd, hr, hf⟩ := h3 (a, d, r) (List.mem_cons_self _ _)
  have hL : DFPending m fuel ⟨it.stack, it.sp - 1⟩ L :=
    ⟨by simp [h1], h2b, fun x hx => h3 x (List.mem_cons_of_mem _ hx)⟩
  have hsp : it.sp ≠ 0 := by omega
  have htop : it.stack (it.sp - 1) = a := by rw [h1]; simpa using h2a
  by_cases hr0 : (m a).right = 0
  · have hrn : r = .nil := hr.nil_iff.1 hr0
    subst hrn
    refine ⟨⟨it.stack, it.sp - 1⟩, ?_, by simpa [Tree.leftSpine] using hL⟩
    simp [GenAVLDFIterNextData, hsp, htop, hr0, hd]
  · obtain ⟨it1, g1, g2⟩ := dfPushLeft_spec m fuel r (m a).right fuel ⟨it.stack, it.sp - 1⟩ L
      hr hf hf hL
    refine ⟨it1, ?_, g2⟩
    simp [GenAVLDFIterNextData, hsp, htop, hr0, hd, g1]

theorem dfCollect_succ (m : Mem) (fuel n : Nat) (it : GENAVLSTACK) (d : Nat) (hd : d ≠ 0) :
    dfCollect m fuel (n + 1) it d = (dfFrom m fuel n it).map (fun ds => d :: ds) := by
  simp only [dfCollect, hd, if_false, dfFrom]
  cases GenAVLDFIterNextData m fuel it with
  | none => rfl
  | some p => rfl

/-- Reading a depth-first iterator to the first null gives all pending
payloads, when none of them is null. -/
theorem dfFrom_spec (m : Mem) (fuel : Nat) :
    ∀ (n : Nat) (it : GENAVLSTACK) (L : List (Nat × Nat × Tree)), DFPending m fuel it L →
      (∀ d ∈ pendingSeq L, d ≠ 0) → (pendingSeq L).length < n →
      dfFrom m fuel n it = some (pendingSeq L) := by
  intro n
  induction n with
  | zero => intro it L _ _ hn; simp at hn
  | succ n ih =>
    intro it L hL h0 hn
    cases L with
    | nil =>
      simp [dfFrom, GenAVLDFIterNextData_nil m fuel it hL, dfCollect, pendingSeq]
    | cons x L =>
      obtain ⟨a, d, r⟩ := x
      obtain ⟨it1, g1, g2⟩ := GenAVLDFIterNextData_cons m fuel it a d r L hL
      have hd : d ≠ 0 := h0 d (by simp [pendingSeq])
      have hseq : pendingSeq (r.leftSpine ++ L) = r.entries.map Prod.snd ++ pendingSeq L := by
        rw [pendingSeq_append, Tree.pendingSeq_leftSpine]
      have h2 := ih it1 (r.leftSpine ++ L) g2
        (by
          intro e he
          rw [hseq] at he
          exact h0 e (by simp only [pendingSeq]; exact List.mem_cons_of_mem _ he))
        (by
          rw [hseq]
          simp only [pendingSeq, List.length_cons] at hn
          omega)
      simp only [dfFrom, g1]
      rw [dfCollect_succ m fuel n it1 d hd, h2, hseq]
      rfl

theorem DFPending.init (m : Mem) (fuel : Nat) (stack : Nat → Nat) :
    DFPending m fuel ⟨stack, 0⟩ [] :=
  ⟨rfl, trivial, fun x hx => by cases hx⟩

/-- The amended C12: for a tree held in memory whose payload pointers are all
non-null, the payloads read with `GenAVLDFIterInitData` and then
`GenAVLDFIterNextData` up to the first null are the payloads of all entries in
in-order, each once (in ascending key order when the keys strictly increase);
for the empty tree `GenAVLDFIterInitData` returns null. -/
theorem dfSequence_inorder (fuel n : Nat) (it : GENAVLSTACK) (t : GenAVLTree) (T : Tree)
    (h : TreeAt t.mem t.root T) (h0 : ∀ e ∈ T.entries, e.2 ≠ 0) (hf : T.height < fuel)
    (hn : T.entries.length < n) :
    dfSequence fuel n it t = some (T.entries.map Prod.snd) ∧
      (T = .nil → ∃ it1, GenAVLDFIterInitData fuel it t = some (it1, 0)) := by
  obtain ⟨it1, g1, g2⟩ := dfPushLeft_spec t.mem fuel T t.root fuel ⟨it.stack, 0⟩ [] h hf hf
    (DFPending.init t.mem fuel it.stack)
  rw [List.append_nil] at g2
  constructor
  · have h2 := dfFrom_spec t.mem fuel n it1 T.leftSpine g2
      (by
        rw [Tree.pendingSeq_leftSpine]
        intro d hd
        obtain ⟨e, he, rfl⟩ := List.mem_map.1 hd
        exact h0 e he)
      (by rw [Tree.pendingSeq_leftSpine]; simpa using hn)
    rw [Tree.pendingSeq_leftSpine] at h2
    rw [← h2]
    simp only [dfSequence, GenAVLDFIterInitData, g1, dfFrom]
  · rintro rfl
    refine ⟨it1, ?_⟩
    simp only [GenAVLDFIterInitData, g1]
    exact GenAVLDFIterNextData_nil t.mem fuel it1 g2

/-- Witness of the amended C12: the three-entry tree of the example. -/
theorem dfSequence_inorder_witness :
    dfSequence 3 4 ⟨fun _ => 0, 0⟩ exState3 = some (exTree3.entries.map Prod.snd) ∧
      (exTree3 = .nil → ∃ it1, GenAVLDFIterInitData 3 ⟨fun _ => 0, 0⟩ exState3 = some (it1, 0)) :=
  dfSequence_inorder 3 4 ⟨fun _ => 0, 0⟩ exState3 exTree3 exState3_holds (by decide)
    (by decide) (by decide)

/-- Counterexample to C12 as stated: the tree whose one entry has a null
payload.  The first call already returns null, so the sequence read up to the
first null is empty, while the tree has one entry. -/
theorem dfSequence_null_payload :
    ¬ ∀ (K : Nat → Int) (fuel n : Nat) (it : GENAVLSTACK) (t : GenAVLTree) (T : Tree),
      TreeAt t.mem t.root T → T.Sorted K → T.height < fuel → T.entries.length < n →
      dfSequence fuel n it t = some (T.entries.map Prod.snd) := by
  intro hall
  have h := hall exKey 2 2 ⟨fun _ => 0, 0⟩ ⟨1, exMemNull⟩ exTreeNull
    ⟨rfl, by decide, rfl, rfl, rfl, rfl⟩ (by simp [exTreeNull, Tree.Sorted, Tree.keys])
    (by decide) (by decide)
  have h2 : dfSequence 2 2 ⟨fun _ => 0, 0⟩ ⟨1, exMemNull⟩ = some [] := by
    simp [dfSequence, GenAVLDFIterInitData, dfPushLeft, GENAVLSTACK.push, exMemNull,
      GenAVLDFIterNextData, dfCollect]
  rw [h2] at h
  simp [exTreeNull, Tree.entries] at h

/-! ## The depth-first iterator started from a key -/

theorem Compare_pos (K : Nat → Int) (m : Mem) (e : Nat) (key : Int) :
    Compare K m e key > 0 ↔ key < Key K m e := by
  unfold Compare
  split_ifs <;> omega

theorem Compare_nonneg (K : Nat → Int) (m : Mem) (e : Nat) (key : Int) :
    Compare K m e key ≥ 0 ↔ key ≤ Key K m e := by
  unfold Compare
  split_ifs <;> omega

theorem dfInitNextLoop_spec (K : Nat → Int) (m : Mem) (key : Int) (fuel0 : Nat) :
    ∀ (s : Tree) (p fuel : Nat) (it : GENAVLSTACK) (L : List (Nat × Nat × Tree)),
      TreeAt m p s → s.height < fuel → s.height < fuel0 → DFPending m fuel0 it L →
      ∃ it1, dfInitNextLoop K m key fuel it p = some it1 ∧
        DFPending m fuel0 it1 (Tree.spineGT K key s ++ L) := by
  intro s
  induction s with
  | nil =>
    intro p fuel it L h hf _ hL
    cases fuel with
    | zero => simp at hf
    | succ fuel =>
      have hp : p = 0 := h
      subst hp
      exact ⟨it, by simp [dfInitNextLoop], hL⟩
  | node l a d b r ihl ihr =>
    intro p fuel it L h hf hf0 hL
    obtain ⟨rfl, ha0, hdat, -, hl, hr⟩ := h
    cases fuel with
    | zero => simp at hf
    | succ fuel =>
      simp only [Tree.height] at hf hf0
      have hkp : Key K m p = K d := by simp [Key, hdat]
      by_cases hc : key < K d
      · obtain ⟨it1, h1, h2⟩ := ihl (m p).left fuel (it.push p) ((p, d, r) :: L) hl (by omega)
          (by omega) (hL.push_node p d r hdat hr (by omega))
        refine ⟨it1, ?_, ?_⟩
        · simp only [dfInitNextLoop, ha0, if_false, Compare_pos, hkp, hc, if_true]
          exact h1
        · simpa [Tree.spineGT, hc] using h2
      · obtain ⟨it1, h1, h2⟩ := ihr (m p).right fuel it L hr (by omega) (by omega) hL
        refine ⟨it1, ?_, ?_⟩
        · simp only [dfInitNextLoop, ha0, if_false, Compare_pos, hkp, hc]
          exact h1
        · simpa [Tree.spineGT, hc] using h2

theorem dfInitNextEqualLoop_spec (K : Nat → Int) (m : Mem) (key : Int) (fuel0 : Nat) :
    ∀ (s : Tree) (p fuel : Nat) (it : GENAVLSTACK) (L : List (Nat × Nat × Tree)),
      TreeAt m p s → s.height < fuel → s.height < fuel0 → DFPending m fuel0 it L →
      ∃ it1, dfInitNextEqualLoop K m key fuel it p = some it1 ∧
        DFPending m fuel0 it1 (Tree.spineGE K key s ++ L) := by
  intro s
  induction s with
  | nil =>
    intro p fuel it L h hf _ hL
    cases fuel with
    | zero => simp at hf
    | succ fuel =>
      have hp : p = 0 := h
      subst hp
      exact ⟨it, by simp [dfInitNextEqualLoop], hL⟩
  | node l a d b r ihl ihr =>
    intro p fuel it L h hf hf0 hL
    obtain ⟨rfl, ha0, hdat, -, hl, hr⟩ := h
    cases fuel with
    | zero => simp at hf
    | succ fuel =>
      simp only [Tree.height] at hf hf0
      have hkp : Key K m p = K d := by simp [Key, hdat]
      by_cases hc : key ≤ K d
      · obtain ⟨it1, h1, h2⟩ := ihl (m p).left fuel (it.push p) ((p, d, r) :: L) hl (by omega)
          (by omega) (hL.push_node p d r hdat hr (by omega))
        refine ⟨it1, ?_, ?_⟩
        · simp only [dfInitNextEqualLoop, ha0, if_false, Compare_nonneg, hkp, hc, if_true]
          exact h1
        · simpa [Tree.spineGE, hc] using h2
      · obtain ⟨it1, h1, h2⟩ := ihr (m p).right fuel it L hr (by omega) (by omega) hL
        refine ⟨it1, ?_, ?_⟩
        · simp only [dfInitNextEqualLoop, ha0, if_false, Compare_nonneg, hkp, hc]
          exact h1
        · simpa [Tree.spineGE, hc] using h2

theorem Tree.pendingSeq_spineGT (K : Nat → Int) (k : Int) (s : Tree) (hs : s.Sorted K) :
    pendingSeq (Tree.spineGT K k s) =
      (s.entries.filter (fun e => decide (k < K e.2))).map Prod.snd := by
  induction s with
  | nil => rfl
  | node l a d b r ihl ihr =>
    rw [Tree.sorted_node] at hs
    obtain ⟨hsl, hsr, hlt, hgt⟩ := hs
    rw [Tree.keys_eq_map] at hlt hgt
    by_cases hc : k < K d
    · have hr : r.entries.filter (fun e => decide (k < K e.2)) = r.entries := by
        rw [List.filter_eq_self]
        intro e he
        have := hgt (K e.2) (List.mem_map.2 ⟨e, he, rfl⟩)
        simp only [decide_eq_true_eq]
        omega
      simp [Tree.spineGT, hc, pendingSeq_append, ihl hsl, pendingSeq, Tree.entries,
        List.filter_cons, hr]
    · have hl : l.entries.filter (fun e => decide (k < K e.2)) = [] := by
        rw [List.filter_eq_nil_iff]
        intro e he
        have := hlt (K e.2) (List.mem_map.2 ⟨e, he, rfl⟩)
        simp only [decide_eq_true_eq]
        omega
      simp [Tree.spineGT, hc, ihr hsr, Tree.entries, List.filter_cons, hl]

theorem Tree.pendingSeq_spineGE (K : Nat → Int) (k : Int) (s : Tree) (hs : s.Sorted K) :
    pendingSeq (Tree.spineGE K k s) =
      (s.entries.filter (fun e => decide (k ≤ K e.2))).map Prod.snd := by
  induction s with
  | nil => rfl
  | node l a d b r ihl ihr =>
    rw [Tree.sorted_node] at hs
    obtain ⟨hsl, hsr, hlt, hgt⟩ := hs
    rw [Tree.keys_eq_map] at hlt hgt
    by_cases hc : k ≤ K d
    · have hr : r.entries.filter (fun e => decide (k ≤ K e.2)) = r.entries := by
        rw [List.filter_eq_self]
        intro e he
        have := hgt (K e.2) (List.mem_map.2 ⟨e, he, rfl⟩)
        simp only [decide_eq_true_eq]
        omega
      simp [Tree.spineGE, hc, pendingSeq_append, ihl hsl, pendingSeq, Tree.entries,
        List.filter_cons, hr]
    · have hl : l.entries.filter (fun e => decide (k ≤ K e.2)) = [] := by
        rw [List.filter_eq_nil_iff]
        intro e he
        have := hlt (K e.2) (List.mem_map.2 ⟨e, he, rfl⟩)
        simp only [decide_eq_true_eq]
        omega
      simp [Tree.spineGE, hc, ihr hsr, Tree.entries, List.filter_cons, hl]

/-- The amended C13: for a tree with strictly increasing keys whose payload
pointers are all non-null, the payloads read with `GenAVLDFIterInitNextData`
for a key and then `GenAVLDFIterNextData` up to the first null are the in-order
payloads of the entries with key greater than the key, and with
`GenAVLDFIterInitNextEqualData` those of the entries with key greater than or
equal to it. -/
theorem dfSequence_from_key (K : Nat → Int) (fuel n : Nat) (it : GENAVLSTACK) (t : GenAVLTree)
    (T : Tree) (key : Int) (h : TreeAt t.mem t.root T) (hs : T.Sorted K)
    (h0 : ∀ e ∈ T.entries, e.2 ≠ 0) (hf : T.height < fuel) (hn : T.entries.length < n) :
    dfSequenceNext K fuel n it t key =
        some ((T.entries.filter (fun e => decide (key < K e.2))).map Prod.snd) ∧
      dfSequenceNextEqual K fuel n it t key =
        some ((T.entries.filter (fun e => decide (key ≤ K e.2))).map Prod.snd) := by
  have hlen : ∀ (q : Nat × Nat → Bool), ((T.entries.filter q).map Prod.snd).length < n := by
    intro q
    have := List.length_filter_le q T.entries
    simp only [List.length_map]
    omega
  have hnz : ∀ (q : Nat × Nat → Bool), ∀ d ∈ (T.entries.filter q).map Prod.snd, d ≠ 0 := by
    intro q d hd
    obtain ⟨e, he, rfl⟩ := List.mem_map.1 hd
    exact h0 e (List.mem_filter.1 he).1
  constructor
  · obtain ⟨it1, g1, g2⟩ := dfInitNextLoop_spec K t.mem key fuel T t.root fuel ⟨it.stack, 0⟩ []
      h hf hf (DFPending.init t.mem fuel it.stack)
    rw [List.append_nil] at g2
    have h2 := dfFrom_spec t.mem fuel n it1 _ g2
      (by rw [Tree.pendingSeq_spineGT K key T hs]; exact hnz _)
      (by rw [Tree.pendingSeq_spineGT K key T hs]; exact hlen _)
    rw [Tree.pendingSeq_spineGT K key T hs] at h2
    rw [← h2]
    simp only [dfSequenceNext, GenAVLDFIterInitNextData, g1, dfFrom]
  · obtain ⟨it1, g1, g2⟩ := dfInitNextEqualLoop_spec K t.mem key fuel T t.root fuel
      ⟨it.stack, 0⟩ [] h hf hf (DFPending.init t.mem fuel it.stack)
    rw [List.append_nil] at g2
    have h2 := dfFrom_spec t.mem fuel n it1 _ g2
      (by rw [Tree.pendingSeq_spineGE K key T hs]; exact hnz _)
      (by rw [Tree.pendingSeq_spineGE K key T hs]; exact hlen _)
    rw [Tree.pendingSeq_spineGE K key T hs] at h2
    rw [← h2]
    simp only [dfSequenceNextEqual, GenAVLDFIterInitNextEqualData, g1, dfFrom]

/-- Witness of the amended C13: the three-entry tree of the example read from
key 20. -/
theorem dfSequence_from_key_witness :
    dfSequenceNext exKey 3 4 ⟨fun _ => 0, 0⟩ exState3 20 =
        some ((exTree3.entries.filter (fun e => decide ((20 : Int) < exKey e.2))).map
          Prod.snd) ∧
      dfSequenceNextEqual exKey 3 4 ⟨fun _ => 0, 0⟩ exState3 20 =
        some ((exTree3.entries.filter (fun e => decide ((20 : Int) ≤ exKey e.2))).map
          Prod.snd) :=
  dfSequence_from_key exKey 3 4 ⟨fun _ => 0, 0⟩ exState3 exTree3 20 exState3_holds
    exTree3_sorted (by decide) (by decide) (by decide)

/-- Counterexample to C13 as stated: the tree whose one entry has a null
payload and key 0, read from key -1.  The first call already returns null, so
the sequence read is empty, while one entry has a greater key. -/
theorem dfSequenceNext_null_payload :
    ¬ ∀ (K : Nat → Int) (fuel n : Nat) (it : GENAVLSTACK) (t : GenAVLTree) (T : Tree)
      (key : Int), TreeAt t.mem t.root T → T.Sorted K → T.height < fuel →
      T.entries.length < n →
      dfSequenceNext K fuel n it t key =
          some ((T.entries.filter (fun e => decide (key < K e.2))).map Prod.snd) ∧
        dfSequenceNextEqual K fuel n it t key =
          some ((T.entries.filter (fun e => decide (key ≤ K e.2))).map Prod.snd) := by
  intro hall
  have h := (hall exKey 2 2 ⟨fun _ => 0, 0⟩ ⟨1, exMemNull⟩ exTreeNull (-1)
    ⟨rfl, by decide, rfl, rfl, rfl, rfl⟩ (by simp [exTreeNull, Tree.Sorted, Tree.keys])
    (by decide) (by decide)).1
  have h2 : dfSequenceNext exKey 2 2 ⟨fun _ => 0, 0⟩ ⟨1, exMemNull⟩ (-1) = some [] := by
    simp [dfSequenceNext, GenAVLDFIterInitNextData, dfInitNextLoop, GENAVLSTACK.push, exMemNull,
      GenAVLDFIterNextData, dfCollect, Compare, Key, exKey]
  rw [h2] at h
  simp [exTreeNull, Tree.entries, exKey] at h

/-! ## The free-key search -/

/-- On the empty tree `GenAVLTreeNextFreeKey` returns 1 with the out key
incremented once, the wrap flag of `KeyIncrement` being ignored. -/
theorem GenAVLTreeNextFreeKey_empty (K : Nat → Int) (lo hi : Int) (fuel : Nat) (t : GenAVLTree)
    (start : Int) (h : t.root = 0) :
    GenAVLTreeNextFreeKey K lo hi fuel t start start =
      some (1, if start < hi then start + 1 else lo - 1) := by
  simp only [GenAVLTreeNextFreeKey, h, if_true, KeyIncrement]
  split_ifs <;> rfl

/-- The search on the full tree of keys 1 .. 3 started at 0 comes back to its
first state after six passes, so it runs out of any fuel. -/
theorem nextFreeKeyLoop_full (fuel : Nat) :
    ∀ stack : Nat → Nat,
      nextFreeKeyLoop exKey 1 3 exStateFull 0 fuel false 2 ⟨stack, 0⟩ 0 = none := by
  induction fuel using Nat.strong_induction_on with
  | _ n ih =>
    intro stack
    rcases n with _ | _ | _ | _ | _ | _ | n
    · rfl
    · simp [nextFreeKeyLoop, exStateFull, exMemFull, Compare, Key, exKey, KeyIncrement,
        KeyCompare, GENAVLSTACK.push]
    · simp [nextFreeKeyLoop, exStateFull, exMemFull, Compare, Key, exKey, KeyIncrement,
        KeyCompare, GENAVLSTACK.push]
    · simp [nextFreeKeyLoop, exStateFull, exMemFull, Compare, Key, exKey, KeyIncrement,
        KeyCompare, GENAVLSTACK.push]
    · simp [nextFreeKeyLoop, exStateFull, exMemFull, Compare, Key, exKey, KeyIncrement,
        KeyCompare, GENAVLSTACK.push]
    · simp [nextFreeKeyLoop, exStateFull, exMemFull, Compare, Key, exKey, KeyIncrement,
        KeyCompare, GENAVLSTACK.push]
    · have h6 := ih n (by omega) (Function.update stack 0 2)
      simp [nextFreeKeyLoop, exStateFull, exMemFull, Compare, Key, exKey, KeyIncrement,
        KeyCompare, GENAVLSTACK.push] at h6 ⊢
      exact h6

theorem exStateFull_holds : TreeAt exStateFull.mem exStateFull.root exTreeFull :=
  ⟨rfl, by decide, rfl, rfl, ⟨rfl, by decide, rfl, rfl, rfl, rfl⟩,
    ⟨rfl, by decide, rfl, rfl, rfl, rfl⟩⟩

theorem exStateGap_holds : TreeAt exStateGap.mem exStateGap.root exTreeGap :=
  ⟨rfl, by decide, rfl, rfl, ⟨rfl, by decide, rfl, rfl, rfl, rfl⟩,
    ⟨rfl, by decide, rfl, rfl, rfl, ⟨rfl, by decide, rfl, rfl, rfl, rfl⟩⟩⟩

/-- C16 at its failing input, next to the example of the claim.  On the tree
of keys 1, 2, 4, 5 with range 1 .. 5 and start 0 the call returns 1 with out
key 3, the first free key.  On the empty tree with start 5 (the maximum) the
call returns 1 with out key 0, one less than the minimum, while the first key
after 5 in cyclic order that is not in the tree is 1. -/
theorem GenAVLTreeNextFreeKey_first_free_at_max :
    TreeAt exStateGap.mem exStateGap.root exTreeGap ∧ exTreeGap.keys exKey = [1, 2, 4, 5] ∧
      GenAVLTreeNextFreeKey exKey 1 5 20 exStateGap 0 0 = some (1, 3) ∧
      firstFreeKey 1 5 0 [1, 2, 4, 5] = some 3 ∧
      GenAVLTreeNextFreeKey exKey 1 5 20 ⟨0, exMem⟩ 5 5 = some (1, 0) ∧
      firstFreeKey 1 5 5 [] = some 1 := by
  refine ⟨exStateGap_holds, rfl, ?_, by decide, ?_, by decide⟩
  · simp [GenAVLTreeNextFreeKey, nextFreeKeyLoop, exStateGap, exMemGap, Compare, Key, exKey,
      KeyIncrement, KeyCompare, GENAVLSTACK.push]
  · simp [GenAVLTreeNextFreeKey, KeyIncrement]

/-- C17 at its failing input: the tree holds every key of the range 1 .. 3 and
the search starts at 0, one less than the minimum.  For every amount of fuel
the call does not return: it never returns 0. -/
theorem GenAVLTreeNextFreeKey_full_never_returns :
    TreeAt exStateFull.mem exStateFull.root exTreeFull ∧ exTreeFull.keys exKey = [1, 2, 3] ∧
      ∀ fuel, GenAVLTreeNextFreeKey exKey 1 3 fuel exStateFull 0 0 = none := by
  refine ⟨exStateFull_holds, rfl, fun fuel => ?_⟩
  have h : exStateFull.root = 2 := rfl
  simp only [GenAVLTreeNextFreeKey, h]
  exact nextFreeKeyLoop_full fuel _

/-- C18 at its failing input: on the tree of keys 1, 2, 3 with range 1 .. 3 and
start 0 no amount of fuel lets the search loop reach a return. -/
theorem GenAVLTreeNextFreeKey_full_diverges :
    TreeAt exStateFull.mem exStateFull.root exTreeFull ∧ exTreeFull.Sorted exKey ∧
      ¬ ∃ fuel r, GenAVLTreeNextFreeKey exKey 1 3 fuel exStateFull 0 0 = some r := by
  refine ⟨exStateFull_holds, by simp [exTreeFull, Tree.Sorted, Tree.keys, exKey], ?_⟩
  rintro ⟨fuel, r, h⟩
  have h2 : exStateFull.root = 2 := rfl
  simp only [GenAVLTreeNextFreeKey, h2] at h
  rw [show (if (2 : Nat) = 0 then some (1, (KeyIncrement 1 3 0).1)
    else nextFreeKeyLoop exKey 1 3 exStateFull 0 fuel false 2 ⟨fun _ => 0, 0⟩ 0) =
    nextFreeKeyLoop exKey 1 3 exStateFull 0 fuel false 2 ⟨fun _ => 0, 0⟩ 0 from rfl,
    nextFreeKeyLoop_full fuel _] at h
  cases h

/-- C19 at its failing input: on the empty tree with range 1 .. 5 the call
returns 1 with out key start + 1 for every start below the maximum, and with
start 5 (the maximum) it returns 1 with out key 0, one less than the minimum,
not the minimum 1. -/
theorem GenAVLTreeNextFreeKey_empty_at_max :
    (∀ (fuel : Nat) (m : Mem) (start : Int), start < 5 →
      GenAVLTreeNextFreeKey exKey 1 5 fuel ⟨0, m⟩ start start = some (1, start + 1)) ∧
      ∀ (fuel : Nat) (m : Mem), GenAVLTreeNextFreeKey exKey 1 5 fuel ⟨0, m⟩ 5 5 = some (1, 0) := by
  constructor
  · intro fuel m start hs
    rw [GenAVLTreeNextFreeKey_empty exKey 1 5 fuel ⟨0, m⟩ start rfl, if_pos hs]
  · intro fuel m
    rw [GenAVLTreeNextFreeKey_empty exKey 1 5 fuel ⟨0, m⟩ 5 rfl]
    rfl

/-! ## The leaf-first iterator: the descent -/

theorem StackHolds.push_addr {it : GENAVLSTACK} {l : List Nat} (h : StackHolds it l) (a : Nat) :
    StackHolds (it.push a) (a :: l) := by
  obtain ⟨h1, h2⟩ := h
  refine ⟨by simp [GENAVLSTACK.push, h1], ?_, ?_⟩
  · simp [GENAVLSTACK.push, h1]
  · exact h2.update_above _ _ (by simp [GENAVLSTACK.push, h1])

theorem Tree.lfDescend_plug (s : Tree) :
    ∀ c : Ctx, plug (Tree.lfDescend s c).1 (Tree.lfDescend s c).2 = plug c s := by
  induction s with
  | nil => intro c; rfl
  | node l a d b r ihl ihr =>
    intro c
    cases l with
    | nil =>
      cases r with
      | nil => rfl
      | node rl ra rd rb rr =>
        simp only [Tree.lfDescend]
        rw [ihr]; rfl
    | node ll la ld lb lr =>
      simp only [Tree.lfDescend]
      rw [ihl]; rfl

theorem Tree.lfDescend_leaf (s : Tree) (hs : s ≠ .nil) :
    ∀ c : Ctx, ∃ a d b, (Tree.lfDescend s c).2 = .node .nil a d b .nil := by
  induction s with
  | nil => exact absurd rfl hs
  | node l a d b r ihl ihr =>
    intro c
    cases l with
    | nil =>
      cases r with
      | nil => exact ⟨a, d, b, rfl⟩
      | node rl ra rd rb rr =>
        simp only [Tree.lfDescend]
        exact ihr (by simp) _
    | node ll la ld lb lr =>
      simp only [Tree.lfDescend]
      exact ihl (by simp) _

theorem Tree.lfDescend_leftDone (s : Tree) :
    ∀ c : Ctx, (∀ f ∈ c, f.LeftDone) → ∀ f ∈ (Tree.lfDescend s c).1, f.LeftDone := by
  induction s with
  | nil => intro c hc; exact hc
  | node l a d b r ihl ihr =>
    intro c hc
    cases l with
    | nil =>
      cases r with
      | nil => exact hc
      | node rl ra rd rb rr =>
        simp only [Tree.lfDescend]
        refine ihr _ ?_
        intro f hf
        rw [List.mem_cons] at hf
        rcases hf with rfl | hf
        · rfl
        · exact hc f hf
    | node ll la ld lb lr =>
      simp only [Tree.lfDescend]
      refine ihl _ ?_
      intro f hf
      rw [List.mem_cons] at hf
      rcases hf with rfl | hf
      · trivial
      · exact hc f hf

theorem Tree.lfDescend_rest (s : Tree) :
    ∀ c : Ctx, (Tree.lfDescend s c).2.postorder ++ lfRest (Tree.lfDescend s c).1 =
      s.postorder ++ lfRest c := by
  induction s with
  | nil => intro c; rfl
  | node l a d b r ihl ihr =>
    intro c
    cases l with
    | nil =>
      cases r with
      | nil => rfl
      | node rl ra rd rb rr =>
        simp only [Tree.lfDescend]
        rw [ihr]
        simp [Tree.postorder, lfRest]
    | node ll la ld lb lr =>
      simp only [Tree.lfDescend]
      rw [ihl]
      simp [Tree.postorder, lfRest]

theorem lfPushLeaf_null (m : Mem) (fuel : Nat) (it : GENAVLSTACK) :
    lfPushLeaf m (fuel + 1) it 0 = some it := by
  simp [lfPushLeaf]

theorem lfPushLeaf_spec (m : Mem) :
    ∀ (s : Tree) (c : Ctx) (p fuel : Nat) (it : GENAVLSTACK), TreeAt m p s →
      s.height < fuel → StackHolds it (c.map Frame.addr) →
      ∃ it1, lfPushLeaf m fuel it p = some it1 ∧
        StackHolds it1 (lfStack (Tree.lfDescend s c)) := by
  intro s
  induction s with
  | nil =>
    intro c p fuel it h hf hst
    cases fuel with
    | zero => simp at hf
    | succ fuel =>
      have hp : p = 0 := h
      subst hp
      exact ⟨it, lfPushLeaf_null m fuel it, hst⟩
  | node l a d b r ihl ihr =>
    intro c p fuel it h hf hst
    obtain ⟨rfl, ha0, -, -, hl, hr⟩ := h
    cases fuel with
    | zero => simp at hf
    | succ fuel =>
      simp only [Tree.height] at hf
      have hfl : l.height < fuel := by omega
      have hfr : r.height < fuel := by omega
      cases l with
      | nil =>
        have hl0 : (m p).left = 0 := hl
        cases r with
        | nil =>
          have hr0 : (m p).right = 0 := hr
          obtain ⟨f, rfl⟩ : ∃ f, fuel = f + 1 := ⟨fuel - 1, by omega⟩
          refine ⟨it.push p, ?_, ?_⟩
          · simp only [lfPushLeaf, ha0, if_false, hl0, if_true, hr0]
          · exact hst.push_addr p
        | node rl ra rd rb rr =>
          obtain ⟨it1, h1, h2⟩ := ihr (.R .nil p d b :: c) (m p).right fuel (it.push p) hr hfr
            (hst.push_addr p)
          refine ⟨it1, ?_, h2⟩
          simp only [lfPushLeaf, ha0, if_false, hl0, if_true]
          exact h1
      | node ll la ld lb lr =>
        have hl0 : (m p).left ≠ 0 := fun e => by
          have := hl.nil_iff.1 e
          cases this
        obtain ⟨it1, h1, h2⟩ := ihl (.L p d b r :: c) (m p).left fuel (it.push p) hl hfl
          (hst.push_addr p)
        refine ⟨it1, ?_, h2⟩
        simp only [lfPushLeaf, ha0, if_false, hl0]
        exact h1

/-! ## The leaf-first iterator: one call -/

theorem sorted_hole (K : Nat → Int) (c : Ctx) (s : Tree) (h : (plug c s).Sorted K) :
    s.Sorted K := by
  unfold Tree.Sorted at h ⊢
  rw [Tree.keys_eq_map, entries_plug] at h
  rw [Tree.keys_eq_map]
  exact h.sublist (((List.sublist_append_right _ _).trans
    (List.sublist_append_left _ _)).map _)

theorem sorted_plug_nil (K : Nat → Int) (c : Ctx) (s : Tree) (h : (plug c s).Sorted K) :
    (plug c .nil).Sorted K := by
  unfold Tree.Sorted at h ⊢
  rw [Tree.keys_eq_map, entries_plug] at h
  rw [Tree.keys_eq_map, entries_plug]
  refine h.sublist (List.Sublist.map _ ?_)
  simp only [Tree.entries, List.append_nil]
  exact List.Sublist.append_right (List.sublist_append_left _ _) _

theorem length_plug_nil (c : Ctx) (s : Tree) :
    (plug c .nil).entries.length + s.entries.length = (plug c s).entries.length := by
  rw [entries_plug, entries_plug]
  simp only [Tree.entries, List.append_nil, List.length_append]
  omega

theorem clear_other (m : Mem) (a x : Nat) (h : x ≠ a) :
    wrRight (wrLeft m a 0) a 0 x = m x := by
  rw [wrRight_other _ _ _ _ h, wrLeft_other _ _ _ _ h]

/-- Unlinking the leaf in the hole of a context: a state that agrees, outside
the leaf, with the state after the store of null in the slot holds the tree
without the leaf. -/
theorem TreeAt.unlink_leaf {t t1 : GenAVLTree} {c : Ctx} {a d : Nat} {b : Int} {dir : Int}
    (h : TreeAt t.mem t.root (plug c (.node .nil a d b .nil)))
    (hnd : (plug c (.node .nil a d b .nil)).addrs.Nodup) (hd : SlotDir c dir)
    (hroot : t1.root = (set t (slotAddr c) dir 0).root)
    (hmem : ∀ x, x ≠ a → t1.mem x = (set t (slotAddr c) dir 0).mem x) :
    TreeAt t1.mem t1.root (plug c .nil) :=
  (@TreeAt.rewrite t t1 c _ .nil dir 0 h hnd hd hroot
    (fun x hx => hmem x (by simpa [Tree.addrs] using hx)) rfl).1

theorem GenAVLLFIterNextData_last (K : Nat → Int) (fuel : Nat) (it : GENAVLSTACK)
    (t : GenAVLTree) (a d : Nat) (b : Int) (h : LFState K fuel it t [] a d b) :
    ∃ it1 t1, GenAVLLFIterNextData K fuel it t = some (it1, t1, d) ∧ t1.root = 0 ∧
      it1.sp = 0 := by
  obtain ⟨hT, -, ⟨hsp, hst⟩, -, -⟩ := h
  obtain ⟨-, -, hd, -, -, -⟩ := hT
  simp only [List.map_nil, List.length_cons, List.length_nil] at hsp
  have htop : it.stack 0 = a := hst.1
  refine ⟨⟨it.stack, 0⟩, ⟨0, wrRight (wrLeft t.mem a 0) a 0⟩, ?_, rfl, rfl⟩
  simp [GenAVLLFIterNextData, hsp, htop, hd]

theorem GenAVLLFIterNextData_right (K : Nat → Int) (fuel : Nat) (it : GENAVLSTACK)
    (t : GenAVLTree) (c : Ctx) (a d p dp : Nat) (b bp : Int)
    (h : LFState K fuel it t (.R .nil p dp bp :: c) a d b) :
    ∃ it1 t1, GenAVLLFIterNextData K fuel it t = some (it1, t1, d) ∧
      LFState K fuel it1 t1 c p dp bp := by
  obtain ⟨hT, hS, ⟨hsp, hst⟩, hLD, hlen⟩ := h
  have hnd := hT.nodup hS
  have hh := TreeAt.hole hT
  obtain ⟨-, ha0, hd, -, -, -⟩ := hh
  have hfr := TreeAt.frame hT
  have hp0 : p ≠ 0 := hfr.2.1
  have hpa : p ≠ a := by
    have := slot_not_mem hT hnd
    simpa [slotAddr, Frame.addr, Tree.addrs] using this
  have hfill : TreeAt t.mem (holePtr t.mem t.root c)
      (Frame.fill (.R .nil p dp bp) (.node .nil a d b .nil)) := @TreeAt.hole _ _ c _ hT
  obtain ⟨-, -, hdp, -, -, -⟩ := hfill
  have hkey : K dp < K d := by
    have h1 : (plug c (Frame.fill (.R .nil p dp bp) (.node .nil a d b .nil))).Sorted K := hS
    have h2 := sorted_hole K c _ h1
    simp only [Frame.fill] at h2
    rw [Tree.sorted_node] at h2
    exact h2.2.2.2 (K d) (by simp [Tree.keys])
  simp only [List.map_cons, List.length_cons, List.length_map, Frame.addr] at hsp
  obtain ⟨htop, hnext, hrest⟩ := hst
  simp only [List.map_cons, List.length_cons, List.length_map, Frame.addr] at htop hnext
  set m1 := wrRight (wrLeft t.mem a 0) a 0 with hm1
  have hk1 : Key K m1 a = K d := by simp [Key, hm1, hd]
  have hk2 : Key K m1 p = K dp := by simp [Key, hm1, clear_other _ _ _ hpa, hdp]
  have hcmp : Compare K m1 a (Key K m1 p) > 0 := by
    rw [Compare_pos, hk1, hk2]; exact hkey
  refine ⟨⟨it.stack, it.sp - 1⟩, { t with mem := wrRight (wrRight m1 a p) p 0 }, ?_, ?_⟩
  · have e1 : it.sp - 1 = c.length + 1 := by omega
    have e2 : it.sp ≠ 0 := by omega
    simp only [GenAVLLFIterNextData, e2, if_false, e1, htop, Nat.add_sub_cancel, hnext, ← hm1,
      hcmp, if_true, hd, ne_eq, Nat.add_one_ne_zero, not_false_eq_true]
  · refine ⟨?_, sorted_plug_nil K _ _ hS, ⟨by simp [hsp], by simpa using hnext, hrest⟩,
      fun f hf => hLD f (List.mem_cons_of_mem _ hf), ?_⟩
    · refine @TreeAt.unlink_leaf t _ (.R .nil p dp bp :: c) a d b 1 hT hnd
        (by simp [SlotDir, Frame.DirOK]) ?_ ?_
      · simp [slotAddr, Frame.addr, set_root _ _ _ _ hp0]
      · intro x hx
        simp only [slotAddr, Frame.addr]
        rw [set_mem_right_pos _ _ _ _ hp0 (by omega)]
        by_cases hxp : x = p
        · subst hxp
          simp [wrRight, Function.update, hx, hm1, wrLeft]
        · rw [wrRight_other _ _ _ _ hxp, wrRight_other _ _ _ _ hx, hm1, clear_other _ _ _ hx,
            wrRight_other _ _ _ _ hxp]
    · have := length_plug_nil (.R .nil p dp bp :: c) (.node .nil a d b .nil)
      have e : plug (.R .nil p dp bp :: c) .nil = plug c (.node .nil p dp bp .nil) := rfl
      rw [← e]
      omega

theorem GenAVLLFIterNextData_left (K : Nat → Int) (fuel : Nat) (it : GENAVLSTACK)
    (t : GenAVLTree) (c : Ctx) (a d p dp : Nat) (b bp : Int) (r : Tree)
    (h : LFState K fuel it t (.L p dp bp r :: c) a d b) :
    ∃ it1 t1 c2 a2 d2 b2, GenAVLLFIterNextData K fuel it t = some (it1, t1, d) ∧
      LFState K fuel it1 t1 c2 a2 d2 b2 ∧
      (a2, d2) :: lfRest c2 = r.postorder ++ (p, dp) :: lfRest c := by
  obtain ⟨hT, hS, ⟨hsp, hst⟩, hLD, hlen⟩ := h
  have hnd := hT.nodup hS
  have hh := TreeAt.hole hT
  obtain ⟨-, ha0, hd, -, -, -⟩ := hh
  have hfr := TreeAt.frame hT
  have hp0 : p ≠ 0 := hfr.2.1
  have hrT : TreeAt t.mem (t.mem p).right r := hfr.2.2
  have hpa : p ≠ a := by
    have := slot_not_mem hT hnd
    simpa [slotAddr, Frame.addr, Tree.addrs] using this
  have hfill : TreeAt t.mem (holePtr t.mem t.root c)
      (Frame.fill (.L p dp bp r) (.node .nil a d b .nil)) := @TreeAt.hole _ _ c _ hT
  obtain ⟨-, -, hdp, -, -, -⟩ := hfill
  have hkey : K d < K dp := by
    have h1 : (plug c (Frame.fill (.L p dp bp r) (.node .nil a d b .nil))).Sorted K := hS
    have h2 := sorted_hole K c _ h1
    simp only [Frame.fill] at h2
    rw [Tree.sorted_node] at h2
    exact h2.2.2.1 (K d) (by simp [Tree.keys])
  simp only [List.map_cons, List.length_cons, List.length_map, Frame.addr] at hsp
  obtain ⟨htop, hnext, hrest⟩ := hst
  simp only [List.map_cons, List.length_cons, List.length_map, Frame.addr] at htop hnext
  have hk1 : Key K (wrRight (wrLeft t.mem a 0) a 0) a = K d := by simp [Key, hd]
  have hk2 : Key K (wrRight (wrLeft t.mem a 0) a 0) p = K dp := by
    simp [Key, clear_other _ _ _ hpa, hdp]
  have hcmp : ¬ Compare K (wrRight (wrLeft t.mem a 0) a 0) a
      (Key K (wrRight (wrLeft t.mem a 0) a 0) p) > 0 := by
    rw [Compare_pos, hk1, hk2]; omega
  have hm2r : (wrLeft (wrLeft (wrRight (wrLeft t.mem a 0) a 0) a p) p 0 p).right =
      (t.mem p).right := by
    rw [wrLeft_right, wrLeft_other _ _ _ _ hpa, clear_other _ _ _ hpa]
  -- the state after the unlinking stores
  have hT1 : TreeAt (wrLeft (wrLeft (wrRight (wrLeft t.mem a 0) a 0) a p) p 0) t.root
      (plug (.L p dp bp r :: c) .nil) := by
    refine @TreeAt.unlink_leaf t
      ⟨t.root, wrLeft (wrLeft (wrRight (wrLeft t.mem a 0) a 0) a p) p 0⟩
      (.L p dp bp r :: c) a d b (-1) hT hnd
      (by simp [SlotDir, Frame.DirOK]) ?_ ?_
    · simp [slotAddr, Frame.addr, set_root _ _ _ _ hp0]
    · intro x hx
      simp only [slotAddr, Frame.addr]
      rw [set_mem_left_neg _ _ _ _ hp0 (by omega)]
      by_cases hxp : x = p
      · subst hxp
        simp [wrRight, Function.update, hx, wrLeft]
      · rw [wrLeft_other _ _ _ _ hxp, wrLeft_other _ _ _ _ hx, clear_other _ _ _ hx,
          wrLeft_other _ _ _ _ hxp]
  have hS1 : (plug (.L p dp bp r :: c) .nil).Sorted K := sorted_plug_nil K _ _ hS
  have hlen1 : (plug (.L p dp bp r :: c) .nil).entries.length < fuel := by
    have := length_plug_nil (.L p dp bp r :: c) (.node .nil a d b .nil)
    omega
  have hst1 : StackHolds ⟨it.stack, it.sp - 1⟩ (p :: c.map Frame.addr) :=
    ⟨by simp [hsp], by simpa using hnext, hrest⟩
  have e1 : it.sp - 1 = c.length + 1 := by omega
  have e2 : it.sp ≠ 0 := by omega
  by_cases hr0 : (t.mem p).right = 0
  · have hrn : r = .nil := hrT.nil_iff.1 hr0
    subst hrn
    refine ⟨⟨it.stack, it.sp - 1⟩, ⟨t.root, wrLeft (wrLeft (wrRight (wrLeft t.mem a 0) a 0) a p) p 0⟩,
      c, p, dp, bp, ?_,
      ⟨hT1, hS1, hst1, fun f hf => hLD f (List.mem_cons_of_mem _ hf), hlen1⟩, ?_⟩
    · simp only [GenAVLLFIterNextData, e2, if_false, e1, htop, Nat.add_sub_cancel, hnext,
        hcmp, hd, ne_eq, Nat.add_one_ne_zero, not_false_eq_true, if_true, hm2r, hr0,
        not_true_eq_false]
    · simp [Tree.postorder]
  · have hrn : r ≠ .nil := fun e => hr0 (hrT.nil_iff.2 e)
    have hT2 : TreeAt (wrLeft (wrLeft (wrRight (wrLeft t.mem a 0) a 0) a p) p 0) t.root
        (plug (.R .nil p dp bp :: c) r) := hT1
    have hrT2 := TreeAt.hole hT2
    simp only [holePtr, hm2r] at hrT2
    have hrh : r.height < fuel := by
      have h1 := Tree.height_le_length r
      have h2 : r.entries.length ≤ (plug (.R .nil p dp bp :: c) r).entries.length := by
        rw [entries_plug]
        simp only [List.length_append]
        omega
      have h3 : (plug (.R .nil p dp bp :: c) r).entries.length < fuel := hlen1
      omega
    obtain ⟨it2, g1, g2⟩ := lfPushLeaf_spec _ r (.R .nil p dp bp :: c) (t.mem p).right fuel
      ⟨it.stack, it.sp - 1⟩ hrT2 hrh hst1
    obtain ⟨a2, d2, b2, hleaf⟩ := Tree.lfDescend_leaf r hrn (.R .nil p dp bp :: c)
    have hplug := Tree.lfDescend_plug r (.R .nil p dp bp :: c)
    have hrest2 := Tree.lfDescend_rest r (.R .nil p dp bp :: c)
    have hld2 := Tree.lfDescend_leftDone r (.R .nil p dp bp :: c) (by
      intro f hf
      rw [List.mem_cons] at hf
      rcases hf with rfl | hf
      · rfl
      · exact hLD f (List.mem_cons_of_mem _ hf))
    rw [hleaf] at hplug hrest2
    simp only [lfStack, hleaf] at g2
    rw [e1] at g1
    refine ⟨it2, ⟨t.root, wrLeft (wrLeft (wrRight (wrLeft t.mem a 0) a 0) a p) p 0⟩,
      (Tree.lfDescend r (.R .nil p dp bp :: c)).1, a2, d2, b2, ?_,
      ⟨by rw [hplug]; exact hT2, by rw [hplug]; exact hS1, g2, hld2,
        by rw [hplug]; exact hlen1⟩, ?_⟩
    · simp only [GenAVLLFIterNextData, e2, if_false, e1, htop, Nat.add_sub_cancel, hnext,
        hcmp, hd, ne_eq, Nat.add_one_ne_zero, not_false_eq_true, if_true, hm2r, hr0, g1]
    · simpa [Tree.postorder, lfRest] using hrest2

/-- One call of `GenAVLLFIterNextData` in any state of the iteration: it
returns the payload of the leaf on top of the stack; then either the iteration
is over, with the root null, or the iterator stands at the next leaf. -/
theorem GenAVLLFIterNextData_spec (K : Nat → Int) (fuel : Nat) (it : GENAVLSTACK)
    (t : GenAVLTree) (c : Ctx) (a d : Nat) (b : Int) (h : LFState K fuel it t c a d b) :
    ∃ it1 t1, GenAVLLFIterNextData K fuel it t = some (it1, t1, d) ∧
      ((c = [] ∧ t1.root = 0 ∧ it1.sp = 0) ∨
        ∃ c2 a2 d2 b2, LFState K fuel it1 t1 c2 a2 d2 b2 ∧
          (a2, d2) :: lfRest c2 = lfRest c) := by
  cases c with
  | nil =>
    obtain ⟨it1, t1, h1, h2, h3⟩ := GenAVLLFIterNextData_last K fuel it t a d b h
    exact ⟨it1, t1, h1, Or.inl ⟨rfl, h2, h3⟩⟩
  | cons f c =>
    cases f with
    | L p dp bp r =>
      obtain ⟨it1, t1, c2, a2, d2, b2, h1, h2, h3⟩ :=
        GenAVLLFIterNextData_left K fuel it t c a d p dp b bp r h
      exact ⟨it1, t1, h1, Or.inr ⟨c2, a2, d2, b2, h2, h3⟩⟩
    | R l p dp bp =>
      have hl : l = .nil := h.2.2.2.1 _ (List.mem_cons_self _ _)
      subst hl
      obtain ⟨it1, t1, h1, h2⟩ := GenAVLLFIterNextData_right K fuel it t c a d p dp b bp h
      exact ⟨it1, t1, h1, Or.inr ⟨c, p, dp, bp, h2, rfl⟩⟩

/-! ## The leaf-first iterator: the whole traversal -/

theorem Tree.postorder_perm (t : Tree) : t.postorder.Perm t.entries := by
  induction t with
  | nil => exact List.Perm.refl _
  | node l a d b r ihl ihr =>
    simp only [Tree.postorder, Tree.entries, List.append_assoc]
    refine List.Perm.append ihl ?_
    exact (List.perm_append_comm.trans (List.Perm.cons _ ihr))

theorem lfCollect_succ (K : Nat → Int) (fuel n : Nat) (it : GENAVLSTACK) (t : GenAVLTree)
    (d : Nat) (hd : d ≠ 0) :
    lfCollect K fuel (n + 1) it t d =
      (lfFrom K fuel n it t).map (fun r => (d :: r.1, r.2)) := by
  simp only [lfCollect, hd, if_false, lfFrom]
  cases GenAVLLFIterNextData K fuel it t with
  | none => rfl
  | some p => rfl

theorem lfFrom_done (K : Nat → Int) (fuel n : Nat) (it : GENAVLSTACK) (t : GenAVLTree)
    (h : it.sp = 0) : lfFrom K fuel (n + 1) it t = some ([], t) := by
  simp [lfFrom, GenAVLLFIterNextData, h, lfCollect]

/-- Reading a leaf-first iterator to the first null gives all pending payloads
and leaves the root null, when no pending payload is null. -/
theorem lfFrom_spec (K : Nat → Int) (fuel : Nat) :
    ∀ (n : Nat) (it : GENAVLSTACK) (t : GenAVLTree) (c : Ctx) (a d : Nat) (b : Int),
      LFState K fuel it t c a d b → d ≠ 0 → (∀ e ∈ lfRest c, e.2 ≠ 0) →
      (lfRest c).length + 2 < n →
      ∃ t1, lfFrom K fuel n it t = some (d :: (lfRest c).map Prod.snd, t1) ∧ t1.root = 0 := by
  intro n
  induction n with
  | zero => intro it t c a d b _ _ _ hn; simp at hn
  | succ n ih =>
    intro it t c a d b hst hd h0 hn
    obtain ⟨it1, t1, g1, g2⟩ := GenAVLLFIterNextData_spec K fuel it t c a d b hst
    have hfrom : lfFrom K fuel (n + 1) it t =
        (lfFrom K fuel n it1 t1).map (fun r => (d :: r.1, r.2)) := by
      simp only [lfFrom, g1]
      exact lfCollect_succ K fuel n it1 t1 d hd
    rcases g2 with ⟨rfl, hr, hsp⟩ | ⟨c2, a2, d2, b2, hst2, hrest⟩
    · obtain ⟨k, rfl⟩ : ∃ k, n = k + 1 := ⟨n - 1, by simp [lfRest] at hn; omega⟩
      refine ⟨t1, ?_, hr⟩
      rw [hfrom, lfFrom_done K fuel k it1 t1 hsp]
      rfl
    · have hd2 : d2 ≠ 0 := h0 (a2, d2) (by rw [← hrest]; simp)
      obtain ⟨t2, e1, e2⟩ := ih it1 t1 c2 a2 d2 b2 hst2 hd2
        (fun e he => h0 e (by rw [← hrest]; exact List.mem_cons_of_mem _ he))
        (by
          have := congrArg List.length hrest
          simp only [List.length_cons] at this
          omega)
      refine ⟨t2, ?_, e2⟩
      rw [hfrom, e1, ← hrest]
      rfl

/-- The amended C20: for a tree with strictly increasing keys whose payload
pointers are all non-null, `GenAVLLFIterInitData` followed by
`GenAVLLFIterNextData` up to the first null returns the payloads of the nodes
in post-order, which lists every node of the tree exactly once (N results,
none null), and after the traversal the root is null. -/
theorem lfSequence_visits_all (K : Nat → Int) (fuel n : Nat) (it : GENAVLSTACK)
    (t : GenAVLTree) (T : Tree) (h : TreeAt t.mem t.root T) (hs : T.Sorted K)
    (h0 : ∀ e ∈ T.entries, e.2 ≠ 0) (hf : T.entries.length < fuel)
    (hn : T.entries.length + 2 < n) :
    ∃ t1, lfSequence K fuel n it t = some (T.postorder.map Prod.snd, t1) ∧
      T.postorder.Perm T.entries ∧ (T.postorder.map Prod.snd).length = T.entries.length ∧
      (∀ d ∈ T.postorder.map Prod.snd, d ≠ 0) ∧ t1.root = 0 := by
  have hperm := Tree.postorder_perm T
  have hnz : ∀ e ∈ T.postorder, e.2 ≠ 0 := fun e he => h0 e (hperm.subset he)
  have hlen : (T.postorder.map Prod.snd).length = T.entries.length := by
    rw [List.length_map, hperm.length_eq]
  have hnz2 : ∀ d ∈ T.postorder.map Prod.snd, d ≠ 0 := by
    intro d hd
    obtain ⟨e, he, rfl⟩ := List.mem_map.1 hd
    exact hnz e he
  have hfh : T.height < fuel := by
    have := Tree.height_le_length T
    omega
  obtain ⟨it1, g1, g2⟩ := lfPushLeaf_spec t.mem T [] t.root fuel ⟨it.stack, 0⟩ h hfh
    ⟨rfl, trivial⟩
  have hseq : lfSequence K fuel n it t = lfFrom K fuel n it1 t := by
    simp only [lfSequence, GenAVLLFIterInitData, g1, lfFrom]
  cases hT : T with
  | nil =>
    subst hT
    have hr : t.root = 0 := h
    have hsp : it1.sp = 0 := by
      have := g2.1
      simpa [lfStack, Tree.lfDescend] using this
    obtain ⟨k, rfl⟩ : ∃ k, n = k + 1 := ⟨n - 1, by omega⟩
    exact ⟨t, by rw [hseq, lfFrom_done K fuel k it1 t hsp]; rfl, List.Perm.refl _, rfl,
      by simp [Tree.postorder], hr⟩
  | node l x dx bx r =>
    rw [← hT]
    have hne : T ≠ .nil := by rw [hT]; simp
    obtain ⟨a, d, b, hleaf⟩ := Tree.lfDescend_leaf T hne []
    have hplug := Tree.lfDescend_plug T []
    have hrest := Tree.lfDescend_rest T []
    have hld := Tree.lfDescend_leftDone T [] (fun f hf => by cases hf)
    rw [hleaf] at hplug hrest
    simp only [lfStack, hleaf] at g2
    have hplug' : plug (Tree.lfDescend T []).1 (.node .nil a d b .nil) = T := hplug
    have hst : LFState K fuel it1 t (Tree.lfDescend T []).1 a d b :=
      ⟨by rw [hplug']; exact h, by rw [hplug']; exact hs, g2, hld, by rw [hplug']; exact hf⟩
    have hpost : T.postorder = (a, d) :: lfRest (Tree.lfDescend T []).1 := by
      simpa [Tree.postorder, lfRest] using hrest.symm
    obtain ⟨t1, e1, e2⟩ := lfFrom_spec K fuel n it1 t _ a d b hst
      (hnz (a, d) (by rw [hpost]; simp))
      (fun e he => hnz e (by rw [hpost]; exact List.mem_cons_of_mem _ he))
      (by
        have := congrArg List.length hpost
        rw [hperm.length_eq] at this
        simp only [List.length_cons] at this
        omega)
    refine ⟨t1, ?_, hperm, hlen, hnz2, e2⟩
    rw [hseq, e1, hpost]
    rfl

/-- Witness of the amended C20: the three-entry tree of the example. -/
theorem lfSequence_visits_all_witness :
    ∃ t1, lfSequence exKey 4 6 ⟨fun _ => 0, 0⟩ exState3 =
        some (exTree3.postorder.map Prod.snd, t1) ∧
      exTree3.postorder.Perm exTree3.entries ∧
      (exTree3.postorder.map Prod.snd).length = exTree3.entries.length ∧
      (∀ d ∈ exTree3.postorder.map Prod.snd, d ≠ 0) ∧ t1.root = 0 :=
  lfSequence_visits_all exKey 4 6 ⟨fun _ => 0, 0⟩ exState3 exTree3 exState3_holds
    exTree3_sorted (by decide) (by decide) (by decide)

/-- Counterexample to C20 as stated: the tree whose one entry has a null
payload.  The first call already returns null, so no payload is read, while
the tree has one node. -/
theorem lfSequence_null_payload :
    ¬ ∀ (K : Nat → Int) (fuel n : Nat) (it : GENAVLSTACK) (t : GenAVLTree) (T : Tree),
      TreeAt t.mem t.root T → T.Sorted K → T.entries.length < fuel →
      T.entries.length + 2 < n →
      ∃ res t1, lfSequence K fuel n it t = some (res, t1) ∧
        res.Perm (T.entries.map Prod.snd) ∧ res.length = T.entries.length ∧
        (∀ d ∈ res, d ≠ 0) ∧ t1.root = 0 := by
  intro hall
  obtain ⟨res, t1, h1, -, h3, -⟩ := hall exKey 3 4 ⟨fun _ => 0, 0⟩ ⟨1, exMemNull⟩ exTreeNull
    ⟨rfl, by decide, rfl, rfl, rfl, rfl⟩ (by simp [exTreeNull, Tree.Sorted, Tree.keys])
    (by decide) (by decide)
  have h2 : (lfSequence exKey 3 4 ⟨fun _ => 0, 0⟩ ⟨1, exMemNull⟩).map Prod.fst = some [] := by
    simp [lfSequence, GenAVLLFIterInitData, lfPushLeaf, GENAVLSTACK.push, exMemNull,
      GenAVLLFIterNextData, lfCollect]
  rw [h1] at h2
  simp only [Option.map_some', Option.some.injEq] at h2
  rw [h2] at h3
  simp [exTreeNull, Tree.entries] at h3

/-! ## Relocatable references -/

theorem two_le_two_pow {w : Nat} (hw : 0 < w) : 2 ≤ 2 ^ w := by
  calc 2 = 2 ^ 1 := rfl
    _ ≤ 2 ^ w := Nat.pow_le_pow_right (by decide) hw

theorem maskOf_true (w : Nat) : maskOf w true = 0 := by
  unfold maskOf usub
  have h : 0 < 2 ^ w := Nat.two_pow_pos w
  by_cases h1 : 2 ^ w = 1
  · simp [h1, Nat.mod_one]
  · have h2 : 1 < 2 ^ w := by omega
    rw [Nat.mod_eq_of_lt h2]
    have : 1 + (2 ^ w - 1) = 2 ^ w := by omega
    simp [this]

theorem maskOf_false {w : Nat} (hw : 0 < w) : maskOf w false = 2 ^ w - 1 := by
  unfold maskOf usub
  have h2 := two_le_two_pow hw
  have h3 : (1 : Nat) % 2 ^ w = 1 := Nat.mod_eq_of_lt (by omega)
  simp only [Bool.false_eq_true, if_false, h3, Nat.zero_add]
  exact Nat.mod_eq_of_lt (by omega)

theorem usub_lt (w a b : Nat) : usub w a b < 2 ^ w :=
  Nat.mod_lt _ (Nat.two_pow_pos w)

theorem add_usub (w a b : Nat) : (b + usub w a b) % 2 ^ w = a % 2 ^ w := by
  unfold usub
  rw [Nat.add_mod_mod]
  have hb := Nat.mod_lt b (Nat.two_pow_pos w)
  have hd := Nat.div_add_mod b (2 ^ w)
  have e : b + (a + (2 ^ w - b % 2 ^ w)) = a + 2 ^ w * (b / 2 ^ w + 1) := by
    rw [Nat.mul_add, Nat.mul_one]
    omega
  rw [e, Nat.add_mul_mod_self_left]

theorem usub_one_add_one {w : Nat} (hw : 0 < w) (u : Nat) (hu : u < 2 ^ w) :
    (usub w u 1 + 1) % 2 ^ w = u := by
  unfold usub
  have h2 := two_le_two_pow hw
  have h3 : (1 : Nat) % 2 ^ w = 1 := Nat.mod_eq_of_lt (by omega)
  rw [h3, Nat.mod_add_mod]
  have e : u + (2 ^ w - 1) + 1 = u + 2 ^ w := by omega
  rw [e, Nat.add_mod_right]
  exact Nat.mod_eq_of_lt hu

theorem offset_ptr_to_raw_pointer_one (w this_ptr : Nat) :
    offset_ptr_to_raw_pointer w this_ptr 1 = 0 := by
  simp [offset_ptr_to_raw_pointer, maskOf_true]

theorem offset_ptr_to_raw_pointer_ne_one {w : Nat} (hw : 0 < w) (this_ptr offset : Nat)
    (h : offset ≠ 1) : offset_ptr_to_raw_pointer w this_ptr offset = (this_ptr + offset) % 2 ^ w := by
  simp only [offset_ptr_to_raw_pointer, h, decide_False, maskOf_false hw,
    Nat.and_pow_two_sub_one_eq_mod, Nat.mod_mod]

theorem offset_ptr_to_offset_null {w : Nat} (hw : 0 < w) (this_ptr : Nat) :
    offset_ptr_to_offset w 0 this_ptr = 1 := by
  have h2 := two_le_two_pow hw
  simp only [offset_ptr_to_offset, decide_True, maskOf_true, Nat.and_zero, Nat.zero_add]
  exact Nat.mod_eq_of_lt (by omega)

theorem offset_ptr_to_offset_ne_null {w : Nat} (hw : 0 < w) (ptr this_ptr : Nat) (h : ptr ≠ 0) :
    offset_ptr_to_offset w ptr this_ptr = usub w ptr this_ptr := by
  simp only [offset_ptr_to_offset, h, decide_False, maskOf_false hw,
    Nat.and_pow_two_sub_one_eq_mod]
  rw [Nat.mod_eq_of_lt (usub_lt w _ 1)]
  exact usub_one_add_one hw _ (usub_lt w _ _)

/-- C23: the round trip of a relocatable reference over `w`-bit arithmetic.
For a storage address `s` and a target `t` with `t - s` not congruent to 1,
`offset_ptr_to_offset t s` is 1 when `t` is null and `t - s` otherwise,
`offset_ptr_to_raw_pointer s` of it is `t` again, and the offset is the
sentinel 1 if and only if the target is null. -/
theorem offset_ptr_round_trip (w s t : Nat) (hw : 0 < w) (ht : t < 2 ^ w)
    (h1 : usub w t s ≠ 1) :
    offset_ptr_to_offset w t s = (if t = 0 then 1 else usub w t s) ∧
      offset_ptr_to_raw_pointer w s (offset_ptr_to_offset w t s) = t ∧
      (offset_ptr_to_offset w t s = 1 ↔ t = 0) := by
  by_cases h0 : t = 0
  · subst h0
    rw [offset_ptr_to_offset_null hw]
    exact ⟨by simp, offset_ptr_to_raw_pointer_one w s, by simp⟩
  · rw [offset_ptr_to_offset_ne_null hw t s h0]
    refine ⟨by simp [h0], ?_, by simp [h0, h1]⟩
    rw [offset_ptr_to_raw_pointer_ne_one hw s _ h1]
    rw [add_usub w t s]
    exact Nat.mod_eq_of_lt ht

/-- Witness of C23: storage at 16, target at 40, 64-bit addresses. -/
theorem offset_ptr_round_trip_witness :
    offset_ptr_to_offset 64 40 16 = (if 40 = 0 then 1 else usub 64 40 16) ∧
      offset_ptr_to_raw_pointer 64 16 (offset_ptr_to_offset 64 40 16) = 40 ∧
      (offset_ptr_to_offset 64 40 16 = 1 ↔ 40 = 0) :=
  offset_ptr_round_trip 64 16 40 (by decide) (by decide) (by decide)

/-- C24: relocation invariance.  For a storage address `s`, a displacement `d`
and a stored offset `o`: when `o` is the sentinel 1 the reference resolves to
null at `s` and at `s + d`; otherwise the resolution at `s + d` is the
resolution at `s` moved by `d`, modulo `2 ^ w`. -/
theorem offset_ptr_relocation (w s d o : Nat) (hw : 0 < w) :
    (o = 1 → offset_ptr_to_raw_pointer w ((s + d) % 2 ^ w) o = 0 ∧
      offset_ptr_to_raw_pointer w s o = 0) ∧
    (o ≠ 1 → offset_ptr_to_raw_pointer w ((s + d) % 2 ^ w) o =
      (offset_ptr_to_raw_pointer w s o + d) % 2 ^ w) := by
  constructor
  · rintro rfl
    exact ⟨offset_ptr_to_raw_pointer_one w _, offset_ptr_to_raw_pointer_one w _⟩
  · intro ho
    rw [offset_ptr_to_raw_pointer_ne_one hw _ o ho, offset_ptr_to_raw_pointer_ne_one hw _ o ho,
      Nat.mod_add_mod, Nat.mod_add_mod]
    congr 1
    omega

/-- Witness of C24: a reference stored at 16 with offset 24, moved by 1000. -/
theorem offset_ptr_relocation_witness :
    (24 = 1 → offset_ptr_to_raw_pointer 64 ((16 + 1000) % 2 ^ 64) 24 = 0 ∧
      offset_ptr_to_raw_pointer 64 16 24 = 0) ∧
    (24 ≠ 1 → offset_ptr_to_raw_pointer 64 ((16 + 1000) % 2 ^ 64) 24 =
      (offset_ptr_to_raw_pointer 64 16 24 + 1000) % 2 ^ 64) :=
  offset_ptr_relocation 64 16 1000 24 (by decide)

/-- C25: copying a reference to another storage location.  For a reference
stored at `a` with offset `o` and a destination `b`, the new offset
`offset_ptr_to_offset_from_other b a o` is 1 when `o` is 1; otherwise, when the
target is not at `b + 1`, the copy resolves to the target of the original. -/
theorem offset_ptr_copy (w a b o : Nat) (hw : 0 < w) :
    (o = 1 → offset_ptr_to_offset_from_other w b a o = 1) ∧
    (o ≠ 1 → offset_ptr_to_raw_pointer w a o ≠ (b + 1) % 2 ^ w →
      offset_ptr_to_raw_pointer w b (offset_ptr_to_offset_from_other w b a o) =
        offset_ptr_to_raw_pointer w a o) := by
  have h2 := two_le_two_pow hw
  have hN : 0 < 2 ^ w := by omega
  constructor
  · rintro rfl
    simp only [offset_ptr_to_offset_from_other, decide_True, maskOf_true, Nat.and_zero,
      Nat.zero_add]
    exact Nat.mod_eq_of_lt (by omega)
  · intro ho1 htgt
    rw [offset_ptr_to_raw_pointer_ne_one hw a o ho1] at htgt ⊢
    have hoff : offset_ptr_to_offset_from_other w b a o = (usub w a b + o) % 2 ^ w := by
      simp only [offset_ptr_to_offset_from_other, ho1, decide_False, maskOf_false hw,
        Nat.and_pow_two_sub_one_eq_mod, Nat.mod_eq_of_lt (usub_lt w a b)]
    have hsum : (b + (usub w a b + o) % 2 ^ w) % 2 ^ w = (a + o) % 2 ^ w := by
      rw [Nat.add_mod_mod, ← Nat.add_assoc, Nat.add_mod, add_usub w a b, Nat.mod_add_mod,
        Nat.add_mod_mod]
    have hne : (usub w a b + o) % 2 ^ w ≠ 1 := by
      intro e
      rw [e] at hsum
      exact htgt hsum.symm
    rw [hoff, offset_ptr_to_raw_pointer_ne_one hw b _ hne, hsum]

/-- Witness of C25: a reference stored at 16 with offset 24, copied to 64. -/
theorem offset_ptr_copy_witness :
    (24 = 1 → offset_ptr_to_offset_from_other 64 64 16 24 = 1) ∧
    (24 ≠ 1 → offset_ptr_to_raw_pointer 64 16 24 ≠ (64 + 1) % 2 ^ 64 →
      offset_ptr_to_raw_pointer 64 64 (offset_ptr_to_offset_from_other 64 64 16 24) =
        offset_ptr_to_raw_pointer 64 16 24) :=
  offset_ptr_copy 64 16 64 24 (by decide)

/-- The amended C26: for a storage address `s` and a non-null target `t` with
`t - s` not congruent to 1 modulo `2 ^ w`, the offset computed by
`offset_ptr_to_offset` is not the sentinel 1 and the reference resolves to `t`,
not to null. -/
theorem offset_ptr_no_collision (w s t : Nat) (hw : 0 < w) (ht : t < 2 ^ w) (h0 : t ≠ 0)
    (h1 : usub w t s ≠ 1) :
    offset_ptr_to_offset w t s ≠ 1 ∧
      offset_ptr_to_raw_pointer w s (offset_ptr_to_offset w t s) = t ∧
      offset_ptr_to_raw_pointer w s (offset_ptr_to_offset w t s) ≠ 0 := by
  rw [offset_ptr_to_offset_ne_null hw t s h0]
  have h2 : offset_ptr_to_raw_pointer w s (usub w t s) = t := by
    rw [offset_ptr_to_raw_pointer_ne_one hw s _ h1, add_usub w t s]
    exact Nat.mod_eq_of_lt ht
  exact ⟨h1, h2, by rw [h2]; exact h0⟩

/-- Witness of the amended C26: storage at 16, target at 40, 64-bit
addresses. -/
theorem offset_ptr_no_collision_witness :
    offset_ptr_to_offset 64 40 16 ≠ 1 ∧
      offset_ptr_to_raw_pointer 64 16 (offset_ptr_to_offset 64 40 16) = 40 ∧
      offset_ptr_to_raw_pointer 64 16 (offset_ptr_to_offset 64 40 16) ≠ 0 :=
  offset_ptr_no_collision 64 16 40 (by decide) (by decide) (by decide) (by decide)

/-- Counterexample to C26 as stated: with 64-bit addresses, storage at 8 and the
non-null target 9, the computed offset is the sentinel 1 and the reference
resolves to null. -/
theorem offset_ptr_sentinel_collision :
    (9 : Nat) ≠ 0 ∧ offset_ptr_to_offset 64 9 8 = 1 ∧
      offset_ptr_to_raw_pointer 64 8 (offset_ptr_to_offset 64 9 8) = 0 := by
  decide

/-! ## The scenario with seven keys -/

theorem keys_eq_of_sorted_perm (K : Nat → Int) (T : Tree) (l : List Int) (hs : T.Sorted K)
    (hp : (T.keys K).Perm l) (hl : l.Pairwise (· < ·)) : T.keys K = l :=
  List.eq_of_perm_of_sorted hp hs hl

/-- C22: the scenario of the spec.  Entries with the keys 10, 20, 5, 6, 15, 30,
25 (addresses 1 .. 7) are added in this order to an empty tree with
`GenAVLTreeAdd`.  Every call returns 1 and the tree then has the in-order keys
5, 6, 10, 15, 20, 25, 30 and is balanced; `GenAVLTreeFind` of 6 returns the
entry added for 6 (address 4); `GenAVLTreeDelete` of 10 returns the payload of
that entry and leaves a balanced tree with the in-order keys 5, 6, 15, 20, 25,
30. -/
theorem scenario_seven_keys :
    ∃ t1 T1 t2 T2, addAll exKey 8 ⟨0, exMem7⟩ [1, 2, 3, 4, 5, 6, 7] =
        some (t1, [1, 1, 1, 1, 1, 1, 1]) ∧
      TreeAt t1.mem t1.root T1 ∧ T1.keys exKey = [5, 6, 10, 15, 20, 25, 30] ∧ T1.Balanced ∧
      GenAVLTreeFind exKey 8 t1 6 = some 4 ∧ (t1.mem 4).data = 6 ∧
      GenAVLTreeDelete exKey 8 t1 10 = some (t2, 10) ∧
      TreeAt t2.mem t2.root T2 ∧ T2.keys exKey = [5, 6, 15, 20, 25, 30] ∧ T2.Balanced := by
  obtain ⟨t1, T1, a1, a2, a3, a4, a5⟩ := addAll_spec exKey 8 [1, 2, 3, 4, 5, 6, 7] ⟨0, exMem7⟩
    .nil rfl trivial (by simp [Tree.Sorted, Tree.keys])
    (by
      intro n hn
      refine ⟨?_, by simp [Tree.addrs], by simp [Tree.keys]⟩
      rintro rfl
      simp at hn)
    (by decide) (by decide)
  have hent : T1.entries.Perm [(1, 10), (2, 20), (3, 5), (4, 6), (5, 15), (6, 30), (7, 25)] := by
    simpa [Tree.entries, exMem7] using a5
  have hkeys : T1.keys exKey = [5, 6, 10, 15, 20, 25, 30] := by
    refine keys_eq_of_sorted_perm exKey T1 _ a4 ?_ (by decide)
    rw [Tree.keys_eq_map]
    refine (hent.map _).trans ?_
    decide
  have hheight : T1.height < 8 := by
    have h1 := Tree.height_le_length T1
    have h2 := hent.length_eq
    simp only [List.length_cons, List.length_nil] at h2
    omega
  -- the search
  have hdata : ∀ r, r ∈ T1.addrs → Key exKey t1.mem r = 6 → r = 4 ∧ (t1.mem r).data = 6 := by
    intro r hr hk
    rw [Tree.addrs_eq_map] at hr
    obtain ⟨e, he, rfl⟩ := List.mem_map.1 hr
    have hd := a2.data_of_mem e.1 e.2 he
    have he2 := hent.subset he
    simp only [Key, exKey, hd] at hk
    rw [hd]
    simp only [List.mem_cons, List.mem_singleton, List.not_mem_nil, or_false] at he2
    rcases he2 with h | h | h | h | h | h | h <;> rw [h] at hk ⊢ <;> simp at hk ⊢
  obtain ⟨r, f1, f2⟩ := findLoop_spec exKey t1.mem 6 T1 t1.root 8 a2 a4 hheight
  have hr4 : r = 4 ∧ (t1.mem r).data = 6 := by
    rcases f2 with ⟨f2, f3⟩ | ⟨-, f2⟩
    · exact hdata r f2 f3
    · exfalso
      have h6 : (6 : Int) ∈ T1.keys exKey := by rw [hkeys]; decide
      obtain ⟨x, hx, hxk⟩ := (a2.mem_keys_iff 6).1 h6
      exact f2 x hx hxk
  obtain ⟨rfl, hr6⟩ := hr4
  -- the deletion
  rcases GenAVLTreeDelete_cases exKey 8 t1 10 T1 a2 a3 a4 hheight with
    ⟨hk', -⟩ | ⟨-, t2, x, d, l1, l2, g1, g2, g3, g4, g5, -⟩
  · exact absurd (by rw [hkeys]; decide) hk'
  · have hd10 : d = 10 := by
      simp only [exKey] at g2
      exact_mod_cast g2
    subst hd10
    refine ⟨t1, T1, t2, Tree.deleteTree exKey 10 T1, a1, a2, hkeys, a3, f1, hr6, g1, g4, ?_,
      Tree.deleteTree_balanced exKey 10 T1 a3⟩
    refine keys_eq_of_sorted_perm exKey _ _ (Tree.deleteTree_sorted exKey 10 T1 a4) ?_
      (by decide)
    have h1 : (T1.keys exKey).Perm (10 :: (Tree.deleteTree exKey 10 T1).keys exKey) := by
      rw [Tree.keys_eq_map, Tree.keys_eq_map, g3, g5]
      simp only [List.map_append, List.map_cons]
      exact List.perm_middle
    rw [hkeys] at h1
    have h2 : ([5, 6, 10, 15, 20, 25, 30] : List Int).Perm (10 :: [5, 6, 15, 20, 25, 30]) := by
      decide
    exact (h2.symm.trans h1).cons_inv.symm

/-! ## Putting back a leaf taken by the leaf-first iterator -/

/-- The state `GenAVLLFIterNextData` leaves behind, read off its text. -/
theorem GenAVLLFIterNextData_state (K : Nat → Int) (fuel : Nat) (it it1 : GENAVLSTACK)
    (t t1 : GenAVLTree) (dd : Nat) (h : GenAVLLFIterNextData K fuel it t = some (it1, t1, dd))
    (hsp : it.sp ≠ 0) :
    t1 =
      if it.sp - 1 ≠ 0 then
        if Compare K (wrRight (wrLeft t.mem (it.stack (it.sp - 1)) 0) (it.stack (it.sp - 1)) 0)
            (it.stack (it.sp - 1))
            (Key K (wrRight (wrLeft t.mem (it.stack (it.sp - 1)) 0) (it.stack (it.sp - 1)) 0)
              (it.stack (it.sp - 1 - 1))) > 0 then
          GenAVLTree.mk t.root (wrRight (wrRight (wrRight (wrLeft t.mem (it.stack (it.sp - 1)) 0)
            (it.stack (it.sp - 1)) 0) (it.stack (it.sp - 1)) (it.stack (it.sp - 1 - 1)))
            (it.stack (it.sp - 1 - 1)) 0)
        else
          GenAVLTree.mk t.root (wrLeft (wrLeft (wrRight (wrLeft t.mem (it.stack (it.sp - 1)) 0)
            (it.stack (it.sp - 1)) 0) (it.stack (it.sp - 1)) (it.stack (it.sp - 1 - 1)))
            (it.stack (it.sp - 1 - 1)) 0)
      else GenAVLTree.mk 0 (wrRight (wrLeft t.mem (it.stack (it.sp - 1)) 0) (it.stack (it.sp - 1)) 0) := by
  simp only [GenAVLLFIterNextData, hsp, if_false] at h
  split_ifs at h ⊢
  · simp only [Option.some.injEq, Prod.mk.injEq] at h
    exact h.2.1.symm
  · split at h
    · exact absurd h (by simp)
    · simp only [Option.some.injEq, Prod.mk.injEq] at h
      exact h.2.1.symm
  · simp only [Option.some.injEq, Prod.mk.injEq] at h
    exact h.2.1.symm
  · simp only [Option.some.injEq, Prod.mk.injEq] at h
    exact h.2.1.symm

theorem GenAVLTree.eq_of_fields (t1 t2 : GenAVLTree) (hr : t1.root = t2.root)
    (hm : ∀ x, t1.mem x = t2.mem x) : t1 = t2 := by
  cases t1; cases t2
  simp only at hr hm
  subst hr
  congr
  exact funext hm

/-- `GenAVLLLFIterReplace` right after `GenAVLLFIterNextData` gives back the
state before the call. -/
theorem GenAVLLLFIterReplace_next (K : Nat → Int) (fuel : Nat) (it : GENAVLSTACK)
    (t : GenAVLTree) (c : Ctx) (a d : Nat) (b : Int) (h : LFState K fuel it t c a d b) :
    ∃ it1 t1, GenAVLLFIterNextData K fuel it t = some (it1, t1, d) ∧
      GenAVLLLFIterReplace t1 a = t := by
  obtain ⟨it1, t1, h1, -⟩ := GenAVLLFIterNextData_spec K fuel it t c a d b h
  refine ⟨it1, t1, h1, ?_⟩
  obtain ⟨hT, hS, ⟨hsp, hst⟩, hLD, hlen⟩ := h
  have hnd := hT.nodup hS
  obtain ⟨-, ha0, hd, -, hal, har⟩ := TreeAt.hole hT
  have hal0 : (t.mem a).left = 0 := hal
  have har0 : (t.mem a).right = 0 := har
  have hroot : c = [] → t.root = a := by
    rintro rfl
    exact hT.1
  simp only [List.length_cons, List.length_map] at hsp
  have htop : it.stack c.length = a := by simpa using hst.1
  have e1 : it.sp - 1 = c.length := by omega
  have hst1 := GenAVLLFIterNextData_state K fuel it it1 t t1 d h1 (by omega)
  rw [e1, htop] at hst1
  have haa : t.mem a = ⟨(t.mem a).data, (t.mem a).balance, 0, 0⟩ := by
    cases hta : t.mem a
    rw [hta] at hal0 har0
    simp only at hal0 har0
    simp [hal0, har0]
  cases c with
  | nil =>
    simp only [List.length_nil, ne_eq, not_true_eq_false, if_false] at hst1
    subst hst1
    refine GenAVLTree.eq_of_fields _ _ ?_ ?_
    · simp [GenAVLLLFIterReplace, wrRight, wrLeft, (hroot rfl)]
    · intro x
      simp only [GenAVLLLFIterReplace, wrRight, wrLeft, Function.update_same, ne_eq,
        not_true_eq_false, if_false]
      by_cases hx : x = a
      · subst hx
        rw [Function.update_same]
        exact haa.symm
      · rw [Function.update_noteq hx, Function.update_noteq hx]
  | cons f c =>
    have hfr := TreeAt.frame hT
    have hp0 : f.addr ≠ 0 := hfr.2.1
    have hpa : f.addr ≠ a := by
      have := slot_not_mem hT hnd
      simpa [slotAddr, Tree.addrs] using this
    have hnext : it.stack c.length = f.addr := by simpa using hst.2.1
    have hfill : TreeAt t.mem (holePtr t.mem t.root c)
        (Frame.fill f (.node .nil a d b .nil)) := @TreeAt.hole _ _ c _ hT
    have hS2 : (Frame.fill f (.node .nil a d b .nil)).Sorted K := sorted_hole K c _ hS
    simp only [List.length_cons, Nat.add_sub_cancel, hnext, ne_eq, Nat.add_one_ne_zero,
      not_false_eq_true, if_true] at hst1
    have hk1 : Key K (wrRight (wrLeft t.mem a 0) a 0) a = K d := by simp [Key, hd]
    cases f with
    | L p dp bp r =>
      simp only [Frame.addr] at hp0 hpa hst1
      obtain ⟨-, -, hdp, -, hpl, -⟩ := hfill
      have hpl' : (t.mem p).left = a := hpl.1
      have hkey : K d < K dp := by
        simp only [Frame.fill] at hS2
        rw [Tree.sorted_node] at hS2
        exact hS2.2.2.1 (K d) (by simp [Tree.keys])
      have hk2 : Key K (wrRight (wrLeft t.mem a 0) a 0) p = K dp := by
        simp [Key, clear_other _ _ _ hpa, hdp]
      have hcmp : ¬ Compare K (wrRight (wrLeft t.mem a 0) a 0) a
          (Key K (wrRight (wrLeft t.mem a 0) a 0) p) > 0 := by
        rw [Compare_pos, hk1, hk2]; omega
      rw [if_neg hcmp] at hst1
      subst hst1
      have hpp : t.mem p = ⟨(t.mem p).data, (t.mem p).balance, (t.mem p).right, a⟩ := by
        cases htp : t.mem p
        rw [htp] at hpl'
        simp only at hpl'
        simp [hpl']
      have hap : a ≠ p := fun e => hpa e.symm
      refine GenAVLTree.eq_of_fields _ _ ?_ ?_
      · simp [GenAVLLLFIterReplace, wrRight, wrLeft, Function.update, hap, hpa, hp0]
      · intro x
        by_cases hx : x = a
        · subst hx
          rw [haa]
          simp [GenAVLLLFIterReplace, wrRight, wrLeft, Function.update, hap, hpa, hp0]
        · by_cases hxp : x = p
          · subst hxp
            rw [hpp]
            simp [GenAVLLLFIterReplace, wrRight, wrLeft, Function.update, hap, hpa, hp0]
          · simp [GenAVLLLFIterReplace, wrRight, wrLeft, Function.update, hap, hpa, hp0, hx,
              hxp]
    | R l p dp bp =>
      simp only [Frame.addr] at hp0 hpa hst1
      obtain ⟨-, -, hdp, -, -, hpr⟩ := hfill
      have hpr' : (t.mem p).right = a := hpr.1
      have hkey : K dp < K d := by
        simp only [Frame.fill] at hS2
        rw [Tree.sorted_node] at hS2
        exact hS2.2.2.2 (K d) (by simp [Tree.keys])
      have hk2 : Key K (wrRight (wrLeft t.mem a 0) a 0) p = K dp := by
        simp [Key, clear_other _ _ _ hpa, hdp]
      have hcmp : Compare K (wrRight (wrLeft t.mem a 0) a 0) a
          (Key K (wrRight (wrLeft t.mem a 0) a 0) p) > 0 := by
        rw [Compare_pos, hk1, hk2]; exact hkey
      rw [if_pos hcmp] at hst1
      subst hst1
      have hpp : t.mem p = ⟨(t.mem p).data, (t.mem p).balance, a, (t.mem p).left⟩ := by
        cases htp : t.mem p
        rw [htp] at hpr'
        simp only at hpr'
        simp [hpr']
      have hap : a ≠ p := fun e => hpa e.symm
      refine GenAVLTree.eq_of_fields _ _ ?_ ?_
      · simp [GenAVLLLFIterReplace, wrRight, wrLeft, Function.update, hap, hpa, hp0]
      · intro x
        by_cases hx : x = a
        · subst hx
          rw [haa]
          simp [GenAVLLLFIterReplace, wrRight, wrLeft, Function.update, hap, hpa, hp0]
        · by_cases hxp : x = p
          · subst hxp
            rw [hpp]
            simp [GenAVLLLFIterReplace, wrRight, wrLeft, Function.update, hap, hpa, hp0]
          · simp [GenAVLLLFIterReplace, wrRight, wrLeft, Function.update, hap, hpa, hp0, hx,
              hxp]

/-- What `GenAVLLFIterInitData` sets up: the iterator stands at a leaf of the
tree. -/
theorem lfPushLeaf_state (K : Nat → Int) (fuel : Nat) (it : GENAVLSTACK) (t : GenAVLTree)
    (T : Tree) (h : TreeAt t.mem t.root T) (hne : T ≠ .nil) (hs : T.Sorted K)
    (hf : T.entries.length < fuel) :
    ∃ it1 c a d b, lfPushLeaf t.mem fuel ⟨it.stack, 0⟩ t.root = some it1 ∧
      plug c (.node .nil a d b .nil) = T ∧ LFState K fuel it1 t c a d b := by
  have hfh : T.height < fuel := by
    have := Tree.height_le_length T
    omega
  obtain ⟨it1, g1, g2⟩ := lfPushLeaf_spec t.mem T [] t.root fuel ⟨it.stack, 0⟩ h hfh
    ⟨rfl, trivial⟩
  obtain ⟨a, d, b, hleaf⟩ := Tree.lfDescend_leaf T hne []
  have hplug := Tree.lfDescend_plug T []
  have hld := Tree.lfDescend_leftDone T [] (fun f hf => by cases hf)
  rw [hleaf] at hplug
  simp only [lfStack, hleaf] at g2
  have hplug' : plug (Tree.lfDescend T []).1 (.node .nil a d b .nil) = T := hplug
  exact ⟨it1, _, a, d, b, g1, hplug',
    by rw [hplug']; exact h, by rw [hplug']; exact hs, g2, hld, by rw [hplug']; exact hf⟩

/-- After every call of the iteration the iterator is exhausted or stands at a
leaf of what is left of the tree. -/
theorem lfRun_state (K : Nat → Int) (fuel : Nat) (it : GENAVLSTACK) (t : GenAVLTree)
    (T : Tree) (h : TreeAt t.mem t.root T) (hne : T ≠ .nil) (hs : T.Sorted K)
    (hf : T.entries.length < fuel) :
    ∀ (j : Nat) (it1 : GENAVLSTACK) (t1 : GenAVLTree) (d1 : Nat),
      lfRun K fuel j it t = some (it1, t1, d1) →
      it1.sp = 0 ∨ ∃ c a d b, LFState K fuel it1 t1 c a d b := by
  intro j
  induction j with
  | zero =>
    intro it1 t1 d1 hrun
    obtain ⟨it0, c, a, d, b, g1, -, hst⟩ := lfPushLeaf_state K fuel it t T h hne hs hf
    simp only [lfRun, GenAVLLFIterInitData, g1] at hrun
    obtain ⟨it2, t2, e1, e2⟩ := GenAVLLFIterNextData_spec K fuel it0 t c a d b hst
    rw [e1] at hrun
    simp only [Option.some.injEq, Prod.mk.injEq] at hrun
    obtain ⟨rfl, rfl, -⟩ := hrun
    rcases e2 with ⟨-, -, hsp⟩ | ⟨c2, a2, d2, b2, hst2, -⟩
    · exact Or.inl hsp
    · exact Or.inr ⟨c2, a2, d2, b2, hst2⟩
  | succ j ih =>
    intro it1 t1 d1 hrun
    simp only [lfRun] at hrun
    split at hrun
    · cases hrun
    · rename_i it0 t0 d0 hprev
      rcases ih it0 t0 d0 hprev with hsp | ⟨c, a, d, b, hst⟩
      · simp only [GenAVLLFIterNextData, hsp, if_true, Option.some.injEq, Prod.mk.injEq] at hrun
        obtain ⟨rfl, -, -⟩ := hrun
        exact Or.inl hsp
      · obtain ⟨it2, t2, e1, e2⟩ := GenAVLLFIterNextData_spec K fuel it0 t0 c a d b hst
        rw [e1] at hrun
        simp only [Option.some.injEq, Prod.mk.injEq] at hrun
        obtain ⟨rfl, rfl, -⟩ := hrun
        rcases e2 with ⟨-, -, hsp⟩ | ⟨c2, a2, d2, b2, hst2, -⟩
        · exact Or.inl hsp
        · exact Or.inr ⟨c2, a2, d2, b2, hst2⟩

/-- C21: `GenAVLLLFIterReplace` undoes the unlink of the leaf-first iterator.
For a non-empty tree with strictly increasing keys, `GenAVLLFIterInitData`
returns the payload of a node `n` of the tree, and `GenAVLLLFIterReplace` called
on `n` right afterwards gives back the state before the call: the root and
every field of every entry.  The same holds for every later call: after any
number of calls of the iteration, while the iterator has a node left,
`GenAVLLFIterNextData` returns the payload of the node `n` on top of its stack
and `GenAVLLLFIterReplace` on `n` gives back the state before that call. -/
theorem GenAVLLLFIterReplace_undoes (K : Nat → Int) (fuel : Nat) (it : GENAVLSTACK)
    (t : GenAVLTree) (T : Tree) (h : TreeAt t.mem t.root T) (hne : T ≠ .nil)
    (hs : T.Sorted K) (hf : T.entries.length < fuel) :
    (∃ it1 t1 n, GenAVLLFIterInitData K fuel it t = some (it1, t1, (t.mem n).data) ∧
      n ∈ T.addrs ∧ GenAVLLLFIterReplace t1 n = t) ∧
    ∀ j it1 t1 d1, lfRun K fuel j it t = some (it1, t1, d1) → it1.sp ≠ 0 →
      ∃ it2 t2 n, GenAVLLFIterNextData K fuel it1 t1 = some (it2, t2, (t1.mem n).data) ∧
        n = it1.stack (it1.sp - 1) ∧ GenAVLLLFIterReplace t2 n = t1 := by
  constructor
  · obtain ⟨it1, c, a, d, b, g1, hplug, hst⟩ := lfPushLeaf_state K fuel it t T h hne hs hf
    obtain ⟨it2, t2, e1, e2⟩ := GenAVLLLFIterReplace_next K fuel it1 t c a d b hst
    have hd : (t.mem a).data = d := (TreeAt.hole hst.1).2.2.1
    refine ⟨it2, t2, a, ?_, ?_, e2⟩
    · simp only [GenAVLLFIterInitData, g1, e1, hd]
    · rw [← hplug, mem_addrs_plug]
      simp [Tree.addrs]
  · intro j it1 t1 d1 hrun hsp
    rcases lfRun_state K fuel it t T h hne hs hf j it1 t1 d1 hrun with h0 | ⟨c, a, d, b, hst⟩
    · exact absurd h0 hsp
    · obtain ⟨it2, t2, e1, e2⟩ := GenAVLLLFIterReplace_next K fuel it1 t1 c a d b hst
      have hd : (t1.mem a).data = d := (TreeAt.hole hst.1).2.2.1
      obtain ⟨-, -, ⟨hsp1, hst1⟩, -, -⟩ := hst
      simp only [List.length_cons, List.length_map] at hsp1
      have htop : it1.stack c.length = a := by simpa using hst1.1
      refine ⟨it2, t2, a, by rw [hd]; exact e1, ?_, e2⟩
      rw [hsp1, Nat.add_sub_cancel, htop]

/-- Witness of C21: the three-entry tree of the example. -/
theorem GenAVLLLFIterReplace_undoes_witness :
    (∃ it1 t1 n, GenAVLLFIterInitData exKey 4 ⟨fun _ => 0, 0⟩ exState3 =
        some (it1, t1, (exState3.mem n).data) ∧
      n ∈ exTree3.addrs ∧ GenAVLLLFIterReplace t1 n = exState3) ∧
    ∀ j it1 t1 d1, lfRun exKey 4 j ⟨fun _ => 0, 0⟩ exState3 = some (it1, t1, d1) → it1.sp ≠ 0 →
      ∃ it2 t2 n, GenAVLLFIterNextData exKey 4 it1 t1 = some (it2, t2, (t1.mem n).data) ∧
        n = it1.stack (it1.sp - 1) ∧ GenAVLLLFIterReplace t2 n = t1 :=
  GenAVLLLFIterReplace_undoes exKey 4 ⟨fun _ => 0, 0⟩ exState3 exTree3 exState3_holds
    (by decide) exTree3_sorted (by decide)

/-! ## The entry `GenAVLTreeDelete` removes -/

/-- The swap of `GenAVLTreeDelete` leaves the entry with null in its right field
and the left child of the entry it changed places with in its left field. -/
theorem deleteSwap_node (fuel : Nat) (t t1 : GenAVLTree) (stack stack1 : PathStack)
    (g g1 x : Nat) (stack2 : PathStack) (g2 y : Nat)
    (hp : deletePredLoop t.mem fuel (Function.update stack g ⟨x, -1⟩) (g + 1) (t.mem x).left =
      some (stack2, g2, y))
    (h : deleteSwap fuel t stack g x = some (t1, stack1, g1))
    (hr : (t.mem x).right ≠ 0) (hl : (t.mem x).left ≠ 0) :
    (t1.mem x).right = 0 ∧ (t1.mem x).left = (t.mem y).left := by
  simp only [deleteSwap, hr, hl, ne_eq, not_false_eq_true, and_self, if_true, hp,
    Option.some.injEq, Prod.mk.injEq] at h
  obtain ⟨h, -, -⟩ := h
  subst h
  simp

theorem slotAddr_mem_plug (c : Ctx) (s : Tree) (hc : c ≠ []) : slotAddr c ∈ (plug c s).addrs := by
  rw [mem_addrs_plug]
  exact Or.inr (slotAddr_mem_ctxAddrs hc)

/-- What `GenAVLTreeDelete` does with the entry it removes: the entry is not in
the tree afterwards; with at most one child it is not written at all, with two
children its right field is null and its left field is the left child of the
entry before it in key order. -/
theorem GenAVLTreeDelete_node (K : Nat → Int) (fuel : Nat) (t : GenAVLTree) (key : Int)
    (T : Tree) (h : TreeAt t.mem t.root T) (hnd : T.addrs.Nodup) (hb : T.Balanced)
    (hf : T.height < fuel) (c : Ctx) (l r : Tree) (x d : Nat) (b : Int)
    (hloc : Tree.locate K key T [] = some (c, .node l x d b r)) :
    ∃ t', GenAVLTreeDelete K fuel t key = some (t', d) ∧
      TreeAt t'.mem t'.root (Tree.deleteTree K key T) ∧
      x ∉ (Tree.deleteTree K key T).addrs ∧
      (l = .nil ∨ r = .nil → t'.mem x = t.mem x) ∧
      (l ≠ .nil ∧ r ≠ .nil → (t'.mem x).right = 0 ∧
        (t'.mem x).left = (t.mem (Tree.rightmost l).rootAddr).left) := by
  obtain ⟨stack, h1, hst⟩ := (deleteSearchLoop_spec K t.mem key T [] fuel (fun _ => ⟨0, 0⟩)
    t.root 0 0 h hf rfl trivial (fun f c' e => by cases e)).2 c _ hloc
  simp only [List.length_nil] at h1
  obtain ⟨hpl, -⟩ := Tree.locate_spec K key T [] c _ hloc
  have hpl' : plug c (.node l x d b r) = T := hpl
  have hT0 := h
  rw [← hpl'] at h hnd hb hf
  have hlf : l.height ≤ fuel := by
    have h1 := height_le_plug c (.node l x d b r)
    have h2 := Tree.height_node_left l r x d b
    omega
  obtain ⟨t1, stack1, g1, hsw, hg1, hst1, htr, hfr⟩ :=
    @deleteUnlink_spec _ _ _ _ _ _ _ _ fuel h hnd hst hlf
  obtain ⟨hbs, hbc⟩ := Tree.unlink_bal c l r x d b hb
  obtain ⟨l1, l2, e1, e2⟩ := Tree.unlink_entries c l r x d b
  have hnd2 : (plug (Tree.unlink c (.node l x d b r)).1
      (Tree.unlink c (.node l x d b r)).2).addrs.Nodup := by
    rw [Tree.addrs_eq_map, e2]
    rw [Tree.addrs_eq_map, e1] at hnd
    simp only [List.map_append, List.map_cons] at hnd ⊢
    exact (List.nodup_middle.1 hnd).of_cons
  have hx2 : x ∉ (plug (Tree.unlink c (.node l x d b r)).1
      (Tree.unlink c (.node l x d b r)).2).addrs := by
    rw [Tree.addrs_eq_map, e2]
    rw [Tree.addrs_eq_map, e1] at hnd
    simp only [List.map_append, List.map_cons] at hnd ⊢
    exact (List.nodup_middle.1 hnd).not_mem
  obtain ⟨hr1, hr2⟩ := deleteRebalance_spec stack1 _ _ _ htr hnd2 hst1 hbs hbc
  have hdat : (t.mem x).data = d := (TreeAt.hole h).2.2.1
  rw [← hg1] at hr1 hr2
  obtain ⟨htop, -⟩ := hst1.top
  rw [← hg1] at htop
  have hset : (set t1 (stack1 (g1 - 1)).e (stack1 (g1 - 1)).d
      (if (t1.mem x).right ≠ 0 then (t1.mem x).right else (t1.mem x).left)).mem x =
      t1.mem x := by
    by_cases hc : (Tree.unlink c (.node l x d b r)).1 = []
    · rw [htop, hc]
      simp only [slotAddr]
      rw [set_mem_zero]
    · refine set_mem_other _ _ _ _ _ ?_
      rw [htop]
      intro e
      have hm := slotAddr_mem_plug _ (Tree.unlink c (.node l x d b r)).2 hc
      rw [← e] at hm
      exact hx2 hm
  have hh := TreeAt.hole h
  obtain ⟨-, -, -, -, hl', hr'⟩ := hh
  refine ⟨deleteRebalance stack1 (g1 - 1) (set t1 (stack1 (g1 - 1)).e (stack1 (g1 - 1)).d
    (if (t1.mem x).right ≠ 0 then (t1.mem x).right else (t1.mem x).left)), ?_, ?_, ?_, ?_, ?_⟩
  · simp only [GenAVLTreeDelete, h1, Tree.rootAddr, hsw, hdat]
  · simp only [Tree.deleteTree, hloc]
    exact hr1
  · simp only [Tree.deleteTree, hloc]
    intro hx
    have hsub : ∀ a, a ∈ (Tree.unwind (Tree.unlink c (.node l x d b r)).1
        (Tree.unlink c (.node l x d b r)).2).addrs →
        a ∈ (plug (Tree.unlink c (.node l x d b r)).1
          (Tree.unlink c (.node l x d b r)).2).addrs := by
      intro a ha
      rw [Tree.addrs_eq_map] at ha ⊢
      rw [Tree.entries_unwind] at ha
      exact ha
    exact hx2 (hsub x hx)
  · intro hlr
    rw [hr2 x hx2, hset]
    have := (@deleteUnlink_simple _ _ _ _ _ _ _ _ fuel h hnd hst hlr).1
    rw [this] at hsw
    simp only [Option.some.injEq, Prod.mk.injEq] at hsw
    rw [← hsw.1]
  · rintro ⟨hl, hr⟩
    rw [hr2 x hx2, hset]
    have hl0 : (t.mem x).left ≠ 0 := fun e => hl (hl'.nil_iff.1 e)
    have hr0 : (t.mem x).right ≠ 0 := fun e => hr (hr'.nil_iff.1 e)
    have hst1 : StackRep (Function.update stack (c.length + 1) ⟨x, -1⟩) (.L x d b r :: c) :=
      ⟨by simp [Frame.addr], by simp [Frame.DirOK], hst.update _ _ (by simp)⟩
    obtain ⟨stack2, hpl, -⟩ := deletePredLoop_spec t.mem l (.L x d b r :: c) _ _ fuel hl hl' hlf
      hst1
    simp only [List.length_cons] at hpl
    exact deleteSwap_node fuel t t1 stack stack1 (c.length + 1) g1 x stack2 _ _ hpl hsw hr0 hl0

theorem exStateLeft_holds : TreeAt exStateLeft.mem exStateLeft.root exTreeLeft :=
  ⟨rfl, by decide, rfl, rfl, ⟨rfl, by decide, rfl, rfl, rfl, rfl⟩, rfl⟩

theorem exTreeLeft_balanced : exTreeLeft.Balanced := by
  simp [exTreeLeft, Tree.Balanced, Tree.height]

theorem exTreeLeft_sorted : exTreeLeft.Sorted exKey := by
  simp [exTreeLeft, Tree.Sorted, Tree.keys, exKey]

/-- The amended C27: for a well-formed AVL tree and a present key,
`GenAVLTreeDelete` returns the payload of the node `x` with that key and `x` is
no longer a node of the tree, but its fields are cleared only in part.  When
`x` had at most one child the entry is not written at all: its left and right
fields still hold its former children, so both are null only when `x` was a
leaf.  When `x` had two children its right field is null and its left field
holds the former left child of the node before it in key order. -/
theorem GenAVLTreeDelete_detaches (K : Nat → Int) (fuel : Nat) (t : GenAVLTree) (key : Int)
    (T : Tree) (h : TreeAt t.mem t.root T) (hb : T.Balanced) (hs : T.Sorted K)
    (hf : T.height < fuel) (hk : key ∈ T.keys K) :
    ∃ t' c l x d b r, GenAVLTreeDelete K fuel t key = some (t', d) ∧
      T = plug c (.node l x d b r) ∧ K d = key ∧
      TreeAt t'.mem t'.root (Tree.deleteTree K key T) ∧
      x ∉ (Tree.deleteTree K key T).addrs ∧
      (l = .nil ∨ r = .nil → t'.mem x = t.mem x ∧ (t.mem x).left = l.rootAddr ∧
        (t.mem x).right = r.rootAddr) ∧
      (l ≠ .nil ∧ r ≠ .nil → (t'.mem x).right = 0 ∧
        (t'.mem x).left = (t.mem (Tree.rightmost l).rootAddr).left) := by
  obtain ⟨c, s, hloc⟩ := Tree.locate_some K key T [] hs hk
  obtain ⟨hpl, l, x, d, b, r, rfl, hkd⟩ := Tree.locate_spec K key T [] c s hloc
  obtain ⟨t', h1, h2, h3, h4, h5⟩ :=
    GenAVLTreeDelete_node K fuel t key T h (h.nodup hs) hb hf c l r x d b hloc
  have hpl' : plug c (.node l x d b r) = T := hpl
  have hh : TreeAt t.mem (holePtr t.mem t.root c) (.node l x d b r) := by
    rw [← hpl'] at h
    exact TreeAt.hole h
  obtain ⟨-, -, -, -, hl', hr'⟩ := hh
  refine ⟨t', c, l, x, d, b, r, h1, hpl'.symm, hkd, h2, h3, ?_, h5⟩
  intro hlr
  refine ⟨h4 hlr, ?_, ?_⟩
  · cases l with
    | nil => exact hl'
    | node ll la ld lb lr => exact hl'.1
  · cases r with
    | nil => exact hr'
    | node rl ra rd rb rr => exact hr'.1

/-- Witness of the amended C27: the leaf 1 of the three-entry tree. -/
theorem GenAVLTreeDelete_detaches_witness :
    ∃ t' c l x d b r, GenAVLTreeDelete exKey 3 exState3 10 = some (t', d) ∧
      exTree3 = plug c (.node l x d b r) ∧ exKey d = 10 ∧
      TreeAt t'.mem t'.root (Tree.deleteTree exKey 10 exTree3) ∧
      x ∉ (Tree.deleteTree exKey 10 exTree3).addrs ∧
      (l = .nil ∨ r = .nil → t'.mem x = exState3.mem x ∧ (exState3.mem x).left = l.rootAddr ∧
        (exState3.mem x).right = r.rootAddr) ∧
      (l ≠ .nil ∧ r ≠ .nil → (t'.mem x).right = 0 ∧
        (t'.mem x).left = (exState3.mem (Tree.rightmost l).rootAddr).left) :=
  GenAVLTreeDelete_detaches exKey 3 exState3 10 exTree3 exState3_holds exTree3_balanced
    exTree3_sorted (by decide) (by decide)

/-- Counterexample to C27 as stated: the tree with root 2 (key 20) and its left
child 1 (key 10) is a well-formed AVL tree; `GenAVLTreeDelete` of the key 20
returns the payload of the entry 2 and makes 1 the root, and the left field of
the removed entry 2 still holds 1. -/
theorem GenAVLTreeDelete_keeps_child_pointer :
    TreeAt exStateLeft.mem exStateLeft.root exTreeLeft ∧ exTreeLeft.Balanced ∧
      exTreeLeft.Sorted exKey ∧ (20 : Int) ∈ exTreeLeft.keys exKey ∧
      ∃ t1, GenAVLTreeDelete exKey 3 exStateLeft 20 = some (t1, 20) ∧ t1.root = 1 ∧
        (t1.mem 2).left = 1 ∧ (t1.mem 2).left ≠ 0 := by
  refine ⟨exStateLeft_holds, exTreeLeft_balanced, exTreeLeft_sorted, by decide,
    ⟨1, exMemLeft⟩, ?_, rfl, rfl, by decide⟩
  rfl

/-! ## Insertion shifts at most once -/

theorem TreeAt.frame_balance {m : Mem} {p : Nat} {c : Ctx} {s : Tree}
    (h : TreeAt m p (plug c s)) : ∀ f ∈ c, (m f.addr).balance = f.bal := by
  induction c generalizing s with
  | nil => intro f hf; cases hf
  | cons g c ih =>
    intro f hf
    rw [List.mem_cons] at hf
    rcases hf with rfl | hf
    · have hfill : TreeAt m (holePtr m p c) (Frame.fill f s) := @TreeAt.hole _ _ c _ h
      cases f with
      | L a d b r => exact hfill.2.2.2.1
      | R l a d b => exact hfill.2.2.2.1
    · exact @ih (Frame.fill g s) h f hf

theorem Tree.rootBal_insLow_two (K : Nat → Int) (n dn : Nat) (s : Tree)
    (h : (Tree.insLow K n dn s).rootBal = 2 ∨ (Tree.insLow K n dn s).rootBal = -2)
    (hb : s.Balanced) : s ≠ .nil ∧ s.rootBal ≠ 0 := by
  cases s with
  | nil => simp [Tree.insLow, Tree.leaf, Tree.rootBal] at h
  | node l a d b r =>
    refine ⟨by simp, ?_⟩
    simp only [Tree.insLow] at h
    simp only [Tree.rootBal]
    split_ifs at h <;> simp only [Tree.rootBal] at h <;> omega

/-- C28: insertion needs at most one shift.  For a well-formed AVL tree and a
fresh entry with an absent key, let `cs` be the subtree of the balance point
(the critical node) and `cc` the path above it.  When the balance field of the
critical node reaches 2 or -2, so that `GenAVLTreeAdd` shifts there, the
shifted subtree `addFix (insLow cs)` has the height `cs` had before the
insertion; the tree after the call is that subtree under the unchanged path
`cc`, so the height of the whole tree is unchanged and the balance field of
every node above the critical node is what it was before the call. -/
theorem GenAVLTreeAdd_single_shift (K : Nat → Int) (fuel : Nat) (t : GenAVLTree) (gae : Nat)
    (T : Tree) (cc : Ctx) (cs : Tree) (h : TreeAt t.mem t.root T) (hb : T.Balanced)
    (hs : T.Sorted K) (hg : gae ∉ T.addrs) (hg0 : gae ≠ 0)
    (hk : K (t.mem gae).data ∉ T.keys K) (hf : T.height < fuel)
    (hcrit : Tree.crit K (K (t.mem gae).data) T [] = (cc, cs))
    (hrot : (Tree.insLow K gae (t.mem gae).data cs).rootBal = 2 ∨
      (Tree.insLow K gae (t.mem gae).data cs).rootBal = -2) :
    ∃ t', GenAVLTreeAdd K fuel t gae = some (t', 1) ∧ T = plug cc cs ∧
      TreeAt t'.mem t'.root
        (plug cc (Tree.addFix (Tree.insLow K gae (t.mem gae).data cs))) ∧
      (Tree.addFix (Tree.insLow K gae (t.mem gae).data cs)).height = cs.height ∧
      (plug cc (Tree.addFix (Tree.insLow K gae (t.mem gae).data cs))).height = T.height ∧
      ∀ f ∈ cc, (t'.mem f.addr).balance = (t.mem f.addr).balance := by
  have hp : plug cc cs = T := by
    have := Tree.plug_crit K (K (t.mem gae).data) T []
    rw [hcrit] at this
    exact this
  have hlz : cs.LowZero K (K (t.mem gae).data) := by
    have := Tree.crit_lowZero K (K (t.mem gae).data) T []
    rw [hcrit] at this
    exact this
  have hbs : cs.Balanced := by
    have hb' := hb
    rw [← hp, balanced_plug] at hb'
    exact hb'.1
  obtain ⟨hne, hrb⟩ := Tree.rootBal_insLow_two K gae (t.mem gae).data cs hrot hbs
  obtain ⟨-, -, f3⟩ := Tree.addFix_insLow K gae (t.mem gae).data cs hbs hlz hne
  rw [if_neg hrb] at f3
  rcases GenAVLTreeAdd_cases K fuel t gae T h hb hs hg hg0 hf with ⟨hk', -⟩ | ⟨-, t', g1, g2, -, -⟩
  · exact absurd hk' hk
  · simp only [Tree.addTree, hcrit] at g2
    refine ⟨t', g1, hp.symm, g2, f3, ?_, ?_⟩
    · rw [height_plug, f3, ← height_plug, hp]
    · intro f hf'
      rw [g2.frame_balance f hf']
      have h' := h
      rw [← hp] at h'
      rw [h'.frame_balance f hf']

theorem exStatePath_holds : TreeAt exStatePath.mem exStatePath.root exTreePath :=
  ⟨rfl, by decide, rfl, rfl,
    ⟨rfl, by decide, rfl, rfl, ⟨rfl, by decide, rfl, rfl, rfl, rfl⟩, rfl⟩,
    ⟨rfl, by decide, rfl, rfl, rfl, rfl⟩⟩

theorem exTreePath_balanced : exTreePath.Balanced := by
  simp [exTreePath, Tree.Balanced, Tree.height]

theorem exTreePath_sorted : exTreePath.Sorted exKey := by
  simp [exTreePath, Tree.Sorted, Tree.keys, exKey]

/-- Witness of C28: the entry 5 (key 0) added to the tree with root 3, left
child 2 and grandchild 1, where the entry 2 is the critical node, its balance
field reaches -2, and the root 3 lies above it. -/
theorem GenAVLTreeAdd_single_shift_witness :
    ∃ t', GenAVLTreeAdd exKey 4 exStatePath 5 = some (t', 1) ∧
      exTreePath = plug [.L 3 30 (-1) (.node .nil 4 40 0 .nil)]
        (.node (.node .nil 1 10 0 .nil) 2 20 (-1) .nil) ∧
      TreeAt t'.mem t'.root
        (plug [.L 3 30 (-1) (.node .nil 4 40 0 .nil)]
          (Tree.addFix (Tree.insLow exKey 5 (exStatePath.mem 5).data
            (.node (.node .nil 1 10 0 .nil) 2 20 (-1) .nil)))) ∧
      (Tree.addFix (Tree.insLow exKey 5 (exStatePath.mem 5).data
        (.node (.node .nil 1 10 0 .nil) 2 20 (-1) .nil))).height =
        (Tree.node (.node .nil 1 10 0 .nil) 2 20 (-1) .nil).height ∧
      (plug [.L 3 30 (-1) (.node .nil 4 40 0 .nil)]
        (Tree.addFix (Tree.insLow exKey 5 (exStatePath.mem 5).data
          (.node (.node .nil 1 10 0 .nil) 2 20 (-1) .nil)))).height = exTreePath.height ∧
      ∀ f ∈ ([.L 3 30 (-1) (.node .nil 4 40 0 .nil)] : Ctx),
        (t'.mem f.addr).balance = (exStatePath.mem f.addr).balance :=
  GenAVLTreeAdd_single_shift exKey 4 exStatePath 5 exTreePath
    [.L 3 30 (-1) (.node .nil 4 40 0 .nil)] (.node (.node .nil 1 10 0 .nil) 2 20 (-1) .nil)
    exStatePath_holds exTreePath_balanced exTreePath_sorted (by decide) (by decide) (by decide)
    (by decide) rfl (Or.inr rfl)

/-! ## The free-key search: keys above the candidate -/

theorem Compare_eq_zero (K : Nat → Int) (m : Mem) (e : Nat) (key : Int) :
    Compare K m e key = 0 ↔ Key K m e = key := by
  unfold Compare
  split_ifs <;> constructor <;> intro h <;> first | omega | exact h.elim

theorem KeyCompare_eq_zero (a b : Int) : KeyCompare a b = 0 ↔ a = b := by
  unfold KeyCompare
  split_ifs <;> constructor <;> intro h <;> first | omega | exact h.elim

theorem Tree.mem_keysAbove (K : Nat → Int) (n : Int) (t : Tree) (k : Int) :
    k ∈ t.keysAbove K n ↔ k ∈ t.keys K ∧ n < k := by
  simp [Tree.keysAbove]

theorem Tree.keysAbove_sorted (K : Nat → Int) (n : Int) (t : Tree) (h : t.Sorted K) :
    (t.keysAbove K n).Pairwise (· < ·) :=
  List.Pairwise.sublist (List.filter_sublist _) h

theorem Tree.keysAbove_nil (K : Nat → Int) (n : Int) : Tree.keysAbove K n .nil = [] := rfl

theorem Tree.keysAbove_node_gt (K : Nat → Int) (n : Int) (l r : Tree) (a d : Nat) (b : Int)
    (hs : (Tree.node l a d b r).Sorted K) (h : n < K d) :
    (Tree.node l a d b r).keysAbove K n = l.keysAbove K n ++ K d :: r.keys K := by
  rw [Tree.sorted_node] at hs
  obtain ⟨-, -, -, hr⟩ := hs
  simp only [Tree.keysAbove, Tree.keys, List.filter_append, List.filter_cons, h, decide_True,
    if_true]
  congr 2
  rw [List.filter_eq_self]
  intro x hx
  have := hr x hx
  simp only [decide_eq_true_eq]
  omega

theorem Tree.keysAbove_node_le (K : Nat → Int) (n : Int) (l r : Tree) (a d : Nat) (b : Int)
    (hs : (Tree.node l a d b r).Sorted K) (h : ¬ n < K d) :
    (Tree.node l a d b r).keysAbove K n = r.keysAbove K n := by
  rw [Tree.sorted_node] at hs
  obtain ⟨-, -, hl, -⟩ := hs
  simp only [Tree.keysAbove, Tree.keys, List.filter_append, List.filter_cons, h, decide_False,
    Bool.false_eq_true, if_false]
  have : (l.keys K).filter (fun k => decide (n < k)) = [] := by
    rw [List.filter_eq_nil_iff]
    intro x hx
    have := hl x hx
    simp only [decide_eq_true_eq]
    omega
  rw [this, List.nil_append]

theorem Tree.keysAbove_all (K : Nat → Int) (n : Int) (t : Tree) (h : ∀ x ∈ t.keys K, n < x) :
    t.keysAbove K n = t.keys K := by
  unfold Tree.keysAbove
  rw [List.filter_eq_self]
  intro x hx
  simpa using h x hx

/-- When the keys above `n` start with `k`, the keys above `k` are the rest. -/
theorem Tree.keysAbove_cons (K : Nat → Int) (n k : Int) (t : Tree) (rest : List Int)
    (hs : t.Sorted K) (h : t.keysAbove K n = k :: rest) :
    t.keysAbove K k = rest ∧ (∀ x ∈ rest, k < x) ∧ n < k ∧ k ∈ t.keys K := by
  have hk : k ∈ t.keysAbove K n := by rw [h]; exact List.mem_cons_self _ _
  rw [Tree.mem_keysAbove] at hk
  have hp := Tree.keysAbove_sorted K n t hs
  rw [h, List.pairwise_cons] at hp
  refine ⟨?_, hp.1, hk.2, hk.1⟩
  have e1 : t.keysAbove K k = (t.keysAbove K n).filter (fun x => decide (k < x)) := by
    unfold Tree.keysAbove
    rw [List.filter_filter]
    refine List.filter_congr ?_
    intro x _
    have := hk.2
    by_cases hx : k < x
    · have : n < x := by omega
      simp [hx, this]
    · simp [hx]
  rw [e1, h, List.filter_cons]
  simp only [lt_self_iff_false, decide_False, Bool.false_eq_true, if_false]
  rw [List.filter_eq_self]
  intro x hx
  simpa using hp.1 x hx

/-- The pass that increments the candidate below the next key `k1` of the
tree: the three ways it goes on. -/
theorem nf_succ_step (keys : List Int) (lo hi start next k1 : Int)
    (hr1 : lo - 1 ≤ next) (hr2 : next ≤ hi)
    (hcov : Covered keys lo hi start next) (hk1 : k1 ∈ keys) (hnk : next < k1)
    (hmin : ∀ x ∈ keys, next < x → k1 ≤ x) :
    (KeyCompare (KeyIncrement lo hi next).1 start = 0 →
      NFResult keys lo hi start (0, (KeyIncrement lo hi next).1)) ∧
    (¬ KeyCompare (KeyIncrement lo hi next).1 start = 0 → k1 = (KeyIncrement lo hi next).1 →
      lo - 1 ≤ (KeyIncrement lo hi next).1 ∧ (KeyIncrement lo hi next).1 ≤ hi ∧
        Covered keys lo hi start (KeyIncrement lo hi next).1) ∧
    (¬ KeyCompare (KeyIncrement lo hi next).1 start = 0 → k1 ≠ (KeyIncrement lo hi next).1 →
      NFResult keys lo hi start (1, (KeyIncrement lo hi next).1)) := by
  simp only [KeyCompare_eq_zero]
  by_cases hn : next < hi
  · simp only [KeyIncrement, hn, if_true]
    refine ⟨?_, ?_, ?_⟩
    · intro e
      refine ⟨by simp, fun _ k h1 h2 h3 => ?_⟩
      rcases hcov with ⟨c1, -⟩ | ⟨c1, c2, c3⟩
      · omega
      · by_cases hks : start < k
        · exact c2 k hks h2
        · exact c3 k h1 (by omega)
    · intro e1 e2
      refine ⟨by omega, by omega, ?_⟩
      rcases hcov with ⟨c1, c2⟩ | ⟨c1, c2, c3⟩
      · refine Or.inl ⟨by omega, fun k h1 h2 => ?_⟩
        by_cases hkn : k ≤ next
        · exact c2 k h1 hkn
        · have : k = k1 := by omega
          rw [this]; exact hk1
      · refine Or.inr ⟨by omega, c2, fun k h1 h2 => ?_⟩
        by_cases hkn : k ≤ next
        · exact c3 k h1 hkn
        · have : k = k1 := by omega
          rw [this]; exact hk1
    · intro e1 e2
      refine ⟨fun _ _ => ⟨by omega, by omega, fun hmem => ?_⟩, by simp⟩
      have := hmin _ hmem (by omega)
      omega
  · simp only [KeyIncrement, hn, if_false]
    refine ⟨?_, ?_, ?_⟩
    · intro e
      refine ⟨by simp, fun _ k h1 h2 h3 => ?_⟩
      rcases hcov with ⟨c1, c2⟩ | ⟨c1, -, -⟩
      · exact c2 k (by omega) (by omega)
      · omega
    · intro e1 e2
      omega
    · intro e1 e2
      refine ⟨fun _ hle => ?_, by simp⟩
      have := hle k1 hk1
      omega

/-- The pass at the rightmost node with an empty stack: no key of the tree is
above the candidate. -/
theorem nf_wrap_step (keys : List Int) (lo hi start next : Int)
    (hlo : lo - 1 ≤ start) (hhi : start ≤ hi) (hr1 : lo - 1 ≤ next) (hr2 : next ≤ hi)
    (hcov : Covered keys lo hi start next) (hnone : ∀ x ∈ keys, ¬ next < x) :
    ((KeyIncrement lo hi next).2 = 1 → (KeyIncrement lo hi next).1 = lo - 1 ∧
      Covered keys lo hi start (lo - 1)) ∧
    (¬ (KeyIncrement lo hi next).2 = 1 →
      NFResult keys lo hi start (1, (KeyIncrement lo hi next).1)) := by
  by_cases hn : next < hi
  · simp only [KeyIncrement, hn, if_true]
    refine ⟨by simp, fun _ => ⟨fun _ _ => ⟨by omega, by omega, fun hmem => ?_⟩, by simp⟩⟩
    exact hnone _ hmem (by omega)
  · simp only [KeyIncrement, hn, if_false]
    refine ⟨fun _ => ⟨trivial, ?_⟩, by simp⟩
    rcases hcov with ⟨c1, c2⟩ | ⟨c1, -, -⟩
    · by_cases hs : start = lo - 1
      · exact Or.inl ⟨by omega, fun k h1 h2 => by omega⟩
      · exact Or.inr ⟨by omega, fun k h1 h2 => c2 k h1 (by omega), fun k h1 h2 => by omega⟩
    · omega

/-! ## The free-key search: the loop -/

theorem NFStack.push_entry {K : Nat → Int} {m : Mem} {it : GENAVLSTACK}
    {L : List (Nat × Nat × Tree)} (h : NFStack K m it L) (a d : Nat) (r : Tree)
    (hd : (m a).data = d) (hr : TreeAt m (m a).right r) (hs : r.Sorted K) :
    NFStack K m (it.push a) ((a, d, r) :: L) := by
  obtain ⟨h1, h2, h3⟩ := h
  refine ⟨by simp [GENAVLSTACK.push, h1], ⟨?_, ?_⟩, ?_⟩
  · simp [GENAVLSTACK.push, h1]
  · exact h2.update_above _ _ (by simp [h1])
  · intro x hx
    rw [List.mem_cons] at hx
    rcases hx with rfl | hx
    · exact ⟨hd, hr, hs⟩
    · exact h3 x hx

theorem NFStack.pop_entry {K : Nat → Int} {m : Mem} {it : GENAVLSTACK}
    {L : List (Nat × Nat × Tree)} {a d : Nat} {r : Tree} (h : NFStack K m it ((a, d, r) :: L)) :
    it.sp ≠ 0 ∧ it.stack (it.sp - 1) = a ∧ NFStack K m ⟨it.stack, it.sp - 1⟩ L ∧
      (m a).data = d ∧ TreeAt m (m a).right r ∧ r.Sorted K := by
  obtain ⟨h1, h2, h3⟩ := h
  simp only [List.length_cons] at h1
  simp only [List.map_cons] at h2
  obtain ⟨h2a, h2b⟩ := h2
  simp only [List.length_map] at h2a
  have e : it.sp - 1 = L.length := by omega
  refine ⟨by omega, by rw [e]; exact h2a, ⟨e, h2b, fun x hx => h3 x (List.mem_cons_of_mem _ hx)⟩,
    h3 (a, d, r) (List.mem_cons_self _ _)⟩

/-- The pass of the search that increments the candidate below the node `a`
whose key is the least key of the tree above the candidate. -/
theorem nf_succ_at (K : Nat → Int) (lo hi : Int) (m : Mem) (start next : Int) (T : Tree)
    (hS : T.Sorted K) (a d : Nat) (r : Tree) (L : List (Nat × Nat × Tree)) (it : GENAVLSTACK)
    (hd : (m a).data = d) (hr : TreeAt m (m a).right r) (hsr : r.Sorted K)
    (hL : NFStack K m it L) (hr1 : lo - 1 ≤ next) (hr2 : next ≤ hi)
    (hcov : Covered (T.keys K) lo hi start next)
    (hF : K d :: (r.keys K ++ pendingKeys K L) = T.keysAbove K next) :
    (KeyCompare (KeyIncrement lo hi next).1 start = 0 →
      NFResult (T.keys K) lo hi start (0, (KeyIncrement lo hi next).1)) ∧
    (¬ KeyCompare (KeyIncrement lo hi next).1 start = 0 →
      Compare K m a (KeyIncrement lo hi next).1 = 0 →
      lo - 1 ≤ (KeyIncrement lo hi next).1 ∧ (KeyIncrement lo hi next).1 ≤ hi ∧
        Covered (T.keys K) lo hi start (KeyIncrement lo hi next).1 ∧
        NFAt K m T it (m a).right (KeyIncrement lo hi next).1) ∧
    (¬ KeyCompare (KeyIncrement lo hi next).1 start = 0 →
      ¬ Compare K m a (KeyIncrement lo hi next).1 = 0 →
      NFResult (T.keys K) lo hi start (1, (KeyIncrement lo hi next).1)) := by
  obtain ⟨e1, e2, e3, e4⟩ := Tree.keysAbove_cons K next (K d) T _ hS hF.symm
  have hkd : Key K m a = K d := by simp [Key, hd]
  have hmin : ∀ x ∈ T.keys K, next < x → K d ≤ x := by
    intro x hx hnx
    have hm : x ∈ T.keysAbove K next := (Tree.mem_keysAbove K next T x).2 ⟨hx, hnx⟩
    rw [← hF] at hm
    rcases List.mem_cons.1 hm with rfl | h'
    · exact le_refl _
    · exact le_of_lt (e2 x h')
  obtain ⟨s1, s2, s3⟩ :=
    nf_succ_step (T.keys K) lo hi start next (K d) hr1 hr2 hcov e4 e3 hmin
  refine ⟨s1, ?_, ?_⟩
  · intro hq hz
    have hk1 : K d = (KeyIncrement lo hi next).1 := by
      rw [← hkd]; exact (Compare_eq_zero K m a _).1 hz
    obtain ⟨b1, b2, b3⟩ := s2 hq hk1
    refine ⟨b1, b2, b3, r, L, hr, hsr, hL, ?_⟩
    rw [← hk1, e1,
      Tree.keysAbove_all K (K d) r (fun x hx => e2 x (List.mem_append_left _ hx))]
  · intro hq hz
    refine s3 hq ?_
    intro e
    apply hz
    rw [Compare_eq_zero, hkd]
    exact e

/-- Every result of the loop of `GenAVLTreeNextFreeKey` is sound. -/
theorem nextFreeKeyLoop_sound (K : Nat → Int) (lo hi : Int) (t : GenAVLTree) (start : Int)
    (T : Tree) (hT : TreeAt t.mem t.root T) (hS : T.Sorted K) (hroot : t.root ≠ 0)
    (hlo : lo - 1 ≤ start) (hhi : start ≤ hi) :
    ∀ (fuel : Nat) (flag : Bool) (gaep : Nat) (it : GENAVLSTACK) (next : Int) (res : Nat × Int),
      nextFreeKeyLoop K lo hi t start fuel flag gaep it next = some res →
      lo - 1 ≤ next → next ≤ hi → Covered (T.keys K) lo hi start next →
      (flag = false → gaep ≠ 0 ∧ NFAt K t.mem T it gaep next) →
      (flag = true → NFAt K t.mem T it (t.mem gaep).right next) →
      NFResult (T.keys K) lo hi start res := by
  intro fuel
  induction fuel with
  | zero =>
    intro flag gaep it next res h
    simp [nextFreeKeyLoop] at h
  | succ fuel ih =>
    intro flag gaep it next res h hr1 hr2 hcov hP hR
    simp only [nextFreeKeyLoop] at h
    by_cases hc : flag = false ∧ Compare K t.mem gaep next > 0
    · rw [if_pos hc] at h
      obtain ⟨hg0, s, L, hs, hss, hL, hF⟩ := hP hc.1
      have hlt : next < Key K t.mem gaep := (Compare_pos K t.mem gaep next).1 hc.2
      cases s with
      | nil => exact absurd hs hg0
      | node l a d b r =>
        obtain ⟨hga, ha0, hd, -, hl, hr⟩ := hs
        subst hga
        have hkd : Key K t.mem gaep = K d := by simp [Key, hd]
        rw [hkd] at hlt
        rw [Tree.keysAbove_node_gt K next l r _ d b hss hlt] at hF
        obtain ⟨hsl, hsr, -, -⟩ := (Tree.sorted_node K l r gaep d b).1 hss
        by_cases hl0 : (t.mem gaep).left = 0
        · rw [if_pos hl0] at h
          have hlnil : l = .nil := hl.nil_iff.1 hl0
          subst hlnil
          simp only [Tree.keysAbove_nil, List.nil_append] at hF
          obtain ⟨s1, s2, s3⟩ := nf_succ_at K lo hi t.mem start next T hS gaep d r L it hd hr hsr
            hL hr1 hr2 hcov hF
          by_cases hq : KeyCompare (KeyIncrement lo hi next).1 start = 0
          · rw [if_pos hq] at h
            cases h
            exact s1 hq
          · rw [if_neg hq] at h
            by_cases hz : Compare K t.mem gaep (KeyIncrement lo hi next).1 = 0
            · rw [if_pos hz] at h
              obtain ⟨b1, b2, b3, b4⟩ := s2 hq hz
              exact ih true gaep it _ res h b1 b2 b3 (by simp) (fun _ => b4)
            · rw [if_neg hz] at h
              cases h
              exact s3 hq hz
        · rw [if_neg hl0] at h
          refine ih false _ _ next res h hr1 hr2 hcov
            (fun _ => ⟨hl0, l, (gaep, d, r) :: L, hl, hsl, hL.push_entry gaep d r hd hr hsr, ?_⟩)
            (by simp)
          rw [← hF]
          simp [pendingKeys]
    · rw [if_neg hc] at h
      have hR' : NFAt K t.mem T it (t.mem gaep).right next := by
        cases flag with
        | true => exact hR rfl
        | false =>
          obtain ⟨hg0, s, L, hs, hss, hL, hF⟩ := hP rfl
          have hnlt : ¬ next < Key K t.mem gaep :=
            fun e => hc ⟨rfl, (Compare_pos K t.mem gaep next).2 e⟩
          cases s with
          | nil => exact absurd hs hg0
          | node l a d b r =>
            obtain ⟨hga, ha0, hd, -, hl, hr⟩ := hs
            subst hga
            have hkd : Key K t.mem gaep = K d := by simp [Key, hd]
            rw [hkd] at hnlt
            obtain ⟨hsl, hsr, -, -⟩ := (Tree.sorted_node K l r gaep d b).1 hss
            refine ⟨r, L, hr, hsr, hL, ?_⟩
            rw [← hF, Tree.keysAbove_node_le K next l r _ d b hss hnlt]
      obtain ⟨r, L, hr, hsr, hL, hF⟩ := hR'
      by_cases hr0 : (t.mem gaep).right = 0
      · rw [if_pos hr0] at h
        have hrnil : r = .nil := hr.nil_iff.1 hr0
        subst hrnil
        simp only [Tree.keysAbove_nil, List.nil_append] at hF
        by_cases hsp : it.sp ≠ 0
        · rw [if_pos hsp] at h
          cases L with
          | nil => exact absurd hL.1 hsp
          | cons x L =>
            obtain ⟨a1, d1, r1⟩ := x
            obtain ⟨-, htop, hL1, hd1, hr1', hsr1⟩ := hL.pop_entry
            simp only [pendingKeys] at hF
            simp only [htop] at h
            obtain ⟨s1, s2, s3⟩ := nf_succ_at K lo hi t.mem start next T hS a1 d1 r1 L
              ⟨it.stack, it.sp - 1⟩ hd1 hr1' hsr1 hL1 hr1 hr2 hcov hF
            by_cases hq : KeyCompare (KeyIncrement lo hi next).1 start = 0
            · rw [if_pos hq] at h
              cases h
              exact s1 hq
            · rw [if_neg hq] at h
              by_cases hz : Compare K t.mem a1 (KeyIncrement lo hi next).1 = 0
              · rw [if_pos hz] at h
                obtain ⟨b1, b2, b3, b4⟩ := s2 hq hz
                exact ih true a1 _ _ res h b1 b2 b3 (by simp) (fun _ => b4)
              · rw [if_neg hz] at h
                cases h
                exact s3 hq hz
        · rw [if_neg hsp] at h
          have hsp0 : it.sp = 0 := by simpa using hsp
          have hLnil : L = [] := by
            have := hL.1
            rw [hsp0] at this
            exact List.length_eq_zero.1 this.symm
          subst hLnil
          simp only [pendingKeys] at hF
          have hnone : ∀ x ∈ T.keys K, ¬ next < x := by
            intro x hx hnx
            have hm : x ∈ T.keysAbove K next := (Tree.mem_keysAbove K next T x).2 ⟨hx, hnx⟩
            rw [← hF] at hm
            cases hm
          obtain ⟨n1, n2⟩ := nf_wrap_step (T.keys K) lo hi start next hlo hhi hr1 hr2 hcov hnone
          by_cases hw : (KeyIncrement lo hi next).2 = 1
          · rw [if_pos hw] at h
            obtain ⟨w1, w2⟩ := n1 hw
            rw [w1] at h
            exact ih false t.root it (lo - 1) res h (le_refl _) (by omega) w2
              (fun _ => ⟨hroot, T, [], hT, hS, hL, by simp [pendingKeys]⟩) (by simp)
          · rw [if_neg hw] at h
            cases h
            exact n2 hw
      · rw [if_neg hr0] at h
        exact ih false _ it next res h hr1 hr2 hcov (fun _ => ⟨hr0, r, L, hr, hsr, hL, hF⟩)
          (by simp)

/-! ## The free-key search: what its results say -/

/-- Every result of `GenAVLTreeNextFreeKey` on a non-empty tree is sound. -/
theorem GenAVLTreeNextFreeKey_result (K : Nat → Int) (lo hi : Int) (fuel : Nat)
    (t : GenAVLTree) (start : Int) (T : Tree) (res : Nat × Int)
    (hT : TreeAt t.mem t.root T) (hS : T.Sorted K) (hroot : t.root ≠ 0)
    (hlo : lo - 1 ≤ start) (hhi : start ≤ hi)
    (h : GenAVLTreeNextFreeKey K lo hi fuel t start start = some res) :
    NFResult (T.keys K) lo hi start res := by
  simp only [GenAVLTreeNextFreeKey, hroot, if_false] at h
  refine nextFreeKeyLoop_sound K lo hi t start T hT hS hroot hlo hhi fuel false t.root _ start
    res h hlo hhi (Or.inl ⟨le_refl _, fun k h1 h2 => by omega⟩)
    (fun _ => ⟨hroot, T, [], hT, hS, ⟨rfl, trivial, fun x hx => by cases hx⟩, by simp [pendingKeys]⟩)
    (by simp)

theorem exTreeGap_sorted : exTreeGap.Sorted exKey := by
  simp [exTreeGap, Tree.Sorted, Tree.keys, exKey]

theorem exTreeFull_sorted : exTreeFull.Sorted exKey := by
  simp [exTreeFull, Tree.Sorted, Tree.keys, exKey]

theorem exStateGap_search :
    GenAVLTreeNextFreeKey exKey 1 5 20 exStateGap 0 0 = some (1, 3) := by
  simp [GenAVLTreeNextFreeKey, nextFreeKeyLoop, exStateGap, exMemGap, Compare, Key, exKey,
    KeyIncrement, KeyCompare, GENAVLSTACK.push]

theorem exStateFull_search :
    GenAVLTreeNextFreeKey exKey 1 3 20 exStateFull 1 1 = some (0, 1) := by
  simp [GenAVLTreeNextFreeKey, nextFreeKeyLoop, exStateFull, exMemFull, Compare, Key, exKey,
    KeyIncrement, KeyCompare, GENAVLSTACK.push]

/-- The amended C29: soundness of the free-key search.  For a non-empty tree
with strictly increasing keys none of which exceeds `hi`, and a start in
`[lo - 1, hi]` with the out key initialised to start, whenever
`GenAVLTreeNextFreeKey` returns 1 the out key lies in the legal range
`[lo, hi]` and no node of the tree has that key. -/
theorem GenAVLTreeNextFreeKey_sound (K : Nat → Int) (lo hi : Int) (fuel : Nat)
    (t : GenAVLTree) (start : Int) (T : Tree) (k : Int)
    (hT : TreeAt t.mem t.root T) (hne : T ≠ .nil) (hS : T.Sorted K)
    (hle : ∀ x ∈ T.keys K, x ≤ hi) (hlo : lo - 1 ≤ start) (hhi : start ≤ hi)
    (h : GenAVLTreeNextFreeKey K lo hi fuel t start start = some (1, k)) :
    lo ≤ k ∧ k ≤ hi ∧ k ∉ T.keys K := by
  have hroot : t.root ≠ 0 := fun e => hne (hT.nil_iff.1 e)
  exact (GenAVLTreeNextFreeKey_result K lo hi fuel t start T (1, k) hT hS hroot hlo hhi h).1 rfl
    hle

/-- Witness of the amended C29: the tree of keys 1, 2, 4, 5 with the range
1 .. 5 and start 0, where the call returns 1 with the out key 3. -/
theorem GenAVLTreeNextFreeKey_sound_witness :
    (1 : Int) ≤ 3 ∧ (3 : Int) ≤ 5 ∧ (3 : Int) ∉ exTreeGap.keys exKey :=
  GenAVLTreeNextFreeKey_sound exKey 1 5 20 exStateGap 0 exTreeGap 3 exStateGap_holds
    (by decide) exTreeGap_sorted (by decide) (by decide) (by decide) exStateGap_search

/-- Counterexample to C29 as stated: the tree with the single key 10, which is
above the legal range 8 .. 9, searched from start 9.  The call returns 1 with
the out key 7, which is not in the legal range. -/
theorem GenAVLTreeNextFreeKey_key_above_range :
    TreeAt exState.mem exState.root exTree ∧ exTree ≠ .nil ∧ exTree.Sorted exKey ∧
      (8 : Int) - 1 ≤ 9 ∧ (9 : Int) ≤ 9 ∧
      GenAVLTreeNextFreeKey exKey 8 9 5 exState 9 9 = some (1, 7) ∧ ¬ (8 : Int) ≤ 7 := by
  refine ⟨exState_holds, by decide, exTree_sorted, by decide, by decide, ?_, by decide⟩
  simp [GenAVLTreeNextFreeKey, nextFreeKeyLoop, exState, exMem, Compare, Key, exKey,
    KeyIncrement, KeyCompare, GENAVLSTACK.push]

/-- The amended C30: the free-key search reports exhaustion only when no other
key is free.  For a tree with strictly increasing keys and a start in
`[lo - 1, hi]` with the out key initialised to start, if
`GenAVLTreeNextFreeKey` returns 0 then every key of the legal range `[lo, hi]`
other than start is the key of some node of the tree. -/
theorem GenAVLTreeNextFreeKey_exhausted (K : Nat → Int) (lo hi : Int) (fuel : Nat)
    (t : GenAVLTree) (start : Int) (T : Tree) (k : Int)
    (hT : TreeAt t.mem t.root T) (hS : T.Sorted K) (hlo : lo - 1 ≤ start) (hhi : start ≤ hi)
    (h : GenAVLTreeNextFreeKey K lo hi fuel t start start = some (0, k)) :
    ∀ x, lo ≤ x → x ≤ hi → x ≠ start → ∃ a ∈ T.addrs, Key K t.mem a = x := by
  by_cases hroot : t.root = 0
  · simp [GenAVLTreeNextFreeKey, hroot] at h
  · intro x h1 h2 h3
    exact (hT.mem_keys_iff x).1
      ((GenAVLTreeNextFreeKey_result K lo hi fuel t start T (0, k) hT hS hroot hlo hhi h).2 rfl
        x h1 h2 h3)

/-- Witness of the amended C30: the tree of keys 1, 2, 3 with the range 1 .. 3
and start 1, where the call returns 0; the key 2 of the range is the key of a
node. -/
theorem GenAVLTreeNextFreeKey_exhausted_witness :
    ∃ a ∈ exTreeFull.addrs, Key exKey exStateFull.mem a = 2 :=
  GenAVLTreeNextFreeKey_exhausted exKey 1 3 20 exStateFull 1 exTreeFull 1 exStateFull_holds
    exTreeFull_sorted (by decide) (by decide) exStateFull_search 2 (by decide) (by decide)
    (by decide)

/-- Counterexample to C30 as stated: the tree with the single key 10 and the
legal range 9 .. 10, searched from start 9.  The call returns 0, and the key 9
of the legal range is the key of no node. -/
theorem GenAVLTreeNextFreeKey_start_free :
    TreeAt exState.mem exState.root exTree ∧ exTree.Sorted exKey ∧
      (9 : Int) - 1 ≤ 9 ∧ (9 : Int) ≤ 10 ∧
      GenAVLTreeNextFreeKey exKey 9 10 5 exState 9 9 = some (0, 9) ∧
      (9 : Int) ≤ 9 ∧ (9 : Int) ≤ 10 ∧ ¬ ∃ a ∈ exTree.addrs, Key exKey exState.mem a = 9 := by
  refine ⟨exState_holds, exTree_sorted, by decide, by decide, ?_, by decide, by decide, ?_⟩
  · simp [GenAVLTreeNextFreeKey, nextFreeKeyLoop, exState, exMem, Compare, Key, exKey,
      KeyIncrement, KeyCompare, GENAVLSTACK.push]
  · simp [exTree, Tree.addrs, Key, exKey, exState, exMem]

/-! ## Relocatable references: the null tests and the branching variants -/

/-- C37: the two null tests of a relocatable reference agree.  For a storage
address `s` and a target `t` with `t - s` not congruent to 1, the offset
`o = offset_ptr_to_offset t s` is different from the sentinel 1 if and only if
`offset_ptr_to_raw_pointer s o` is not null; so `operator bool` is true exactly
when the comparison of `get()` with null is false, and `operator!` is the
comparison with null. -/
theorem offset_ptr_null_tests_agree (w s t : Nat) (hw : 0 < w) (ht : t < 2 ^ w)
    (h1 : usub w t s ≠ 1) :
    (offset_ptr_to_offset w t s ≠ 1 ↔
      offset_ptr_to_raw_pointer w s (offset_ptr_to_offset w t s) ≠ 0) ∧
    offset_ptr_operator_bool (offset_ptr_to_offset w t s) =
      !offset_ptr_eq w s (offset_ptr_to_offset w t s) 0 ∧
    offset_ptr_operator_not (offset_ptr_to_offset w t s) =
      offset_ptr_eq w s (offset_ptr_to_offset w t s) 0 := by
  have key : offset_ptr_to_offset w t s ≠ 1 ↔
      offset_ptr_to_raw_pointer w s (offset_ptr_to_offset w t s) ≠ 0 := by
    by_cases h0 : t = 0
    · subst h0
      rw [offset_ptr_to_offset_null hw, offset_ptr_to_raw_pointer_one]
      simp
    · rw [offset_ptr_to_offset_ne_null hw t s h0, offset_ptr_to_raw_pointer_ne_one hw s _ h1,
        add_usub w t s, Nat.mod_eq_of_lt ht]
      simp [h0, h1]
  refine ⟨key, ?_, ?_⟩
  · simp only [offset_ptr_operator_bool, offset_ptr_eq, offset_ptr_get]
    by_cases h : offset_ptr_to_offset w t s = 1
    · simp [h, offset_ptr_to_raw_pointer_one]
    · simp [h, key.1 h]
  · simp only [offset_ptr_operator_not, offset_ptr_eq, offset_ptr_get]
    by_cases h : offset_ptr_to_offset w t s = 1
    · simp [h, offset_ptr_to_raw_pointer_one]
    · simp [h, key.1 h]

/-- Witness of C37: storage at 16, target at 40, 64-bit addresses. -/
theorem offset_ptr_null_tests_agree_witness :
    (offset_ptr_to_offset 64 40 16 ≠ 1 ↔
      offset_ptr_to_raw_pointer 64 16 (offset_ptr_to_offset 64 40 16) ≠ 0) ∧
    offset_ptr_operator_bool (offset_ptr_to_offset 64 40 16) =
      !offset_ptr_eq 64 16 (offset_ptr_to_offset 64 40 16) 0 ∧
    offset_ptr_operator_not (offset_ptr_to_offset 64 40 16) =
      offset_ptr_eq 64 16 (offset_ptr_to_offset 64 40 16) 0 :=
  offset_ptr_null_tests_agree 64 16 40 (by decide) (by decide) (by decide)

/-- C38: the branchless implementations the header selects equal their
branching alternatives, for every input over `w`-bit arithmetic:
`offset_ptr_to_raw_pointer s o` is 0 when `o = 1` and `s + o` otherwise,
`offset_ptr_to_offset t s` is 1 when `t = 0` and `t - s` otherwise, and
`offset_ptr_to_offset_from_other b a o` is 1 when `o = 1` and `a - b + o`
otherwise, all modulo `2 ^ w`. -/
theorem offset_ptr_branchless_eq_branching (w : Nat) (hw : 0 < w) :
    (∀ s o, offset_ptr_to_raw_pointer w s o = offset_ptr_to_raw_pointer_branching w s o) ∧
    (∀ t s, offset_ptr_to_offset w t s = offset_ptr_to_offset_branching w t s) ∧
    ∀ b a o, offset_ptr_to_offset_from_other w b a o =
      offset_ptr_to_offset_from_other_branching w b a o := by
  have h2 := two_le_two_pow hw
  refine ⟨?_, ?_, ?_⟩
  · intro s o
    unfold offset_ptr_to_raw_pointer_branching
    by_cases ho : o = 1
    · subst ho
      rw [offset_ptr_to_raw_pointer_one, if_pos rfl]
    · rw [offset_ptr_to_raw_pointer_ne_one hw s o ho, if_neg ho]
  · intro t s
    unfold offset_ptr_to_offset_branching
    by_cases h0 : t = 0
    · subst h0
      rw [offset_ptr_to_offset_null hw, if_pos rfl]
    · rw [offset_ptr_to_offset_ne_null hw t s h0, if_neg h0]
  · intro b a o
    unfold offset_ptr_to_offset_from_other_branching
    by_cases ho : o = 1
    · subst ho
      rw [if_pos rfl]
      simp only [offset_ptr_to_offset_from_other, decide_True, maskOf_true, Nat.and_zero,
        Nat.zero_add]
      exact Nat.mod_eq_of_lt (by omega)
    · rw [if_neg ho]
      simp only [offset_ptr_to_offset_from_other, ho, decide_False, maskOf_false hw,
        Nat.and_pow_two_sub_one_eq_mod, Nat.mod_eq_of_lt (usub_lt w a b)]

/-- Witness of C38: 64-bit addresses. -/
theorem offset_ptr_branchless_eq_branching_witness :
    (∀ s o, offset_ptr_to_raw_pointer 64 s o = offset_ptr_to_raw_pointer_branching 64 s o) ∧
    (∀ t s, offset_ptr_to_offset 64 t s = offset_ptr_to_offset_branching 64 t s) ∧
    ∀ b a o, offset_ptr_to_offset_from_other 64 b a o =
      offset_ptr_to_offset_from_other_branching 64 b a o :=
  offset_ptr_branchless_eq_branching 64 (by decide)

/-! ## Balanced and unbalanced insertion side by side -/

/-- C33: balanced and unbalanced insertion agree on content.  For a well-formed
AVL tree and a fresh entry, `GenAVLTreeAdd` and `GenAVLTreeAddUnbal` return the
same integer, and the trees the two resulting states hold have the same
in-order sequence of nodes (address and payload); they differ only in shape
and balance fields. -/
theorem GenAVLTreeAdd_AddUnbal_agree (K : Nat → Int) (fuel : Nat) (t : GenAVLTree) (gae : Nat)
    (T : Tree) (h : TreeAt t.mem t.root T) (hb : T.Balanced) (hs : T.Sorted K)
    (hg : gae ∉ T.addrs) (hg0 : gae ≠ 0) (hf : T.height < fuel) :
    ∃ t1 t2 r T1 T2, GenAVLTreeAdd K fuel t gae = some (t1, r) ∧
      GenAVLTreeAddUnbal K fuel t gae = some (t2, r) ∧
      TreeAt t1.mem t1.root T1 ∧ TreeAt t2.mem t2.root T2 ∧ T1.entries = T2.entries := by
  rcases GenAVLTreeAdd_cases K fuel t gae T h hb hs hg hg0 hf with
    ⟨hk, h1⟩ | ⟨hk, t1, h1, h2, -, -⟩
  · have h3 := GenAVLTreeAddUnbal_dup K fuel t gae T h hs hg hk hf
    exact ⟨_, _, 0, T, T, h1, h3, h.reset gae hg, h.reset gae hg, rfl⟩
  · obtain ⟨dir, h3, -, -, h4⟩ := GenAVLTreeAddUnbal_new K fuel t gae T h (h.nodup hs) hg hg0 hk hf
    exact ⟨t1, _, 1, _, _, h1, h3, h2, h4, Tree.entries_addTree K gae (t.mem gae).data T⟩

/-- Witness of C33: the entry at address 2 (key 20) added to the one-entry tree
of the example. -/
theorem GenAVLTreeAdd_AddUnbal_agree_witness :
    ∃ t1 t2 r T1 T2, GenAVLTreeAdd exKey 2 exState 2 = some (t1, r) ∧
      GenAVLTreeAddUnbal exKey 2 exState 2 = some (t2, r) ∧
      TreeAt t1.mem t1.root T1 ∧ TreeAt t2.mem t2.root T2 ∧ T1.entries = T2.entries :=
  GenAVLTreeAdd_AddUnbal_agree exKey 2 exState 2 exTree exState_holds exTree_balanced
    exTree_sorted (by decide) (by decide) (by decide)

/-! ## Insertion of an entry that is already linked -/

theorem exists_slotDir (c : Ctx) : ∃ dir : Int, SlotDir c dir := by
  cases c with
  | nil => exact ⟨0, trivial⟩
  | cons f c =>
    cases f with
    | L a d b r => exact ⟨-1, by simp [SlotDir, Frame.DirOK]⟩
    | R l a d b => exact ⟨1, by simp [SlotDir, Frame.DirOK]⟩

theorem ctxHeight_mono (c : Ctx) {h1 h2 : Nat} (h : h1 ≤ h2) :
    ctxHeight c h1 ≤ ctxHeight c h2 := by
  induction c generalizing h1 h2 with
  | nil => exact h
  | cons f c ih =>
    cases f with
    | L a d b r => exact ih (by omega)
    | R l a d b => exact ih (by omega)

/-- A node of a tree with strictly increasing keys, with the path above it and
its two subtrees. -/
theorem Tree.split_at (K : Nat → Int) {m : Mem} {p : Nat} {T : Tree} (h : TreeAt m p T)
    (hs : T.Sorted K) {a : Nat} (ha : a ∈ T.addrs) :
    ∃ c l d b r, T = plug c (.node l a d b r) := by
  have hk : Key K m a ∈ T.keys K := h.key_mem a ha
  obtain ⟨c, s, hloc⟩ := Tree.locate_some K (Key K m a) T [] hs hk
  obtain ⟨hpl, l, x, d, b, r, rfl, hkd⟩ := Tree.locate_spec K (Key K m a) T [] c s hloc
  have hpl' : plug c (.node l x d b r) = T := hpl
  have hx : x ∈ T.addrs := by
    rw [← hpl', mem_addrs_plug]
    exact Or.inl (by simp [Tree.addrs])
  have hdx : (m x).data = d := by
    rw [← hpl'] at h
    exact (TreeAt.hole h).2.2.1
  have hxa : x = a := h.key_inj hs hx ha (by simp only [Key, hdx]; exact hkd)
  subst hxa
  exact ⟨c, l, d, b, r, hpl'.symm⟩

theorem sorted_plug_leaf (K : Nat → Int) (c : Ctx) (l r : Tree) (a d : Nat) (b b' : Int)
    (h : (plug c (.node l a d b r)).Sorted K) : (plug c (.node .nil a d b' .nil)).Sorted K := by
  unfold Tree.Sorted at h ⊢
  rw [Tree.keys_eq_map, entries_plug] at h ⊢
  refine List.Pairwise.sublist ?_ h
  refine List.Sublist.map _ ?_
  refine List.Sublist.append (List.Sublist.append (List.Sublist.refl _) ?_) (List.Sublist.refl _)
  simp only [Tree.entries, List.nil_append]
  exact List.singleton_sublist.2 (by simp)

/-- C36: `GenAVLTreeAdd` and `GenAVLTreeAddUnbal` reset the candidate entry
before they search.  For a tree with strictly increasing keys and an entry `n`
that is already a node of it, both calls return 0 and leave the same state, in
which the left and right fields of `n` are null and its balance field is 0;
that state holds the old tree with `n` as a leaf in place of the subtree of
`n`, so the nodes that were below `n` are no longer in the tree. -/
theorem GenAVLTreeAdd_linked_entry (K : Nat → Int) (fuel : Nat) (t : GenAVLTree) (n : Nat)
    (T : Tree) (h : TreeAt t.mem t.root T) (hs : T.Sorted K) (hn : n ∈ T.addrs)
    (hf : T.height < fuel) :
    ∃ t0 c l d b r, T = plug c (.node l n d b r) ∧
      GenAVLTreeAdd K fuel t n = some (t0, 0) ∧
      GenAVLTreeAddUnbal K fuel t n = some (t0, 0) ∧
      (t0.mem n).left = 0 ∧ (t0.mem n).right = 0 ∧ (t0.mem n).balance = 0 ∧
      TreeAt t0.mem t0.root (plug c (.node .nil n d 0 .nil)) ∧
      ∀ a ∈ l.addrs ++ r.addrs, a ∉ (plug c (.node .nil n d 0 .nil)).addrs := by
  obtain ⟨c, l, d, b, r, rfl⟩ := Tree.split_at K h hs hn
  have hnd := h.nodup hs
  obtain ⟨dir, hdir⟩ := exists_slotDir c
  obtain ⟨hp, hn0, hd, -, -, -⟩ := TreeAt.hole h
  have hval : val t (slotAddr c) dir = n := by
    rw [val_eq_holePtr h hdir]; exact hp
  have hT0 : TreeAt (wrBalance (wrRight (wrLeft t.mem n 0) n 0) n 0) t.root
      (plug c (.node .nil n d 0 .nil)) := by
    refine (@TreeAt.rewrite_same t ⟨t.root, wrBalance (wrRight (wrLeft t.mem n 0) n 0) n 0⟩ c
      _ (.node .nil n d 0 .nil) dir h hnd hdir rfl ?_ ?_).1
    · intro a ha
      have hne : a ≠ n := by
        rintro rfl
        exact ha (by simp [Tree.addrs])
      simp [wrBalance_other _ _ _ _ hne, wrRight_other _ _ _ _ hne, wrLeft_other _ _ _ _ hne]
    · rw [hval]
      exact ⟨rfl, hn0, by simp [hd], by simp, by simp [TreeAt], by simp [TreeAt]⟩
  have hS0 := sorted_plug_leaf K c l r n d b 0 hs
  have hkey : Key K (wrBalance (wrRight (wrLeft t.mem n 0) n 0) n 0) n ∈
      (plug c (.node .nil n d 0 .nil)).keys K := by
    have : Key K (wrBalance (wrRight (wrLeft t.mem n 0) n 0) n 0) n = K d := by
      simp [Key, hd]
    rw [this, Tree.keys_eq_map, entries_plug]
    simp [Tree.entries]
  have hh : (plug c (.node .nil n d 0 .nil)).height < fuel := by
    have h1 : (Tree.node .nil n d 0 .nil).height ≤ (Tree.node l n d b r).height := by
      simp only [Tree.height]; omega
    have h2 := ctxHeight_mono c h1
    rw [← height_plug, ← height_plug] at h2
    omega
  have e1 := addSearchLoop_dup K _ n _ fuel t.root ⟨0, 0, 0, 0⟩ hT0 hS0 hkey hh
  have e2 := addUnbalLoop_dup K _ n _ fuel t.root 0 0 hT0 hS0 hkey hh
  refine ⟨⟨t.root, wrBalance (wrRight (wrLeft t.mem n 0) n 0) n 0⟩, c, l, d, b, r, rfl, ?_, ?_,
    by simp, by simp, by simp, hT0, ?_⟩
  · simp only [GenAVLTreeAdd, e1]
  · simp only [GenAVLTreeAddUnbal, e2]
  · intro a ha
    rw [nodup_plug] at hnd
    obtain ⟨hnds, -, hdisj⟩ := hnd
    obtain ⟨-, -, hxl, hxr, -⟩ := Tree.nodup_node.1 hnds
    have has : a ∈ (Tree.node l n d b r).addrs := by
      rw [Tree.mem_node]
      rcases List.mem_append.1 ha with h1 | h1
      · exact Or.inl h1
      · exact Or.inr (Or.inr h1)
    rw [mem_addrs_plug]
    rintro (h1 | h1)
    · simp only [Tree.addrs, List.nil_append, List.mem_singleton] at h1
      subst h1
      rcases List.mem_append.1 ha with h2 | h2
      · exact hxl h2
      · exact hxr h2
    · exact hdisj a has h1

/-- Witness of C36: the root 2 of the three-entry tree of the example. -/
theorem GenAVLTreeAdd_linked_entry_witness :
    ∃ t0 c l d b r, exTree3 = plug c (.node l 2 d b r) ∧
      GenAVLTreeAdd exKey 3 exState3 2 = some (t0, 0) ∧
      GenAVLTreeAddUnbal exKey 3 exState3 2 = some (t0, 0) ∧
      (t0.mem 2).left = 0 ∧ (t0.mem 2).right = 0 ∧ (t0.mem 2).balance = 0 ∧
      TreeAt t0.mem t0.root (plug c (.node .nil 2 d 0 .nil)) ∧
      ∀ a ∈ l.addrs ++ r.addrs, a ∉ (plug c (.node .nil 2 d 0 .nil)).addrs :=
  GenAVLTreeAdd_linked_entry exKey 3 exState3 2 exTree3 exState3_holds exTree3_sorted
    (by decide) (by decide)

/-! ## What the leaf-first iterator leaves in a returned node -/

/-- One call of `GenAVLLFIterNextData` records the parent of the leaf it
returns. -/
theorem GenAVLLFIterNextData_records (K : Nat → Int) (fuel : Nat) (it : GENAVLSTACK)
    (t : GenAVLTree) (c : Ctx) (a d : Nat) (b : Int) (h : LFState K fuel it t c a d b) :
    ∃ it1 t1, GenAVLLFIterNextData K fuel it t = some (it1, t1, d) ∧
      ParentRecorded t t1 c a := by
  obtain ⟨it1, t1, h1, -⟩ := GenAVLLFIterNextData_spec K fuel it t c a d b h
  refine ⟨it1, t1, h1, ?_⟩
  obtain ⟨hT, hS, ⟨hsp, hst⟩, hLD, hlen⟩ := h
  have hnd := hT.nodup hS
  obtain ⟨-, ha0, hd, -, hal, har⟩ := TreeAt.hole hT
  simp only [List.length_cons, List.length_map] at hsp
  have htop : it.stack c.length = a := by simpa using hst.1
  have e1 : it.sp - 1 = c.length := by omega
  have hst1 := GenAVLLFIterNextData_state K fuel it it1 t t1 d h1 (by omega)
  rw [e1, htop] at hst1
  cases c with
  | nil =>
    simp only [List.length_nil, ne_eq, not_true_eq_false, if_false] at hst1
    subst hst1
    exact ⟨hT.1, by simp [wrRight, wrLeft], by simp [wrRight, wrLeft], rfl⟩
  | cons f c =>
    have hfr := TreeAt.frame hT
    have hp0 : f.addr ≠ 0 := hfr.2.1
    have hpa : f.addr ≠ a := by
      have := slot_not_mem hT hnd
      simpa [slotAddr, Tree.addrs] using this
    have hnext : it.stack c.length = f.addr := by simpa using hst.2.1
    have hfill : TreeAt t.mem (holePtr t.mem t.root c)
        (Frame.fill f (.node .nil a d b .nil)) := @TreeAt.hole _ _ c _ hT
    have hS2 : (Frame.fill f (.node .nil a d b .nil)).Sorted K := sorted_hole K c _ hS
    simp only [List.length_cons, Nat.add_sub_cancel, hnext, ne_eq, Nat.add_one_ne_zero,
      not_false_eq_true, if_true] at hst1
    have hk1 : Key K (wrRight (wrLeft t.mem a 0) a 0) a = K d := by simp [Key, hd]
    cases f with
    | L p dp bp r =>
      simp only [Frame.addr] at hp0 hpa hst1
      obtain ⟨-, -, hdp, -, hpl, -⟩ := hfill
      have hpl' : (t.mem p).left = a := hpl.1
      have hkey : K d < K dp := by
        simp only [Frame.fill] at hS2
        rw [Tree.sorted_node] at hS2
        exact hS2.2.2.1 (K d) (by simp [Tree.keys])
      have hk2 : Key K (wrRight (wrLeft t.mem a 0) a 0) p = K dp := by
        simp [Key, clear_other _ _ _ hpa, hdp]
      have hcmp : ¬ Compare K (wrRight (wrLeft t.mem a 0) a 0) a
          (Key K (wrRight (wrLeft t.mem a 0) a 0) p) > 0 := by
        rw [Compare_pos, hk1, hk2]; omega
      rw [if_neg hcmp] at hst1
      subst hst1
      have hap : a ≠ p := fun e => hpa e.symm
      exact ⟨hpl', by simp [wrRight, wrLeft, Function.update, hap, hpa],
        by simp [wrRight, wrLeft, Function.update, hap, hpa],
        by simp [wrRight, wrLeft, Function.update, hap, hpa]⟩
    | R l p dp bp =>
      simp only [Frame.addr] at hp0 hpa hst1
      obtain ⟨-, -, hdp, -, -, hpr⟩ := hfill
      have hpr' : (t.mem p).right = a := hpr.1
      have hkey : K dp < K d := by
        simp only [Frame.fill] at hS2
        rw [Tree.sorted_node] at hS2
        exact hS2.2.2.2 (K d) (by simp [Tree.keys])
      have hk2 : Key K (wrRight (wrLeft t.mem a 0) a 0) p = K dp := by
        simp [Key, clear_other _ _ _ hpa, hdp]
      have hcmp : Compare K (wrRight (wrLeft t.mem a 0) a 0) a
          (Key K (wrRight (wrLeft t.mem a 0) a 0) p) > 0 := by
        rw [Compare_pos, hk1, hk2]; exact hkey
      rw [if_pos hcmp] at hst1
      subst hst1
      have hap : a ≠ p := fun e => hpa e.symm
      exact ⟨hpr', by simp [wrRight, wrLeft, Function.update, hap, hpa],
        by simp [wrRight, wrLeft, Function.update, hap, hpa],
        by simp [wrRight, wrLeft, Function.update, hap, hpa]⟩

/-- C31: each node the leaf-first iterator returns records its former parent
in the field through which the parent referred to it.  For a non-empty tree
with strictly increasing keys this holds of the node `GenAVLLFIterInitData`
returns and of the node every later call of `GenAVLLFIterNextData` returns:
the node `n` is a leaf in the hole of a path `c` of the tree before the call,
and after the call, when `n` was the right child of `p`, `n.right = p`,
`n.left` is null and `p.right` is null; when `n` was the left child of `p`,
`n.left = p`, `n.right` is null and `p.left` is null; when `n` was the root,
both fields of `n` and the root of the tree are null. -/
theorem GenAVLLFIter_records_parent (K : Nat → Int) (fuel : Nat) (it : GENAVLSTACK)
    (t : GenAVLTree) (T : Tree) (h : TreeAt t.mem t.root T) (hne : T ≠ .nil)
    (hs : T.Sorted K) (hf : T.entries.length < fuel) :
    (∃ c n d b it1 t1, T = plug c (.node .nil n d b .nil) ∧
      GenAVLLFIterInitData K fuel it t = some (it1, t1, d) ∧ ParentRecorded t t1 c n) ∧
    ∀ j it1 t1 d1, lfRun K fuel j it t = some (it1, t1, d1) → it1.sp ≠ 0 →
      ∃ c n d b it2 t2, TreeAt t1.mem t1.root (plug c (.node .nil n d b .nil)) ∧
        n = it1.stack (it1.sp - 1) ∧
        GenAVLLFIterNextData K fuel it1 t1 = some (it2, t2, d) ∧ ParentRecorded t1 t2 c n := by
  constructor
  · obtain ⟨it1, c, a, d, b, g1, hplug, hst⟩ := lfPushLeaf_state K fuel it t T h hne hs hf
    obtain ⟨it2, t2, e1, e2⟩ := GenAVLLFIterNextData_records K fuel it1 t c a d b hst
    refine ⟨c, a, d, b, it2, t2, hplug.symm, ?_, e2⟩
    simp only [GenAVLLFIterInitData, g1, e1]
  · intro j it1 t1 d1 hrun hsp
    rcases lfRun_state K fuel it t T h hne hs hf j it1 t1 d1 hrun with h0 | ⟨c, a, d, b, hst⟩
    · exact absurd h0 hsp
    · obtain ⟨it2, t2, e1, e2⟩ := GenAVLLFIterNextData_records K fuel it1 t1 c a d b hst
      refine ⟨c, a, d, b, it2, t2, hst.1, ?_, e1, e2⟩
      obtain ⟨-, -, ⟨hsp1, hst1⟩, -, -⟩ := hst
      simp only [List.length_cons, List.length_map] at hsp1
      have htop : it1.stack c.length = a := by simpa using hst1.1
      rw [hsp1, Nat.add_sub_cancel, htop]

/-- Witness of C31: the three-entry tree of the example. -/
theorem GenAVLLFIter_records_parent_witness :
    (∃ c n d b it1 t1, exTree3 = plug c (.node .nil n d b .nil) ∧
      GenAVLLFIterInitData exKey 4 ⟨fun _ => 0, 0⟩ exState3 = some (it1, t1, d) ∧
      ParentRecorded exState3 t1 c n) ∧
    ∀ j it1 t1 d1, lfRun exKey 4 j ⟨fun _ => 0, 0⟩ exState3 = some (it1, t1, d1) → it1.sp ≠ 0 →
      ∃ c n d b it2 t2, TreeAt t1.mem t1.root (plug c (.node .nil n d b .nil)) ∧
        n = it1.stack (it1.sp - 1) ∧
        GenAVLLFIterNextData exKey 4 it1 t1 = some (it2, t2, d) ∧ ParentRecorded t1 t2 c n :=
  GenAVLLFIter_records_parent exKey 4 ⟨fun _ => 0, 0⟩ exState3 exTree3 exState3_holds
    (by decide) exTree3_sorted (by decide)

/-! ## The leaf-first iterator call by call -/

theorem postorder_plug (c : Ctx) :
    ∀ s : Tree, ∃ pre post, (plug c s).postorder = pre ++ s.postorder ++ post := by
  induction c with
  | nil => intro s; exact ⟨[], [], by simp [plug]⟩
  | cons f c ih =>
    intro s
    obtain ⟨pre, post, e⟩ := ih (f.fill s)
    cases f with
    | L a d b r =>
      refine ⟨pre, r.postorder ++ [(a, d)] ++ post, ?_⟩
      show (plug c (Frame.fill (.L a d b r) s)).postorder = _
      rw [e]
      simp only [Frame.fill, Tree.postorder, List.append_assoc]
    | R l a d b =>
      refine ⟨pre ++ l.postorder, [(a, d)] ++ post, ?_⟩
      show (plug c (Frame.fill (.R l a d b) s)).postorder = _
      rw [e]
      simp only [Frame.fill, Tree.postorder, List.append_assoc]

/-- What `GenAVLLFIterInitData` sets up, with the nodes still to come. -/
theorem lfPushLeaf_post (K : Nat → Int) (fuel : Nat) (it : GENAVLSTACK) (t : GenAVLTree)
    (T : Tree) (h : TreeAt t.mem t.root T) (hne : T ≠ .nil) (hs : T.Sorted K)
    (hf : T.entries.length < fuel) :
    ∃ it1 c a d b, lfPushLeaf t.mem fuel ⟨it.stack, 0⟩ t.root = some it1 ∧
      LFState K fuel it1 t c a d b ∧ (a, d) :: lfRest c = T.postorder := by
  have hfh : T.height < fuel := by
    have := Tree.height_le_length T
    omega
  obtain ⟨it1, g1, g2⟩ := lfPushLeaf_spec t.mem T [] t.root fuel ⟨it.stack, 0⟩ h hfh
    ⟨rfl, trivial⟩
  obtain ⟨a, d, b, hleaf⟩ := Tree.lfDescend_leaf T hne []
  have hplug := Tree.lfDescend_plug T []
  have hrest := Tree.lfDescend_rest T []
  have hld := Tree.lfDescend_leftDone T [] (fun f hf => by cases hf)
  rw [hleaf] at hplug hrest
  simp only [lfStack, hleaf] at g2
  have hplug' : plug (Tree.lfDescend T []).1 (.node .nil a d b .nil) = T := hplug
  refine ⟨it1, _, a, d, b, g1,
    ⟨by rw [hplug']; exact h, by rw [hplug']; exact hs, g2, hld, by rw [hplug']; exact hf⟩, ?_⟩
  simpa [Tree.postorder, lfRest] using hrest

/-- One call of `GenAVLLFIterNextData` in a state whose pending nodes are the
post-order from position `k` on. -/
theorem GenAVLLFIterNextData_post (K : Nat → Int) (fuel : Nat) (it : GENAVLSTACK)
    (t : GenAVLTree) (c : Ctx) (a d : Nat) (b : Int) (L : List (Nat × Nat)) (k : Nat)
    (h : LFState K fuel it t c a d b) (hL : (a, d) :: lfRest c = L.drop k) :
    ∃ it1 t1, GenAVLLFIterNextData K fuel it t = some (it1, t1, d) ∧ L[k]? = some (a, d) ∧
      (t.mem a).left = 0 ∧ (t.mem a).right = 0 ∧
      ((L.drop (k + 1) = [] ∧ it1.sp = 0 ∧ t1.root = 0) ∨
        ∃ c2 a2 d2 b2, LFState K fuel it1 t1 c2 a2 d2 b2 ∧
          (a2, d2) :: lfRest c2 = L.drop (k + 1)) := by
  obtain ⟨it1, t1, e1, e2⟩ := GenAVLLFIterNextData_spec K fuel it t c a d b h
  obtain ⟨-, -, -, -, hal, har⟩ := TreeAt.hole h.1
  have hk : L[k]? = some (a, d) := by
    rw [← List.head?_drop, ← hL]; rfl
  have hd : L.drop (k + 1) = lfRest c := by
    rw [← List.tail_drop, ← hL]; rfl
  refine ⟨it1, t1, e1, hk, hal, har, ?_⟩
  rcases e2 with ⟨rfl, hr, hsp⟩ | ⟨c2, a2, d2, b2, hst2, hrest⟩
  · exact Or.inl ⟨by rw [hd]; rfl, hsp, hr⟩
  · exact Or.inr ⟨c2, a2, d2, b2, hst2, by rw [hd]; exact hrest⟩

/-- The call number `j` of the leaf-first iteration returns the payload of the
node number `j` of the post-order, a leaf of the state before the call. -/
theorem lfRun_post (K : Nat → Int) (fuel : Nat) (it : GENAVLSTACK) (t : GenAVLTree)
    (T : Tree) (h : TreeAt t.mem t.root T) (hne : T ≠ .nil) (hs : T.Sorted K)
    (hf : T.entries.length < fuel) :
    ∀ j, j < T.postorder.length →
      ∃ it1 t1 tb n d, T.postorder[j]? = some (n, d) ∧
        lfRun K fuel j it t = some (it1, t1, d) ∧ lfBefore K fuel j it t = some tb ∧
        (tb.mem n).left = 0 ∧ (tb.mem n).right = 0 ∧
        ((T.postorder.drop (j + 1) = [] ∧ it1.sp = 0 ∧ t1.root = 0) ∨
          ∃ c a d2 b, LFState K fuel it1 t1 c a d2 b ∧
            (a, d2) :: lfRest c = T.postorder.drop (j + 1)) := by
  intro j
  induction j with
  | zero =>
    intro _
    obtain ⟨it0, c, a, d, b, g1, hst, hpost⟩ := lfPushLeaf_post K fuel it t T h hne hs hf
    obtain ⟨it1, t1, e1, e2, e3, e4, e5⟩ :=
      GenAVLLFIterNextData_post K fuel it0 t c a d b T.postorder 0 hst (by simpa using hpost)
    exact ⟨it1, t1, t, a, d, e2, by simp only [lfRun, GenAVLLFIterInitData, g1, e1], rfl, e3, e4,
      e5⟩
  | succ j ih =>
    intro hj
    obtain ⟨it1, t1, tb, n, d, -, f2, -, -, -, f6⟩ := ih (by omega)
    rcases f6 with ⟨hnil, -, -⟩ | ⟨c, a, d2, b, hst, hrest⟩
    · have := congrArg List.length hnil
      simp only [List.length_drop, List.length_nil] at this
      omega
    · obtain ⟨it2, t2, e1, e2, e3, e4, e5⟩ :=
        GenAVLLFIterNextData_post K fuel it1 t1 c a d2 b T.postorder (j + 1) hst hrest
      exact ⟨it2, t2, t1, a, d2, e2, by simp only [lfRun, f2, e1], by simp [lfBefore, f2], e3, e4,
        e5⟩

/-- C32: the leaf-first iterator returns the nodes in post-order.  For a tree
with strictly increasing keys, the call number `j` of the iteration
(`GenAVLLFIterInitData` is the call 0, every later call is
`GenAVLLFIterNextData`) returns the payload of the node number `j` of the
post-order of the original tree, and that node has no children in the state
before the call; the call after the last node returns null and leaves the root
null.  In the post-order every node stands right after the nodes of its left
subtree followed by those of its right subtree, so it is returned after all
nodes of its subtree. -/
theorem lfRun_postorder (K : Nat → Int) (fuel : Nat) (it : GENAVLSTACK) (t : GenAVLTree)
    (T : Tree) (h : TreeAt t.mem t.root T) (hs : T.Sorted K) (hf : T.entries.length < fuel) :
    (∀ j n d, T.postorder[j]? = some (n, d) →
      ∃ it1 t1 tb, lfRun K fuel j it t = some (it1, t1, d) ∧
        lfBefore K fuel j it t = some tb ∧ (tb.mem n).left = 0 ∧ (tb.mem n).right = 0) ∧
    (∃ it1 t1, lfRun K fuel T.postorder.length it t = some (it1, t1, 0) ∧ t1.root = 0) ∧
    ∀ c l a d b r, T = plug c (.node l a d b r) →
      ∃ pre post, T.postorder = pre ++ (l.postorder ++ r.postorder ++ [(a, d)]) ++ post := by
  refine ⟨?_, ?_, ?_⟩
  · intro j n d hj
    have hlt : j < T.postorder.length := (List.getElem?_eq_some.1 hj).1
    have hne : T ≠ .nil := by
      rintro rfl
      simp [Tree.postorder] at hlt
    obtain ⟨it1, t1, tb, n', d', f1, f2, f3, f4, f5, -⟩ :=
      lfRun_post K fuel it t T h hne hs hf j hlt
    rw [hj] at f1
    simp only [Option.some.injEq, Prod.mk.injEq] at f1
    obtain ⟨rfl, rfl⟩ := f1
    exact ⟨it1, t1, tb, f2, f3, f4, f5⟩
  · cases hT : T with
    | nil =>
      subst hT
      have hr : t.root = 0 := h
      obtain ⟨f, rfl⟩ : ∃ f, fuel = f + 1 := ⟨fuel - 1, by omega⟩
      refine ⟨⟨it.stack, 0⟩, t, ?_, hr⟩
      simp [Tree.postorder, lfRun, GenAVLLFIterInitData, lfPushLeaf_null, hr,
        GenAVLLFIterNextData]
    | node l x dx bx r =>
      rw [← hT]
      have hne : T ≠ .nil := by rw [hT]; simp
      have hpos : 0 < T.postorder.length := by
        rw [hT]; simp [Tree.postorder]
      obtain ⟨k, hk⟩ : ∃ k, T.postorder.length = k + 1 := ⟨T.postorder.length - 1, by omega⟩
      obtain ⟨it1, t1, tb, n, d, -, f2, -, -, -, f6⟩ :=
        lfRun_post K fuel it t T h hne hs hf k (by omega)
      rcases f6 with ⟨-, hsp, hroot⟩ | ⟨c, a, d2, b, -, hrest⟩
      · refine ⟨it1, t1, ?_, hroot⟩
        rw [hk]
        simp only [lfRun, f2, GenAVLLFIterNextData, hsp, if_true]
      · have := congrArg List.length hrest
        simp only [List.length_drop, List.length_cons] at this
        omega
  · intro c l a d b r hT
    obtain ⟨pre, post, e⟩ := postorder_plug c (.node l a d b r)
    exact ⟨pre, post, by rw [hT, e]; rfl⟩

/-- Witness of C32: the three-entry tree of the example. -/
theorem lfRun_postorder_witness :
    (∀ j n d, exTree3.postorder[j]? = some (n, d) →
      ∃ it1 t1 tb, lfRun exKey 4 j ⟨fun _ => 0, 0⟩ exState3 = some (it1, t1, d) ∧
        lfBefore exKey 4 j ⟨fun _ => 0, 0⟩ exState3 = some tb ∧ (tb.mem n).left = 0 ∧
        (tb.mem n).right = 0) ∧
    (∃ it1 t1, lfRun exKey 4 exTree3.postorder.length ⟨fun _ => 0, 0⟩ exState3 =
      some (it1, t1, 0) ∧ t1.root = 0) ∧
    ∀ c l a d b r, exTree3 = plug c (.node l a d b r) →
      ∃ pre post,
        exTree3.postorder = pre ++ (l.postorder ++ r.postorder ++ [(a, d)]) ++ post :=
  lfRun_postorder exKey 4 ⟨fun _ => 0, 0⟩ exState3 exTree3 exState3_holds exTree3_sorted
    (by decide)

/-! ## Heights along the upward walk of a deletion -/

theorem ctxHeight_append (c1 c2 : Ctx) (h : Nat) :
    ctxHeight (c1 ++ c2) h = ctxHeight c2 (ctxHeight c1 h) := by
  induction c1 generalizing h with
  | nil => rfl
  | cons f c ih =>
    cases f with
    | L a d b r => exact ih _
    | R l a d b => exact ih _

/-- One pass of the upward walk: with `s` the subtree that became one level
shorter below the frame `f`, the walk goes on exactly when the top balance
after the pass is 0, and then the subtree at `f` is one level shorter than it
was; otherwise it has the height it had. -/
theorem Tree.rebalStep_height (f : Frame) (c : Ctx) (s : Tree) (hs : s.Balanced)
    (hc : CtxBal (f :: c) (s.height + 1)) :
    ((Tree.rebalStep (f.shrink s)).2 = true ↔ (Tree.rebalStep (f.shrink s)).1.rootBal = 0) ∧
      (Tree.rebalStep (f.shrink s)).1.height +
          (if (Tree.rebalStep (f.shrink s)).2 then 1 else 0) =
        ctxHeight [f] (s.height + 1) := by
  cases f with
  | L a d b r =>
    obtain ⟨hbe, hb1, hb2, hbr, hcc⟩ := hc
    simp only [Frame.shrink, ctxHeight]
    have hrr := Tree.rootBal_range hbr
    by_cases h2 : b + 1 = 2
    · have hh : r.height = s.height + 2 := by omega
      have hH : max (s.height + 1) r.height + 1 = s.height + 3 := by omega
      rw [hH]
      by_cases hr1 : r.rootBal = 1
      · simp only [Tree.rebalStep_pos_left h2 hr1]
        obtain ⟨-, r2, r3⟩ := Tree.rotLeft_bal (a := a) (d := d) (b := b + 1) hs hbr hh
          (Or.inl hr1)
        exact ⟨by simp [r3, hr1], by simp [r2, hr1]⟩
      · by_cases hr2 : r.rootBal = -1
        · simp only [Tree.rebalStep_pos_dbl h2 hr2]
          obtain ⟨-, r2, r3⟩ := Tree.rotDblLeft_bal (a := a) (d := d) (b := b + 1) hs hbr hh hr2
          exact ⟨by simp [r3], by simp [r2]⟩
        · simp only [Tree.rebalStep_pos_zero h2 hr1 hr2]
          obtain ⟨-, r2, r3⟩ := Tree.rotLeft_bal (a := a) (d := d) (b := b + 1) hs hbr hh
            (Or.inr (by omega))
          exact ⟨by simp [r3, hr1], by simp [r2, hr1]⟩
    · by_cases h0 : b + 1 = 0
      · simp only [Tree.rebalStep_zero h0]
        exact ⟨by simp [Tree.rootBal, h0], by simp [Tree.height]; omega⟩
      · simp only [Tree.rebalStep_one h2 (by omega) h0]
        exact ⟨by simp [Tree.rootBal, h0], by simp [Tree.height]; omega⟩
  | R l a d b =>
    obtain ⟨hbe, hb1, hb2, hbl, hcc⟩ := hc
    simp only [Frame.shrink, ctxHeight]
    have hrr := Tree.rootBal_range hbl
    by_cases h2 : b - 1 = -2
    · have hh : l.height = s.height + 2 := by omega
      have hH : max l.height (s.height + 1) + 1 = s.height + 3 := by omega
      rw [hH]
      by_cases hr1 : l.rootBal = -1
      · simp only [Tree.rebalStep_neg_right h2 hr1]
        obtain ⟨-, r2, r3⟩ := Tree.rotRight_bal (a := a) (d := d) (b := b - 1) hbl hs hh
          (Or.inl hr1)
        exact ⟨by simp [r3, hr1], by simp [r2, hr1]⟩
      · by_cases hr2 : l.rootBal = 1
        · simp only [Tree.rebalStep_neg_dbl h2 hr2]
          obtain ⟨-, r2, r3⟩ := Tree.rotDblRight_bal (a := a) (d := d) (b := b - 1) hbl hs hh hr2
          exact ⟨by simp [r3], by simp [r2]⟩
        · simp only [Tree.rebalStep_neg_zero h2 hr1 hr2]
          obtain ⟨-, r2, r3⟩ := Tree.rotRight_bal (a := a) (d := d) (b := b - 1) hbl hs hh
            (Or.inr (by omega))
          exact ⟨by simp [r3, hr1], by simp [r2, hr1]⟩
    · by_cases h0 : b - 1 = 0
      · simp only [Tree.rebalStep_zero h0]
        exact ⟨by simp [Tree.rootBal, h0], by simp [Tree.height]; omega⟩
      · simp only [Tree.rebalStep_one (by omega) h2 h0]
        exact ⟨by simp [Tree.rootBal, h0], by simp [Tree.height]; omega⟩

/-- The upward walk leaves a tree of the old height or one level less. -/
theorem Tree.unwind_height (c : Ctx) :
    ∀ s : Tree, s.Balanced → CtxBal c (s.height + 1) →
      (Tree.unwind c s).height = ctxHeight c (s.height + 1) ∨
        (Tree.unwind c s).height + 1 = ctxHeight c (s.height + 1) := by
  induction c with
  | nil => intro s _ _; exact Or.inr rfl
  | cons f c ih =>
    intro s hs hc
    obtain ⟨-, g2, g3⟩ := Tree.rebalStep_spec f c s hs hc
    obtain ⟨-, k2⟩ := Tree.rebalStep_height f c s hs hc
    have hcons : ctxHeight (f :: c) (s.height + 1) = ctxHeight c (ctxHeight [f] (s.height + 1)) :=
      ctxHeight_append [f] c _
    rw [hcons, ← k2]
    simp only [Tree.unwind]
    by_cases hcont : (Tree.rebalStep (f.shrink s)).2 = true
    · simp only [hcont, if_true] at g3 ⊢
      exact ih _ g2 g3
    · simp only [hcont, if_false, Bool.false_eq_true, Nat.add_zero]
      exact Or.inl (height_plug c _)

/-- The hole the unlinking leaves stood for a subtree one level taller than
what fills it. -/
theorem Tree.unlink_height (c : Ctx) (l r : Tree) (x d : Nat) (b : Int) :
    ctxHeight (Tree.unlink c (.node l x d b r)).1
        ((Tree.unlink c (.node l x d b r)).2.height + 1) =
      (plug c (.node l x d b r)).height := by
  rw [height_plug]
  cases l with
  | nil =>
    simp only [Tree.unlink, Tree.height]
    congr 1
    omega
  | node ll la ld lb lr =>
    cases r with
    | nil =>
      simp only [Tree.unlink, Tree.height]
      congr 1
    | node rl ra rd rb rr =>
      obtain ⟨yl, y, dy, bY, h1, h2⟩ := Tree.rightmost_spec (.node ll la ld lb lr) (by simp)
      rw [Tree.unlink_two c (by simp) (by simp) h1]
      simp only
      rw [Tree.rightCtx_append, ctxHeight_append]
      have h3 := congrArg Tree.height h2
      rw [height_plug] at h3
      have h4 : (Tree.node yl y dy bY .nil).height = yl.height + 1 := by
        simp only [Tree.height]; omega
      rw [h4] at h3
      rw [h3]
      rfl

/-- C34: a deletion shrinks the tree by at most one level.  For a well-formed
AVL tree and a present key, the tree after `GenAVLTreeDelete` has the old
height or one level less.  At every pass of the upward walk, with `s0` the
subtree that was below the ancestor of frame `f` before the deletion and `s`
what is there now, one level shorter, the walk goes on exactly when the top
balance after the adjustment or shift is 0, which is exactly when the subtree
of that ancestor became one level shorter; otherwise it stops and that subtree
has its old height. -/
theorem GenAVLTreeDelete_height (K : Nat → Int) (fuel : Nat) (t : GenAVLTree) (key : Int)
    (T : Tree) (h : TreeAt t.mem t.root T) (hb : T.Balanced) (hs : T.Sorted K)
    (hf : T.height < fuel) (hk : key ∈ T.keys K) :
    (∃ t' d, GenAVLTreeDelete K fuel t key = some (t', d) ∧
      TreeAt t'.mem t'.root (Tree.deleteTree K key T) ∧
      ((Tree.deleteTree K key T).height = T.height ∨
        (Tree.deleteTree K key T).height + 1 = T.height)) ∧
    ∀ (f : Frame) (c : Ctx) (s s0 : Tree), s.Balanced → s0.height = s.height + 1 →
      CtxBal (f :: c) s0.height →
      ((Tree.rebalStep (f.shrink s)).2 = true ↔ (Tree.rebalStep (f.shrink s)).1.rootBal = 0) ∧
      ((Tree.rebalStep (f.shrink s)).2 = true ↔
        (Tree.rebalStep (f.shrink s)).1.height + 1 = (f.fill s0).height) ∧
      ((Tree.rebalStep (f.shrink s)).2 = false ↔
        (Tree.rebalStep (f.shrink s)).1.height = (f.fill s0).height) ∧
      Tree.unwind (f :: c) s =
        (if (Tree.rebalStep (f.shrink s)).2 then Tree.unwind c (Tree.rebalStep (f.shrink s)).1
        else plug c (Tree.rebalStep (f.shrink s)).1) := by
  constructor
  · obtain ⟨c, s, hloc⟩ := Tree.locate_some K key T [] hs hk
    obtain ⟨hpl, l, x, d, b, r, rfl, -⟩ := Tree.locate_spec K key T [] c s hloc
    have hpl' : plug c (.node l x d b r) = T := hpl
    obtain ⟨t', h1, h2, -⟩ :=
      GenAVLTreeDelete_present K fuel t key T h (h.nodup hs) hb hf c _ hloc
    refine ⟨t', _, h1, h2, ?_⟩
    have hb' := hb
    rw [← hpl'] at hb'
    obtain ⟨hbs, hbc⟩ := Tree.unlink_bal c l r x d b hb'
    have hu := Tree.unwind_height _ _ hbs hbc
    rw [Tree.unlink_height c l r x d b, hpl'] at hu
    simp only [Tree.deleteTree, hloc]
    exact hu
  · intro f c s s0 hs' h0 hc
    rw [h0] at hc
    obtain ⟨k1, k2⟩ := Tree.rebalStep_height f c s hs' hc
    have hold : (f.fill s0).height = ctxHeight [f] (s.height + 1) := by
      cases f with
      | L a d b r => simp only [Frame.fill, Tree.height, ctxHeight, h0]
      | R l a d b => simp only [Frame.fill, Tree.height, ctxHeight, h0]
    rw [hold, ← k2]
    refine ⟨k1, ?_, ?_, rfl⟩
    · by_cases hcont : (Tree.rebalStep (f.shrink s)).2 = true
      · simp [hcont]
      · simp [hcont]
    · by_cases hcont : (Tree.rebalStep (f.shrink s)).2 = true
      · simp [hcont]
      · simp [hcont]

/-- Witness of C34: the leaf 1 of the three-entry tree of the example. -/
theorem GenAVLTreeDelete_height_witness :
    (∃ t' d, GenAVLTreeDelete exKey 3 exState3 10 = some (t', d) ∧
      TreeAt t'.mem t'.root (Tree.deleteTree exKey 10 exTree3) ∧
      ((Tree.deleteTree exKey 10 exTree3).height = exTree3.height ∨
        (Tree.deleteTree exKey 10 exTree3).height + 1 = exTree3.height)) ∧
    ∀ (f : Frame) (c : Ctx) (s s0 : Tree), s.Balanced → s0.height = s.height + 1 →
      CtxBal (f :: c) s0.height →
      ((Tree.rebalStep (f.shrink s)).2 = true ↔ (Tree.rebalStep (f.shrink s)).1.rootBal = 0) ∧
      ((Tree.rebalStep (f.shrink s)).2 = true ↔
        (Tree.rebalStep (f.shrink s)).1.height + 1 = (f.fill s0).height) ∧
      ((Tree.rebalStep (f.shrink s)).2 = false ↔
        (Tree.rebalStep (f.shrink s)).1.height = (f.fill s0).height) ∧
      Tree.unwind (f :: c) s =
        (if (Tree.rebalStep (f.shrink s)).2 then Tree.unwind c (Tree.rebalStep (f.shrink s)).1
        else plug c (Tree.rebalStep (f.shrink s)).1) :=
  GenAVLTreeDelete_height exKey 3 exState3 10 exTree3 exState3_holds exTree3_balanced
    exTree3_sorted (by decide) (by decide)

/-! ## The cells of the path stack a deletion writes -/

/-- The search loop writes no cell of the stack outside `deleteSearchWrites`. -/
theorem deleteSearchLoop_writes (K : Nat → Int) (m : Mem) (key : Int) :
    ∀ (fuel : Nat) (stack : PathStack) (gasep p gaep : Nat) (dir : Int) (stack1 : PathStack)
      (g1 x : Nat),
      deleteSearchLoop K m key fuel stack gasep p gaep dir = some (some (stack1, g1, x)) →
      ∀ i, i ∉ deleteSearchWrites K m key fuel gasep p → stack1 i = stack i := by
  intro fuel
  induction fuel with
  | zero => intro stack gasep p gaep dir stack1 g1 x h; simp [deleteSearchLoop] at h
  | succ fuel ih =>
    intro stack gasep p gaep dir stack1 g1 x h i hi
    simp only [deleteSearchLoop] at h
    simp only [deleteSearchWrites] at hi
    by_cases hp : p = 0
    · simp [hp] at h
    · rw [if_neg hp] at h hi
      by_cases h1 : Compare K m p key > 0
      · rw [if_pos h1] at h hi
        simp only [List.mem_cons, not_or] at hi
        rw [ih _ _ _ _ _ _ _ _ h i hi.2, Function.update_noteq hi.1]
      · rw [if_neg h1] at h hi
        by_cases h2 : Compare K m p key < 0
        · rw [if_pos h2] at h hi
          simp only [List.mem_cons, not_or] at hi
          rw [ih _ _ _ _ _ _ _ _ h i hi.2, Function.update_noteq hi.1]
        · rw [if_neg h2] at h hi
          simp only [Option.some.injEq, Prod.mk.injEq] at h
          simp only [List.mem_singleton] at hi
          rw [← h.1, Function.update_noteq hi]

/-- The inner loop of the swap writes no cell outside `deletePredWrites`. -/
theorem deletePredLoop_writes (m : Mem) :
    ∀ (fuel : Nat) (stack : PathStack) (gasep p : Nat) (stack1 : PathStack) (g1 y : Nat),
      deletePredLoop m fuel stack gasep p = some (stack1, g1, y) →
      ∀ i, i ∉ deletePredWrites m fuel gasep p → stack1 i = stack i := by
  intro fuel
  induction fuel with
  | zero => intro stack gasep p stack1 g1 y h; simp [deletePredLoop] at h
  | succ fuel ih =>
    intro stack gasep p stack1 g1 y h i hi
    simp only [deletePredLoop] at h
    simp only [deletePredWrites] at hi
    by_cases hr : (m p).right ≠ 0
    · rw [if_pos hr] at h hi
      simp only [List.mem_cons, not_or] at hi
      rw [ih _ _ _ _ _ _ h i hi.2, Function.update_noteq hi.1]
    · rw [if_neg hr] at h
      simp only [Option.some.injEq, Prod.mk.injEq] at h
      rw [← h.1]

/-- The swap writes no cell outside `deleteSwapWrites`. -/
theorem deleteSwap_writes (fuel : Nat) (t t1 : GenAVLTree) (stack stack1 : PathStack)
    (gasep gaep g1 : Nat) (h : deleteSwap fuel t stack gasep gaep = some (t1, stack1, g1)) :
    ∀ i, i ∉ deleteSwapWrites fuel t gasep gaep → stack1 i = stack i := by
  intro i hi
  simp only [deleteSwap] at h
  simp only [deleteSwapWrites] at hi
  by_cases hc : (t.mem gaep).right ≠ 0 ∧ (t.mem gaep).left ≠ 0
  · rw [if_pos hc] at h hi
    simp only [List.mem_cons, List.mem_append, List.mem_singleton, not_or] at hi
    split at h
    · cases h
    · rename_i stack2 g2 y hp
      simp only [Option.some.injEq, Prod.mk.injEq] at h
      rw [← h.2.1, Function.update_noteq hi.1,
        deletePredLoop_writes t.mem fuel _ _ _ _ _ _ hp i hi.2.1, Function.update_noteq hi.1]
  · rw [if_neg hc] at h
    simp only [Option.some.injEq, Prod.mk.injEq] at h
    rw [← h.2.1]

theorem deleteSearchWrites_bound (K : Nat → Int) (m : Mem) (key : Int) :
    ∀ (s : Tree) (p fuel g : Nat), TreeAt m p s →
      ∀ i ∈ deleteSearchWrites K m key fuel g p, i < g + s.height := by
  intro s
  induction s with
  | nil =>
    intro p fuel g h i hi
    have hp : p = 0 := h
    cases fuel <;> simp [deleteSearchWrites, hp] at hi
  | node l a d b r ihl ihr =>
    intro p fuel g h i hi
    obtain ⟨rfl, ha0, -, -, hl, hr⟩ := h
    cases fuel with
    | zero => simp [deleteSearchWrites] at hi
    | succ fuel =>
      simp only [deleteSearchWrites, ha0, if_false] at hi
      simp only [Tree.height]
      split_ifs at hi
      · rcases List.mem_cons.1 hi with rfl | hi
        · omega
        · have := ihl _ fuel (g + 1) hl i hi
          omega
      · rcases List.mem_cons.1 hi with rfl | hi
        · omega
        · have := ihr _ fuel (g + 1) hr i hi
          omega
      · simp only [List.mem_singleton] at hi
        omega

theorem deletePredWrites_bound (m : Mem) :
    ∀ (s : Tree) (p fuel g : Nat), s ≠ .nil → TreeAt m p s →
      ∀ i ∈ deletePredWrites m fuel g p, i + 1 < g + s.height := by
  intro s
  induction s with
  | nil => intro p fuel g hne; exact absurd rfl hne
  | node l a d b r _ ihr =>
    intro p fuel g _ h i hi
    obtain ⟨rfl, ha0, -, -, hl, hr⟩ := h
    cases fuel with
    | zero => simp [deletePredWrites] at hi
    | succ fuel =>
      simp only [deletePredWrites] at hi
      simp only [Tree.height]
      split_ifs at hi with hr0
      · have hrn : r ≠ .nil := fun e => hr0 (hr.nil_iff.2 e)
        have hrh : 1 ≤ r.height := by
          cases r with
          | nil => exact absurd rfl hrn
          | node rl ra rd rb rr => simp only [Tree.height]; omega
        rcases List.mem_cons.1 hi with rfl | hi
        · omega
        · have := ihr _ fuel (g + 1) hrn hr i hi
          omega
      · simp at hi

theorem ctxHeight_ge (c : Ctx) : ∀ h : Nat, c.length + h ≤ ctxHeight c h := by
  induction c with
  | nil => intro h; simp [ctxHeight]
  | cons f c ih =>
    intro h
    cases f with
    | L a d b r =>
      have := ih (max h r.height + 1)
      simp only [List.length_cons, ctxHeight]
      omega
    | R l a d b =>
      have := ih (max l.height h + 1)
      simp only [List.length_cons, ctxHeight]
      omega

theorem length_add_height_le_plug (c : Ctx) (s : Tree) :
    c.length + s.height ≤ (plug c s).height := by
  rw [height_plug]
  exact ctxHeight_ge c s.height

/-- C35: the path stack of a deletion stays within its capacity.  For a tree of
height at most `MAX_GENAVL_STACK` and every key, every cell of the path stack
that `GenAVLTreeDelete` writes, in the search and in the walk to the previous
entry of an entry with two children, has an index less than
`MAX_GENAVL_STACK`; and no other cell of the stack is written. -/
theorem GenAVLTreeDelete_stack_bounded (K : Nat → Int) (fuel : Nat) (t : GenAVLTree)
    (key : Int) (T : Tree) (h : TreeAt t.mem t.root T) (hf : T.height < fuel)
    (hh : T.height ≤ MAX_GENAVL_STACK) :
    (∀ i ∈ GenAVLTreeDeleteWrites K fuel t key, i < MAX_GENAVL_STACK) ∧
    ∀ stack gasep gaep t1 stack1 g1,
      deleteSearchLoop K t.mem key fuel (fun _ => ⟨0, 0⟩) 0 t.root 0 0 =
        some (some (stack, gasep, gaep)) →
      deleteSwap fuel t stack gasep gaep = some (t1, stack1, g1) →
      ∀ i, i ∉ GenAVLTreeDeleteWrites K fuel t key → stack1 i = ⟨0, 0⟩ := by
  constructor
  · intro i hi
    simp only [GenAVLTreeDeleteWrites, List.mem_append] at hi
    rcases hi with hi | hi
    · have := deleteSearchWrites_bound K t.mem key T t.root fuel 0 h i hi
      omega
    · have hspec := deleteSearchLoop_spec K t.mem key T [] fuel (fun _ => ⟨0, 0⟩)
        t.root 0 0 h hf rfl trivial (fun f c2 e => by cases e)
      cases hloc : Tree.locate K key T [] with
      | none =>
        have e := hspec.1 hloc
        simp only [List.length_nil] at e
        rw [e] at hi
        simp at hi
      | some cs =>
        obtain ⟨c, s⟩ := cs
        obtain ⟨stack, h1, -⟩ := hspec.2 c s hloc
        simp only [List.length_nil] at h1
        rw [h1] at hi
        simp only at hi
        obtain ⟨hpl, l, x, d, b, r, rfl, -⟩ := Tree.locate_spec K key T [] c s hloc
        have hpl2 : plug c (.node l x d b r) = T := hpl
        have hT := h
        rw [← hpl2] at hT
        obtain ⟨-, -, -, -, hl, hr⟩ := TreeAt.hole hT
        have hlen := length_add_height_le_plug c (.node l x d b r)
        rw [hpl2] at hlen
        simp only [Tree.height] at hlen
        simp only [deleteSwapWrites, Tree.rootAddr] at hi
        split_ifs at hi with hc
        · have hln : l ≠ .nil := fun e => hc.2 (hl.nil_iff.2 e)
          have hlh : 1 ≤ l.height := by
            cases l with
            | nil => exact absurd rfl hln
            | node ll la ld lb lr => simp only [Tree.height]; omega
          simp only [List.mem_cons, List.mem_append, List.not_mem_nil, or_false] at hi
          rcases hi with rfl | hi | rfl
          · omega
          · have := deletePredWrites_bound t.mem l _ fuel (c.length + 1 + 1) hln hl i hi
            omega
          · omega
        · simp at hi
  · intro stack gasep gaep t1 stack1 g1 hs hw i hi
    simp only [GenAVLTreeDeleteWrites, hs, List.mem_append, not_or] at hi
    rw [deleteSwap_writes fuel t t1 stack stack1 gasep gaep g1 hw i hi.2,
      deleteSearchLoop_writes K t.mem key fuel _ _ _ _ _ _ _ _ hs i hi.1]

/-- Witness of C35: the three-entry tree of the example and the key 20 of its
root, which has two children. -/
theorem GenAVLTreeDelete_stack_bounded_witness :
    (∀ i ∈ GenAVLTreeDeleteWrites exKey 3 exState3 20, i < MAX_GENAVL_STACK) ∧
    ∀ stack gasep gaep t1 stack1 g1,
      deleteSearchLoop exKey exState3.mem 20 3 (fun _ => ⟨0, 0⟩) 0 exState3.root 0 0 =
        some (some (stack, gasep, gaep)) →
      deleteSwap 3 exState3 stack gasep gaep = some (t1, stack1, g1) →
      ∀ i, i ∉ GenAVLTreeDeleteWrites exKey 3 exState3 20 → stack1 i = ⟨0, 0⟩ :=
  GenAVLTreeDelete_stack_bounded exKey 3 exState3 20 exTree3 exState3_holds (by decide)
    (by decide)

end GenAVL
